import Mathlib


/-!
# Enhanced suffix arrays: a shallow embedding of `suffixarray.h`

The template class `suffixarray<V>` is embedded over an arbitrary element type `α`
with decidable equality and a decidable order (`element_type`).  Sequences
(`value_type`, `std::vector`) are lists, `size_type` is a natural number below
`2 ^ 64` with wrap-around made explicit where the source subtracts, and every
operation that can throw, call `exit` or read outside a container returns in
`Except Exn`.

`std::sort` belongs to the C++ standard library, not to `suffixarray.h`, and the
standard leaves the order of equivalent elements open.  The sort of the whole index in
`ds()` is therefore an argument (`sorter`) of `ds` and of the constructor.  What is
proved about every constructed index is proved for every argument that meets the
contract of the standard (`sort_contract`); what is evaluated on one sequence takes
`sort`, the insertion sort that libstdc++ runs on ranges of at most 16 elements, and
all these sequences are shorter than that.
-/

namespace ns_suffixarray

/-- The ways in which a call of the library can fail to return a value. -/
inductive Exn where
  /-- `std::out_of_range`, thrown by `std::vector::at`. -/
  | out_of_range
  /-- The exception class `StringNotFound` of the library. -/
  | StringNotFound
  /-- The process is ended by `exit(0)` after an internal consistency check fails. -/
  | exit
  /-- Undefined behaviour: an unchecked read outside a container, `top()` of an
  empty stack, or dereferencing `map.find(..)` when the key is absent. -/
  | ub
  /-- The loop never terminates. -/
  | diverge
deriving DecidableEq, Repr

/-- Number of values of `size_type` (64-bit unsigned). -/
def SIZE_MOD : Nat := 2 ^ 64

/-- The value `(size_type) -1`, used by the library for "undefined". -/
def undefined : Nat := 2 ^ 64 - 1

/-- Subtraction in `size_type`: the difference `a - b` modulo `2 ^ 64`. -/
def size_sub (a b : Nat) : Nat :=
  if b ≤ a then (a - b) % SIZE_MOD else (SIZE_MOD - (b - a) % SIZE_MOD) % SIZE_MOD

/-- Conversion of a `size_type` to (32-bit) `int`. -/
def to_int (x : Nat) : Int :=
  if x % 2 ^ 32 < 2 ^ 31 then ((x % 2 ^ 32 : Nat) : Int) else ((x % 2 ^ 32 : Nat) : Int) - 2 ^ 32

/-- Conversion of an `int` to `size_type`. -/
def to_size (z : Int) : Nat := (z % (2 ^ 64 : Int)).toNat

/-- Bounds-checked read `v.at(i)`. -/
def vec_at {β : Type} (v : List β) (i : Nat) : Except Exn β :=
  match v[i]? with
  | some x => .ok x
  | none => .error .out_of_range

/-- Unchecked read `v[i]` or `*(v.begin() + i)`; outside the vector it is undefined behaviour. -/
def vec_read {β : Type} (v : List β) (i : Nat) : Except Exn β :=
  match v[i]? with
  | some x => .ok x
  | none => .error .ub

/-- Bounds-checked write `v.at(i) = x`. -/
def vec_set {β : Type} (v : List β) (i : Nat) (x : β) : Except Exn (List β) :=
  if i < v.length then .ok (v.set i x) else .error .out_of_range

section sorting

variable {α : Type} [DecidableEq α] [LT α] [DecidableRel (fun (a b : α) => a < b)]

/-- The loop `while(--m != 0)` of `SACmp::operator()` together with the final
`return *itx < *ity`.  Both iterators advance on every round, so after at most
`cont.size()` rounds a dereference is outside the sequence; the first argument
counts the rounds that remain. -/
def SACmp_loop (cont : List α) : Nat → Int → Nat → Nat → Except Exn Bool
  | 0, _, _, _ => .error .ub
  | fuel + 1, m, itx, ity =>
    if m - 1 ≠ 0 then do
      let a ← vec_read cont itx
      let b ← vec_read cont ity
      if a = b then SACmp_loop cont fuel (m - 1) (itx + 1) (ity + 1)
      else pure (decide (a < b))
    else do
      let a ← vec_read cont itx
      let b ← vec_read cont ity
      pure (decide (a < b))

/-- `SACmp(content, min, max)(x, y)`: compares the suffixes at `x` and `y` from
offset `min` on, over at most `max` elements (`max = -1`: until they differ). -/
def SACmp (cont : List α) (min : Nat) (max : Int) (x y : Nat) : Except Exn Bool :=
  if x = y then pure false
  else if x + min > cont.length then pure false
  else if y + min > cont.length then pure false
  else SACmp_loop cont (cont.length + 1) max (min + x) (min + y)

/-- Linear insertion of `val` into a sorted range given from its last element
backwards: `val` moves left past every element it is smaller than. -/
def linear_insert (comp : Nat → Nat → Except Exn Bool) (val : Nat) :
    List Nat → Except Exn (List Nat)
  | [] => pure [val]
  | y :: ys => do
    if (← comp val y) then do
      let r ← linear_insert comp val ys
      pure (y :: r)
    else pure (val :: y :: ys)

/-- One round of insertion sort: `done` is the sorted part, `val` the next element. -/
def insert_step (comp : Nat → Nat → Except Exn Bool) (done : List Nat) (val : Nat) :
    Except Exn (List Nat) :=
  match done with
  | [] => pure [val]
  | first :: _ => do
    if (← comp val first) then pure (val :: done)
    else do
      let r ← linear_insert comp val done.reverse
      pure r.reverse

/-- Insertion sort, left to right. -/
def insertion_sort (comp : Nat → Nat → Except Exn Bool) :
    List Nat → List Nat → Except Exn (List Nat)
  | done, [] => pure done
  | done, val :: rest => do
    let d ← insert_step comp done val
    insertion_sort comp d rest

/-- The insertion sort that the `std::sort` of libstdc++ is on a range of at most 16
elements.  It stands for `sort(first, last, comp)` where the range is that short
(`ds2` sorts fewer than 5 elements) or where no two different elements are equivalent
(the positions of a part in the skip-gram walk), so that every `std::sort` returns
the same list.  The sort of the whole index in `ds`, where equivalent elements occur
and the range has any length, is an argument of `ds`. -/
def sort (comp : Nat → Nat → Except Exn Bool) (l : List Nat) : Except Exn (List Nat) :=
  insertion_sort comp [] l

/-- What stands for a `std::sort` in `ds`: it is given the comparator and the range and
returns the new content of the range.  The C++ standard fixes the result only up to
the order of equivalent elements, and libstdc++ orders them in one way on ranges of at
most 16 elements (`sort` above) and in another way on longer ranges. -/
abbrev sorter : Type := (Nat → Nat → Except Exn Bool) → List Nat → Except Exn (List Nat)

end sorting

/-- The class `sorttrie`: a node holds its depth, the suffix it stands for and the
children map, kept here as a list of entries in ascending key order. -/
inductive sorttrie (α : Type) where
  | node (depth : Nat) (idx : Nat) (children : List (α × sorttrie α)) : sorttrie α

namespace sorttrie

variable {α : Type}

/-- Field `depth`. -/
def depth : sorttrie α → Nat
  | node d _ _ => d

/-- Member `getidx()`. -/
def getidx : sorttrie α → Nat
  | node _ i _ => i

/-- Field `children`. -/
def children : sorttrie α → List (α × sorttrie α)
  | node _ _ cs => cs

/-- Member `isLeaf()`. -/
def isLeaf (s : sorttrie α) : Bool := s.children.isEmpty

/-- Member `getelem()`: `cont.at(idx + depth)`. -/
def getelem (cont : List α) (s : sorttrie α) : Except Exn α :=
  vec_at cont (s.getidx + s.depth)

variable [DecidableEq α] [LT α] [DecidableRel (fun (a b : α) => a < b)]

/-- `std::map::insert` on the children map: entries stay in ascending key order and
an entry whose key is already present is not replaced. -/
def map_insert (k : α) (c : sorttrie α) : List (α × sorttrie α) → List (α × sorttrie α)
  | [] => [(k, c)]
  | (k', c') :: rest =>
    if k < k' then (k, c) :: (k', c') :: rest
    else if k' < k then (k', c') :: map_insert k c rest
    else (k', c') :: rest

/-- `std::map::find` on the children map: the entry whose key is equivalent to `k`. -/
def map_find (k : α) : List (α × sorttrie α) → Option (sorttrie α)
  | [] => none
  | (k', c') :: rest => if ¬ k' < k ∧ ¬ k < k' then some c' else map_find k rest

/-- Writing through the pointer returned by `getChild(el)`: the child stored under
`k` is replaced by `c`. -/
def map_update (k : α) (c : sorttrie α) : List (α × sorttrie α) → List (α × sorttrie α)
  | [] => []
  | (k', c') :: rest =>
    if ¬ k' < k ∧ ¬ k < k' then (k', c) :: rest else (k', c') :: map_update k c rest

/-- Member `addChild(child)`. -/
def addChild (cont : List α) (s child : sorttrie α) : Except Exn (sorttrie α) := do
  let el ← getelem cont child
  pure (node s.depth s.getidx (map_insert el child s.children))

/-- Member `makeChildSelf()`. -/
def makeChildSelf (cont : List α) (s : sorttrie α) : Except Exn (sorttrie α) :=
  addChild cont s (node (s.depth + 1) s.getidx [])

/-- Member `walkNadd(d, i)`, started at node `s`.  The loop `while(1)` descends one
level per round and reads `cont[i+d]` with `d` growing, so it runs for at most
`cont.size()` rounds before that read leaves the sequence; the first argument
counts the rounds that remain.  The result is the node with the new leaf added
below it. -/
def walkNadd (cont : List α) : Nat → sorttrie α → Nat → Nat → Except Exn (sorttrie α)
  | 0, _, _, _ => .error .ub
  | fuel + 1, s, d, i => do
    let s ← (if s.isLeaf then makeChildSelf cont s else pure s)
    let el ← vec_read cont (i + d)
    match map_find el s.children with
    | some c => do
      let c' ← walkNadd cont fuel c (d + 1) i
      pure (node s.depth s.getidx (map_update el c' s.children))
    | none => addChild cont s (node d i [])

/-- Number of nodes of a trie. -/
def count : sorttrie α → Nat
  | node _ _ cs => 1 + countList cs
where
  /-- Number of nodes below a children map. -/
  countList : List (α × sorttrie α) → Nat
    | [] => 0
    | (_, c) :: cs => c.count + countList cs

/-- The loop of `getSort`: `stack` has its top first, `uit` collects the leaves.
Children are pushed from the greatest key down, so the smallest is on top. -/
def getSort_loop : Nat → List (sorttrie α) → List Nat → List Nat
  | 0, _, uit => uit
  | _ + 1, [], uit => uit
  | fuel + 1, curr :: s, uit =>
    if curr.isLeaf then getSort_loop fuel s (uit ++ [curr.getidx])
    else getSort_loop fuel (curr.children.map Prod.snd ++ s) uit

/-- Member `getSort(strie)`: every node is popped exactly once. -/
def getSort (strie : sorttrie α) : List Nat :=
  getSort_loop (strie.count + 1) [strie] []

/-- Member `recGS(s)`: the index of a leaf; for an inner node the results of `recGS`
on the children, in the order of the children map, one after the other. -/
def recGS : sorttrie α → List Nat
  | node _ i cs => if cs.isEmpty then [i] else recGS_children cs
where
  /-- The loop `while(it != s.end())` of `recGS` over the children map. -/
  recGS_children : List (α × sorttrie α) → List Nat
    | [] => []
    | (_, c) :: cs => recGS c ++ recGS_children cs

end sorttrie

section construction

variable {α : Type} [DecidableEq α] [LT α] [DecidableRel (fun (a b : α) => a < b)]

/-- The insertion loop of `ds2`: `root.walkNadd(startdepth, *it)` for every further
element of the bucket. -/
def ds2_insert (content : List α) (startdepth : Nat) :
    sorttrie α → List Nat → Except Exn (sorttrie α)
  | root, [] => pure root
  | root, i :: rest => do
    let r ← sorttrie.walkNadd content (content.length + 1) root startdepth i
    ds2_insert content startdepth r rest

/-- `ds2(backit, frontit, startdepth)` on the bucket `bucket = [backit, frontit)`;
the result is the new content of that range. -/
def ds2 (content : List α) (bucket : List Nat) (startdepth : Nat) : Except Exn (List Nat) :=
  if bucket.length < 5 then
    sort (SACmp content startdepth (-1)) bucket
  else
    match bucket with
    | [] => pure []
    | first :: rest => do
      let root : sorttrie α := sorttrie.node (startdepth - 1) first []
      let root ← sorttrie.makeChildSelf content root
      let root ← ds2_insert content startdepth root rest
      let sorted := sorttrie.getSort root
      if sorted.length ≠ bucket.length then .error .exit
      else pure sorted

/-- The part of `ds2` behind the test `distance(backit, frontit) < 5`: the bucket is
put into a trie with `walkNadd` and read back with `getSort`.  On an empty range
`*it` is read outside the range. -/
def ds2_trie (content : List α) (bucket : List Nat) (startdepth : Nat) :
    Except Exn (List Nat) :=
  match bucket with
  | [] => .error .ub
  | first :: rest => do
    let root : sorttrie α := sorttrie.node (startdepth - 1) first []
    let root ← sorttrie.makeChildSelf content root
    let root ← ds2_insert content startdepth root rest
    let sorted := sorttrie.getSort root
    if sorted.length ≠ bucket.length then .error .exit
    else pure sorted

/-- Runs `ds2` on the range `[backit, frontit)` of `idx`. -/
def ds2_range (content : List α) (idx : List Nat) (backit frontit : Nat) :
    Except Exn (List Nat) := do
  let sorted ← ds2 content ((idx.drop backit).take (frontit - backit)) 2
  pure (idx.take backit ++ sorted ++ idx.drop frontit)

/-- The scan `while(searchit != idx.end())` of `ds`; `rest` lists the positions
`searchit` still has to visit.  Returns the index and the final `backit`. -/
def ds_scan (content : List α) :
    List Nat → Nat → α → α → List Nat → Except Exn (List Nat × Nat)
  | [], backit, _, _, idx => pure (idx, backit)
  | searchit :: rest, backit, curra, currb, idx => do
    let x ← vec_read idx searchit
    if x + 1 < content.length then do
      let a ← vec_read content x
      let b ← vec_read content (x + 1)
      if curra ≠ a ∨ currb ≠ b then do
        let idx ← (if searchit - backit > 1 then ds2_range content idx backit searchit
          else pure idx)
        ds_scan content rest searchit a b idx
      else ds_scan content rest backit curra currb idx
    else ds_scan content rest backit curra currb idx

/-- Member `ds()`: bucket sort on the first two elements, then every bucket is
sorted by `ds2`.  The argument `std_sort` is the `std::sort` that the call
`sort(idx.begin(), idx.end(), SACmp(content,0,2))` runs. -/
def ds (std_sort : sorter) (content : List α) (idx : List Nat) : Except Exn (List Nat) := do
  let idx ← std_sort (SACmp content 0 2) idx
  let first ← vec_read idx 0
  let curra ← vec_read content first
  let currb ← vec_read content (first + 1)
  let (idx, backit) ← ds_scan content ((List.range idx.length).drop 1) 0 curra currb idx
  let searchit := idx.length - 1
  if backit ≠ searchit then
    let searchit := searchit - 1
    if backit ≠ searchit then
      if searchit - backit > 1 then ds2_range content idx backit searchit
      else pure idx
    else pure idx
  else pure idx

end construction

/-- The class `interval`: both limits are inclusive. -/
structure interval where
  /-- Left limit. -/
  i : Nat
  /-- Right limit. -/
  j : Nat
deriving DecidableEq, Repr

/-- Member `interval::size()`: `j - i + 1` in `size_type`. -/
def interval.size (x : interval) : Nat := (size_sub x.j x.i + 1) % SIZE_MOD

/-- A `std::map<size_type,size_type>` as a list of entries. -/
abbrev size_map := List (Nat × Nat)

/-- `std::map::insert`: an entry whose key is present already is left as it is. -/
def size_map.insert (m : size_map) (pos value : Nat) : size_map :=
  if m.any (fun e => e.1 = pos) then m else (pos, value) :: m

/-- `map.find(pos)->second`; undefined behaviour when the key is absent. -/
def size_map.find_second (m : size_map) (pos : Nat) : Except Exn Nat :=
  match m.find? (fun e => e.1 = pos) with
  | some e => .ok e.2
  | none => .error .ub

/-- The class `childtabs`: byte vectors with their overflow maps. -/
structure childtabs where
  /-- Values of `unsigned char`. -/
  lcp : List Nat
  /-- Overflow of `lcp`. -/
  lcpmap : size_map
  /-- Values of `signed char`. -/
  up : List Int
  /-- Overflow of `up`. -/
  upmap : size_map
  /-- Values of `signed char`. -/
  down : List Int
  /-- Overflow of `down`. -/
  downmap : size_map
  /-- Values of `signed char`. -/
  nextl : List Int
  /-- Overflow of `nextl`. -/
  nextlmap : size_map
deriving DecidableEq, Repr

namespace childtabs

/-- Private member `store(vec, map, pos, value)`. -/
def store (vec : List Int) (map : size_map) (pos value : Nat) :
    Except Exn (List Int × size_map) :=
  let rel : Int := to_int (size_sub value pos)
  if rel < 127 ∧ rel > -128 then do
    let vec ← vec_set vec pos rel
    pure (vec, map)
  else do
    let vec ← vec_set vec pos 127
    pure (vec, map.insert pos value)

/-- Private member `retrieve(vec, map, pos)`. -/
def retrieve (vec : List Int) (map : size_map) (pos : Nat) : Except Exn Nat :=
  if pos > vec.length ∨ pos = undefined then pure undefined
  else do
    let out ← vec_at vec pos
    if out = -128 then pure undefined
    else if out = 127 then map.find_second pos
    else pure (to_size (to_int pos + out))

/-- Member `init_tabs(size)`. -/
def init_tabs (size : Nat) : childtabs :=
  { lcp := List.replicate size 0, lcpmap := [],
    up := List.replicate size (-128), upmap := [],
    down := List.replicate size (-128), downmap := [],
    nextl := List.replicate size (-128), nextlmap := [] }

/-- Member `setlcp(pos, value)`. -/
def setlcp (t : childtabs) (pos value : Nat) : Except Exn childtabs :=
  if pos ≥ t.lcp.length then .error .exit
  else if value < 255 then do
    let v ← vec_set t.lcp pos value
    pure { t with lcp := v }
  else do
    let v ← vec_set t.lcp pos 255
    pure { t with lcp := v, lcpmap := t.lcpmap.insert pos value }

/-- Member `getlcp(pos)`. -/
def getlcp (t : childtabs) (pos : Nat) : Except Exn Nat :=
  if pos > t.lcp.length ∨ pos = undefined then pure undefined
  else do
    let out ← vec_at t.lcp pos
    if out < 255 then pure out
    else t.lcpmap.find_second pos

/-- Member `setnextl(pos, value)`. -/
def setnextl (t : childtabs) (pos value : Nat) : Except Exn childtabs := do
  let (v, m) ← store t.nextl t.nextlmap pos value
  pure { t with nextl := v, nextlmap := m }

/-- Member `getnextl(pos)`. -/
def getnextl (t : childtabs) (pos : Nat) : Except Exn Nat :=
  retrieve t.nextl t.nextlmap pos

/-- Member `setup(pos, value)`. -/
def setup (t : childtabs) (pos value : Nat) : Except Exn childtabs := do
  let (v, m) ← store t.up t.upmap pos value
  pure { t with up := v, upmap := m }

/-- Member `getup(pos)`. -/
def getup (t : childtabs) (pos : Nat) : Except Exn Nat :=
  retrieve t.up t.upmap pos

/-- Member `setdown(pos, value)`. -/
def setdown (t : childtabs) (pos value : Nat) : Except Exn childtabs := do
  let (v, m) ← store t.down t.downmap pos value
  pure { t with down := v, downmap := m }

/-- Member `getdown(pos)`. -/
def getdown (t : childtabs) (pos : Nat) : Except Exn Nat :=
  retrieve t.down t.downmap pos

/-- The calls `setlcp(pos, v)`, `setlcp(pos + 1, ...)`, ... for the values of a list. -/
def set_lcp_values : List Nat → Nat → childtabs → Except Exn childtabs
  | [], _, t => pure t
  | v :: more, pos, t => do
    let t ← t.setlcp pos v
    set_lcp_values more (pos + 1) t

/-- The tables that hold a given LCP array and no child value: `init_tabs(n)` followed
by `setlcp(i, l[i])` for every position `i`.  The constructor runs
`fill_up_down_nextl` on tables of this kind (there `fill_lcp` makes the calls of
`setlcp`, in the order of the text positions). -/
def lcp_tables (l : List Nat) : Except Exn childtabs :=
  set_lcp_values l 0 (init_tabs l.length)

end childtabs

/-- The three child tables. -/
inductive child_table where
  | up
  | down
  | nextl
deriving DecidableEq, Repr

/-- A call `setup(pos, value)`, `setdown(pos, value)` or `setnextl(pos, value)`. -/
structure setter_call where
  /-- The table the setter writes. -/
  table : child_table
  /-- First argument. -/
  pos : Nat
  /-- Second argument. -/
  value : Nat
deriving DecidableEq, Repr

/-- The local state of `fill_up_down_nextl` between two rounds of its `for` loop,
together with the calls of the setters made so far. -/
structure pass_state where
  /-- Variable `lastIndex`. -/
  lastIndex : Nat
  /-- The stack `updownstack`, top first. -/
  updownstack : List Nat
  /-- The stack `nextlstack`, top first. -/
  nextlstack : List Nat
  /-- The member `tabs`. -/
  tabs : childtabs
  /-- The calls of `setup`, `setdown` and `setnextl` so far, in order. -/
  calls : List setter_call

/-- The data members of `suffixarray<V>`. -/
structure suffixarray (α : Type) where
  /-- The sequence the index is built on. -/
  content : List α
  /-- The tables `lcp`, `up`, `down` and `nextl`. -/
  tabs : childtabs
  /-- The suffix array proper. -/
  idx : List Nat

namespace suffixarray

variable {α : Type} [DecidableEq α] [LT α] [DecidableRel (fun (a b : α) => a < b)]

/-- First loop of `fill_lcp`: `rank.at(idx.at(i)) = i`. -/
def fill_rank (idx : List Nat) : List Nat → List Nat → Except Exn (List Nat)
  | [], rank => pure rank
  | i :: rest, rank => do
    let x ← vec_at idx i
    let rank ← vec_set rank x i
    fill_rank idx rest rank

/-- The loop `while(content.at(i+h) == content.at(k+h)) h++` of `fill_lcp`; a read
outside the sequence throws, so it runs for at most `content.size()` rounds. -/
def lcp_extend (content : List α) : Nat → Nat → Nat → Nat → Except Exn Nat
  | 0, _, _, _ => .error .out_of_range
  | fuel + 1, i, k, h => do
    let a ← vec_at content ((i + h) % SIZE_MOD)
    let b ← vec_at content ((k + h) % SIZE_MOD)
    if a = b then lcp_extend content fuel i k (h + 1) else pure h

/-- Second loop of `fill_lcp`. -/
def fill_lcp_loop (content : List α) (idx rank : List Nat) :
    List Nat → Nat → childtabs → Except Exn childtabs
  | [], _, tabs => pure tabs
  | i :: rest, h, tabs => do
    let r ← vec_at rank i
    if r > 0 ∧ r ≤ idx.length then do
      let k := to_int (← vec_at idx (r - 1))
      let h ← lcp_extend content (content.length + 1) i (to_size k) h
      let tabs ← tabs.setlcp r h
      fill_lcp_loop content idx rank rest (if h > 0 then h - 1 else h) tabs
    else fill_lcp_loop content idx rank rest h tabs

/-- Member `fill_lcp()`. -/
def fill_lcp (s : suffixarray α) : Except Exn (suffixarray α) := do
  let rank ← fill_rank s.idx (List.range s.idx.length) (List.replicate s.idx.length 0)
  let tabs ← fill_lcp_loop s.content s.idx rank (List.range s.idx.length) 0 s.tabs
  pure { s with tabs := tabs }

/-- First `while` of `fill_up_down_nextl`, on the stack `updownstack` (top first). -/
def updown_pop (i : Nat) : List Nat → Nat → childtabs → Except Exn (List Nat × Nat × childtabs)
  | [], _, _ => .error .ub
  | top :: rest, lastIndex, tabs => do
    let li ← tabs.getlcp i
    let lt ← tabs.getlcp top
    if li < lt then
      match rest with
      | [] => .error .ub
      | top2 :: _ => do
        let l2 ← tabs.getlcp top2
        let tabs ← (if li ≤ l2 ∧ l2 ≠ lt then tabs.setdown top2 top else pure tabs)
        updown_pop i rest top tabs
    else pure (top :: rest, lastIndex, tabs)

/-- Second `while` of `fill_up_down_nextl`, on the stack `nextlstack` (top first). -/
def nextl_pop (i : Nat) (tabs : childtabs) : List Nat → Except Exn (List Nat)
  | [] => .error .ub
  | top :: rest => do
    let li ← tabs.getlcp i
    let lt ← tabs.getlcp top
    if li < lt then nextl_pop i tabs rest else pure (top :: rest)

/-- The body of the `for` loop of `fill_up_down_nextl`, over the remaining `i`. -/
def fill_up_down_nextl_loop :
    List Nat → Nat → List Nat → List Nat → childtabs → Except Exn childtabs
  | [], _, _, _, tabs => pure tabs
  | i :: more, lastIndex, updownstack, nextlstack, tabs => do
    let (updownstack, lastIndex, tabs) ← updown_pop i updownstack lastIndex tabs
    let (lastIndex, tabs) ← (if lastIndex ≠ undefined then do
        let tabs ← tabs.setup i lastIndex
        pure (undefined, tabs)
      else pure (lastIndex, tabs))
    let updownstack := i :: updownstack
    let nextlstack ← nextl_pop i tabs nextlstack
    match nextlstack with
    | [] => .error .ub
    | top :: rest => do
      let li ← tabs.getlcp i
      let lt ← tabs.getlcp top
      if li = lt then do
        let tabs ← tabs.setnextl top i
        fill_up_down_nextl_loop more lastIndex updownstack (i :: rest) tabs
      else fill_up_down_nextl_loop more lastIndex updownstack (i :: top :: rest) tabs

/-- Member `fill_up_down_nextl()`. -/
def fill_up_down_nextl (s : suffixarray α) : Except Exn (suffixarray α) := do
  let tabs ← fill_up_down_nextl_loop ((List.range s.idx.length).drop 1) undefined [0] [0] s.tabs
  pure { s with tabs := tabs }

/-- First `while` of `fill_up_down_nextl` as in `updown_pop`, with the calls of
`setdown` recorded in `calls` in the order in which they are made. -/
def updown_pop_calls (i : Nat) :
    List Nat → Nat → childtabs → List setter_call →
      Except Exn (List Nat × Nat × childtabs × List setter_call)
  | [], _, _, _ => .error .ub
  | top :: rest, lastIndex, tabs, calls => do
    let li ← tabs.getlcp i
    let lt ← tabs.getlcp top
    if li < lt then
      match rest with
      | [] => .error .ub
      | top2 :: _ => do
        let l2 ← tabs.getlcp top2
        let (tabs, calls) ← (if li ≤ l2 ∧ l2 ≠ lt then do
            let tabs ← tabs.setdown top2 top
            pure (tabs, calls ++ [⟨child_table.down, top2, top⟩])
          else pure (tabs, calls))
        updown_pop_calls i rest top tabs calls
    else pure (top :: rest, lastIndex, tabs, calls)

/-- The `for` loop of `fill_up_down_nextl` as in `fill_up_down_nextl_loop`, over the
values of `i` in the list; it returns the whole state of the loop behind the last
round, with the calls of the three setters recorded in the order in which they are
made. -/
def fill_up_down_nextl_rounds : List Nat → pass_state → Except Exn pass_state
  | [], st => pure st
  | i :: more, st => do
    let (updownstack, lastIndex, tabs, calls) ←
      updown_pop_calls i st.updownstack st.lastIndex st.tabs st.calls
    let (lastIndex, tabs, calls) ← (if lastIndex ≠ undefined then do
        let tabs ← tabs.setup i lastIndex
        pure (undefined, tabs, calls ++ [⟨child_table.up, i, lastIndex⟩])
      else pure (lastIndex, tabs, calls))
    let updownstack := i :: updownstack
    let nextlstack ← nextl_pop i tabs st.nextlstack
    match nextlstack with
    | [] => .error .ub
    | top :: rest => do
      let li ← tabs.getlcp i
      let lt ← tabs.getlcp top
      if li = lt then do
        let tabs ← tabs.setnextl top i
        fill_up_down_nextl_rounds more
          ⟨lastIndex, updownstack, i :: rest, tabs, calls ++ [⟨child_table.nextl, top, i⟩]⟩
      else fill_up_down_nextl_rounds more ⟨lastIndex, updownstack, i :: top :: rest, tabs, calls⟩

/-- The state in which the loop of `fill_up_down_nextl` starts: `lastIndex = -1`, both
stacks hold 0, nothing is recorded. -/
def pass_start (tabs : childtabs) : pass_state := ⟨undefined, [0], [0], tabs, []⟩

/-- Constructor `suffixarray(const value_type& s)`; `std_sort` is the `std::sort` that
`ds()` runs on the whole index. -/
def build (std_sort : sorter) (s : List α) : Except Exn (suffixarray α) := do
  let idx ← ds std_sort s (List.range s.length)
  let sa : suffixarray α := { content := s, tabs := childtabs.init_tabs idx.length, idx := idx }
  let sa ← fill_lcp sa
  fill_up_down_nextl sa

/-- Member `getRootInterval()`. -/
def getRootInterval (s : suffixarray α) : interval :=
  ⟨0, size_sub s.idx.length 1⟩

/-- Member `getlcp(const interval&)`. -/
def getlcp (s : suffixarray α) (inter : interval) : Except Exn Nat :=
  if inter.size = 1 then do
    let x ← vec_at s.idx inter.i
    pure (size_sub (size_sub s.content.length x) 1)
  else if (inter.j + 1) % SIZE_MOD ≥ s.idx.length then pure 0
  else do
    let u ← s.tabs.getup ((inter.j + 1) % SIZE_MOD)
    if inter.i < u ∧ u ≤ inter.j then s.tabs.getlcp u
    else do
      let d ← s.tabs.getdown inter.i
      s.tabs.getlcp d

/-- The `while` loop of `getChildIntervals`.  While it runs, `i1 < parent.j` is a
position of the table, so after `idx.size()` rounds a position has come back and
the loop goes on for ever; the first argument counts the rounds that remain. -/
def getChildIntervals_loop (s : suffixarray α) (j : Nat) :
    Nat → Nat → List interval → Except Exn (List interval)
  | 0, _, _ => .error .diverge
  | fuel + 1, i1, found => do
    let nx ← s.tabs.getnextl i1
    if nx ≠ undefined ∧ i1 < j then
      getChildIntervals_loop s j fuel nx (found ++ [⟨i1, size_sub nx 1⟩])
    else pure (found ++ [⟨i1, j⟩])

/-- Member `getChildIntervals(parent)`. -/
def getChildIntervals (s : suffixarray α) (parent : interval) : Except Exn (List interval) :=
  if parent.i = parent.j ∨ parent.i ≥ s.idx.length ∨ parent.j ≥ s.idx.length then pure []
  else do
    let i1 ← (if parent.j + 1 < s.idx.length then do
        let u ← s.tabs.getup (parent.j + 1)
        if parent.i < u ∧ u ≠ undefined then pure u
        else do
          let nx ← s.tabs.getnextl parent.i
          if nx = undefined then s.tabs.getdown parent.i else pure nx
      else s.tabs.getnextl parent.i)
    getChildIntervals_loop s parent.j (s.idx.length + 1) i1 [⟨parent.i, size_sub i1 1⟩]

/-- The inner loop `for(in = 0; in < nieuw.size(); in++)` of the three query
members: the intervals of `nieuw` that pass the test against `w.at(depth)` are
appended to `tosearch2`. -/
def filter_intervals (s : suffixarray α) (w : List α) (wildcard : α) (depth : Nat) :
    List interval → List interval → Except Exn (List interval)
  | [], tosearch2 => pure tosearch2
  | curr :: rest, tosearch2 => do
    let tocomp ← vec_at w depth
    if tocomp = wildcard then
      filter_intervals s w wildcard depth rest (tosearch2 ++ [curr])
    else do
      let x ← vec_at s.idx curr.i
      if (x + depth) % SIZE_MOD < s.content.length then do
        let tocomp2 ← vec_at s.content ((x + depth) % SIZE_MOD)
        if tocomp = tocomp2 then
          filter_intervals s w wildcard depth rest (tosearch2 ++ [curr])
        else filter_intervals s w wildcard depth rest tosearch2
      else filter_intervals s w wildcard depth rest tosearch2

/-- The loop `for(i = 0; i < tosearch.size(); i++)` of the three query members. -/
def search_level (s : suffixarray α) (w : List α) (wildcard : α) (depth : Nat) :
    List interval → List interval → Except Exn (List interval)
  | [], tosearch2 => pure tosearch2
  | curr :: rest, tosearch2 => do
    let l ← getlcp s curr
    let nieuw ← (if depth < l ∨ curr.size = 1 then pure [curr]
      else getChildIntervals s curr)
    let tosearch2 ← filter_intervals s w wildcard depth nieuw tosearch2
    search_level s w wildcard depth rest tosearch2

/-- The loop `while(depth < w.size() && tosearch.size() > 0)` that `find_position`,
`find_all_positions` and `find_all_positions_count` each contain, word for word;
the first argument is the number of rounds left, `w.size() - depth`. -/
def descend (s : suffixarray α) (w : List α) (wildcard : α) :
    Nat → Nat → List interval → Except Exn (List interval)
  | 0, _, tosearch => pure tosearch
  | more + 1, depth, tosearch =>
    if tosearch.length > 0 then do
      let tosearch2 ← search_level s w wildcard depth tosearch []
      descend s w wildcard more (depth + 1) tosearch2
    else pure tosearch

/-- Member `find_position(w, wildcard)`. -/
def find_position (s : suffixarray α) (w : List α) (wildcard : α) : Except Exn Nat := do
  let tosearch ← descend s w wildcard w.length 0 [⟨0, size_sub s.idx.length 1⟩]
  match tosearch with
  | first :: _ => vec_at s.idx first.i
  | [] => .error .StringNotFound

/-- The loop `for(j = curr.i; j <= curr.j; j++) results.push_back(idx.at(j))`;
`idx.at(j)` throws once `j` reaches `idx.size()`. -/
def collect_interval (idx : List Nat) (currj : Nat) :
    Nat → Nat → List Nat → Except Exn (List Nat)
  | 0, _, _ => .error .out_of_range
  | fuel + 1, j, results =>
    if j ≤ currj then do
      let x ← vec_at idx j
      collect_interval idx currj fuel ((j + 1) % SIZE_MOD) (results ++ [x])
    else pure results

/-- The final loop of `find_all_positions` over the surviving intervals. -/
def collect (idx : List Nat) : List interval → List Nat → Except Exn (List Nat)
  | [], results => pure results
  | curr :: rest, results => do
    let results ← collect_interval idx curr.j (idx.length + 1) curr.i results
    collect idx rest results

/-- Member `find_all_positions(w, wildcard)`. -/
def find_all_positions (s : suffixarray α) (w : List α) (wildcard : α) :
    Except Exn (List Nat) := do
  let tosearch ← descend s w wildcard w.length 0 [⟨0, size_sub s.idx.length 1⟩]
  collect s.idx tosearch []

/-- Member `find_all_positions_count(w, wildcard)`. -/
def find_all_positions_count (s : suffixarray α) (w : List α) (wildcard : α) :
    Except Exn Nat := do
  let tosearch ← descend s w wildcard w.length 0 [getRootInterval s]
  pure (tosearch.foldl (fun result curr => (result + curr.size) % SIZE_MOD) 0)

/-- `*(it->first)` for the iterator pair `it = iters.begin() + m` of
`find_all_positions_skip`.  A pair `(first, second)` is kept as the range it still
spans, so `first == second` is the empty range; dereferencing it there reads past
the end of the vector. -/
def skip_deref (iters : List (List Nat)) (m : Nat) : Except Exn Nat :=
  match iters[m]? with
  | some (x :: _) => .ok x
  | _ => .error .ub

/-- `++(it->first)` for the iterator pair `it = iters.begin() + m`. -/
def skip_incr (iters : List (List Nat)) (m : Nat) : List (List Nat) :=
  iters.modify List.tail m

/-- `it->first == it->second` for the iterator pair `it = iters.begin() + m`. -/
def skip_at_end (iters : List (List Nat)) (m : Nat) : Bool :=
  match iters[m]? with
  | some [] => true
  | _ => false

/-- The inner loop `while(*(next->first) <= *(prev->first))` of
`find_all_positions_skip`, with `next = prev + 1`; it runs once per element left in
the range of `next` at most.  `none` stands for `return uit`. -/
def skip_inner (prev : Nat) : Nat → List (List Nat) → Except Exn (Option (List (List Nat)))
  | 0, _ => .error .diverge
  | fuel + 1, iters => do
    let q ← skip_deref iters (prev + 1)
    let p ← skip_deref iters prev
    if q ≤ p then
      let iters := skip_incr iters (prev + 1)
      if skip_at_end iters (prev + 1) then pure none
      else skip_inner prev fuel iters
    else pure (some iters)

/-- The loop `while(first.first != first.second)` of `find_all_positions_skip`
("basically a waterfall model").  Every round moves an iterator forward or moves
`prev` and `next` one pair on, so the number of rounds is bounded; the first
argument counts the rounds that remain. -/
def skip_loop (minskip maxskip : Nat) :
    Nat → List (List Nat) → Nat → List Nat → Except Exn (List Nat)
  | 0, _, _, _ => .error .diverge
  | fuel + 1, iters, prev, uit =>
    if skip_at_end iters 0 then pure uit
    else do
      let r ← skip_inner prev ((iters.map List.length).sum + 1) iters
      match r with
      | none => pure uit
      | some iters => do
        let p ← skip_deref iters prev
        let q ← skip_deref iters (prev + 1)
        if (p + maxskip) % SIZE_MOD ≥ q ∧ (p + minskip) % SIZE_MOD < q then
          if prev + 2 = iters.length then do
            let f ← skip_deref iters 0
            skip_loop minskip maxskip fuel (skip_incr iters 0) 0 (uit ++ [f])
          else skip_loop minskip maxskip fuel iters (prev + 1) uit
        else if (p + minskip) % SIZE_MOD ≥ q then
          let iters := skip_incr iters (prev + 1)
          if skip_at_end iters (prev + 1) then pure uit
          else skip_loop minskip maxskip fuel iters prev uit
        else
          let iters := skip_incr iters prev
          if skip_at_end iters prev then pure uit
          else skip_loop minskip maxskip fuel iters (if prev ≠ 0 then prev - 1 else prev) uit

/-- Number of rounds that bounds the loop of `find_all_positions_skip`. -/
def skip_fuel (idx : List (List Nat)) : Nat :=
  ((idx.map List.length).sum + 1) * (idx.length + 1)

/-- The first loop of `find_all_positions_skip`: the positions of every part,
sorted with `sort(subgram.begin(), subgram.end())`. -/
def skip_subgrams (s : suffixarray α) (wildcard : α) :
    List (List α) → Except Exn (List (List Nat))
  | [] => pure []
  | part :: rest => do
    let subgram ← find_all_positions s part wildcard
    let subgram ← sort (fun a b => pure (decide (a < b))) subgram
    let idx ← skip_subgrams s wildcard rest
    pure (subgram :: idx)

/-- Member `find_all_positions_skip(w, minskip, maxskip, wildcard)`. -/
def find_all_positions_skip (s : suffixarray α) (w : List (List α)) (minskip maxskip : Nat)
    (wildcard : α) : Except Exn (List Nat) := do
  let idx ← skip_subgrams s wildcard w
  if idx.length ≠ w.length then pure []
  else if idx.length = 1 then vec_at idx 0
  else if idx.length = 0 then pure []
  else skip_loop minskip maxskip (skip_fuel idx) idx 0 []

/-- Member `find_all_positions_skip_count(w, minskip, maxskip, wildcard)`. -/
def find_all_positions_skip_count (s : suffixarray α) (w : List (List α))
    (minskip maxskip : Nat) (wildcard : α) : Except Exn Nat := do
  let r ← find_all_positions_skip s w minskip maxskip wildcard
  pure r.length

/-- Output of an unsigned number with `os << v`: its decimal digits. -/
def put_num (v : Nat) : List Char := Nat.toDigits 10 v

/-- One table field of `print`: `-` when the getter returns `(size_type) -1`, else the
number; a tab follows. -/
def print_field (v : Nat) : List Char :=
  if v = undefined then ['-', '\t'] else put_num v ++ ['\t']

/-- The body of the loop of `print` at position `i`: the text of one line.  Every
getter is called twice on the same state, once for the test and once for the
output; the value is bound once here. -/
def print_line (s : suffixarray α) (i : Nat) : Except Exn (List Char) := do
  let x ← vec_at s.idx i
  let l ← s.tabs.getlcp i
  let u ← s.tabs.getup i
  let d ← s.tabs.getdown i
  let nx ← s.tabs.getnextl i
  pure (put_num i ++ ['\t'] ++ (put_num x ++ ['\t']) ++ print_field l ++ print_field u
    ++ print_field d ++ print_field nx ++ ['\n'])

/-- The loop `for(int i = 0; i < (int) idx.size(); i++)` of `print` over the values
of `i` that remain; `os` is the text written so far. -/
def print_loop (s : suffixarray α) : List Nat → List Char → Except Exn (List Char)
  | [], os => pure os
  | i :: rest, os => do
    let line ← print_line s i
    print_loop s rest (os ++ line)

/-- Member `print(os)`: the text written on `os`.  The bound of the loop is
`(int) idx.size()`. -/
def print (s : suffixarray α) : Except Exn (List Char) :=
  print_loop s (List.range (to_int s.idx.length).toNat) []

/-- Member `savesarray(f)` for a file that can be opened: the text of the file. -/
def savesarray (s : suffixarray α) : Except Exn (List Char) := print s

/-- The loop `while(getline(ss, item, '\t')) elems.push_back(item)`: a tab ends an
item; what follows the last tab is an item when it is not empty. -/
def split_tabs : List Char → List Char → List (List Char) → List (List Char)
  | [], item, elems => if item.length > 0 then elems ++ [item] else elems
  | c :: rest, item, elems =>
    if c = '\t' then split_tabs rest [] (elems ++ [item])
    else split_tabs rest (item ++ [c]) elems

/-- The white space `atoi` skips at the start. -/
def atoi_skip : List Char → List Char
  | [] => []
  | c :: rest =>
    if c = ' ' ∨ (9 ≤ c.toNat ∧ c.toNat ≤ 13) then atoi_skip rest else c :: rest

/-- The digits `atoi` reads, up to the first character that is not a digit. -/
def atoi_digits : List Char → Nat → Nat
  | [], acc => acc
  | c :: rest, acc =>
    if 48 ≤ c.toNat ∧ c.toNat ≤ 57 then atoi_digits rest (10 * acc + (c.toNat - 48)) else acc

/-- The function `atoi`: white space, an optional sign, digits.  A value that does not
fit `int` is undefined behaviour. -/
def atoi (str : List Char) : Except Exn Int :=
  let v : Int :=
    match atoi_skip str with
    | [] => 0
    | c :: rest =>
      if c = '-' then -((atoi_digits rest 0 : Nat) : Int)
      else if c = '+' then ((atoi_digits rest 0 : Nat) : Int)
      else ((atoi_digits (c :: rest) 0 : Nat) : Int)
  if -(2 ^ 31) ≤ v ∧ v < 2 ^ 31 then pure v else .error .ub

/-- Member `processline(line)`.  The iterator `it` over the items is dereferenced
and advanced without a comparison with `elems.end()`. -/
def processline (s : suffixarray α) (line : List Char) : Except Exn (suffixarray α) := do
  let elems := split_tabs line [] []
  let i := to_size (← atoi (← vec_read elems 0))
  let item ← vec_read elems 1
  let idx ← (if item ≠ ['-'] then do
      let curr := to_size (← atoi item)
      vec_set s.idx i curr
    else pure s.idx)
  let item ← vec_read elems 2
  let tabs ← (if item ≠ ['-'] then do
      let curr := to_size (← atoi item)
      s.tabs.setlcp i curr
    else pure s.tabs)
  let item ← vec_read elems 3
  let tabs ← (if item ≠ ['-'] then do
      let curr := to_size (← atoi item)
      tabs.setup i curr
    else pure tabs)
  let item ← vec_read elems 4
  let tabs ← (if item ≠ ['-'] then do
      let curr := to_size (← atoi item)
      tabs.setdown i curr
    else pure tabs)
  let item ← vec_read elems 5
  let tabs ← (if item ≠ ['-'] then do
      let curr := to_size (← atoi item)
      tabs.setnextl i curr
    else pure tabs)
  pure { s with tabs := tabs, idx := idx }

/-- The lines that `getline(myfile, line)` yields while `!myfile.eof()`: the text is
cut at every newline, and what follows the last newline is a line as well, also
when it is empty. -/
def file_lines : List Char → List Char → List (List Char)
  | [], line => [line]
  | c :: rest, line =>
    if c = '\n' then line :: file_lines rest [] else file_lines rest (line ++ [c])

/-- The loop `while(!myfile.eof())` of the loading constructor over the lines that
remain. -/
def load_lines : List (List Char) → suffixarray α → Except Exn (suffixarray α)
  | [], s => pure s
  | line :: rest, s => do
    let s ← processline s line
    load_lines rest s

/-- Constructor `suffixarray(const value_type& s, const std::string& f)`; `file` is
the text of the file `f`, or `none` when it cannot be opened.  Only `content` and
`tabs` are initialised: `idx` is the empty vector. -/
def load (s : List α) (file : Option (List Char)) : Except Exn (suffixarray α) :=
  let sa : suffixarray α := { content := s, tabs := childtabs.init_tabs s.length, idx := [] }
  match file with
  | some text => load_lines (file_lines text []) sa
  | none => pure sa

end suffixarray

/-- The loop of `operator>>(istream&, wordstring&)` over the bytes still to be read:
a byte in `'!'..'~'` extends the current word, any other byte ends it.  At the end
of the input `in.get()` yields `EOF`, which ends the current word as well. -/
def read_words : List Nat → List Nat → List (List Nat) → List (List Nat)
  | [], curr, vec => if curr.length > 0 then vec ++ [curr] else vec
  | c :: rest, curr, vec =>
    if 33 ≤ c ∧ c ≤ 126 then read_words rest (curr ++ [c]) vec
    else if curr.length > 0 then read_words rest [] (vec ++ [curr])
    else read_words rest [] vec

/-- `is >> word` on an empty `wordstring`; a word (`std::string`) is the list of its
bytes, ordered lexicographically as `std::string` is. -/
def wordstring_read (input : List Nat) : List (List Nat) := read_words input [] []

/-- The bytes of an ASCII string literal. -/
def bytes (s : String) : List Nat := s.toList.map Char.toNat

/-- The sentinel `"~~~~~~~~~~~~~"` that `main` appends to the corpus. -/
def main_sentinel : List Nat := bytes "~~~~~~~~~~~~~"

/-- The index `tree` of `main` for the corpus file `input`; `std_sort` is the
`std::sort` that the constructor runs on the whole index. -/
def main_tree (std_sort : sorter) (input : List Nat) : Except Exn (suffixarray (List Nat)) :=
  suffixarray.build std_sort (wordstring_read input ++ [main_sentinel])

/-- One round of the query loop of `main`: the line is read as a `wordstring` and
counted with the default wildcard `element_type()`, the empty string. -/
def main_query (std_sort : sorter) (input line : List Nat) : Except Exn Nat := do
  let tree ← main_tree std_sort input
  tree.find_all_positions_count (wordstring_read line) []

end ns_suffixarray


namespace ns_suffixarray

section specification

variable {α : Type} [DecidableEq α] [LT α] [DecidableRel (fun (a b : α) => a < b)]

/-- Strict lexicographic order on sequences; a proper initial segment is smaller. -/
def lex_lt : List α → List α → Bool
  | [], [] => false
  | [], _ :: _ => true
  | _ :: _, [] => false
  | a :: as, b :: bs => if a < b then true else if b < a then false else lex_lt as bs

/-- Length of the longest common initial segment, by direct element-by-element
comparison. -/
def lcp_len : List α → List α → Nat
  | a :: as, b :: bs => if a = b then lcp_len as bs + 1 else 0
  | _, _ => 0

/-- The sentinel precondition of the constructor: the sequence is not empty and its
last element is strictly greater than every other element. -/
def valid_sentinel (S : List α) : Prop :=
  S ≠ [] ∧ ∀ y ∈ S.dropLast, ∀ x ∈ S.getLast?, y < x

instance (S : List α) : Decidable (valid_sentinel S) :=
  inferInstanceAs (Decidable (S ≠ [] ∧ ∀ y ∈ S.dropLast, ∀ x ∈ S.getLast?, y < x))

/-- The contract of `std::sort(first, last, comp)`: when `comp` returns on the elements
of the range and is a strict weak ordering on them (irreflexive, transitive, and with
a transitive equivalence "neither before the other"), the call returns, the range then
holds a permutation of its old content, and no element is before one that precedes it
(`comp(*(i + n), *i)` is false).  The order of equivalent elements is left open. -/
def sort_contract (std_sort : sorter) : Prop :=
  ∀ (comp : Nat → Nat → Except Exn Bool) (r : Nat → Nat → Bool) (l : List Nat),
    (∀ a ∈ l, ∀ b ∈ l, comp a b = .ok (r a b)) →
    (∀ a ∈ l, r a a = false) →
    (∀ a ∈ l, ∀ b ∈ l, ∀ c ∈ l, r a b = true → r b c = true → r a c = true) →
    (∀ a ∈ l, ∀ b ∈ l, ∀ c ∈ l, r a b = false → r b a = false → r b c = false →
      r c b = false → r a c = false ∧ r c a = false) →
    ∃ out, std_sort comp l = .ok out ∧ out.Perm l ∧ out.Pairwise (fun a b => r b a = false)

/-- `sa` lists suffixes of `S` in strictly increasing lexicographic order. -/
def suffix_sorted (S : List α) : List Nat → Prop
  | a :: b :: rest => lex_lt (S.drop a) (S.drop b) = true ∧ suffix_sorted S (b :: rest)
  | _ => True

/-- Suffix order of a list of positions can be checked by evaluation. -/
def suffix_sorted_dec (S : List α) : (sa : List Nat) → Decidable (suffix_sorted S sa)
  | [] => isTrue trivial
  | [_] => isTrue trivial
  | a :: b :: rest =>
    have := suffix_sorted_dec S (b :: rest)
    inferInstanceAs
      (Decidable (lex_lt (S.drop a) (S.drop b) = true ∧ suffix_sorted S (b :: rest)))

instance (S : List α) (sa : List Nat) : Decidable (suffix_sorted S sa) :=
  suffix_sorted_dec S sa

/-- The pattern `w` occurs in `S` at position `p`. -/
def occurs_at (S w : List α) (p : Nat) : Prop :=
  p + w.length ≤ S.length ∧ ∀ d, d < w.length → S[p + d]? = w[d]?

instance (S w : List α) (p : Nat) : Decidable (occurs_at S w p) :=
  inferInstanceAs (Decidable (_ ∧ ∀ d, d < w.length → S[p + d]? = w[d]?))

/-- The pattern `w` matches `S` at position `p` when `x` is the wildcard: it fits
into the sequence and every element of `w` is the wildcard or equals the element of
`S` it is laid on. -/
def matches_at (S w : List α) (x : α) (p : Nat) : Prop :=
  p + w.length ≤ S.length ∧ ∀ d, d < w.length → w[d]? = some x ∨ S[p + d]? = w[d]?

instance (S w : List α) (x : α) (p : Nat) : Decidable (matches_at S w x p) :=
  inferInstanceAs (Decidable (_ ∧ ∀ d, d < w.length → w[d]? = some x ∨ S[p + d]? = w[d]?))

/-- The suffixes at `i` and `j` agree on their first `m` elements, all of them inside
the sequence. -/
def agree (S : List α) (i j m : Nat) : Prop :=
  ∀ k, k < m → i + k < S.length ∧ j + k < S.length ∧ S[i + k]? = S[j + k]?

instance (S : List α) (i j m : Nat) : Decidable (agree S i j m) :=
  inferInstanceAs
    (Decidable (∀ k, k < m → i + k < S.length ∧ j + k < S.length ∧ S[i + k]? = S[j + k]?))

/-- The suffixes held by the leaves of a trie, from the smallest key to the greatest. -/
def sorttrie.leaves : sorttrie α → List Nat
  | .node _ i cs => if cs.isEmpty then [i] else leavesList cs
where
  /-- The leaves below a children map. -/
  leavesList : List (α × sorttrie α) → List Nat
    | [] => []
    | (_, c) :: cs => c.leaves ++ leavesList cs

/-- The leaves of the tries on a stack, top first. -/
def sorttrie.leavesStack : List (sorttrie α) → List Nat
  | [] => []
  | t :: ts => t.leaves ++ leavesStack ts

/-- Number of nodes of the tries on a stack. -/
def sorttrie.countStack : List (sorttrie α) → Nat
  | [] => 0
  | t :: ts => t.count + countStack ts

/-- Shape of a trie built by `walkNadd` over `S`: the suffix of every node satisfies
`P`, a child is one level below its parent, is stored under the element
`S[idx + depth]` it stands for, and its suffix agrees with the suffix of the parent
down to the parent's level. -/
def sorttrie.inv (S : List α) (P : Nat → Prop) : sorttrie α → Prop
  | .node d i cs => P i ∧ invList S P d i cs
where
  /-- The condition on the entries of a children map. -/
  invList (S : List α) (P : Nat → Prop) (d i : Nat) : List (α × sorttrie α) → Prop
    | [] => True
    | (k, c) :: cs =>
      c.depth = d + 1 ∧ S[c.getidx + (d + 1)]? = some k ∧ agree S i c.getidx (d + 1) ∧
        c.inv S P ∧ invList S P d i cs

/-- The children maps of a trie hold their entries in strictly ascending key order. -/
def sorttrie.ordered : sorttrie α → Prop
  | .node _ _ cs => orderedList cs
where
  /-- The condition on the entries of a children map. -/
  orderedList : List (α × sorttrie α) → Prop
    | [] => True
    | (k, c) :: cs => (∀ e ∈ cs, k < e.1) ∧ c.ordered ∧ orderedList cs

/-- State of the scan of `ds`: the positions `backit ≤ k < upto` of `idx` hold
suffixes that start with the two elements `a`, `b`. -/
def bucket_inv (S : List α) (idx : List Nat) (backit upto : Nat) (a b : α) : Prop :=
  ∀ k, backit ≤ k → k < upto →
    ∃ x, idx[k]? = some x ∧ x + 1 < S.length ∧ S[x]? = some a ∧ S[x + 1]? = some b

end specification

section skipgrams

/-- The test of the skip-gram walk on the positions `p` and `q` of two consecutive
parts, as the code computes it in `size_type`. -/
def gap_test (minskip maxskip p q : Nat) : Prop :=
  (p + maxskip) % SIZE_MOD ≥ q ∧ (p + minskip) % SIZE_MOD < q

/-- The gap between the positions `p` and `q` of two consecutive parts is in
`(minskip, maxskip]`. -/
def gap_ok (minskip maxskip p q : Nat) : Prop :=
  minskip < q - p ∧ q - p ≤ maxskip

/-- The positions `xs`, one out of each list, are consecutive in the sense of `T`. -/
def skip_chain (T : Nat → Nat → Prop) (lists : List (List Nat)) (xs : List Nat) : Prop :=
  xs.length = lists.length ∧
  (∀ (m : Nat) (P : List Nat) (x : Nat), lists[m]? = some P → xs[m]? = some x → x ∈ P) ∧
  (∀ (m x y : Nat), xs[m]? = some x → xs[m + 1]? = some y → T x y)

/-- Sum of the sizes of the ranges of the walk. -/
def skip_total (iters : List (List Nat)) : Nat := (iters.map List.length).sum

/-- State of the walk at the head of its loop: `prev` and `next` are inside the
vector of ranges, every range is ascending, every range but the first is not empty,
and the front elements of the ranges up to `prev` pass the test pairwise. -/
structure walk_inv (T : Nat → Nat → Prop) (iters : List (List Nat)) (prev : Nat) : Prop where
  hk : prev + 2 ≤ iters.length
  hsorted : ∀ (m : Nat) (R : List Nat), iters[m]? = some R → R.Pairwise (fun a b => a ≤ b)
  hne : ∀ (m : Nat) (R : List Nat), iters[m]? = some R → 0 < m → R ≠ []
  hpart : ∀ (m x y : Nat) (R R2 : List Nat), m < prev → iters[m]? = some (x :: R) →
    iters[m + 1]? = some (y :: R2) → T x y

end skipgrams

section tables

/-- What a `signed char` table with its overflow map holds: `f p = none` stands for
"no assignment" (the byte `-128`), `f p = some v` for the value `v`, kept as the
offset `v - p` in the byte or, when that does not fit, in the map (byte `127`). -/
def tab_rep (vec : List Int) (map : size_map) (f : Nat → Option Nat) : Prop :=
  (∀ (p : Nat), p < vec.length →
    match f p with
    | none => vec[p]? = some (-128)
    | some v => v < 2 ^ 31 ∧
      ((-128 < (v : Int) - p ∧ (v : Int) - p < 127 ∧ vec[p]? = some ((v : Int) - p)) ∨
        (¬ (-128 < (v : Int) - p ∧ (v : Int) - p < 127) ∧ vec[p]? = some 127 ∧
          map.find_second p = .ok v))) ∧
  (∀ e ∈ map, f e.1 ≠ none)

/-- What the `lcp` table with its overflow map holds: the value `L p` at every
position, in the byte when it is below 255 and in the map otherwise. -/
def lcp_rep (vec : List Nat) (map : size_map) (L : Nat → Nat) : Prop :=
  (∀ (p : Nat), p < vec.length →
    (L p < 255 ∧ vec[p]? = some (L p)) ∨
      (255 ≤ L p ∧ vec[p]? = some 255 ∧ map.find_second p = .ok (L p))) ∧
  (∀ e ∈ map, 255 ≤ L e.1)

/-- The four tables of size `n` hold `L`, `U`, `D` and `N`. -/
structure tabs_ok (t : childtabs) (n : Nat) (L : Nat → Nat) (U D N : Nat → Option Nat) :
    Prop where
  hlcp_len : t.lcp.length = n
  hlcp : lcp_rep t.lcp t.lcpmap L
  hup_len : t.up.length = n
  hup : tab_rep t.up t.upmap U
  hdown_len : t.down.length = n
  hdown : tab_rep t.down t.downmap D
  hnextl_len : t.nextl.length = n
  hnextl : tab_rep t.nextl t.nextlmap N

/-- The position `q` is the first one in `(a, b)` at which `L` is least. -/
def first_min (L : Nat → Nat) (a b q : Nat) : Prop :=
  a < q ∧ q < b ∧ (∀ (k : Nat), a < k → k < q → L q < L k) ∧
    (∀ (k : Nat), q < k → k < b → L q ≤ L k)

/-- The value of `up` at `p`: with `a` the last position before `p` whose `L` is at
most `L p`, the first position in `(a, p)` at which `L` is least. -/
def is_up (L : Nat → Nat) (p q : Nat) : Prop :=
  ∃ a, L a ≤ L p ∧ (∀ (k : Nat), a < k → k < p → L p < L k) ∧ first_min L a p q

/-- The value of `down` at `t`, as far as the positions below `bound` tell: with `b`
the first position behind `t` whose `L` is at most `L t`, the first position in
`(t, b)` at which `L` is least. -/
def is_down (L : Nat → Nat) (bound t q : Nat) : Prop :=
  ∃ b, b < bound ∧ L b ≤ L t ∧ (∀ (k : Nat), t < k → k < b → L t < L k) ∧ first_min L t b q

/-- The value of `nextl` at `t`: the first position behind `t` whose `L` is at most
`L t`, when `L` is the same there. -/
def is_nextl (L : Nat → Nat) (t x : Nat) : Prop :=
  t < x ∧ L x = L t ∧ ∀ (k : Nat), t < k → k < x → L t < L k

/-- The stack `updownstack` before the round of position `i`: the positions below `i`
behind which no `L` is smaller, the greatest on top. -/
def ustack_ok (L : Nat → Nat) (i : Nat) (st : List Nat) : Prop :=
  st.Pairwise (fun a b => b < a) ∧
    ∀ (k : Nat), k ∈ st ↔ k < i ∧ ∀ (k2 : Nat), k < k2 → k2 < i → L k ≤ L k2

/-- The stack `nextlstack` before the round of position `i`: the positions below `i`
behind which every `L` is greater, the greatest on top. -/
def nstack_ok (L : Nat → Nat) (i : Nat) (st : List Nat) : Prop :=
  st.Pairwise (fun a b => b < a) ∧
    ∀ (k : Nat), k ∈ st ↔ k < i ∧ ∀ (k2 : Nat), k < k2 → k2 < i → L k < L k2

/-- The child tables after the rounds of the positions below `i`. -/
structure child_inv (L : Nat → Nat) (i : Nat) (U D N : Nat → Option Nat) : Prop where
  hU : ∀ (p q : Nat), U p = some q ↔ p < i ∧ is_up L p q
  hD : ∀ (t q : Nat), D t = some q ↔ is_down L i t q
  hN : ∀ (t x : Nat), N t = some x ↔ x < i ∧ is_nextl L t x

/-- The value of `down` at `t` that the round of position `b` sets. -/
def is_down_at (L : Nat → Nat) (b t q : Nat) : Prop :=
  L b ≤ L t ∧ (∀ (k : Nat), t < k → k < b → L t < L k) ∧ first_min L t b q

/-- State of a stack inside the `while` loop of the round of position `i`: what is
left of the stack `st0` the round began with, after the positions above `c` were
popped. -/
def pop_state (L : Nat → Nat) (i : Nat) (st0 cur : List Nat) (c : Nat) : Prop :=
  cur.Pairwise (fun a b => b < a) ∧ (∃ rest, cur = c :: rest) ∧
    (∀ (k : Nat), k ∈ cur ↔ k ∈ st0 ∧ k ≤ c) ∧ (∀ k ∈ st0, c < k → L i < L k)

/-- The variable `lastIndex` inside the `while` loop of the round of position `i`:
undefined as long as nothing was popped, the position popped last after that. -/
def last_ok (i : Nat) (st0 : List Nat) (c last : Nat) : Prop :=
  (last = undefined ∧ c + 1 = i) ∨ (last ∈ st0 ∧ c < last ∧ ∀ k ∈ st0, c < k → last ≤ k)

/-- The table `down` inside the `while` loop of the round of position `i`, when `c`
is on top of the stack. -/
def down_mid (L : Nat → Nat) (i c : Nat) (D : Nat → Option Nat) : Prop :=
  ∀ (t q : Nat), D t = some q ↔ (is_down L i t q ∨ (c ≤ t ∧ is_down_at L i t q))

/-- The calls recorded during the child-table pass are those that gave the tables
`U`, `D` and `N` their values, and no two of them write the same position of the same
table. -/
def calls_ok (calls : List setter_call) (U D N : Nat → Option Nat) : Prop :=
  (∀ (p v : Nat), (⟨child_table.up, p, v⟩ : setter_call) ∈ calls ↔ U p = some v) ∧
  (∀ (p v : Nat), (⟨child_table.down, p, v⟩ : setter_call) ∈ calls ↔ D p = some v) ∧
  (∀ (p v : Nat), (⟨child_table.nextl, p, v⟩ : setter_call) ∈ calls ↔ N p = some v) ∧
  calls.Pairwise (fun a b => a.table ≠ b.table ∨ a.pos ≠ b.pos)

/-- The state of the child-table pass before the round of position `i`: `lastIndex`
is undefined, the two stacks and the tables are those of the positions below `i`, and
the calls recorded are those that gave the tables their values. -/
structure pass_ok (L : Nat → Nat) (n i : Nat) (st : pass_state) (U D N : Nat → Option Nat) :
    Prop where
  hlast : st.lastIndex = undefined
  hu : ustack_ok L i st.updownstack
  hns : nstack_ok L i st.nextlstack
  ht : tabs_ok st.tabs n L U D N
  hc : child_inv L i U D N
  hcalls : calls_ok st.calls U D N

end tables

section built_index

variable {α : Type}

/-- What the query members use of an index over the sequence `S`: the suffix array is
a permutation of the positions, the tables hold `L` and its child values, `L` is 0 at
both ends, and two neighbours in the suffix array agree on the first `L r` elements. -/
structure index_ok (S : List α) (s : suffixarray α) (L : Nat → Nat)
    (U D N : Nat → Option Nat) : Prop where
  hcontent : s.content = S
  hperm : s.idx.Perm (List.range S.length)
  hn2 : 2 ≤ S.length
  hn : S.length < 2 ^ 31
  htabs : tabs_ok s.tabs S.length L U D N
  hchild : child_inv L S.length U D N
  hL0 : L 0 = 0
  hLend : L (S.length - 1) = 0
  hagree : ∀ (r a b : Nat), 0 < r → s.idx[r - 1]? = some a → s.idx[r]? = some b →
    agree S a b (L r)

/-- What the navigation members `getlcp(interval)` and `getChildIntervals` use of an
index with `n` positions: the tables hold `L` and its child values, and `L` is 0 at
both ends. -/
structure nav_ok (s : suffixarray α) (n : Nat) (L : Nat → Nat)
    (U D N : Nat → Option Nat) : Prop where
  hlen : s.idx.length = n
  hclen : s.content.length = n
  hn2 : 2 ≤ n
  hn : n < 2 ^ 31
  htabs : tabs_ok s.tabs n L U D N
  hchild : child_inv L n U D N
  hL0 : L 0 = 0
  hLend : L (n - 1) = 0

end built_index

section intervals

/-- The positions `i .. j` of a table of size `n` form an lcp-interval of value `l`:
`L` is at least `l` on `(i, j]` and equal to `l` somewhere there, and smaller than `l`
at `i` and at `j + 1`; the whole table `[0, n - 1]` is the interval of value 0. -/
def lcp_interval (L : Nat → Nat) (n l i j : Nat) : Prop :=
  i < j ∧ j < n ∧ (∀ (k : Nat), i < k → k ≤ j → l ≤ L k) ∧
    (∃ k, i < k ∧ k ≤ j ∧ L k = l) ∧ (L i < l ∨ (i = 0 ∧ l = 0)) ∧
    ((j + 1 < n ∧ L (j + 1) < l) ∨ (j + 1 = n ∧ l = 0))

/-- The first position of `(i, j]` at which `L` is `l`. -/
def first_index (L : Nat → Nat) (l i j f : Nat) : Prop :=
  i < f ∧ f ≤ j ∧ L f = l ∧ ∀ (k : Nat), i < k → k < f → l < L k

/-- The intervals of the list follow one another without a gap, from `a` to `b`. -/
def contiguous : List interval → Nat → Nat → Prop
  | [], _, _ => False
  | [c], a, b => c.i = a ∧ c.j = b ∧ a ≤ b
  | c :: c2 :: rest, a, b => c.i = a ∧ a ≤ c.j ∧ contiguous (c2 :: rest) (c.j + 1) b

/-- A child of an lcp-interval of value `l`: one position, or an lcp-interval of a
greater value. -/
def child_ok (L : Nat → Nat) (n l : Nat) (c : interval) : Prop :=
  c.i ≤ c.j ∧ c.j < n ∧ (c.i < c.j → ∃ l2, l < l2 ∧ lcp_interval L n l2 c.i c.j)

end intervals

section worklist

variable {α : Type}

/-- The first `d` elements of the pattern `w` are found at position `p` of `S`. -/
def matches_upto (S w : List α) (d p : Nat) : Prop :=
  p + d ≤ S.length ∧ ∀ (e : Nat), e < d → S[p + e]? = w[e]?

/-- An interval of the worklist at depth `d`: one position, or an lcp-interval of
value at least `d`. -/
def node_ok (L : Nat → Nat) (n d : Nat) (c : interval) : Prop :=
  c.i ≤ c.j ∧ c.j < n ∧ (c.i < c.j → ∃ l, d ≤ l ∧ lcp_interval L n l c.i c.j)

/-- The entries of the suffix array that the intervals of a list cover, interval by
interval. -/
def interval_positions (idx : List Nat) : List interval → List Nat
  | [] => []
  | c :: rest => (idx.drop c.i).take (c.j + 1 - c.i) ++ interval_positions idx rest

/-- The worklist of a query at depth `d`: its intervals are in ascending order and
apart, each is one position or an lcp-interval of value at least `d`, every suffix
they cover matches the first `d` elements of the pattern, and every suffix that does
is covered. -/
structure worklist_ok (S : List α) (sa : List Nat) (L : Nat → Nat) (w : List α) (d : Nat)
    (ts : List interval) : Prop where
  hnode : ∀ c ∈ ts, node_ok L S.length d c
  hmatch : ∀ c ∈ ts, ∀ (x a : Nat), c.i ≤ x → x ≤ c.j → sa[x]? = some a →
    matches_upto S w d a
  hcover : ∀ (x a : Nat), sa[x]? = some a → matches_upto S w d a →
    ∃ c ∈ ts, c.i ≤ x ∧ x ≤ c.j
  hapart : ts.Pairwise (fun c c2 => c.j < c2.i)

end worklist

section saved_text

/-- A table field of the saved text: the literal `-` for "undefined", else the decimal
number. -/
def table_field (v : Nat) : List Char :=
  if v = undefined then ['-'] else Nat.toDigits 10 v

/-- A line of the saved text: the six fields `i`, `SA[i]`, `LCP[i]`, `up[i]`, `down[i]`
and `nextl[i]`, each followed by a tab, and a newline. -/
def table_line (i sa l u d x : Nat) : List Char :=
  Nat.toDigits 10 i ++ ['\t'] ++ Nat.toDigits 10 sa ++ ['\t'] ++ table_field l ++ ['\t']
    ++ table_field u ++ ['\t'] ++ table_field d ++ ['\t'] ++ table_field x ++ ['\t']
    ++ ['\n']

end saved_text

end ns_suffixarray


namespace ns_suffixarray

/-! ## The exception monad and the container reads -/

section monad

variable {ε β γ : Type}

@[simp] theorem ok_bind (a : β) (f : β → Except ε γ) : (Except.ok a >>= f) = f a := rfl

@[simp] theorem error_bind (e : ε) (f : β → Except ε γ) :
    ((Except.error e : Except ε β) >>= f) = Except.error e := rfl

@[simp] theorem pure_eq_ok (a : β) : (pure a : Except ε β) = Except.ok a := rfl

theorem bind_eq_ok {x : Except ε β} {f : β → Except ε γ} {c : γ} :
    (x >>= f) = Except.ok c ↔ ∃ a, x = Except.ok a ∧ f a = Except.ok c := by
  cases x with
  | error e => simp
  | ok a => simp

end monad

section vectors

variable {β : Type}

theorem vec_at_of_lt {v : List β} {i : Nat} (h : i < v.length) : vec_at v i = .ok v[i] := by
  simp [vec_at, List.getElem?_eq_getElem h]

theorem vec_read_of_lt {v : List β} {i : Nat} (h : i < v.length) : vec_read v i = .ok v[i] := by
  simp [vec_read, List.getElem?_eq_getElem h]

theorem vec_at_of_some {v : List β} {i : Nat} {x : β} (h : v[i]? = some x) :
    vec_at v i = .ok x := by
  simp [vec_at, h]

theorem vec_read_of_some {v : List β} {i : Nat} {x : β} (h : v[i]? = some x) :
    vec_read v i = .ok x := by
  simp [vec_read, h]

theorem vec_at_eq_ok {v : List β} {i : Nat} {x : β} : vec_at v i = .ok x ↔ v[i]? = some x := by
  unfold vec_at
  cases h : v[i]? <;> simp

theorem vec_read_eq_ok {v : List β} {i : Nat} {x : β} :
    vec_read v i = .ok x ↔ v[i]? = some x := by
  unfold vec_read
  cases h : v[i]? <;> simp

theorem vec_at_of_ge {v : List β} {i : Nat} (h : v.length ≤ i) :
    vec_at v i = .error .out_of_range := by
  simp [vec_at, List.getElem?_eq_none h]

theorem vec_set_of_lt {v : List β} {i : Nat} (x : β) (h : i < v.length) :
    vec_set v i x = .ok (v.set i x) := by
  simp [vec_set, h]

end vectors

end ns_suffixarray


namespace ns_suffixarray

/-! ## The sentinel -/

section sentinel

variable {α : Type} [LinearOrder α]

/-- The sentinel precondition in terms of positions. -/
theorem valid_sentinel_iff (S : List α) :
    valid_sentinel S ↔
      S ≠ [] ∧ ∀ i, i + 1 < S.length → ∀ a b, S[i]? = some a →
        S[S.length - 1]? = some b → a < b := by
  unfold valid_sentinel
  constructor
  · rintro ⟨hne, h⟩
    refine ⟨hne, ?_⟩
    intro i hi a b ha hb
    have hlast : S.getLast? = some b := by
      rw [List.getLast?_eq_getElem?]; exact hb
    have hmem : a ∈ S.dropLast := by
      rw [List.mem_iff_getElem?]
      refine ⟨i, ?_⟩
      rw [List.dropLast_eq_take, List.getElem?_take_of_lt (by omega)]
      exact ha
    exact h a hmem b (by simpa using hlast)
  · rintro ⟨hne, h⟩
    refine ⟨hne, ?_⟩
    intro y hy x hx
    rw [List.mem_iff_getElem?] at hy
    obtain ⟨i, hi⟩ := hy
    have hlen : i < S.dropLast.length := by
      by_contra hc
      rw [List.getElem?_eq_none (by omega)] at hi
      cases hi
    have hlen2 : i + 1 < S.length := by
      simp at hlen; omega
    rw [List.dropLast_eq_take, List.getElem?_take_of_lt (by omega)] at hi
    have hx2 : S.getLast? = some x := by simpa using hx
    rw [List.getLast?_eq_getElem?] at hx2
    exact h i hlen2 y x hi hx2

/-- Two different positions that hold the same element are both before the sentinel. -/
theorem sentinel_unique {S : List α} (hs : valid_sentinel S) {i j : Nat}
    (hi : i < S.length) (hj : j < S.length) (hij : i ≠ j) (he : S[i]? = S[j]?) :
    i + 1 < S.length ∧ j + 1 < S.length := by
  obtain ⟨_, h⟩ := (valid_sentinel_iff S).1 hs
  have key : ∀ p q, p < S.length → q < S.length → p ≠ q → S[p]? = S[q]? → p + 1 < S.length := by
    intro p q hp hq hpq hpe
    by_contra hc
    have hp1 : p = S.length - 1 := by omega
    have hq1 : q + 1 < S.length := by omega
    have := h q hq1 S[q] S[p] (List.getElem?_eq_getElem hq) (by
      rw [← hp1]; exact List.getElem?_eq_getElem hp)
    rw [List.getElem?_eq_getElem hp, List.getElem?_eq_getElem hq] at hpe
    injection hpe with hpe
    rw [hpe] at this
    exact lt_irrefl _ this
  exact ⟨key i j hi hj hij he, key j i hj hi (Ne.symm hij) he.symm⟩

end sentinel

end ns_suffixarray


set_option linter.unusedSectionVars false

namespace ns_suffixarray

/-! ## The comparator `SACmp` -/

section comparator

variable {α : Type} [LinearOrder α]

theorem agree_next {S : List α} (hs : valid_sentinel S) {i j m : Nat} (hij : i ≠ j)
    (hm : 0 < m) (h : agree S i j m) : i + m < S.length ∧ j + m < S.length := by
  obtain ⟨h1, h2, h3⟩ := h (m - 1) (by omega)
  have := sentinel_unique hs h1 h2 (by omega) h3
  omega

theorem agree_succ {S : List α} {i j m : Nat} (h : agree S i j m)
    (h1 : i + m < S.length) (h2 : j + m < S.length) (h3 : S[i + m]? = S[j + m]?) :
    agree S i j (m + 1) := by
  intro k hk
  by_cases hkm : k = m
  · subst hkm; exact ⟨h1, h2, h3⟩
  · exact h k (by omega)

theorem agree_symm {S : List α} {i j m : Nat} (h : agree S i j m) : agree S j i m := by
  intro k hk
  obtain ⟨h1, h2, h3⟩ := h k hk
  exact ⟨h2, h1, h3.symm⟩

theorem agree_trans {S : List α} {i j l m : Nat} (h : agree S i j m) (h' : agree S j l m) :
    agree S i l m := by
  intro k hk
  obtain ⟨h1, _, h3⟩ := h k hk
  obtain ⟨_, h2', h3'⟩ := h' k hk
  exact ⟨h1, h2', h3.trans h3'⟩

theorem agree_mono {S : List α} {i j m m' : Nat} (h : agree S i j m) (hm : m' ≤ m) :
    agree S i j m' := fun k hk => h k (by omega)

theorem agree_refl {S : List α} {i m : Nat} (h : i + m ≤ S.length) : agree S i i m := by
  intro k hk
  exact ⟨by omega, by omega, rfl⟩

/-- The bucket comparator `SACmp(content, 0, 2)` returns on every pair of positions. -/
theorem SACmp_two_ok {S : List α} (hs : valid_sentinel S) {x y : Nat}
    (hx : x < S.length) (hy : y < S.length) : ∃ r, SACmp S 0 2 x y = .ok r := by
  unfold SACmp
  by_cases hxy : x = y
  · simp [hxy]
  · have h1 : ¬ (x > S.length) := by omega
    have h2 : ¬ (y > S.length) := by omega
    simp only [hxy, if_false, Nat.add_zero, h1, h2, Nat.zero_add]
    simp only [SACmp_loop, vec_read_of_lt hx, vec_read_of_lt hy, ok_bind]
    by_cases he : S[x] = S[y]
    · have he' : S[x]? = S[y]? := by
        rw [List.getElem?_eq_getElem hx, List.getElem?_eq_getElem hy, he]
      obtain ⟨hx1, hy1⟩ := sentinel_unique hs hx hy hxy he'
      have : S.length = (S.length - 1) + 1 := by omega
      rw [this]
      simp [SACmp_loop, he, vec_read_of_lt hx1, vec_read_of_lt hy1]
    · simp [he]

/-- The sentinel position is never smaller under the bucket comparator. -/
theorem SACmp_two_sentinel {S : List α} (hs : valid_sentinel S) {y : Nat}
    (hy : y < S.length) : SACmp S 0 2 (S.length - 1) y = .ok false := by
  have hx : S.length - 1 < S.length := by omega
  unfold SACmp
  by_cases hxy : S.length - 1 = y
  · simp [hxy]
  · have h1 : ¬ (S.length - 1 > S.length) := by omega
    have h2 : ¬ (y > S.length) := by omega
    simp only [hxy, if_false, Nat.add_zero, h1, h2, Nat.zero_add]
    simp only [SACmp_loop, vec_read_of_lt hx, vec_read_of_lt hy, ok_bind]
    have he : ¬ S[S.length - 1] = S[y] := by
      intro he
      have he' : S[S.length - 1]? = S[y]? := by
        rw [List.getElem?_eq_getElem hx, List.getElem?_eq_getElem hy, he]
      have := (sentinel_unique hs hx hy hxy he').1
      omega
    obtain ⟨_, h⟩ := (valid_sentinel_iff S).1 hs
    have hlt := h y (by omega) S[y] S[S.length - 1] (List.getElem?_eq_getElem hy)
      (List.getElem?_eq_getElem hx)
    simp [he, not_lt_of_gt hlt]

/-- The loop of the deep comparator (`max = -1`, so `m` never reaches 0) returns on
two different positions inside the sequence. -/
theorem SACmp_loop_neg_ok {S : List α} (hs : valid_sentinel S) :
    ∀ (fuel : Nat) (m : Int) (x y : Nat), m ≤ 0 → x ≠ y → x < S.length → y < S.length →
      S.length < fuel + x → ∃ r, SACmp_loop S fuel m x y = .ok r := by
  intro fuel
  induction fuel with
  | zero => intro m x y _ _ hx _ hf; omega
  | succ f ih =>
    intro m x y hm hxy hx hy hf
    have hm1 : m - 1 ≠ 0 := by omega
    simp only [SACmp_loop, hm1, ne_eq, not_false_eq_true, if_true, vec_read_of_lt hx,
      vec_read_of_lt hy, ok_bind]
    by_cases he : S[x] = S[y]
    · have he' : S[x]? = S[y]? := by
        rw [List.getElem?_eq_getElem hx, List.getElem?_eq_getElem hy, he]
      obtain ⟨hx1, hy1⟩ := sentinel_unique hs hx hy hxy he'
      simp only [he, if_true]
      exact ih (m - 1) (x + 1) (y + 1) (by omega) (by omega) hx1 hy1 (by omega)
    · simp [he]

/-- The deep comparator `SACmp(content, 2, -1)` returns on two positions whose
suffixes agree on their first two elements. -/
theorem SACmp_deep_ok {S : List α} (hs : valid_sentinel S) {x y : Nat}
    (h : agree S x y 2) : ∃ r, SACmp S 2 (-1) x y = .ok r := by
  unfold SACmp
  by_cases hxy : x = y
  · simp [hxy]
  · obtain ⟨hx2, hy2⟩ := agree_next hs hxy (by omega) h
    have h1 : ¬ (x + 2 > S.length) := by omega
    have h2 : ¬ (y + 2 > S.length) := by omega
    simp only [hxy, if_false, h1, h2]
    exact SACmp_loop_neg_ok hs _ (-1) (2 + x) (2 + y) (by omega) (by omega) (by omega)
      (by omega) (by omega)

end comparator

end ns_suffixarray


set_option linter.unusedSectionVars false

namespace ns_suffixarray

/-! ## Insertion sort returns a permutation -/

section insertion

theorem linear_insert_perm (comp : Nat → Nat → Except Exn Bool) (val : Nat) :
    ∀ l : List Nat, (∀ y ∈ l, ∃ r, comp val y = .ok r) →
      ∃ r, linear_insert comp val l = .ok r ∧ r.Perm (val :: l) := by
  intro l
  induction l with
  | nil => intro _; exact ⟨[val], rfl, List.Perm.refl _⟩
  | cons y ys ih =>
    intro h
    obtain ⟨b, hb⟩ := h y (List.mem_cons_self _ _)
    obtain ⟨r, hr, hp⟩ := ih (fun z hz => h z (List.mem_cons_of_mem _ hz))
    cases b with
    | true =>
      refine ⟨y :: r, ?_, ?_⟩
      · simp [linear_insert, hb, hr]
      · exact (List.Perm.cons y hp).trans (List.Perm.swap _ _ _)
    | false =>
      refine ⟨val :: y :: ys, ?_, List.Perm.refl _⟩
      simp [linear_insert, hb]

theorem insert_step_perm (comp : Nat → Nat → Except Exn Bool) (done : List Nat) (val : Nat)
    (h : ∀ y ∈ done, ∃ r, comp val y = .ok r) :
    ∃ d, insert_step comp done val = .ok d ∧ d.Perm (done ++ [val]) := by
  cases done with
  | nil => exact ⟨[val], rfl, List.Perm.refl _⟩
  | cons first rest =>
    obtain ⟨b, hb⟩ := h first (List.mem_cons_self _ _)
    cases b with
    | true =>
      refine ⟨val :: first :: rest, by simp [insert_step, hb], ?_⟩
      exact (@List.perm_append_comm _ [val] (first :: rest))
    | false =>
      obtain ⟨r, hr, hp⟩ := linear_insert_perm comp val (first :: rest).reverse
        (fun y hy => h y (List.mem_reverse.1 hy))
      refine ⟨r.reverse, by simp only [insert_step, hb, ok_bind, Bool.false_eq_true, if_false, hr,
        pure_eq_ok], ?_⟩
      refine (List.reverse_perm r).trans (hp.trans ?_)
      refine (List.Perm.cons val (List.reverse_perm _)).trans ?_
      exact (@List.perm_append_comm _ [val] (first :: rest))

theorem insertion_sort_perm (comp : Nat → Nat → Except Exn Bool) :
    ∀ (rest done : List Nat), (∀ a ∈ done ++ rest, ∀ b ∈ done ++ rest, ∃ r, comp a b = .ok r) →
      ∃ r, insertion_sort comp done rest = .ok r ∧ r.Perm (done ++ rest) := by
  intro rest
  induction rest with
  | nil => intro done _; exact ⟨done, rfl, by simp⟩
  | cons v rest ih =>
    intro done h
    obtain ⟨d, hd, hp⟩ := insert_step_perm comp done v
      (fun y hy => h v (by simp) y (by simp [hy]))
    have hmem : ∀ a, a ∈ d ++ rest → a ∈ done ++ v :: rest := by
      intro a ha
      rcases List.mem_append.1 ha with ha | ha
      · have := hp.subset ha
        simp at this
        rcases this with h1 | h1
        · simp [h1]
        · simp [h1]
      · simp [ha]
    obtain ⟨r, hr, hp2⟩ := ih d (fun a ha b hb => h a (hmem a ha) b (hmem b hb))
    refine ⟨r, by simp [insertion_sort, hd, hr], hp2.trans ?_⟩
    have : (done ++ v :: rest) = (done ++ [v]) ++ rest := by simp
    rw [this]
    exact List.Perm.append_right rest hp

/-- The sort returns a permutation whenever the comparator returns on all pairs. -/
theorem sort_perm (comp : Nat → Nat → Except Exn Bool) (l : List Nat)
    (h : ∀ a ∈ l, ∀ b ∈ l, ∃ r, comp a b = .ok r) :
    ∃ r, sort comp l = .ok r ∧ r.Perm l := by
  obtain ⟨r, hr, hp⟩ := insertion_sort_perm comp l [] (by simpa using h)
  exact ⟨r, hr, by simpa using hp⟩

theorem insertion_sort_append (comp : Nat → Nat → Except Exn Bool) (v : Nat) :
    ∀ (l done : List Nat), insertion_sort comp done (l ++ [v]) =
      (insertion_sort comp done l >>= fun d => insert_step comp d v) := by
  intro l
  induction l with
  | nil =>
    intro done
    simp only [List.nil_append, insertion_sort, pure_eq_ok, ok_bind]
    generalize insert_step comp done v = e
    cases e <;> rfl
  | cons x xs ih =>
    intro done
    simp only [List.cons_append, insertion_sort]
    generalize insert_step comp done x = e
    cases e with
    | error e => rfl
    | ok d => simp only [ok_bind]; exact ih d

/-- An element that the comparator never finds smaller stays where it is inserted,
at the end. -/
theorem insert_step_last (comp : Nat → Nat → Except Exn Bool) (done : List Nat) (val : Nat)
    (h : ∀ y ∈ done, comp val y = .ok false) :
    insert_step comp done val = .ok (done ++ [val]) := by
  cases done with
  | nil => rfl
  | cons first rest =>
    have h1 := h first (List.mem_cons_self _ _)
    have hne : first :: rest ≠ [] := by simp
    have hlast := h ((first :: rest).getLast hne) (List.getLast_mem hne)
    have hrev : (first :: rest).reverse =
        (first :: rest).getLast hne :: (first :: rest).dropLast.reverse := by
      conv => lhs; rw [← List.dropLast_append_getLast hne]
      simp
    simp only [insert_step, h1, ok_bind, Bool.false_eq_true, if_false]
    rw [hrev]
    simp only [linear_insert, hlast, ok_bind, Bool.false_eq_true, if_false, pure_eq_ok]
    rw [← hrev]
    simp

end insertion

end ns_suffixarray


set_option linter.unusedSectionVars false

namespace ns_suffixarray

/-! ## The sort trie -/

namespace sorttrie

section unfolding

variable {α : Type}

theorem leaves_node (d i : Nat) (cs : List (α × sorttrie α)) :
    (node d i cs).leaves = if cs.isEmpty then [i] else leaves.leavesList cs := by
  rw [leaves]

theorem leavesList_cons (k : α) (c : sorttrie α) (cs : List (α × sorttrie α)) :
    leaves.leavesList ((k, c) :: cs) = c.leaves ++ leaves.leavesList cs := by
  rw [leaves.leavesList]

theorem inv_node (S : List α) (P : Nat → Prop) (d i : Nat) (cs : List (α × sorttrie α)) :
    (node d i cs).inv S P ↔ P i ∧ inv.invList S P d i cs := by
  rw [inv]

theorem invList_cons (S : List α) (P : Nat → Prop) (d i : Nat) (k : α) (c : sorttrie α)
    (cs : List (α × sorttrie α)) :
    inv.invList S P d i ((k, c) :: cs) ↔
      (c.depth = d + 1 ∧ S[c.getidx + (d + 1)]? = some k ∧ agree S i c.getidx (d + 1) ∧
        c.inv S P ∧ inv.invList S P d i cs) := by
  rw [inv.invList]

end unfolding

section maps

variable {α : Type} [LinearOrder α]

mutual

theorem inv_mono (S : List α) (P Q : Nat → Prop) (hPQ : ∀ x, P x → Q x) :
    ∀ t : sorttrie α, t.inv S P → t.inv S Q
  | node d i cs, h => by
    rw [inv_node] at h ⊢
    exact ⟨hPQ _ h.1, invList_mono S P Q hPQ d i cs h.2⟩

theorem invList_mono (S : List α) (P Q : Nat → Prop) (hPQ : ∀ x, P x → Q x) (d i : Nat) :
    ∀ cs : List (α × sorttrie α), inv.invList S P d i cs → inv.invList S Q d i cs
  | [], _ => by rw [inv.invList]; trivial
  | (k, c) :: cs, h => by
    rw [invList_cons] at h ⊢
    exact ⟨h.1, h.2.1, h.2.2.1, inv_mono S P Q hPQ c h.2.2.2.1,
      invList_mono S P Q hPQ d i cs h.2.2.2.2⟩

end

theorem key_equiv {k k' : α} (h : ¬ k' < k ∧ ¬ k < k') : k' = k :=
  le_antisymm (not_lt.1 h.2) (not_lt.1 h.1)

theorem invList_find (S : List α) (P : Nat → Prop) (d j : Nat) (el : α) (c : sorttrie α) :
    ∀ cs : List (α × sorttrie α), inv.invList S P d j cs → map_find el cs = some c →
      c.depth = d + 1 ∧ S[c.getidx + (d + 1)]? = some el ∧ agree S j c.getidx (d + 1) ∧
        c.inv S P := by
  intro cs
  induction cs with
  | nil => intro _ h; simp [map_find] at h
  | cons e cs ih =>
    obtain ⟨k, c0⟩ := e
    intro h hf
    rw [invList_cons] at h
    simp only [map_find] at hf
    by_cases hk : ¬ k < el ∧ ¬ el < k
    · rw [if_pos hk] at hf
      injection hf with hf
      subst hf
      have := key_equiv hk
      subst this
      exact ⟨h.1, h.2.1, h.2.2.1, h.2.2.2.1⟩
    · rw [if_neg hk] at hf
      exact ih h.2.2.2.2 hf

theorem invList_update (S : List α) (P Q : Nat → Prop) (hPQ : ∀ x, P x → Q x) (d j : Nat)
    (el : α) (c c' : sorttrie α) (hd : c'.depth = c.depth) (hi : c'.getidx = c.getidx)
    (hc : c'.inv S Q) :
    ∀ cs : List (α × sorttrie α), inv.invList S P d j cs → map_find el cs = some c →
      inv.invList S Q d j (map_update el c' cs) := by
  intro cs
  induction cs with
  | nil => intro _ h; simp [map_find] at h
  | cons e cs ih =>
    obtain ⟨k, c0⟩ := e
    intro h hf
    rw [invList_cons] at h
    simp only [map_find] at hf
    simp only [map_update]
    by_cases hk : ¬ k < el ∧ ¬ el < k
    · rw [if_pos hk] at hf ⊢
      injection hf with hf
      subst hf
      rw [invList_cons]
      refine ⟨by rw [hd]; exact h.1, by rw [hi]; exact h.2.1, by rw [hi]; exact h.2.2.1, hc, ?_⟩
      exact invList_mono S P Q hPQ d j cs h.2.2.2.2
    · rw [if_neg hk] at hf ⊢
      rw [invList_cons]
      exact ⟨h.1, h.2.1, h.2.2.1, inv_mono S P Q hPQ c0 h.2.2.2.1, ih h.2.2.2.2 hf⟩

theorem leaves_update (el : α) (c c' : sorttrie α) (i : Nat) (hl : c'.leaves.Perm (i :: c.leaves)) :
    ∀ cs : List (α × sorttrie α), map_find el cs = some c →
      (leaves.leavesList (map_update el c' cs)).Perm (i :: leaves.leavesList cs) := by
  intro cs
  induction cs with
  | nil => intro h; simp [map_find] at h
  | cons e cs ih =>
    obtain ⟨k, c0⟩ := e
    intro hf
    simp only [map_find] at hf
    simp only [map_update]
    by_cases hk : ¬ k < el ∧ ¬ el < k
    · rw [if_pos hk] at hf ⊢
      injection hf with hf
      subst hf
      rw [leavesList_cons, leavesList_cons]
      exact List.Perm.append_right _ hl
    · rw [if_neg hk] at hf ⊢
      rw [leavesList_cons, leavesList_cons]
      refine (List.Perm.append_left _ (ih hf)).trans ?_
      exact List.perm_middle

theorem map_update_ne_nil (el : α) (c' : sorttrie α) :
    ∀ cs : List (α × sorttrie α), cs ≠ [] → map_update el c' cs ≠ [] := by
  intro cs h
  cases cs with
  | nil => exact absurd rfl h
  | cons e cs =>
    obtain ⟨k, c0⟩ := e
    simp only [map_update]
    split <;> simp

theorem invList_insert (S : List α) (Q : Nat → Prop) (d j : Nat) (k : α) (c : sorttrie α)
    (h1 : c.depth = d + 1) (h2 : S[c.getidx + (d + 1)]? = some k)
    (h3 : agree S j c.getidx (d + 1)) (h4 : c.inv S Q) :
    ∀ cs : List (α × sorttrie α), inv.invList S Q d j cs →
      inv.invList S Q d j (map_insert k c cs) := by
  intro cs
  induction cs with
  | nil =>
    intro _
    simp only [map_insert]
    rw [invList_cons]
    exact ⟨h1, h2, h3, h4, by rw [inv.invList]; trivial⟩
  | cons e cs ih =>
    obtain ⟨k0, c0⟩ := e
    intro h
    simp only [map_insert]
    by_cases hk : k < k0
    · rw [if_pos hk, invList_cons]
      exact ⟨h1, h2, h3, h4, h⟩
    · rw [if_neg hk]
      by_cases hk' : k0 < k
      · rw [if_pos hk']
        rw [invList_cons] at h ⊢
        exact ⟨h.1, h.2.1, h.2.2.1, h.2.2.2.1, ih h.2.2.2.2⟩
      · rw [if_neg hk']
        exact h

theorem leaves_insert (k : α) (c : sorttrie α) :
    ∀ cs : List (α × sorttrie α), map_find k cs = none →
      (leaves.leavesList (map_insert k c cs)).Perm (c.leaves ++ leaves.leavesList cs) := by
  intro cs
  induction cs with
  | nil => intro _; simp only [map_insert]; exact List.Perm.refl _
  | cons e cs ih =>
    obtain ⟨k0, c0⟩ := e
    intro hf
    simp only [map_find] at hf
    by_cases hk : ¬ k0 < k ∧ ¬ k < k0
    · rw [if_pos hk] at hf; cases hf
    · rw [if_neg hk] at hf
      simp only [map_insert]
      by_cases hk1 : k < k0
      · rw [if_pos hk1]
        rw [leavesList_cons]
      · rw [if_neg hk1]
        have hk2 : k0 < k := by
          by_contra hc
          exact hk ⟨hc, hk1⟩
        rw [if_pos hk2, leavesList_cons, leavesList_cons]
        refine (List.Perm.append_left _ (ih hf)).trans ?_
        rw [← List.append_assoc, ← List.append_assoc]
        exact List.Perm.append_right _ List.perm_append_comm

theorem map_insert_ne_nil (k : α) (c : sorttrie α) :
    ∀ cs : List (α × sorttrie α), map_insert k c cs ≠ [] := by
  intro cs
  cases cs with
  | nil => simp [map_insert]
  | cons e cs =>
    obtain ⟨k0, c0⟩ := e
    simp only [map_insert]
    split
    · simp
    · split <;> simp

end maps

end sorttrie

end ns_suffixarray


set_option linter.unusedSectionVars false

namespace ns_suffixarray

namespace sorttrie

section walk

variable {α : Type} [LinearOrder α]

theorem prepare_ok (S : List α) (P : Nat → Prop) (ds j : Nat) (cs : List (α × sorttrie α))
    (hinv : (node ds j cs).inv S P) (hj : j + (ds + 1) < S.length) :
    ∃ cs1, (if (node ds j cs).isLeaf then makeChildSelf S (node ds j cs)
        else pure (node ds j cs)) = .ok (node ds j cs1) ∧ cs1 ≠ [] ∧
      (node ds j cs1).inv S P ∧ leaves.leavesList cs1 = (node ds j cs).leaves := by
  cases cs with
  | nil =>
    refine ⟨[(S[j + (ds + 1)], node (ds + 1) j [])], ?_, by simp, ?_, ?_⟩
    · simp [isLeaf, children, makeChildSelf, addChild, getelem, getidx, depth,
        vec_at_of_lt hj, map_insert]
    · rw [inv_node] at hinv ⊢
      refine ⟨hinv.1, ?_⟩
      rw [invList_cons]
      refine ⟨rfl, ?_, agree_refl (by omega), ?_, by rw [inv.invList]; trivial⟩
      · simp [getidx, List.getElem?_eq_getElem hj]
      · rw [inv_node]; exact ⟨hinv.1, by rw [inv.invList]; trivial⟩
    · rw [leavesList_cons, leaves_node, leaves_node]
      simp [leaves.leavesList]
  | cons e cs =>
    refine ⟨e :: cs, ?_, by simp, hinv, ?_⟩
    · simp [isLeaf, children]
    · rw [leaves_node]; simp

theorem walkNadd_succ (S : List α) (f : Nat) (s : sorttrie α) (d i : Nat) :
    walkNadd S (f + 1) s d i =
      ((if s.isLeaf then makeChildSelf S s else pure s) >>= fun s =>
        vec_read S (i + d) >>= fun el =>
          match map_find el s.children with
          | some c => walkNadd S f c (d + 1) i >>= fun c' =>
              pure (node s.depth s.getidx (map_update el c' s.children))
          | none => addChild S s (node d i [])) := rfl

/-- `walkNadd` returns: it adds the suffix `i` as one new leaf and keeps the shape of
the trie. -/
theorem walkNadd_ok {S : List α} (hs : valid_sentinel S) (P : Nat → Prop) (i : Nat)
    (hPi : ¬ P i) :
    ∀ (fuel : Nat) (s : sorttrie α) (d : Nat), s.inv S P → d = s.depth + 1 →
      agree S i s.getidx d → S.length < fuel + (i + d) →
      ∃ s', walkNadd S fuel s d i = .ok s' ∧ s'.inv S (fun x => P x ∨ x = i) ∧
        s'.depth = s.depth ∧ s'.getidx = s.getidx ∧ s'.leaves.Perm (i :: s.leaves) ∧
        s'.children ≠ [] := by
  intro fuel
  induction fuel with
  | zero =>
    intro s d hinv hd hag hf
    obtain ⟨ds, j, cs⟩ := s
    rw [inv_node] at hinv
    have hij : i ≠ j := fun h => hPi (h ▸ hinv.1)
    have := agree_next hs hij (by omega) hag
    simp only [getidx] at this
    omega
  | succ f ih =>
    intro s d hinv hd hag hf
    obtain ⟨ds, j, cs⟩ := s
    simp only [depth] at hd
    simp only [getidx] at hag
    have hPj : P j := by rw [inv_node] at hinv; exact hinv.1
    have hij : i ≠ j := fun h => hPi (h ▸ hPj)
    obtain ⟨hid, hjd⟩ := agree_next hs hij (by omega) hag
    subst hd
    obtain ⟨cs1, hprep, hne, hinv1, hleaves⟩ := prepare_ok S P ds j cs hinv hjd
    rw [inv_node] at hinv1
    rw [walkNadd_succ, hprep]
    simp only [ok_bind, vec_read_of_lt hid, children]
    cases hfind : map_find S[i + (ds + 1)] cs1 with
    | some c =>
      obtain ⟨hc1, hc2, hc3, hc4⟩ := invList_find S P ds j _ c cs1 hinv1.2 hfind
      have hic : agree S i c.getidx (ds + 1 + 1) := by
        refine agree_succ (agree_trans hag hc3) hid ?_ ?_
        · by_contra hcon
          rw [List.getElem?_eq_none (by omega)] at hc2
          cases hc2
        · rw [hc2, List.getElem?_eq_getElem hid]
      obtain ⟨c', hw, hi1, hi2, hi3, hi4, _⟩ := ih c (ds + 1 + 1) hc4 (by omega) hic (by omega)
      refine ⟨node ds j (map_update S[i + (ds + 1)] c' cs1), ?_, ?_, rfl, rfl, ?_, ?_⟩
      · simp [hw, depth, getidx]
      · rw [inv_node]
        refine ⟨Or.inl hPj, ?_⟩
        exact invList_update S P _ (fun x hx => Or.inl hx) ds j _ c c' hi2 hi3 hi1 cs1
          hinv1.2 hfind
      · rw [leaves_node]
        have hne' := map_update_ne_nil S[i + (ds + 1)] c' cs1 hne
        have : (map_update S[i + (ds + 1)] c' cs1).isEmpty = false := by
          cases hm : map_update S[i + (ds + 1)] c' cs1 with
          | nil => exact absurd hm hne'
          | cons _ _ => rfl
        rw [this, ← hleaves]
        exact leaves_update _ c c' i hi4 cs1 hfind
      · simp only [children]
        exact map_update_ne_nil _ c' cs1 hne
    | none =>
      refine ⟨node ds j (map_insert S[i + (ds + 1)] (node (ds + 1) i []) cs1), ?_, ?_, rfl,
        rfl, ?_, ?_⟩
      · simp [addChild, getelem, getidx, depth, vec_at_of_lt hid, children]
      · rw [inv_node]
        refine ⟨Or.inl hPj, ?_⟩
        refine invList_insert S _ ds j S[i + (ds + 1)] (node (ds + 1) i []) rfl ?_
          (agree_symm hag) ?_ cs1 ?_
        · simp [getidx, List.getElem?_eq_getElem hid]
        · rw [inv_node]; exact ⟨Or.inr rfl, by rw [inv.invList]; trivial⟩
        · exact invList_mono S P _ (fun x hx => Or.inl hx) ds j cs1 hinv1.2
      · rw [leaves_node]
        have hne' := map_insert_ne_nil S[i + (ds + 1)] (node (ds + 1) i []) cs1
        have : (map_insert S[i + (ds + 1)] (node (ds + 1) i []) cs1).isEmpty = false := by
          cases hm : map_insert S[i + (ds + 1)] (node (ds + 1) i []) cs1 with
          | nil => exact absurd hm hne'
          | cons _ _ => rfl
        rw [this, ← hleaves]
        have := leaves_insert S[i + (ds + 1)] (node (ds + 1) i []) cs1 hfind
        rw [leaves_node] at this
        simpa using this
      · simp only [children]
        exact map_insert_ne_nil _ _ cs1

end walk

section traversal

variable {α : Type}

theorem count_node (d i : Nat) (cs : List (α × sorttrie α)) :
    (node d i cs).count = 1 + count.countList cs := by
  rw [count]

theorem countList_eq (cs : List (α × sorttrie α)) :
    count.countList cs = countStack (cs.map Prod.snd) := by
  induction cs with
  | nil => rw [count.countList]; rfl
  | cons e cs ih =>
    obtain ⟨k, c⟩ := e
    rw [count.countList, ih]; rfl

theorem countStack_append (s t : List (sorttrie α)) :
    countStack (s ++ t) = countStack s + countStack t := by
  induction s with
  | nil => simp [countStack]
  | cons x s ih => simp [countStack, ih]; omega

theorem leavesStack_append (s t : List (sorttrie α)) :
    leavesStack (s ++ t) = leavesStack s ++ leavesStack t := by
  induction s with
  | nil => simp [leavesStack]
  | cons x s ih => simp [leavesStack, ih]

end traversal

end sorttrie

end ns_suffixarray


set_option linter.unusedSectionVars false

namespace ns_suffixarray

namespace sorttrie

section traversal

variable {α : Type}

theorem leavesList_eq (cs : List (α × sorttrie α)) :
    leaves.leavesList cs = leavesStack (cs.map Prod.snd) := by
  induction cs with
  | nil => rw [leaves.leavesList]; rfl
  | cons e cs ih =>
    obtain ⟨k, c⟩ := e
    rw [leaves.leavesList, ih]; rfl

theorem getSort_loop_eq : ∀ (fuel : Nat) (stack : List (sorttrie α)) (uit : List Nat),
    countStack stack < fuel → getSort_loop fuel stack uit = uit ++ leavesStack stack := by
  intro fuel
  induction fuel with
  | zero => intro stack uit h; omega
  | succ f ih =>
    intro stack uit h
    cases stack with
    | nil => simp [getSort_loop, leavesStack]
    | cons curr s =>
      obtain ⟨d, i, cs⟩ := curr
      simp only [countStack, count_node] at h
      cases cs with
      | nil =>
        simp only [getSort_loop, isLeaf, children, List.isEmpty_nil, if_true, getidx]
        rw [ih s (uit ++ [i]) (by omega)]
        simp [leavesStack, leaves_node]
      | cons e cs =>
        simp only [getSort_loop, isLeaf, children, List.isEmpty_cons, Bool.false_eq_true,
          if_false]
        rw [ih _ uit (by rw [countStack_append, ← countList_eq]; omega)]
        rw [leavesStack_append, ← leavesList_eq]
        simp [leavesStack, leaves_node]

/-- The stack traversal `getSort` returns the leaves of the trie. -/
theorem getSort_eq (t : sorttrie α) : getSort t = t.leaves := by
  unfold getSort
  rw [getSort_loop_eq _ _ _ (by simp [countStack])]
  simp [leavesStack]

end traversal

end sorttrie

section bucket

variable {α : Type} [LinearOrder α]

theorem ds2_insert_ok {S : List α} (hs : valid_sentinel S) :
    ∀ (rest : List Nat) (root : sorttrie α) (ins : List Nat),
      root.inv S (fun x => x ∈ ins) → root.depth = 1 →
      (∀ i ∈ rest, i ∉ ins ∧ agree S i root.getidx 2) → rest.Nodup →
      ∃ r, ds2_insert S 2 root rest = .ok r ∧ r.leaves.Perm (rest ++ root.leaves) := by
  intro rest
  induction rest with
  | nil => intro root ins _ _ _ _; exact ⟨root, rfl, by simp⟩
  | cons i rest ih =>
    intro root ins hinv hd hall hnd
    obtain ⟨hi1, hi2⟩ := hall i (List.mem_cons_self _ _)
    obtain ⟨r1, hw, hinv1, hd1, hidx1, hl1, _⟩ :=
      sorttrie.walkNadd_ok hs (fun x => x ∈ ins) i hi1 (S.length + 1) root 2 hinv
        (by omega) hi2 (by omega)
    have hinv2 : r1.inv S (fun x => x ∈ i :: ins) :=
      sorttrie.inv_mono S _ _ (fun x hx => by
        rcases hx with hx | hx
        · exact List.mem_cons_of_mem _ hx
        · rw [hx]; exact List.mem_cons_self _ _) r1 hinv1
    rw [List.nodup_cons] at hnd
    obtain ⟨r, hr, hl⟩ := ih r1 (i :: ins) hinv2 (by omega) (fun x hx => by
      obtain ⟨hx1, hx2⟩ := hall x (List.mem_cons_of_mem _ hx)
      refine ⟨?_, by rw [hidx1]; exact hx2⟩
      intro hmem
      rcases List.mem_cons.1 hmem with h | h
      · exact hnd.1 (h ▸ hx)
      · exact hx1 h) hnd.2
    refine ⟨r, by simp [ds2_insert, hw, hr], hl.trans ?_⟩
    refine (List.Perm.append_left rest hl1).trans ?_
    simp only [List.cons_append]
    exact List.perm_middle

/-- `ds2` returns a permutation of a bucket of different positions whose suffixes
agree on their first two elements. -/
theorem ds2_ok {S : List α} (hs : valid_sentinel S) (bucket : List Nat) (hnd : bucket.Nodup)
    (hag : ∀ x ∈ bucket, ∀ y ∈ bucket, agree S x y 2) :
    ∃ r, ds2 S bucket 2 = .ok r ∧ r.Perm bucket := by
  unfold ds2
  by_cases hlen : bucket.length < 5
  · rw [if_pos hlen]
    exact sort_perm _ bucket (fun a ha b hb => SACmp_deep_ok hs (hag a ha b hb))
  · rw [if_neg hlen]
    cases bucket with
    | nil => exact ⟨[], rfl, List.Perm.refl _⟩
    | cons first rest =>
      cases rest with
      | nil => simp at hlen
      | cons y rest =>
        have hfy : first ≠ y := by
          intro h
          rw [List.nodup_cons] at hnd
          exact hnd.1 (h ▸ List.mem_cons_self _ _)
        have h2 := (agree_next hs hfy (by omega)
          (hag first (by simp) y (by simp))).1
        have hroot : sorttrie.makeChildSelf S (sorttrie.node (2 - 1) first []) =
            .ok (sorttrie.node 1 first [(S[first + 2], sorttrie.node 2 first [])]) := by
          simp [sorttrie.makeChildSelf, sorttrie.addChild, sorttrie.getelem, sorttrie.getidx,
            sorttrie.depth, vec_at_of_lt h2, sorttrie.map_insert, sorttrie.children]
        have hinv : (sorttrie.node 1 first [(S[first + 2], sorttrie.node 2 first [])]).inv S
            (fun x => x ∈ [first]) := by
          rw [sorttrie.inv_node]
          refine ⟨by simp, ?_⟩
          rw [sorttrie.invList_cons]
          refine ⟨rfl, ?_, agree_refl (by omega), ?_, by rw [sorttrie.inv.invList]; trivial⟩
          · simp [sorttrie.getidx, List.getElem?_eq_getElem h2]
          · rw [sorttrie.inv_node]
            exact ⟨by simp, by rw [sorttrie.inv.invList]; trivial⟩
        rw [List.nodup_cons] at hnd
        obtain ⟨r, hr, hl⟩ := ds2_insert_ok hs (y :: rest) _ [first] hinv rfl (fun i hi => by
          refine ⟨?_, hag i (List.mem_cons_of_mem _ hi) first (by simp)⟩
          intro hmem
          rw [List.mem_singleton] at hmem
          exact hnd.1 (hmem ▸ hi)) hnd.2
        have hleaves : (sorttrie.node 1 first [(S[first + 2], sorttrie.node 2 first [])]).leaves
            = [first] := by
          rw [sorttrie.leaves_node]
          simp [sorttrie.leaves.leavesList, sorttrie.leaves_node]
        rw [hleaves] at hl
        have hperm : (sorttrie.getSort r).Perm (first :: y :: rest) := by
          rw [sorttrie.getSort_eq]
          exact hl.trans (@List.perm_append_comm _ (y :: rest) [first])
        refine ⟨sorttrie.getSort r, ?_, hperm⟩
        simp only [hroot, ok_bind, hr]
        rw [if_neg (by rw [hperm.length_eq]; simp)]
        rfl

end bucket

end ns_suffixarray


set_option linter.unusedSectionVars false

namespace ns_suffixarray

/-! ## The bucket scan of `ds` -/

section scan

variable {α : Type} [LinearOrder α]

theorem nodup_getElem?_inj {l : List Nat} (h : l.Nodup) {i j x : Nat}
    (hi : l[i]? = some x) (hj : l[j]? = some x) : i = j := by
  rw [List.nodup_iff_getElem?_ne_getElem?] at h
  have hil : i < l.length := by
    by_contra hc; rw [List.getElem?_eq_none (by omega)] at hi; cases hi
  have hjl : j < l.length := by
    by_contra hc; rw [List.getElem?_eq_none (by omega)] at hj; cases hj
  rcases Nat.lt_trichotomy i j with hlt | heq | hgt
  · exact absurd (hi.trans hj.symm) (h i j hlt hjl)
  · exact heq
  · exact absurd (hj.trans hi.symm) (h j i hgt hil)

/-- The elements of a range that satisfies `bucket_inv` agree pairwise on their first
two elements. -/
theorem bucket_inv_agree {S : List α} {idx : List Nat} {backit upto : Nat} {a b : α}
    (h : bucket_inv S idx backit upto a b) :
    ∀ x ∈ (idx.drop backit).take (upto - backit), ∀ y ∈ (idx.drop backit).take (upto - backit),
      agree S x y 2 := by
  have key : ∀ x ∈ (idx.drop backit).take (upto - backit),
      x + 1 < S.length ∧ S[x]? = some a ∧ S[x + 1]? = some b := by
    intro x hx
    rw [List.mem_iff_getElem?] at hx
    obtain ⟨k, hk⟩ := hx
    have hk1 : k < upto - backit := by
      by_contra hc
      rw [List.getElem?_take_eq_none (by omega)] at hk
      cases hk
    rw [List.getElem?_take_of_lt hk1, List.getElem?_drop] at hk
    obtain ⟨x', hx', h1, h2, h3⟩ := h (backit + k) (by omega) (by omega)
    rw [hk] at hx'
    injection hx' with hx'
    subst hx'
    exact ⟨h1, h2, h3⟩
  intro x hx y hy
  obtain ⟨hx1, hx2, hx3⟩ := key x hx
  obtain ⟨hy1, hy2, hy3⟩ := key y hy
  intro k hk
  have : k = 0 ∨ k = 1 := by omega
  rcases this with rfl | rfl
  · exact ⟨by omega, by omega, by simp [hx2, hy2]⟩
  · exact ⟨by omega, by omega, by rw [hx3, hy3]⟩

/-- `ds2` on a range of the index returns a permutation of the index that leaves the
positions from `frontit` on as they are. -/
theorem ds2_range_ok {S : List α} (hs : valid_sentinel S) (idx : List Nat) (hnd : idx.Nodup)
    (backit frontit : Nat) (hbf : backit ≤ frontit) (hf : frontit ≤ idx.length) (a b : α)
    (hb : bucket_inv S idx backit frontit a b) :
    ∃ idx', ds2_range S idx backit frontit = .ok idx' ∧ idx'.Perm idx ∧
      ∀ k, frontit ≤ k → idx'[k]? = idx[k]? := by
  have hsub : ((idx.drop backit).take (frontit - backit)).Nodup :=
    List.Nodup.sublist ((List.take_sublist _ _).trans (List.drop_sublist _ _)) hnd
  obtain ⟨r, hr, hp⟩ := ds2_ok hs _ hsub (bucket_inv_agree hb)
  refine ⟨idx.take backit ++ r ++ idx.drop frontit, by simp [ds2_range, hr], ?_, ?_⟩
  · have hsplit : idx = idx.take backit ++ ((idx.drop backit).take (frontit - backit) ++
        idx.drop frontit) := by
      have h1 : idx.drop frontit = (idx.drop backit).drop (frontit - backit) := by
        rw [List.drop_drop]; congr 1; omega
      rw [h1, List.take_append_drop, List.take_append_drop]
    conv => rhs; rw [hsplit]
    rw [List.append_assoc]
    exact List.Perm.append_left _ (List.Perm.append_right _ hp)
  · intro k hk
    have hlen : (idx.take backit ++ r).length = frontit := by
      rw [List.length_append, hp.length_eq, List.length_take, List.length_take,
        List.length_drop]
      omega
    rw [List.getElem?_append_right (by omega), hlen, List.getElem?_drop]
    congr 1; omega

/-- The scan of `ds` returns, with a permutation of the index whose last bucket is
described by `bucket_inv`. -/
theorem ds_scan_ok {S : List α} (hs : valid_sentinel S) :
    ∀ (m p backit : Nat) (a b : α) (idx : List Nat), p + m = S.length → backit < p →
      idx.Perm (List.range S.length) → idx[S.length - 1]? = some (S.length - 1) →
      bucket_inv S idx backit (min p (S.length - 1)) a b →
      ∃ idx' backit' a' b', ds_scan S (List.range' p m) backit a b idx = .ok (idx', backit') ∧
        idx'.Perm (List.range S.length) ∧ idx'[S.length - 1]? = some (S.length - 1) ∧
        backit' < S.length ∧ bucket_inv S idx' backit' (S.length - 1) a' b' := by
  intro m
  induction m with
  | zero =>
    intro p backit a b idx hpm hbp hperm hlast hb
    refine ⟨idx, backit, a, b, rfl, hperm, hlast, by omega, ?_⟩
    have : min p (S.length - 1) = S.length - 1 := by omega
    rw [this] at hb
    exact hb
  | succ m ih =>
    intro p backit a b idx hpm hbp hperm hlast hb
    have hlen : idx.length = S.length := by rw [hperm.length_eq, List.length_range]
    have hnd : idx.Nodup := (List.Perm.nodup_iff hperm).2 (List.nodup_range _)
    have hp : p < idx.length := by omega
    obtain ⟨x, hxp⟩ : ∃ x, idx[p]? = some x := ⟨idx[p], List.getElem?_eq_getElem hp⟩
    have hxmem : x ∈ List.range S.length := hperm.subset (List.mem_iff_getElem?.2 ⟨p, hxp⟩)
    rw [List.mem_range] at hxmem
    rw [List.range'_succ]
    simp only [ds_scan, vec_read_of_some hxp, ok_bind]
    by_cases hx1 : x + 1 < S.length
    · obtain ⟨sa, hsa⟩ : ∃ sa, S[x]? = some sa := ⟨S[x], List.getElem?_eq_getElem hxmem⟩
      obtain ⟨sb, hsb⟩ : ∃ sb, S[x + 1]? = some sb := ⟨S[x + 1], List.getElem?_eq_getElem hx1⟩
      have hpn : p ≠ S.length - 1 := by
        intro hc
        rw [hc, hlast] at hxp
        injection hxp with hxp
        omega
      simp only [hx1, if_true, vec_read_of_some hsa, vec_read_of_some hsb, ok_bind]
      by_cases hcut : a ≠ sa ∨ b ≠ sb
      · rw [if_pos hcut]
        have hmin : min p (S.length - 1) = p := by omega
        rw [hmin] at hb
        have hstep : ∃ idx1, (if p - backit > 1 then ds2_range S idx backit p else pure idx)
            = .ok idx1 ∧ idx1.Perm idx ∧ ∀ k, p ≤ k → idx1[k]? = idx[k]? := by
          by_cases hgt : p - backit > 1
          · rw [if_pos hgt]
            exact ds2_range_ok hs idx hnd backit p (by omega) (by omega) a b hb
          · rw [if_neg hgt]
            exact ⟨idx, rfl, List.Perm.refl _, fun _ _ => rfl⟩
        obtain ⟨idx1, h1, hp1, hk1⟩ := hstep
        simp only [h1, ok_bind]
        refine ih (p + 1) p sa sb idx1 (by omega) (by omega)
          (hp1.trans hperm) (by rw [hk1 _ (by omega)]; exact hlast) ?_
        intro k hk1' hk2
        have hkp : k = p := by omega
        subst hkp
        exact ⟨x, by rw [hk1 k (le_refl _)]; exact hxp, hx1, hsa, hsb⟩
      · rw [if_neg hcut]
        refine ih (p + 1) backit a b idx (by omega) (by omega) hperm hlast ?_
        intro k hk1 hk2
        by_cases hkp : k = p
        · subst hkp
          rw [not_or, not_not, not_not] at hcut
          exact ⟨x, hxp, hx1, by rw [hcut.1]; exact hsa, by rw [hcut.2]; exact hsb⟩
        · exact hb k hk1 (by omega)
    · simp only [hx1, if_false]
      have hxe : x = S.length - 1 := by omega
      have hpe : p = S.length - 1 := by
        rw [hxe] at hxp
        exact nodup_getElem?_inj hnd hxp hlast
      refine ih (p + 1) backit a b idx (by omega) (by omega) hperm hlast ?_
      have h1 : min (p + 1) (S.length - 1) = S.length - 1 := by omega
      have h2 : min p (S.length - 1) = S.length - 1 := by omega
      rw [h1]; rw [h2] at hb; exact hb

end scan

end ns_suffixarray


set_option linter.unusedSectionVars false

namespace ns_suffixarray

/-! ## The suffix array of a constructed object -/

section constructor_idx

variable {α : Type} [DecidableEq α] [LT α] [DecidableRel (fun (a b : α) => a < b)]

/-- The table passes of the constructor do not touch the suffix array: the index of
a constructed object is the list `ds()` returned. -/
theorem build_idx {std_sort : sorter} {S : List α} {s : suffixarray α}
    (h : suffixarray.build std_sort S = .ok s) :
    ds std_sort S (List.range S.length) = .ok s.idx ∧ s.content = S := by
  unfold suffixarray.build at h
  obtain ⟨idx, hds, h⟩ := bind_eq_ok.1 h
  obtain ⟨s1, h1, h⟩ := bind_eq_ok.1 h
  unfold suffixarray.fill_lcp at h1
  obtain ⟨rank, _, h1⟩ := bind_eq_ok.1 h1
  obtain ⟨tabs1, _, h1⟩ := bind_eq_ok.1 h1
  unfold suffixarray.fill_up_down_nextl at h
  obtain ⟨tabs2, _, h⟩ := bind_eq_ok.1 h
  simp only [pure_eq_ok, Except.ok.injEq] at h1 h
  subst h1
  subst h
  exact ⟨hds, rfl⟩

end constructor_idx

end ns_suffixarray


set_option linter.unusedSectionVars false

namespace ns_suffixarray

/-! ## Arithmetic in `size_type` -/

section sizes

theorem size_sub_eq {a b : Nat} (hb : b ≤ a) (ha : a < SIZE_MOD) : size_sub a b = a - b := by
  unfold size_sub
  rw [if_pos hb]
  exact Nat.mod_eq_of_lt (by omega)

theorem interval_size_eq (i j : Nat) (h : i ≤ j) (hj : j + 1 < SIZE_MOD) :
    (interval.mk i j).size = j - i + 1 := by
  unfold interval.size
  rw [size_sub_eq h (by omega)]
  exact Nat.mod_eq_of_lt (by omega)

end sizes

/-! ## The result loops of the query members -/

section results

theorem collect_interval_eq (idx : List Nat) (currj : Nat) (hcj : currj < idx.length)
    (hlen : idx.length < SIZE_MOD) :
    ∀ (fuel j : Nat) (acc : List Nat), j ≤ currj + 1 → currj + 1 - j < fuel →
      suffixarray.collect_interval idx currj fuel j acc =
        .ok (acc ++ (idx.drop j).take (currj + 1 - j)) := by
  intro fuel
  induction fuel with
  | zero => intro j acc _ h; omega
  | succ f ih =>
    intro j acc hj hf
    by_cases hle : j ≤ currj
    · have hjl : j < idx.length := by omega
      have hmod : (j + 1) % SIZE_MOD = j + 1 := Nat.mod_eq_of_lt (by omega)
      simp only [suffixarray.collect_interval, hle, if_true, vec_at_of_lt hjl, ok_bind, hmod]
      rw [ih (j + 1) _ (by omega) (by omega)]
      have h1 : currj + 1 - j = (currj + 1 - (j + 1)) + 1 := by omega
      rw [h1, List.drop_eq_getElem_cons hjl, List.take_succ_cons]
      simp
    · have hje : currj + 1 - j = 0 := by omega
      simp [suffixarray.collect_interval, hle, hje]

end results

section empty_pattern

variable {α : Type} [DecidableEq α] [LT α] [DecidableRel (fun (a b : α) => a < b)]

theorem descend_zero (s : suffixarray α) (w : List α) (wildcard : α) (depth : Nat)
    (ts : List interval) : suffixarray.descend s w wildcard 0 depth ts = .ok ts := rfl

/-- With the empty pattern the traversal loop does not run: the three query members
return the size of the index, the whole suffix array and its first entry. -/
theorem empty_pattern_results (s : suffixarray α) (wildcard : α) (h1 : 1 ≤ s.idx.length)
    (hlen : s.idx.length < SIZE_MOD) :
    s.find_all_positions_count [] wildcard = .ok s.idx.length ∧
    s.find_all_positions [] wildcard = .ok s.idx ∧
    s.find_position [] wildcard = vec_at s.idx 0 := by
  have hroot : size_sub s.idx.length 1 = s.idx.length - 1 := size_sub_eq h1 hlen
  refine ⟨?_, ?_, ?_⟩
  · unfold suffixarray.find_all_positions_count
    rw [List.length_nil, descend_zero]
    simp only [ok_bind, pure_eq_ok, suffixarray.getRootInterval, hroot, List.foldl_cons,
      List.foldl_nil]
    have hs : (interval.mk 0 (s.idx.length - 1)).size = s.idx.length := by
      rw [interval_size_eq 0 (s.idx.length - 1) (Nat.zero_le _) (by omega)]
      omega
    rw [hs, Nat.zero_add, Nat.mod_eq_of_lt hlen]
  · unfold suffixarray.find_all_positions
    rw [List.length_nil, descend_zero]
    simp only [ok_bind, hroot, suffixarray.collect]
    rw [collect_interval_eq s.idx _ (by omega) hlen _ 0 [] (by omega) (by omega)]
    have : s.idx.length - 1 + 1 - 0 = s.idx.length := by omega
    rw [this, List.drop_zero, List.take_length, List.nil_append]
    rfl
  · unfold suffixarray.find_position
    rw [List.length_nil, descend_zero]
    rfl

end empty_pattern

end ns_suffixarray


set_option linter.unusedSectionVars false

namespace ns_suffixarray

/-! ## `sort(subgram.begin(), subgram.end())`: the sort on positions -/

section position_sort

theorem linear_insert_lt_sorted (val : Nat) :
    ∀ l : List Nat, l.Pairwise (fun a b => b ≤ a) →
      ∃ r, linear_insert (fun a b => pure (decide (a < b))) val l = .ok r ∧
        r.Perm (val :: l) ∧ r.Pairwise (fun a b => b ≤ a) := by
  intro l
  induction l with
  | nil => intro _; exact ⟨[val], rfl, List.Perm.refl _, List.pairwise_singleton _ _⟩
  | cons y ys ih =>
    intro h
    obtain ⟨r, hr, hp, hs⟩ := ih (List.Pairwise.of_cons h)
    by_cases hlt : val < y
    · refine ⟨y :: r, ?_, ?_, ?_⟩
      · have hr2 : linear_insert (fun a b => Except.ok (decide (a < b))) val ys = .ok r := hr
        simp only [linear_insert, pure_eq_ok, ok_bind, hlt, decide_True, if_true, hr2]
      · exact (List.Perm.cons y hp).trans (List.Perm.swap _ _ _)
      · refine List.pairwise_cons.2 ⟨?_, hs⟩
        intro a ha
        rcases List.mem_cons.1 (hp.subset ha) with h1 | h1
        · omega
        · exact (List.pairwise_cons.1 h).1 a h1
    · refine ⟨val :: y :: ys, ?_, List.Perm.refl _, ?_⟩
      · simp only [linear_insert, pure_eq_ok, ok_bind, hlt, decide_False, Bool.false_eq_true,
          if_false]
      · refine List.pairwise_cons.2 ⟨?_, h⟩
        intro a ha
        rcases List.mem_cons.1 ha with h1 | h1
        · omega
        · have := (List.pairwise_cons.1 h).1 a h1
          omega

theorem insert_step_lt_sorted (done : List Nat) (val : Nat)
    (h : done.Pairwise (fun a b => a ≤ b)) :
    ∃ d, insert_step (fun a b => pure (decide (a < b))) done val = .ok d ∧
      d.Perm (done ++ [val]) ∧ d.Pairwise (fun a b => a ≤ b) := by
  cases done with
  | nil => exact ⟨[val], rfl, List.Perm.refl _, List.pairwise_singleton _ _⟩
  | cons first rest =>
    by_cases hlt : val < first
    · refine ⟨val :: first :: rest, ?_, ?_, ?_⟩
      · simp only [insert_step, pure_eq_ok, ok_bind, hlt, decide_True, if_true]
      · exact (@List.perm_append_comm _ [val] (first :: rest))
      · refine List.pairwise_cons.2 ⟨?_, h⟩
        intro a ha
        rcases List.mem_cons.1 ha with h1 | h1
        · omega
        · have := (List.pairwise_cons.1 h).1 a h1
          omega
    · obtain ⟨r, hr, hp, hs⟩ := linear_insert_lt_sorted val (first :: rest).reverse
        (List.pairwise_reverse.2 h)
      refine ⟨r.reverse, ?_, ?_, List.pairwise_reverse.2 hs⟩
      · have hr2 : linear_insert (fun a b => Except.ok (decide (a < b))) val
            (first :: rest).reverse = .ok r := hr
        simp only [insert_step, pure_eq_ok, ok_bind, hlt, decide_False, Bool.false_eq_true,
          if_false, hr2]
      · refine (List.reverse_perm r).trans (hp.trans ?_)
        refine (List.Perm.cons val (List.reverse_perm _)).trans ?_
        exact (@List.perm_append_comm _ [val] (first :: rest))

theorem insertion_sort_lt_sorted :
    ∀ (rest done : List Nat), done.Pairwise (fun a b => a ≤ b) →
      ∃ r, insertion_sort (fun a b => pure (decide (a < b))) done rest = .ok r ∧
        r.Perm (done ++ rest) ∧ r.Pairwise (fun a b => a ≤ b) := by
  intro rest
  induction rest with
  | nil => intro done h; exact ⟨done, rfl, by simp, h⟩
  | cons v rest ih =>
    intro done h
    obtain ⟨d, hd, hp, hs⟩ := insert_step_lt_sorted done v h
    obtain ⟨r, hr, hp2, hs2⟩ := ih d hs
    refine ⟨r, by simp only [insertion_sort, hd, ok_bind, hr], hp2.trans ?_, hs2⟩
    have : (done ++ v :: rest) = (done ++ [v]) ++ rest := by simp
    rw [this]
    exact List.Perm.append_right rest hp

/-- The sort of a position list returns, and returns the ascending permutation. -/
theorem sort_lt_sorted (l : List Nat) :
    ∃ r, sort (fun a b => pure (decide (a < b))) l = .ok r ∧ r.Perm l ∧
      r.Pairwise (fun a b => a ≤ b) := by
  obtain ⟨r, hr, hp, hs⟩ := insertion_sort_lt_sorted l [] List.Pairwise.nil
  exact ⟨r, hr, by simpa using hp, hs⟩

end position_sort

section few_parts

variable {α : Type} [DecidableEq α] [LT α] [DecidableRel (fun (a b : α) => a < b)]

theorem skip_no_part (s : suffixarray α) (minskip maxskip : Nat) (wildcard : α) :
    s.find_all_positions_skip [] minskip maxskip wildcard = .ok [] := rfl

theorem skip_one_part (s : suffixarray α) (w1 : List α) (minskip maxskip : Nat)
    (wildcard : α) :
    s.find_all_positions_skip [w1] minskip maxskip wildcard =
      (s.find_all_positions w1 wildcard >>= fun P =>
        sort (fun a b => pure (decide (a < b))) P) := by
  unfold suffixarray.find_all_positions_skip
  cases h : s.find_all_positions w1 wildcard with
  | error e => simp [suffixarray.skip_subgrams, h]
  | ok P =>
    cases h2 : sort (fun a b => pure (decide (a < b))) P with
    | error e =>
      have h3 : sort (fun a b => Except.ok (decide (a < b))) P = .error e := h2
      simp [suffixarray.skip_subgrams, h, h3]
    | ok r =>
      have h3 : sort (fun a b => Except.ok (decide (a < b))) P = .ok r := h2
      simp [suffixarray.skip_subgrams, h, h3, vec_at]

theorem skip_count_eq (s : suffixarray α) (w : List (List α)) (minskip maxskip : Nat)
    (wildcard : α) :
    s.find_all_positions_skip_count w minskip maxskip wildcard =
      (s.find_all_positions_skip w minskip maxskip wildcard).map List.length := by
  unfold suffixarray.find_all_positions_skip_count
  cases s.find_all_positions_skip w minskip maxskip wildcard <;> rfl

end few_parts

end ns_suffixarray


set_option linter.unusedSectionVars false
set_option linter.unusedVariables false

namespace ns_suffixarray

open suffixarray

/-! ## The ranges of the skip-gram walk -/

section ranges

theorem skip_deref_cons {iters : List (List Nat)} {m x : Nat} {R : List Nat}
    (h : iters[m]? = some (x :: R)) : skip_deref iters m = .ok x := by
  simp [skip_deref, h]

theorem skip_at_end_nil {iters : List (List Nat)} {m : Nat} (h : iters[m]? = some []) :
    skip_at_end iters m = true := by
  simp [skip_at_end, h]

theorem skip_at_end_cons {iters : List (List Nat)} {m x : Nat} {R : List Nat}
    (h : iters[m]? = some (x :: R)) : skip_at_end iters m = false := by
  simp [skip_at_end, h]

theorem skip_incr_length (iters : List (List Nat)) (m : Nat) :
    (skip_incr iters m).length = iters.length := by
  simp [skip_incr]

theorem skip_incr_eq {iters : List (List Nat)} {m : Nat} {R : List Nat}
    (h : iters[m]? = some R) : (skip_incr iters m)[m]? = some R.tail := by
  simp [skip_incr, h]

theorem skip_incr_ne (iters : List (List Nat)) {m j : Nat} (h : m ≠ j) :
    (skip_incr iters m)[j]? = iters[j]? := by
  simp [skip_incr, List.getElem?_modify_ne _ _ h]

theorem skip_incr_sub (iters : List (List Nat)) (m j : Nat) (R1 : List Nat)
    (h : (skip_incr iters m)[j]? = some R1) :
    ∃ R2, iters[j]? = some R2 ∧ ∀ x ∈ R1, x ∈ R2 := by
  by_cases hj : m = j
  · subst hj
    have hlt : m < iters.length := by
      have := (List.getElem?_eq_some_iff.1 h).1
      rwa [skip_incr_length] at this
    refine ⟨iters[m], List.getElem?_eq_getElem hlt, ?_⟩
    rw [skip_incr_eq (List.getElem?_eq_getElem hlt)] at h
    injection h with h
    subst h
    intro x hx
    exact List.mem_of_mem_tail hx
  · rw [skip_incr_ne iters hj] at h
    exact ⟨R1, h, fun x hx => hx⟩

theorem skip_total_incr : ∀ (iters : List (List Nat)) (m x : Nat) (R : List Nat),
    iters[m]? = some (x :: R) → skip_total (skip_incr iters m) + 1 = skip_total iters := by
  intro iters
  induction iters with
  | nil => intro m x R h; simp at h
  | cons a rest ih =>
    intro m x R h
    cases m with
    | zero =>
      simp at h
      subst h
      simp [skip_total, skip_incr]
      omega
    | succ m =>
      simp at h
      have := ih m x R h
      simp [skip_total, skip_incr] at this ⊢
      omega

end ranges

/-! ## Chains of positions -/

section chains

variable {T : Nat → Nat → Prop}

theorem skip_chain_mono {l1 l2 : List (List Nat)} {xs : List Nat}
    (hlen : l1.length = l2.length)
    (hsub : ∀ (m : Nat) (R1 : List Nat), l1[m]? = some R1 →
      ∃ R2, l2[m]? = some R2 ∧ ∀ x ∈ R1, x ∈ R2)
    (h : skip_chain T l1 xs) : skip_chain T l2 xs := by
  obtain ⟨h1, h2, h3⟩ := h
  refine ⟨by rw [h1, hlen], ?_, h3⟩
  intro m P x hP hx
  have hm : m < l1.length := by
    rw [← h1]
    exact (List.getElem?_eq_some_iff.1 hx).1
  obtain ⟨R2, hR2, hs⟩ := hsub m l1[m] (List.getElem?_eq_getElem hm)
  rw [hP] at hR2
  injection hR2 with hR2
  subst hR2
  exact hs x (h2 m _ x (List.getElem?_eq_getElem hm) hx)

theorem skip_chain_of_incr {iters : List (List Nat)} {m : Nat} {xs : List Nat}
    (h : skip_chain T (skip_incr iters m) xs) : skip_chain T iters xs :=
  skip_chain_mono (skip_incr_length iters m) (skip_incr_sub iters m) h

theorem skip_chain_incr {iters : List (List Nat)} {m x : Nat} {R xs : List Nat}
    (h : skip_chain T iters xs) (hm : iters[m]? = some (x :: R)) (hx : xs[m]? ≠ some x) :
    skip_chain T (skip_incr iters m) xs := by
  obtain ⟨h1, h2, h3⟩ := h
  refine ⟨by rw [h1, skip_incr_length], ?_, h3⟩
  intro j P y hP hy
  by_cases hj : m = j
  · subst hj
    rw [skip_incr_eq hm] at hP
    injection hP with hP
    subst hP
    have := h2 m _ y hm hy
    rcases List.mem_cons.1 this with h4 | h4
    · subst h4
      exact absurd hy hx
    · exact h4
  · rw [skip_incr_ne iters hj] at hP
    exact h2 j P y hP hy

theorem skip_chain_not_nil {iters : List (List Nat)} {m : Nat} {xs : List Nat}
    (h : skip_chain T iters xs) (hm : iters[m]? = some []) : False := by
  obtain ⟨h1, h2, _⟩ := h
  have hlt : m < xs.length := by
    rw [h1]
    exact (List.getElem?_eq_some_iff.1 hm).1
  have := h2 m [] xs[m] hm (List.getElem?_eq_getElem hlt)
  simp at this

theorem skip_chain_get {iters : List (List Nat)} {m : Nat} {R xs : List Nat}
    (h : skip_chain T iters xs) (hm : iters[m]? = some R) :
    ∃ x, xs[m]? = some x ∧ x ∈ R := by
  obtain ⟨h1, h2, _⟩ := h
  have hlt : m < xs.length := by
    rw [h1]
    exact (List.getElem?_eq_some_iff.1 hm).1
  exact ⟨xs[m], List.getElem?_eq_getElem hlt, h2 m R xs[m] hm (List.getElem?_eq_getElem hlt)⟩

end chains

/-! ## The state of the walk -/

section walk

variable {T : Nat → Nat → Prop}

theorem walk_inv_incr {iters : List (List Nat)} {prev prev2 j : Nat}
    (h : walk_inv T iters prev) (hk : prev2 + 2 ≤ iters.length) (hle : prev2 ≤ prev)
    (hj : prev2 = 0 ∨ prev2 < j)
    (hne : 0 < j → ∀ R, iters[j]? = some R → R.tail ≠ []) :
    walk_inv T (skip_incr iters j) prev2 := by
  refine ⟨by rw [skip_incr_length]; exact hk, ?_, ?_, ?_⟩
  · intro m R hR
    by_cases hm : j = m
    · subst hm
      have hlt : j < iters.length := by
        have := (List.getElem?_eq_some_iff.1 hR).1
        rwa [skip_incr_length] at this
      rw [skip_incr_eq (List.getElem?_eq_getElem hlt)] at hR
      injection hR with hR
      subst hR
      exact List.Pairwise.tail (h.hsorted j _ (List.getElem?_eq_getElem hlt))
    · rw [skip_incr_ne iters hm] at hR
      exact h.hsorted m R hR
  · intro m R hR hm0
    by_cases hm : j = m
    · subst hm
      have hlt : j < iters.length := by
        have := (List.getElem?_eq_some_iff.1 hR).1
        rwa [skip_incr_length] at this
      rw [skip_incr_eq (List.getElem?_eq_getElem hlt)] at hR
      injection hR with hR
      subst hR
      exact hne hm0 _ (List.getElem?_eq_getElem hlt)
    · rw [skip_incr_ne iters hm] at hR
      exact h.hne m R hR hm0
  · intro m x y R R2 hm hx hy
    have h1 : j ≠ m := by omega
    have h2 : j ≠ m + 1 := by omega
    rw [skip_incr_ne iters h1] at hx
    rw [skip_incr_ne iters h2] at hy
    exact h.hpart m x y R R2 (by omega) hx hy

theorem walk_inv_next {iters : List (List Nat)} {prev p q : Nat} {Rp Rq : List Nat}
    (h : walk_inv T iters prev) (hk : prev + 3 ≤ iters.length)
    (hp : iters[prev]? = some (p :: Rp)) (hq : iters[prev + 1]? = some (q :: Rq))
    (ht : T p q) : walk_inv T iters (prev + 1) := by
  refine ⟨hk, h.hsorted, h.hne, ?_⟩
  intro m x y R R2 hm hx hy
  by_cases hmp : m = prev
  · subst hmp
    rw [hp] at hx
    rw [hq] at hy
    injection hx with hx
    injection hy with hy
    injection hx with hx _
    injection hy with hy _
    subst hx
    subst hy
    exact ht
  · exact h.hpart m x y R R2 (by omega) hx hy

/-- A range that is not empty has a front element. -/
theorem range_front {iters : List (List Nat)} {m : Nat} (hm : m < iters.length)
    (hne : ∀ R, iters[m]? = some R → R ≠ []) :
    ∃ x R, iters[m]? = some (x :: R) := by
  have h := List.getElem?_eq_getElem hm
  cases hR : iters[m] with
  | nil =>
    rw [hR] at h
    exact absurd rfl (hne [] h)
  | cons x R =>
    rw [hR] at h
    exact ⟨x, R, h⟩

end walk

end ns_suffixarray


set_option linter.unusedSectionVars false

namespace ns_suffixarray

/-! ## Counting and listing the surviving intervals -/

section count_and_list

theorem collect_length (idx : List Nat) (hlen : idx.length < SIZE_MOD) :
    ∀ (ts : List interval) (acc : List Nat), (∀ c ∈ ts, c.i ≤ c.j ∧ c.j < idx.length) →
      ∃ r, suffixarray.collect idx ts acc = .ok r ∧
        r.length = acc.length + (ts.map (fun c => c.j - c.i + 1)).sum := by
  intro ts
  induction ts with
  | nil => intro acc _; exact ⟨acc, rfl, by simp⟩
  | cons c rest ih =>
    intro acc h
    obtain ⟨hij, hj⟩ := h c (List.mem_cons_self _ _)
    obtain ⟨r, hr, hl⟩ := ih (acc ++ (idx.drop c.i).take (c.j + 1 - c.i))
      (fun d hd => h d (List.mem_cons_of_mem _ hd))
    refine ⟨r, ?_, ?_⟩
    · simp only [suffixarray.collect]
      rw [collect_interval_eq idx c.j hj hlen _ c.i acc (by omega) (by omega)]
      exact hr
    · rw [hl, List.length_append, List.length_take, List.length_drop, List.map_cons,
        List.sum_cons]
      omega

theorem count_fold :
    ∀ (ts : List interval) (a : Nat), (∀ c ∈ ts, c.i ≤ c.j ∧ c.j + 1 < SIZE_MOD) →
      ts.foldl (fun result curr => (result + curr.size) % SIZE_MOD) (a % SIZE_MOD) =
        (a + (ts.map (fun c => c.j - c.i + 1)).sum) % SIZE_MOD := by
  intro ts
  induction ts with
  | nil => intro a _; simp
  | cons c rest ih =>
    intro a h
    obtain ⟨hij, hj⟩ := h c (List.mem_cons_self _ _)
    have hs : c.size = c.j - c.i + 1 := interval_size_eq c.i c.j hij hj
    rw [List.foldl_cons, hs, Nat.mod_add_mod, ih (a + (c.j - c.i + 1))
      (fun d hd => h d (List.mem_cons_of_mem _ hd)), List.map_cons, List.sum_cons,
      Nat.add_assoc]

variable {α : Type} [DecidableEq α] [LT α] [DecidableRel (fun (a b : α) => a < b)]

/-- The two members run the same traversal; on surviving intervals that lie inside
the suffix array, the count is the length of the list. -/
theorem count_eq_length (s : suffixarray α) (w : List α) (wildcard : α)
    (ts : List interval) (hlen : s.idx.length < SIZE_MOD)
    (hd : suffixarray.descend s w wildcard w.length 0 [suffixarray.getRootInterval s] = .ok ts)
    (hts : ∀ c ∈ ts, c.i ≤ c.j ∧ c.j < s.idx.length) :
    ∃ r, s.find_all_positions w wildcard = .ok r ∧
      s.find_all_positions_count w wildcard = .ok (r.length % SIZE_MOD) := by
  have hd2 : suffixarray.descend s w wildcard w.length 0 [⟨0, size_sub s.idx.length 1⟩] =
      .ok ts := hd
  obtain ⟨r, hr, hl⟩ := collect_length s.idx hlen ts [] hts
  refine ⟨r, ?_, ?_⟩
  · unfold suffixarray.find_all_positions
    rw [hd2]
    exact hr
  · unfold suffixarray.find_all_positions_count
    rw [hd]
    have := count_fold ts 0
      (fun c hc => ⟨(hts c hc).1, by have := (hts c hc).2; omega⟩)
    rw [Nat.zero_mod] at this
    simp only [ok_bind, pure_eq_ok, this, hl, List.length_nil]

theorem count_error_eq (s : suffixarray α) (w : List α) (wildcard : α) (e : Exn)
    (hd : suffixarray.descend s w wildcard w.length 0 [suffixarray.getRootInterval s] =
      .error e) :
    s.find_all_positions w wildcard = .error e ∧
      s.find_all_positions_count w wildcard = .error e := by
  have hd2 : suffixarray.descend s w wildcard w.length 0 [⟨0, size_sub s.idx.length 1⟩] =
      .error e := hd
  refine ⟨?_, ?_⟩
  · unfold suffixarray.find_all_positions
    rw [hd2]
    rfl
  · unfold suffixarray.find_all_positions_count
    rw [hd]
    rfl

end count_and_list

end ns_suffixarray


set_option linter.unusedSectionVars false
set_option linter.unusedVariables false

namespace ns_suffixarray

open suffixarray

/-! ## The inner loop of the skip-gram walk -/

section inner

variable {T : Nat → Nat → Prop}

theorem skip_inner_succ (prev fuel : Nat) (iters : List (List Nat)) :
    skip_inner prev (fuel + 1) iters =
      (skip_deref iters (prev + 1) >>= fun q => skip_deref iters prev >>= fun p =>
        if q ≤ p then
          if skip_at_end (skip_incr iters (prev + 1)) (prev + 1) then pure none
          else skip_inner prev fuel (skip_incr iters (prev + 1))
        else pure (some iters)) := rfl

/-- In a chain, the position taken from the range `prev` is at least the front
element of that range, and the position taken from the next range is behind it by
more than `minskip` and at most `maxskip`. -/
theorem chain_next {minskip maxskip : Nat} {iters : List (List Nat)} {xs : List Nat}
    {prev p : Nat} {Rp : List Nat}
    (hc : skip_chain (gap_ok minskip maxskip) iters xs)
    (hs : (p :: Rp).Pairwise (fun a b => a ≤ b))
    (hp : iters[prev]? = some (p :: Rp)) (hlt : prev + 1 < iters.length) :
    ∃ x y, xs[prev]? = some x ∧ xs[prev + 1]? = some y ∧ p ≤ x ∧ x + minskip < y ∧
      y ≤ x + maxskip ∧ ∀ R, iters[prev + 1]? = some R → y ∈ R := by
  obtain ⟨x, hx, hxm⟩ := skip_chain_get hc hp
  obtain ⟨y, hy, hym⟩ := skip_chain_get hc (List.getElem?_eq_getElem hlt)
  have hg := hc.2.2 prev x y hx hy
  unfold gap_ok at hg
  refine ⟨x, y, hx, hy, ?_, by omega, by omega, ?_⟩
  · rcases List.mem_cons.1 hxm with h1 | h1
    · omega
    · exact (List.pairwise_cons.1 hs).1 x h1
  · intro R hR
    rw [List.getElem?_eq_getElem hlt] at hR
    injection hR with hR
    rw [← hR]
    exact hym

theorem skip_inner_spec (minskip maxskip prev : Nat) :
    ∀ (fuel : Nat) (iters : List (List Nat)), walk_inv T iters prev →
      (∀ R, iters[0]? = some R → R ≠ []) → skip_total iters < fuel →
      ∃ res, skip_inner prev fuel iters = .ok res ∧
        (res = none → ∀ xs, ¬ skip_chain (gap_ok minskip maxskip) iters xs) ∧
        (∀ iters1, res = some iters1 →
          walk_inv T iters1 prev ∧ (∀ R, iters1[0]? = some R → R ≠ []) ∧
          iters1.length = iters.length ∧ iters1[0]? = iters[0]? ∧
          skip_total iters1 ≤ skip_total iters ∧
          (∀ (m : Nat) (R1 : List Nat), iters1[m]? = some R1 →
            ∃ R2, iters[m]? = some R2 ∧ ∀ x ∈ R1, x ∈ R2) ∧
          (∀ xs, skip_chain (gap_ok minskip maxskip) iters xs →
            skip_chain (gap_ok minskip maxskip) iters1 xs) ∧
          ∃ p q Rp Rq, iters1[prev]? = some (p :: Rp) ∧
            iters1[prev + 1]? = some (q :: Rq) ∧ p < q) := by
  intro fuel
  induction fuel with
  | zero => intro iters _ _ h; omega
  | succ f ih =>
    intro iters h h0 hf
    have hk := h.hk
    have hnz : ∀ m, m < iters.length → ∀ R, iters[m]? = some R → R ≠ [] := by
      intro m hm R hR
      by_cases hm0 : m = 0
      · subst hm0
        exact h0 R hR
      · exact h.hne m R hR (by omega)
    obtain ⟨p, Rp, hp⟩ := range_front (by omega : prev < iters.length) (hnz prev (by omega))
    obtain ⟨q, Rq, hq⟩ := range_front (by omega : prev + 1 < iters.length)
      (hnz (prev + 1) (by omega))
    rw [skip_inner_succ, skip_deref_cons hq, skip_deref_cons hp]
    simp only [ok_bind]
    have hsp := h.hsorted prev _ hp
    by_cases hle : q ≤ p
    · rw [if_pos hle]
      have hkeep : ∀ xs, skip_chain (gap_ok minskip maxskip) iters xs →
          skip_chain (gap_ok minskip maxskip) (skip_incr iters (prev + 1)) xs := by
        intro xs hc
        obtain ⟨x, y, hx, hy, h1, h2, h3, h4⟩ := chain_next hc hsp hp (by omega)
        refine skip_chain_incr hc hq ?_
        rw [hy]
        intro heq
        injection heq with heq
        omega
      cases Rq with
      | nil =>
        have hend : skip_at_end (skip_incr iters (prev + 1)) (prev + 1) = true :=
          skip_at_end_nil (skip_incr_eq hq)
        rw [hend]
        refine ⟨none, rfl, ?_, ?_⟩
        · intro _ xs hc
          exact skip_chain_not_nil (hkeep xs hc) (skip_incr_eq hq)
        · intro iters1 hi
          cases hi
      | cons q2 Rq2 =>
        have hend : skip_at_end (skip_incr iters (prev + 1)) (prev + 1) = false :=
          skip_at_end_cons (skip_incr_eq hq)
        rw [hend]
        have hinv : walk_inv T (skip_incr iters (prev + 1)) prev := by
          refine walk_inv_incr h hk (Nat.le_refl _) (Or.inr (Nat.lt_succ_self _)) ?_
          intro _ R hR
          rw [hq] at hR
          injection hR with hR
          subst hR
          simp
        have h02 : ∀ R, (skip_incr iters (prev + 1))[0]? = some R → R ≠ [] := by
          intro R hR
          rw [skip_incr_ne iters (by omega)] at hR
          exact h0 R hR
        have htot := skip_total_incr iters (prev + 1) q (q2 :: Rq2) hq
        obtain ⟨res, hres, hnone, hsome⟩ := ih (skip_incr iters (prev + 1)) hinv h02 (by omega)
        refine ⟨res, ?_, ?_, ?_⟩
        · simpa using hres
        · intro hr xs hc
          exact hnone hr xs (hkeep xs hc)
        · intro iters1 hr
          obtain ⟨g1, g2, g3, g4, g5, g6, g7, g8⟩ := hsome iters1 hr
          refine ⟨g1, g2, ?_, ?_, by omega, ?_, ?_, g8⟩
          · rw [g3, skip_incr_length]
          · rw [g4, skip_incr_ne iters (by omega)]
          · intro m R1 hR1
            obtain ⟨R2, hR2, hs2⟩ := g6 m R1 hR1
            obtain ⟨R3, hR3, hs3⟩ := skip_incr_sub iters (prev + 1) m R2 hR2
            exact ⟨R3, hR3, fun x hx => hs3 x (hs2 x hx)⟩
          · intro xs hc
            exact g7 xs (hkeep xs hc)
    · rw [if_neg hle]
      refine ⟨some iters, rfl, ?_, ?_⟩
      · intro hr
        cases hr
      · intro iters1 hr
        injection hr with hr
        subst hr
        exact ⟨h, h0, rfl, rfl, Nat.le_refl _, fun m R1 hR1 => ⟨R1, hR1, fun x hx => hx⟩,
          fun xs hc => hc, p, q, Rp, Rq, hp, hq, by omega⟩

end inner

end ns_suffixarray


set_option linter.unusedSectionVars false
set_option linter.unusedVariables false

namespace ns_suffixarray

open suffixarray

/-! ## The loop of the skip-gram walk -/

section outer

theorem skip_loop_succ (minskip maxskip fuel : Nat) (iters : List (List Nat)) (prev : Nat)
    (uit : List Nat) :
    skip_loop minskip maxskip (fuel + 1) iters prev uit =
      if skip_at_end iters 0 then pure uit
      else skip_inner prev ((iters.map List.length).sum + 1) iters >>= fun r =>
        match r with
        | none => pure uit
        | some iters =>
          skip_deref iters prev >>= fun p => skip_deref iters (prev + 1) >>= fun q =>
            if (p + maxskip) % SIZE_MOD ≥ q ∧ (p + minskip) % SIZE_MOD < q then
              if prev + 2 = iters.length then
                skip_deref iters 0 >>= fun f =>
                  skip_loop minskip maxskip fuel (skip_incr iters 0) 0 (uit ++ [f])
              else skip_loop minskip maxskip fuel iters (prev + 1) uit
            else if (p + minskip) % SIZE_MOD ≥ q then
              if skip_at_end (skip_incr iters (prev + 1)) (prev + 1) then pure uit
              else skip_loop minskip maxskip fuel (skip_incr iters (prev + 1)) prev uit
            else
              if skip_at_end (skip_incr iters prev) prev then pure uit
              else skip_loop minskip maxskip fuel (skip_incr iters prev)
                (if prev ≠ 0 then prev - 1 else prev) uit := rfl

variable {T : Nat → Nat → Prop}

theorem skip_incr_sublist (iters : List (List Nat)) (j m : Nat) (R1 : List Nat)
    (h : (skip_incr iters j)[m]? = some R1) :
    ∃ R2, iters[m]? = some R2 ∧ R1.Sublist R2 := by
  by_cases hj : j = m
  · subst hj
    have hlt : j < iters.length := by
      have := (List.getElem?_eq_some_iff.1 h).1
      rwa [skip_incr_length] at this
    refine ⟨iters[j], List.getElem?_eq_getElem hlt, ?_⟩
    rw [skip_incr_eq (List.getElem?_eq_getElem hlt)] at h
    injection h with h
    subst h
    exact List.tail_sublist _
  · rw [skip_incr_ne iters hj] at h
    exact ⟨R1, h, List.Sublist.refl _⟩

theorem ranges_mono {P : Nat → Prop} {l1 l2 : List (List Nat)}
    (hsub : ∀ (m : Nat) (R1 : List Nat), l1[m]? = some R1 →
      ∃ R2, l2[m]? = some R2 ∧ ∀ x ∈ R1, x ∈ R2)
    (h : ∀ (m : Nat) (R : List Nat) (p : Nat), l2[m]? = some R → p ∈ R → P p) :
    ∀ (m : Nat) (R : List Nat) (p : Nat), l1[m]? = some R → p ∈ R → P p := by
  intro m R p hR hp
  obtain ⟨R2, hR2, hs⟩ := hsub m R hR
  exact h m R2 p hR2 (hs p hp)

/-- When the walk has reached the last pair and the test passes, the front elements
of the ranges form a chain. -/
theorem heads_chain {iters : List (List Nat)} {prev p q f : Nat} {Rp Rq R0 : List Nat}
    (h : walk_inv T iters prev) (h0 : ∀ R, iters[0]? = some R → R ≠ [])
    (hlast : prev + 2 = iters.length)
    (hp : iters[prev]? = some (p :: Rp)) (hq : iters[prev + 1]? = some (q :: Rq))
    (ht : T p q) (hf : iters[0]? = some (f :: R0)) :
    ∃ xs, skip_chain T iters xs ∧ xs[0]? = some f := by
  have hnz : ∀ m, m < iters.length → ∀ R, iters[m]? = some R → R ≠ [] := by
    intro m hm R hR
    by_cases hm0 : m = 0
    · subst hm0
      exact h0 R hR
    · exact h.hne m R hR (by omega)
  have hget : ∀ (m x : Nat), (iters.map (fun R => R.headD 0))[m]? = some x →
      ∃ R, iters[m]? = some (x :: R) := by
    intro m x hx
    rw [List.getElem?_map] at hx
    have hm : m < iters.length := by
      cases hi : iters[m]? with
      | none => rw [hi] at hx; cases hx
      | some R => exact (List.getElem?_eq_some_iff.1 hi).1
    obtain ⟨a, Ra, ha⟩ := range_front hm (hnz m hm)
    rw [ha] at hx
    simp at hx
    subst hx
    exact ⟨Ra, ha⟩
  refine ⟨iters.map (fun R => R.headD 0), ⟨by simp, ?_, ?_⟩, ?_⟩
  · intro m P x hP hx
    obtain ⟨R, hR⟩ := hget m x hx
    rw [hP] at hR
    injection hR with hR
    subst hR
    exact List.mem_cons_self _ _
  · intro m x y hx hy
    obtain ⟨Rx, hRx⟩ := hget m x hx
    obtain ⟨Ry, hRy⟩ := hget (m + 1) y hy
    have hm : m + 1 < iters.length := (List.getElem?_eq_some_iff.1 hRy).1
    by_cases hmp : m < prev
    · exact h.hpart m x y Rx Ry hmp hRx hRy
    · have : m = prev := by omega
      subst this
      rw [hp] at hRx
      rw [hq] at hRy
      injection hRx with hRx
      injection hRy with hRy
      injection hRx with hRx _
      injection hRy with hRy _
      subst hRx
      subst hRy
      exact ht
  · rw [List.getElem?_map, hf]
    rfl

end outer

end ns_suffixarray


set_option linter.unusedSectionVars false
set_option linter.unusedVariables false

namespace ns_suffixarray

open suffixarray

section outer_loop

/-- The loop of the walk returns.  What it appends to `uit` is a sublist of the first
range; every appended position starts a chain that passes the test of the code; and
when no `p + maxskip` wraps, the start of every chain with gaps in
`(minskip, maxskip]` is appended. -/
theorem skip_loop_spec (minskip maxskip : Nat) :
    ∀ (fuel : Nat) (iters : List (List Nat)) (prev : Nat) (uit : List Nat),
      walk_inv (gap_test minskip maxskip) iters prev →
      skip_total iters * iters.length + (iters.length - 1 - prev) < fuel →
      ∃ t, skip_loop minskip maxskip fuel iters prev uit = .ok (uit ++ t) ∧
        (∀ R, iters[0]? = some R → t.Sublist R) ∧
        (∀ p ∈ t, ∃ xs, skip_chain (gap_test minskip maxskip) iters xs ∧ xs[0]? = some p) ∧
        ((∀ (m : Nat) (R : List Nat) (p : Nat), iters[m]? = some R → p ∈ R →
            p + maxskip < SIZE_MOD) →
          ∀ xs p, skip_chain (gap_ok minskip maxskip) iters xs → xs[0]? = some p → p ∈ t) := by
  intro fuel
  induction fuel with
  | zero => intro iters prev uit _ h; omega
  | succ f ih =>
    intro iters prev uit h hf
    have hk := h.hk
    rw [skip_loop_succ]
    obtain ⟨R0, hR0⟩ : ∃ R0, iters[0]? = some R0 :=
      ⟨_, List.getElem?_eq_getElem (by omega : 0 < iters.length)⟩
    cases R0 with
    | nil =>
      rw [skip_at_end_nil hR0, if_pos rfl]
      refine ⟨[], by simp, fun R _ => List.nil_sublist R, ?_, ?_⟩
      · intro p hp
        cases hp
      · intro _ xs p hc _
        exact (skip_chain_not_nil hc hR0).elim
    | cons f0 R0 =>
      rw [skip_at_end_cons hR0]
      simp only [Bool.false_eq_true, if_false]
      have h0 : ∀ R, iters[0]? = some R → R ≠ [] := by
        intro R hR
        rw [hR0] at hR
        injection hR with hR
        subst hR
        simp
      obtain ⟨res, hres, hnone, hsome⟩ := skip_inner_spec (T := gap_test minskip maxskip)
        minskip maxskip prev (skip_total iters + 1) iters h h0 (by omega)
      have hres2 : skip_inner prev ((iters.map List.length).sum + 1) iters = .ok res := hres
      rw [hres2]
      simp only [ok_bind]
      cases res with
      | none =>
        refine ⟨[], by simp, fun R _ => List.nil_sublist R, ?_, ?_⟩
        · intro p hp
          cases hp
        · intro _ xs p hc _
          exact (hnone rfl xs hc).elim
      | some iters1 =>
        obtain ⟨g1, g2, g3, g4, g5, g6, g7, p, q, Rp, Rq, hp, hq, hpq⟩ := hsome iters1 rfl
        have h01 : iters1[0]? = some (f0 :: R0) := by rw [g4, hR0]
        have hmul : skip_total iters1 * iters.length ≤ skip_total iters * iters.length :=
          Nat.mul_le_mul_right _ g5
        have hsp := g1.hsorted prev _ hp
        have hsq := g1.hsorted (prev + 1) _ hq
        simp only []
        rw [skip_deref_cons hp, skip_deref_cons hq]
        simp only [ok_bind]
        by_cases htest : (p + maxskip) % SIZE_MOD ≥ q ∧ (p + minskip) % SIZE_MOD < q
        · rw [if_pos htest]
          by_cases hlast : prev + 2 = iters1.length
          · rw [if_pos hlast, skip_deref_cons h01]
            simp only [ok_bind]
            have hinv2 : walk_inv (gap_test minskip maxskip) (skip_incr iters1 0) 0 :=
              walk_inv_incr g1 (by omega) (Nat.zero_le _) (Or.inl rfl)
                (fun h => absurd h (Nat.lt_irrefl 0))
            have htot := skip_total_incr iters1 0 f0 R0 h01
            have e1 : skip_total iters1 * iters.length =
                skip_total (skip_incr iters1 0) * iters.length + iters.length := by
              rw [← htot, Nat.add_mul, Nat.one_mul]
            obtain ⟨t, ht, hsub, hsound, hcomp⟩ := ih (skip_incr iters1 0) 0 (uit ++ [f0]) hinv2
              (by rw [skip_incr_length, g3]; omega)
            refine ⟨f0 :: t, ?_, ?_, ?_, ?_⟩
            · rw [ht, List.append_assoc]
              rfl
            · intro R hR
              rw [hR0] at hR
              injection hR with hR
              subst hR
              exact List.Sublist.cons₂ f0 (hsub R0 (skip_incr_eq h01))
            · intro x hx
              rcases List.mem_cons.1 hx with hx | hx
              · subst hx
                obtain ⟨xs, hc, hx0⟩ := heads_chain g1 g2 hlast hp hq htest h01
                exact ⟨xs, skip_chain_mono g3 g6 hc, hx0⟩
              · obtain ⟨xs, hc, hx0⟩ := hsound x hx
                exact ⟨xs, skip_chain_mono g3 g6 (skip_chain_of_incr hc), hx0⟩
            · intro hmax xs x hc hx0
              by_cases hxf : x = f0
              · subst hxf
                exact List.mem_cons_self _ _
              · refine List.mem_cons_of_mem _ (hcomp ?_ xs x ?_ hx0)
                · exact ranges_mono (skip_incr_sub iters1 0) (ranges_mono g6 hmax)
                · refine skip_chain_incr (g7 xs hc) h01 ?_
                  rw [hx0]
                  intro heq
                  injection heq with heq
                  exact hxf heq
          · rw [if_neg hlast]
            have hinv2 : walk_inv (gap_test minskip maxskip) iters1 (prev + 1) :=
              walk_inv_next g1 (by have := g1.hk; omega) hp hq htest
            obtain ⟨t, ht, hsub, hsound, hcomp⟩ := ih iters1 (prev + 1) uit hinv2
              (by rw [g3]; rw [g3] at hlast; omega)
            refine ⟨t, ht, ?_, ?_, ?_⟩
            · intro R hR
              rw [← g4] at hR
              exact hsub R hR
            · intro x hx
              obtain ⟨xs, hc, hx0⟩ := hsound x hx
              exact ⟨xs, skip_chain_mono g3 g6 hc, hx0⟩
            · intro hmax xs x hc hx0
              exact hcomp (ranges_mono g6 hmax) xs x (g7 xs hc) hx0
        · rw [if_neg htest]
          by_cases hsmall : (p + minskip) % SIZE_MOD ≥ q
          · rw [if_pos hsmall]
            have hkeep : ∀ xs, skip_chain (gap_ok minskip maxskip) iters1 xs →
                skip_chain (gap_ok minskip maxskip) (skip_incr iters1 (prev + 1)) xs := by
              intro xs hc
              obtain ⟨x, y, hx, hy, h1, h2, h3, h4⟩ :=
                chain_next hc hsp hp (by have := g1.hk; omega)
              refine skip_chain_incr hc hq ?_
              rw [hy]
              intro heq
              injection heq with heq
              have := Nat.mod_le (p + minskip) SIZE_MOD
              omega
            cases Rq with
            | nil =>
              rw [skip_at_end_nil (skip_incr_eq hq), if_pos rfl]
              refine ⟨[], by simp, fun R _ => List.nil_sublist R, ?_, ?_⟩
              · intro x hx
                cases hx
              · intro _ xs x hc _
                exact (skip_chain_not_nil (hkeep xs (g7 xs hc)) (skip_incr_eq hq)).elim
            | cons q2 Rq2 =>
              rw [skip_at_end_cons (skip_incr_eq hq)]
              simp only [Bool.false_eq_true, if_false]
              have hinv2 : walk_inv (gap_test minskip maxskip) (skip_incr iters1 (prev + 1))
                  prev := by
                refine walk_inv_incr g1 g1.hk (Nat.le_refl _) (Or.inr (Nat.lt_succ_self _)) ?_
                intro _ R hR
                rw [hq] at hR
                injection hR with hR
                subst hR
                simp
              have htot := skip_total_incr iters1 (prev + 1) q (q2 :: Rq2) hq
              have e1 : skip_total iters1 * iters.length =
                  skip_total (skip_incr iters1 (prev + 1)) * iters.length + iters.length := by
                rw [← htot, Nat.add_mul, Nat.one_mul]
              obtain ⟨t, ht, hsub, hsound, hcomp⟩ :=
                ih (skip_incr iters1 (prev + 1)) prev uit hinv2
                  (by rw [skip_incr_length, g3]; omega)
              refine ⟨t, ht, ?_, ?_, ?_⟩
              · intro R hR
                rw [← g4, ← skip_incr_ne iters1 (by omega : prev + 1 ≠ 0)] at hR
                exact hsub R hR
              · intro x hx
                obtain ⟨xs, hc, hx0⟩ := hsound x hx
                exact ⟨xs, skip_chain_mono g3 g6 (skip_chain_of_incr hc), hx0⟩
              · intro hmax xs x hc hx0
                exact hcomp (ranges_mono (skip_incr_sub iters1 (prev + 1)) (ranges_mono g6 hmax))
                  xs x (hkeep xs (g7 xs hc)) hx0
          · rw [if_neg hsmall]
            have hkeep : (∀ (m : Nat) (R : List Nat) (p : Nat), iters[m]? = some R → p ∈ R →
                  p + maxskip < SIZE_MOD) →
                ∀ xs, skip_chain (gap_ok minskip maxskip) iters1 xs →
                  skip_chain (gap_ok minskip maxskip) (skip_incr iters1 prev) xs := by
              intro hmax xs hc
              obtain ⟨x, y, hx, hy, h1, h2, h3, h4⟩ :=
                chain_next hc hsp hp (by have := g1.hk; omega)
              have hpm : p + maxskip < SIZE_MOD :=
                ranges_mono g6 hmax prev _ p hp (List.mem_cons_self _ _)
              have hqy : q ≤ y := by
                rcases List.mem_cons.1 (h4 _ hq) with h5 | h5
                · omega
                · exact (List.pairwise_cons.1 hsq).1 y h5
              refine skip_chain_incr hc hp ?_
              rw [hx]
              intro heq
              injection heq with heq
              have := Nat.mod_eq_of_lt hpm
              omega
            obtain ⟨prev2, hprev2, hle2, hor2⟩ : ∃ prev2,
                (if prev ≠ 0 then prev - 1 else prev) = prev2 ∧ prev2 ≤ prev ∧
                  (prev2 = 0 ∨ prev2 < prev) := by
              by_cases hz : prev = 0
              · exact ⟨0, by simp [hz], by omega, Or.inl rfl⟩
              · exact ⟨prev - 1, by simp [hz], by omega, Or.inr (by omega)⟩
            rw [hprev2]
            cases Rp with
            | nil =>
              rw [skip_at_end_nil (skip_incr_eq hp), if_pos rfl]
              refine ⟨[], by simp, fun R _ => List.nil_sublist R, ?_, ?_⟩
              · intro x hx
                cases hx
              · intro hmax xs x hc _
                exact (skip_chain_not_nil (hkeep hmax xs (g7 xs hc)) (skip_incr_eq hp)).elim
            | cons p2 Rp2 =>
              rw [skip_at_end_cons (skip_incr_eq hp)]
              simp only [Bool.false_eq_true, if_false]
              have hinv2 : walk_inv (gap_test minskip maxskip) (skip_incr iters1 prev)
                  prev2 := by
                refine walk_inv_incr g1 (by have := g1.hk; omega) hle2 hor2 ?_
                intro _ R hR
                rw [hp] at hR
                injection hR with hR
                subst hR
                simp
              have htot := skip_total_incr iters1 prev p (p2 :: Rp2) hp
              have e1 : skip_total iters1 * iters.length =
                  skip_total (skip_incr iters1 prev) * iters.length + iters.length := by
                rw [← htot, Nat.add_mul, Nat.one_mul]
              obtain ⟨t, ht, hsub, hsound, hcomp⟩ :=
                ih (skip_incr iters1 prev) prev2 uit hinv2
                  (by rw [skip_incr_length, g3]; omega)
              refine ⟨t, ht, ?_, ?_, ?_⟩
              · intro R hR
                rw [hR0] at hR
                injection hR with hR
                subst hR
                obtain ⟨R2, hR2⟩ : ∃ R2, (skip_incr iters1 prev)[0]? = some R2 :=
                  ⟨_, List.getElem?_eq_getElem (by rw [skip_incr_length, g3]; omega)⟩
                obtain ⟨R3, hR3, hs3⟩ := skip_incr_sublist iters1 prev 0 R2 hR2
                rw [h01] at hR3
                injection hR3 with hR3
                subst hR3
                exact (hsub R2 hR2).trans hs3
              · intro x hx
                obtain ⟨xs, hc, hx0⟩ := hsound x hx
                exact ⟨xs, skip_chain_mono g3 g6 (skip_chain_of_incr hc), hx0⟩
              · intro hmax xs x hc hx0
                exact hcomp (ranges_mono (skip_incr_sub iters1 prev) (ranges_mono g6 hmax))
                  xs x (hkeep hmax xs (g7 xs hc)) hx0

end outer_loop

end ns_suffixarray


set_option linter.unusedSectionVars false
set_option linter.unusedVariables false

namespace ns_suffixarray

open suffixarray

/-! ## `find_all_positions_skip` -/

section skip_member

variable {α : Type} [DecidableEq α] [LT α] [DecidableRel (fun (a b : α) => a < b)]

/-- The first loop of `find_all_positions_skip` yields, part by part, the ascending
permutation of the list that `find_all_positions` returns. -/
theorem skip_subgrams_spec (s : suffixarray α) (wildcard : α) :
    ∀ (parts : List (List α)) (idx : List (List Nat)),
      skip_subgrams s wildcard parts = .ok idx →
      List.Forall₂ (fun part P => ∃ Q, s.find_all_positions part wildcard = .ok Q ∧
        P.Perm Q ∧ P.Pairwise (fun a b => a ≤ b)) parts idx := by
  intro parts
  induction parts with
  | nil =>
    intro idx h
    cases h
    exact List.Forall₂.nil
  | cons part rest ih =>
    intro idx h
    unfold skip_subgrams at h
    cases hq : s.find_all_positions part wildcard with
    | error e => rw [hq] at h; cases h
    | ok Q =>
      obtain ⟨P, hP, hperm, hsort⟩ := sort_lt_sorted Q
      have hP2 : sort (fun a b => Except.ok (decide (a < b))) Q = .ok P := hP
      cases hr : skip_subgrams s wildcard rest with
      | error e =>
        rw [hq] at h
        simp only [ok_bind, pure_eq_ok, hP2, hr] at h
        cases h
      | ok idx2 =>
        rw [hq] at h
        simp only [ok_bind, pure_eq_ok, hP2, hr] at h
        injection h with h
        subst h
        exact List.Forall₂.cons ⟨Q, hq, hperm, hsort⟩ (ih idx2 hr)

theorem skip_fuel_enough (idx : List (List Nat)) :
    skip_total idx * idx.length + (idx.length - 1 - 0) < skip_fuel idx := by
  unfold skip_fuel skip_total
  have : ((idx.map List.length).sum + 1) * (idx.length + 1) =
      (idx.map List.length).sum * idx.length + (idx.map List.length).sum + idx.length + 1 := by
    ring
  omega

/-- With at least two parts, none of them without a position, the member returns.
The list it returns is a sublist of the positions of the first part; every position
in it starts a chain that passes the tests of the code; and when no `p + maxskip`
wraps, it holds the start of every chain with gaps in `(minskip, maxskip]`. -/
theorem skip_walk_spec (s : suffixarray α) (parts : List (List α)) (minskip maxskip : Nat)
    (wildcard : α) (idx : List (List Nat)) (hk : 2 ≤ parts.length)
    (hidx : skip_subgrams s wildcard parts = .ok idx) (hne : ∀ P ∈ idx, P ≠ []) :
    ∃ r, s.find_all_positions_skip parts minskip maxskip wildcard = .ok r ∧
      (∀ P, idx[0]? = some P → r.Sublist P) ∧
      (∀ p ∈ r, ∃ xs, skip_chain (gap_test minskip maxskip) idx xs ∧ xs[0]? = some p) ∧
      ((∀ P ∈ idx, ∀ p ∈ P, p + maxskip < SIZE_MOD) →
        ∀ xs p, skip_chain (gap_ok minskip maxskip) idx xs → xs[0]? = some p → p ∈ r) := by
  have hf := skip_subgrams_spec s wildcard parts idx hidx
  have hlen : idx.length = parts.length := hf.length_eq.symm
  have hinv : walk_inv (gap_test minskip maxskip) idx 0 := by
    refine ⟨by omega, ?_, ?_, ?_⟩
    · intro m R hR
      have hm : m < idx.length := (List.getElem?_eq_some_iff.1 hR).1
      have hm2 : m < parts.length := by omega
      have := List.Forall₂.get hf hm2 hm
      obtain ⟨Q, _, _, hs⟩ := this
      have hR2 : idx[m] = R := by
        rw [List.getElem?_eq_getElem hm] at hR
        injection hR
      rw [← hR2]
      exact hs
    · intro m R hR _
      exact hne R (List.getElem?_mem hR)
    · intro m x y R R2 hm
      omega
  obtain ⟨t, ht, hsub, hsound, hcomp⟩ :=
    skip_loop_spec minskip maxskip (skip_fuel idx) idx 0 [] hinv (skip_fuel_enough idx)
  refine ⟨t, ?_, hsub, hsound, ?_⟩
  · unfold find_all_positions_skip
    rw [hidx]
    simp only [ok_bind, pure_eq_ok]
    rw [if_neg (by omega), if_neg (by omega), if_neg (by omega), ht]
    rfl
  · intro hmax
    exact hcomp (fun m R p hR hp => hmax R (List.getElem?_mem hR) p hp)

/-- When no `p + minskip` wraps, a chain that passes the tests of the code has its
gaps in `(minskip, maxskip]`. -/
theorem chain_test_ok {minskip maxskip : Nat} {idx : List (List Nat)} {xs : List Nat}
    (hmin : ∀ P ∈ idx, ∀ p ∈ P, p + minskip < SIZE_MOD)
    (h : skip_chain (gap_test minskip maxskip) idx xs) :
    skip_chain (gap_ok minskip maxskip) idx xs := by
  obtain ⟨h1, h2, h3⟩ := h
  refine ⟨h1, h2, ?_⟩
  intro m x y hx hy
  have hm : m < idx.length := by
    rw [← h1]
    exact (List.getElem?_eq_some_iff.1 hx).1
  have hxm := h2 m idx[m] x (List.getElem?_eq_getElem hm) hx
  have hlt := hmin idx[m] (List.getElem_mem _) x hxm
  have ht := h3 m x y hx hy
  unfold gap_test at ht
  unfold gap_ok
  rw [Nat.mod_eq_of_lt hlt] at ht
  have := Nat.mod_le (x + maxskip) SIZE_MOD
  omega

end skip_member

end ns_suffixarray


set_option linter.unusedSectionVars false
set_option linter.unusedVariables false

namespace ns_suffixarray

/-! ## The byte tables and their overflow maps -/

section bytes

theorem to_int_size_sub {v p : Nat} (hv : v < 2 ^ 31) (hp : p < 2 ^ 31) :
    to_int (size_sub v p) = (v : Int) - p := by
  unfold to_int size_sub SIZE_MOD
  by_cases h : p ≤ v
  · rw [if_pos h]
    have h1 : (v - p) % 2 ^ 64 = v - p := Nat.mod_eq_of_lt (by omega)
    have h2 : (v - p) % 2 ^ 32 = v - p := Nat.mod_eq_of_lt (by omega)
    rw [h1, h2, if_pos (by omega)]
    omega
  · rw [if_neg h]
    have h1 : (p - v) % 2 ^ 64 = p - v := Nat.mod_eq_of_lt (by omega)
    have h3 : (2 ^ 64 - (p - v)) % 2 ^ 64 = 2 ^ 64 - (p - v) := Nat.mod_eq_of_lt (by omega)
    have h4 : (2 ^ 64 - (p - v)) % 2 ^ 32 = 2 ^ 32 - (p - v) := by omega
    rw [h1, h3, h4, if_neg (by omega)]
    omega

theorem to_int_small {p : Nat} (hp : p < 2 ^ 31) : to_int p = (p : Int) := by
  unfold to_int
  have h2 : p % 2 ^ 32 = p := Nat.mod_eq_of_lt (by omega)
  rw [h2, if_pos hp]

theorem to_size_nat (v : Nat) (hv : v < 2 ^ 64) : to_size (v : Int) = v := by
  unfold to_size
  have : ((v : Int) % (2 ^ 64 : Int)) = (v : Int) := Int.emod_eq_of_lt (by omega) (by omega)
  rw [this]
  exact Int.toNat_natCast v

end bytes

section maps

theorem find_second_cons_eq (m : size_map) (p v : Nat) :
    size_map.find_second ((p, v) :: m) p = .ok v := by
  simp [size_map.find_second]

theorem find_second_cons_ne (m : size_map) {p p2 : Nat} (v : Nat) (h : p ≠ p2) :
    size_map.find_second ((p, v) :: m) p2 = size_map.find_second m p2 := by
  simp [size_map.find_second, List.find?_cons, h]

theorem insert_fresh (m : size_map) (p v : Nat) (h : ∀ e ∈ m, e.1 ≠ p) :
    size_map.insert m p v = (p, v) :: m := by
  unfold size_map.insert
  rw [if_neg]
  simp only [List.any_eq_true, decide_eq_true_eq, not_exists, not_and]
  exact fun e he => h e he

end maps

section signed_tables

theorem retrieve_spec {vec : List Int} {map : size_map} {f : Nat → Option Nat}
    (h : tab_rep vec map f) {p : Nat} (hp : p < vec.length) (hn : vec.length < 2 ^ 31) :
    childtabs.retrieve vec map p = .ok ((f p).getD undefined) := by
  have hp31 : p < 2 ^ 31 := by omega
  have hg : ¬ (p > vec.length ∨ p = undefined) := by
    unfold undefined
    omega
  unfold childtabs.retrieve
  rw [if_neg hg]
  have h1 := h.1 p hp
  cases hf : f p with
  | none =>
    rw [hf] at h1
    simp only [] at h1
    rw [vec_at_of_some h1]
    simp
  | some v =>
    rw [hf] at h1
    simp only [] at h1
    obtain ⟨hv, h1 | h1⟩ := h1
    · obtain ⟨ha, hb, hc⟩ := h1
      rw [vec_at_of_some hc]
      simp only [ok_bind, pure_eq_ok, Option.getD_some]
      rw [if_neg (by omega), if_neg (by omega), to_int_small hp31]
      have : (p : Int) + ((v : Int) - p) = (v : Int) := by omega
      rw [this, to_size_nat v (by omega)]
    · obtain ⟨ha, hb, hc⟩ := h1
      rw [vec_at_of_some hb]
      simp only [ok_bind, pure_eq_ok, Option.getD_some]
      rw [if_neg (by omega), if_pos trivial, hc]

theorem store_spec {vec : List Int} {map : size_map} {f : Nat → Option Nat}
    (h : tab_rep vec map f) {p v : Nat} (hp : p < vec.length) (hn : vec.length < 2 ^ 31)
    (hf : f p = none) (hv : v < 2 ^ 31) :
    ∃ vec2 map2, childtabs.store vec map p v = .ok (vec2, map2) ∧
      vec2.length = vec.length ∧ tab_rep vec2 map2 (Function.update f p (some v)) := by
  have hp31 : p < 2 ^ 31 := by omega
  have hfresh : ∀ e ∈ map, e.1 ≠ p := by
    intro e he hep
    have := h.2 e he
    rw [hep] at this
    exact this hf
  unfold childtabs.store
  simp only [to_int_size_sub hv hp31]
  by_cases hs : (v : Int) - p < 127 ∧ (v : Int) - p > -128
  · rw [if_pos hs, vec_set_of_lt _ hp]
    refine ⟨_, _, rfl, by simp, ?_, ?_⟩
    · intro p2 hp2
      rw [List.length_set] at hp2
      by_cases hpp : p2 = p
      · subst hpp
        rw [Function.update_same]
        simp only []
        refine ⟨hv, Or.inl ⟨by omega, by omega, ?_⟩⟩
        rw [List.getElem?_set_self hp]
      · rw [Function.update_noteq hpp, List.getElem?_set_ne (Ne.symm hpp)]
        exact h.1 p2 hp2
    · intro e he
      have hne := hfresh e he
      rw [Function.update_noteq hne]
      exact h.2 e he
  · rw [if_neg hs, vec_set_of_lt _ hp, insert_fresh map p v hfresh]
    refine ⟨_, _, rfl, by simp, ?_, ?_⟩
    · intro p2 hp2
      rw [List.length_set] at hp2
      by_cases hpp : p2 = p
      · subst hpp
        rw [Function.update_same]
        simp only []
        refine ⟨hv, Or.inr ⟨by omega, ?_, find_second_cons_eq map p2 v⟩⟩
        rw [List.getElem?_set_self hp]
      · rw [Function.update_noteq hpp, List.getElem?_set_ne (Ne.symm hpp)]
        have h1 := h.1 p2 hp2
        cases hf2 : f p2 with
        | none => rw [hf2] at h1; exact h1
        | some v2 =>
          rw [hf2] at h1
          simp only [] at h1 ⊢
          obtain ⟨hv2, h1 | h1⟩ := h1
          · exact ⟨hv2, Or.inl h1⟩
          · refine ⟨hv2, Or.inr ⟨h1.1, h1.2.1, ?_⟩⟩
            rw [find_second_cons_ne map v (Ne.symm hpp)]
            exact h1.2.2
    · intro e he
      rcases List.mem_cons.1 he with he | he
      · subst he
        rw [Function.update_same]
        simp
      · have hne := hfresh e he
        rw [Function.update_noteq hne]
        exact h.2 e he

theorem tab_rep_init (n : Nat) : tab_rep (List.replicate n (-128)) [] (fun _ => none) := by
  refine ⟨?_, ?_⟩
  · intro p hp
    simp only []
    rw [List.length_replicate] at hp
    simp [List.getElem?_replicate, hp]
  · intro e he
    cases he

end signed_tables

section whole_tables

theorem tabs_getlcp {t : childtabs} {n : Nat} {L : Nat → Nat} {U D N : Nat → Option Nat}
    (h : tabs_ok t n L U D N) {p : Nat} (hp : p < n) (hn : n < 2 ^ 31) :
    t.getlcp p = .ok (L p) := by
  have hg : ¬ (p > t.lcp.length ∨ p = undefined) := by
    rw [h.hlcp_len]
    unfold undefined
    omega
  unfold childtabs.getlcp
  rw [if_neg hg]
  rcases h.hlcp.1 p (by rw [h.hlcp_len]; exact hp) with h1 | h1
  · rw [vec_at_of_some h1.2]
    simp only [ok_bind, pure_eq_ok]
    rw [if_pos h1.1]
  · rw [vec_at_of_some h1.2.1]
    simp only [ok_bind, pure_eq_ok]
    rw [if_neg (by omega)]
    exact h1.2.2

theorem tabs_setlcp {t : childtabs} {n : Nat} {L : Nat → Nat} {U D N : Nat → Option Nat}
    (h : tabs_ok t n L U D N) {r : Nat} (v : Nat) (hr : r < n) (hL : L r < 255) :
    ∃ t2, t.setlcp r v = .ok t2 ∧ tabs_ok t2 n (Function.update L r v) U D N := by
  have hrl : r < t.lcp.length := by rw [h.hlcp_len]; exact hr
  have hfresh : ∀ e ∈ t.lcpmap, e.1 ≠ r := by
    intro e he hep
    have := h.hlcp.2 e he
    rw [hep] at this
    omega
  unfold childtabs.setlcp
  rw [if_neg (by omega)]
  by_cases hv : v < 255
  · rw [if_pos hv, vec_set_of_lt _ hrl]
    refine ⟨_, rfl, ⟨by simp [h.hlcp_len], ⟨?_, ?_⟩, h.hup_len, h.hup, h.hdown_len, h.hdown,
      h.hnextl_len, h.hnextl⟩⟩
    · intro p2 hp2
      simp only [List.length_set] at hp2
      by_cases hpp : p2 = r
      · subst hpp
        rw [Function.update_same]
        exact Or.inl ⟨hv, List.getElem?_set_self hrl⟩
      · rw [Function.update_noteq hpp]
        simp only [List.getElem?_set_ne (Ne.symm hpp)]
        exact h.hlcp.1 p2 hp2
    · intro e he
      rw [Function.update_noteq (hfresh e he)]
      exact h.hlcp.2 e he
  · rw [if_neg hv, vec_set_of_lt _ hrl, insert_fresh t.lcpmap r v hfresh]
    refine ⟨_, rfl, ⟨by simp [h.hlcp_len], ⟨?_, ?_⟩, h.hup_len, h.hup, h.hdown_len, h.hdown,
      h.hnextl_len, h.hnextl⟩⟩
    · intro p2 hp2
      simp only [List.length_set] at hp2
      by_cases hpp : p2 = r
      · subst hpp
        rw [Function.update_same]
        exact Or.inr ⟨by omega, List.getElem?_set_self hrl, find_second_cons_eq _ p2 v⟩
      · rw [Function.update_noteq hpp]
        simp only [List.getElem?_set_ne (Ne.symm hpp)]
        rcases h.hlcp.1 p2 hp2 with h1 | h1
        · exact Or.inl h1
        · refine Or.inr ⟨h1.1, h1.2.1, ?_⟩
          rw [find_second_cons_ne _ v (Ne.symm hpp)]
          exact h1.2.2
    · intro e he
      rcases List.mem_cons.1 he with he | he
      · subst he
        rw [Function.update_same]
        omega
      · rw [Function.update_noteq (hfresh e he)]
        exact h.hlcp.2 e he

theorem tabs_getup {t : childtabs} {n : Nat} {L : Nat → Nat} {U D N : Nat → Option Nat}
    (h : tabs_ok t n L U D N) {p : Nat} (hp : p < n) (hn : n < 2 ^ 31) :
    t.getup p = .ok ((U p).getD undefined) :=
  retrieve_spec h.hup (by rw [h.hup_len]; exact hp) (by rw [h.hup_len]; exact hn)

theorem tabs_getdown {t : childtabs} {n : Nat} {L : Nat → Nat} {U D N : Nat → Option Nat}
    (h : tabs_ok t n L U D N) {p : Nat} (hp : p < n) (hn : n < 2 ^ 31) :
    t.getdown p = .ok ((D p).getD undefined) :=
  retrieve_spec h.hdown (by rw [h.hdown_len]; exact hp) (by rw [h.hdown_len]; exact hn)

theorem tabs_getnextl {t : childtabs} {n : Nat} {L : Nat → Nat} {U D N : Nat → Option Nat}
    (h : tabs_ok t n L U D N) {p : Nat} (hp : p < n) (hn : n < 2 ^ 31) :
    t.getnextl p = .ok ((N p).getD undefined) :=
  retrieve_spec h.hnextl (by rw [h.hnextl_len]; exact hp) (by rw [h.hnextl_len]; exact hn)

theorem tabs_setup {t : childtabs} {n : Nat} {L : Nat → Nat} {U D N : Nat → Option Nat}
    (h : tabs_ok t n L U D N) {p v : Nat} (hp : p < n) (hn : n < 2 ^ 31) (hf : U p = none)
    (hv : v < 2 ^ 31) :
    ∃ t2, t.setup p v = .ok t2 ∧ tabs_ok t2 n L (Function.update U p (some v)) D N := by
  obtain ⟨vec2, map2, hs, hl, hr⟩ := store_spec h.hup (by rw [h.hup_len]; exact hp)
    (by rw [h.hup_len]; exact hn) hf hv
  unfold childtabs.setup
  rw [hs]
  exact ⟨_, rfl, h.hlcp_len, h.hlcp, by rw [← h.hup_len]; exact hl, hr, h.hdown_len, h.hdown,
    h.hnextl_len, h.hnextl⟩

theorem tabs_setdown {t : childtabs} {n : Nat} {L : Nat → Nat} {U D N : Nat → Option Nat}
    (h : tabs_ok t n L U D N) {p v : Nat} (hp : p < n) (hn : n < 2 ^ 31) (hf : D p = none)
    (hv : v < 2 ^ 31) :
    ∃ t2, t.setdown p v = .ok t2 ∧ tabs_ok t2 n L U (Function.update D p (some v)) N := by
  obtain ⟨vec2, map2, hs, hl, hr⟩ := store_spec h.hdown (by rw [h.hdown_len]; exact hp)
    (by rw [h.hdown_len]; exact hn) hf hv
  unfold childtabs.setdown
  rw [hs]
  exact ⟨_, rfl, h.hlcp_len, h.hlcp, h.hup_len, h.hup, by rw [← h.hdown_len]; exact hl, hr,
    h.hnextl_len, h.hnextl⟩

theorem tabs_setnextl {t : childtabs} {n : Nat} {L : Nat → Nat} {U D N : Nat → Option Nat}
    (h : tabs_ok t n L U D N) {p v : Nat} (hp : p < n) (hn : n < 2 ^ 31) (hf : N p = none)
    (hv : v < 2 ^ 31) :
    ∃ t2, t.setnextl p v = .ok t2 ∧ tabs_ok t2 n L U D (Function.update N p (some v)) := by
  obtain ⟨vec2, map2, hs, hl, hr⟩ := store_spec h.hnextl (by rw [h.hnextl_len]; exact hp)
    (by rw [h.hnextl_len]; exact hn) hf hv
  unfold childtabs.setnextl
  rw [hs]
  exact ⟨_, rfl, h.hlcp_len, h.hlcp, h.hup_len, h.hup, h.hdown_len, h.hdown,
    by rw [← h.hnextl_len]; exact hl, hr⟩

theorem tabs_init (n : Nat) :
    tabs_ok (childtabs.init_tabs n) n (fun _ => 0) (fun _ => none) (fun _ => none)
      (fun _ => none) := by
  refine ⟨by simp [childtabs.init_tabs], ⟨?_, ?_⟩, by simp [childtabs.init_tabs],
    tab_rep_init n, by simp [childtabs.init_tabs], tab_rep_init n,
    by simp [childtabs.init_tabs], tab_rep_init n⟩
  · intro p hp
    simp only [childtabs.init_tabs, List.length_replicate] at hp
    refine Or.inl ⟨by show (0 : Nat) < 255; omega, ?_⟩
    simp [childtabs.init_tabs, List.getElem?_replicate, hp]
  · intro e he
    simp [childtabs.init_tabs] at he

end whole_tables

end ns_suffixarray


set_option linter.unusedSectionVars false
set_option linter.unusedVariables false

namespace ns_suffixarray

/-! ## The stacks of `fill_up_down_nextl` -/

section stack_lemmas

variable {L : Nat → Nat}

theorem first_min_unique {a b q q2 : Nat} (h : first_min L a b q) (h2 : first_min L a b q2) :
    q = q2 := by
  obtain ⟨h1, h3, h4, h5⟩ := h
  obtain ⟨g1, g3, g4, g5⟩ := h2
  by_contra hne
  rcases Nat.lt_or_gt_of_ne hne with hlt | hlt
  · have := g4 q h1 hlt
    have := h5 q2 hlt g3
    omega
  · have := h4 q2 g1 hlt
    have := g5 q hlt h3
    omega

/-- The last position before `p` whose `L` is at most `L p` is unique. -/
theorem prev_le_unique {p a a2 : Nat} (ha : a < p) (ha2 : a2 < p) (h1 : L a ≤ L p)
    (h2 : ∀ (k : Nat), a < k → k < p → L p < L k) (g1 : L a2 ≤ L p)
    (g2 : ∀ (k : Nat), a2 < k → k < p → L p < L k) : a = a2 := by
  by_contra hne
  rcases Nat.lt_or_gt_of_ne hne with hlt | hlt
  · have := h2 a2 hlt ha2
    omega
  · have := g2 a hlt ha
    omega

/-- The first position behind `t` whose `L` is at most `L t` is unique. -/
theorem next_le_unique {t b b2 : Nat} (hb : t < b) (hb2 : t < b2) (h1 : L b ≤ L t)
    (h2 : ∀ (k : Nat), t < k → k < b → L t < L k) (g1 : L b2 ≤ L t)
    (g2 : ∀ (k : Nat), t < k → k < b2 → L t < L k) : b = b2 := by
  by_contra hne
  rcases Nat.lt_or_gt_of_ne hne with hlt | hlt
  · have := g2 b hb hlt
    omega
  · have := h2 b2 hb2 hlt
    omega

theorem is_up_unique {p q q2 : Nat} (h : is_up L p q) (h2 : is_up L p q2) : q = q2 := by
  obtain ⟨a, h1, h3, h4⟩ := h
  obtain ⟨a2, g1, g3, g4⟩ := h2
  have ha : a < p := by have := h4.1; have := h4.2.1; omega
  have ha2 : a2 < p := by have := g4.1; have := g4.2.1; omega
  have := prev_le_unique ha ha2 h1 h3 g1 g3
  subst this
  exact first_min_unique h4 g4

theorem is_down_at_unique {b b2 t q q2 : Nat} (h : is_down_at L b t q)
    (h2 : is_down_at L b2 t q2) : b = b2 ∧ q = q2 := by
  obtain ⟨h1, h3, h4⟩ := h
  obtain ⟨g1, g3, g4⟩ := h2
  have hb : t < b := by have := h4.1; have := h4.2.1; omega
  have hb2 : t < b2 := by have := g4.1; have := g4.2.1; omega
  have := next_le_unique hb hb2 h1 h3 g1 g3
  subst this
  exact ⟨rfl, first_min_unique h4 g4⟩

theorem is_nextl_unique {t x x2 : Nat} (h : is_nextl L t x) (h2 : is_nextl L t x2) :
    x = x2 := by
  obtain ⟨h1, h3, h4⟩ := h
  obtain ⟨g1, g3, g4⟩ := h2
  exact next_le_unique h1 g1 (by omega) h4 (by omega) g4

/-- Between two positions, every `L` exceeds `bound` as soon as the stacked positions
there do and no `L` from `hi` on is below `bound`. -/
theorem ustack_between {i : Nat} {st : List Nat} (h : ustack_ok L i st) {lo hi bound : Nat}
    (hhi : hi ≤ i) (hst : ∀ k ∈ st, lo < k → k < hi → bound < L k)
    (hright : ∀ (k2 : Nat), hi ≤ k2 → k2 < i → bound ≤ L k2) :
    ∀ (k : Nat), lo < k → k < hi → bound < L k := by
  have key : ∀ (m k : Nat), lo < k → k < hi → hi - k ≤ m → bound < L k := by
    intro m
    induction m with
    | zero => intro k _ hk hm; omega
    | succ m ih =>
      intro k hlo hk hm
      by_contra hle
      have hmem : k ∈ st := by
        rw [h.2 k]
        refine ⟨by omega, ?_⟩
        intro k2 hk2 hk2i
        by_cases hk2hi : k2 < hi
        · have := ih k2 (by omega) hk2hi (by omega)
          omega
        · have := hright k2 (by omega) hk2i
          omega
      exact hle (hst k hmem hlo hk)
  intro k hlo hk
  exact key (hi - k) k hlo hk (Nat.le_refl _)

/-- The top of the stack before the round of position `i` is `i - 1`. -/
theorem ustack_top {i : Nat} {st : List Nat} (h : ustack_ok L i st) (hi : 0 < i) :
    ∃ rest, st = (i - 1) :: rest := by
  have hmem : i - 1 ∈ st := by
    rw [h.2]
    exact ⟨by omega, fun k2 h1 h2 => by omega⟩
  cases st with
  | nil => cases hmem
  | cons c rest =>
    have hc : c < i := ((h.2 c).1 (List.mem_cons_self _ _)).1
    rcases List.mem_cons.1 hmem with heq | hin
    · exact ⟨rest, by rw [heq]⟩
    · have := (List.pairwise_cons.1 h.1).1 (i - 1) hin
      omega

theorem nstack_top {i : Nat} {st : List Nat} (h : nstack_ok L i st) (hi : 0 < i) :
    ∃ rest, st = (i - 1) :: rest := by
  have hmem : i - 1 ∈ st := by
    rw [h.2]
    exact ⟨by omega, fun k2 h1 h2 => by omega⟩
  cases st with
  | nil => cases hmem
  | cons c rest =>
    have hc : c < i := ((h.2 c).1 (List.mem_cons_self _ _)).1
    rcases List.mem_cons.1 hmem with heq | hin
    · exact ⟨rest, by rw [heq]⟩
    · have := (List.pairwise_cons.1 h.1).1 (i - 1) hin
      omega

/-- The state of the `while` loop when the round begins. -/
theorem pop_state_start {i : Nat} {st : List Nat} (hp : st.Pairwise (fun a b => b < a))
    (hlt : ∀ k ∈ st, k < i) {rest : List Nat} (hst : st = (i - 1) :: rest) :
    pop_state L i st st (i - 1) := by
  refine ⟨hp, ⟨rest, hst⟩, ?_, ?_⟩
  · intro k
    constructor
    · intro hk
      have := hlt k hk
      exact ⟨hk, by omega⟩
    · intro hk
      exact hk.1
  · intro k hk hc
    have := hlt k hk
    omega

/-- One pop: the state of the `while` loop with the next position on top. -/
theorem pop_state_pop {i c t : Nat} {st0 rest : List Nat}
    (h : pop_state L i st0 (c :: t :: rest) c) (hc : L i < L c) :
    pop_state L i st0 (t :: rest) t := by
  obtain ⟨hp, _, hm, hg⟩ := h
  have hp2 := List.pairwise_cons.1 hp
  have htc : t < c := hp2.1 t (List.mem_cons_self _ _)
  refine ⟨hp2.2, ⟨rest, rfl⟩, ?_, ?_⟩
  · intro k
    constructor
    · intro hk
      have h1 := (hm k).1 (List.mem_cons_of_mem _ hk)
      refine ⟨h1.1, ?_⟩
      rcases List.mem_cons.1 hk with h2 | h2
      · omega
      · have := (List.pairwise_cons.1 hp2.2).1 k h2
        omega
    · intro hk
      have h1 := (hm k).2 ⟨hk.1, by omega⟩
      rcases List.mem_cons.1 h1 with h2 | h2
      · omega
      · exact h2
  · intro k hk hkt
    by_cases hkc : c < k
    · exact hg k hk hkc
    · have h1 := (hm k).2 ⟨hk, by omega⟩
      rcases List.mem_cons.1 h1 with h2 | h2
      · rw [h2]; exact hc
      · rcases List.mem_cons.1 h2 with h3 | h3
        · omega
        · have := (List.pairwise_cons.1 hp2.2).1 k h3
          omega

/-- The stack `updownstack` after the round of position `i`. -/
theorem ustack_push {i p : Nat} {st0 cur : List Nat} (h0 : ustack_ok L i st0)
    (h : pop_state L i st0 cur p) (hp : L p ≤ L i) : ustack_ok L (i + 1) (i :: cur) := by
  obtain ⟨hpw, ⟨rest, hcur⟩, hm, hg⟩ := h
  have hin : ∀ k ∈ cur, k ∈ st0 ∧ k ≤ p := fun k hk => (hm k).1 hk
  refine ⟨List.pairwise_cons.2 ⟨?_, hpw⟩, ?_⟩
  · intro k hk
    exact ((h0.2 k).1 (hin k hk).1).1
  · intro k
    constructor
    · intro hk
      rcases List.mem_cons.1 hk with hk | hk
      · subst hk
        exact ⟨by omega, fun k2 h1 h2 => by omega⟩
      · obtain ⟨hk0, hkp⟩ := hin k hk
        obtain ⟨hki, hkL⟩ := (h0.2 k).1 hk0
        refine ⟨by omega, ?_⟩
        intro k2 h1 h2
        by_cases hk2 : k2 < i
        · exact hkL k2 h1 hk2
        · have hk2i : k2 = i := by omega
          subst hk2i
          by_cases hkp2 : k = p
          · subst hkp2; exact hp
          · have hpi : p < k2 := ((h0.2 p).1 ((hm p).1 (by rw [hcur]; exact List.mem_cons_self _ _)).1).1
            have := hkL p (by omega) hpi
            omega
    · rintro ⟨hk1, hk2⟩
      by_cases hki : k = i
      · subst hki
        exact List.mem_cons_self _ _
      · refine List.mem_cons_of_mem _ ?_
        have hk0 : k ∈ st0 := (h0.2 k).2 ⟨by omega, fun k2 h1 h2 => hk2 k2 h1 (by omega)⟩
        have hLi := hk2 i (by omega) (by omega)
        by_cases hpk : p < k
        · have := hg k hk0 hpk
          omega
        · exact (hm k).2 ⟨hk0, by omega⟩

/-- The stack `nextlstack` after the round of position `i` when the position on top
has a smaller `L`. -/
theorem nstack_push {i p : Nat} {st0 cur : List Nat} (h0 : nstack_ok L i st0)
    (h : pop_state L i st0 cur p) (hp : L p < L i) : nstack_ok L (i + 1) (i :: cur) := by
  obtain ⟨hpw, ⟨rest, hcur⟩, hm, hg⟩ := h
  have hin : ∀ k ∈ cur, k ∈ st0 ∧ k ≤ p := fun k hk => (hm k).1 hk
  refine ⟨List.pairwise_cons.2 ⟨?_, hpw⟩, ?_⟩
  · intro k hk
    exact ((h0.2 k).1 (hin k hk).1).1
  · intro k
    constructor
    · intro hk
      rcases List.mem_cons.1 hk with hk | hk
      · subst hk
        exact ⟨by omega, fun k2 h1 h2 => by omega⟩
      · obtain ⟨hk0, hkp⟩ := hin k hk
        obtain ⟨hki, hkL⟩ := (h0.2 k).1 hk0
        refine ⟨by omega, ?_⟩
        intro k2 h1 h2
        by_cases hk2 : k2 < i
        · exact hkL k2 h1 hk2
        · have hk2i : k2 = i := by omega
          subst hk2i
          by_cases hkp2 : k = p
          · subst hkp2; exact hp
          · have hpi : p < k2 := ((h0.2 p).1 ((hm p).1 (by rw [hcur]; exact List.mem_cons_self _ _)).1).1
            have := hkL p (by omega) hpi
            omega
    · rintro ⟨hk1, hk2⟩
      by_cases hki : k = i
      · subst hki
        exact List.mem_cons_self _ _
      · refine List.mem_cons_of_mem _ ?_
        have hk0 : k ∈ st0 := (h0.2 k).2 ⟨by omega, fun k2 h1 h2 => hk2 k2 h1 (by omega)⟩
        have hLi := hk2 i (by omega) (by omega)
        by_cases hpk : p < k
        · have := hg k hk0 hpk
          omega
        · exact (hm k).2 ⟨hk0, by omega⟩

/-- The stack `nextlstack` after the round of position `i` when the position on top
has the same `L`: that position is replaced by `i`. -/
theorem nstack_replace {i p : Nat} {st0 rest : List Nat} (h0 : nstack_ok L i st0)
    (h : pop_state L i st0 (p :: rest) p) (hp : L p = L i) :
    nstack_ok L (i + 1) (i :: rest) := by
  obtain ⟨hpw, _, hm, hg⟩ := h
  have hpw2 := List.pairwise_cons.1 hpw
  have hp0 : p ∈ st0 := ((hm p).1 (List.mem_cons_self _ _)).1
  have hpi : p < i := ((h0.2 p).1 hp0).1
  have hin : ∀ k ∈ rest, k ∈ st0 ∧ k < p := fun k hk =>
    ⟨((hm k).1 (List.mem_cons_of_mem _ hk)).1, hpw2.1 k hk⟩
  refine ⟨List.pairwise_cons.2 ⟨?_, hpw2.2⟩, ?_⟩
  · intro k hk
    have := (hin k hk).2
    omega
  · intro k
    constructor
    · intro hk
      rcases List.mem_cons.1 hk with hk | hk
      · subst hk
        exact ⟨by omega, fun k2 h1 h2 => by omega⟩
      · obtain ⟨hk0, hkp⟩ := hin k hk
        obtain ⟨hki, hkL⟩ := (h0.2 k).1 hk0
        refine ⟨by omega, ?_⟩
        intro k2 h1 h2
        by_cases hk2 : k2 < i
        · exact hkL k2 h1 hk2
        · have hk2i : k2 = i := by omega
          subst hk2i
          have := hkL p hkp hpi
          omega
    · rintro ⟨hk1, hk2⟩
      by_cases hki : k = i
      · subst hki
        exact List.mem_cons_self _ _
      · refine List.mem_cons_of_mem _ ?_
        have hk0 : k ∈ st0 := (h0.2 k).2 ⟨by omega, fun k2 h1 h2 => hk2 k2 h1 (by omega)⟩
        have hLi := hk2 i (by omega) (by omega)
        by_cases hpk : p < k
        · have := hg k hk0 hpk
          omega
        · have h1 := (hm k).2 ⟨hk0, by omega⟩
          rcases List.mem_cons.1 h1 with h2 | h2
          · subst h2
            omega
          · exact h2

end stack_lemmas

end ns_suffixarray


set_option linter.unusedSectionVars false
set_option linter.unusedVariables false

namespace ns_suffixarray

/-! ## The table `down` inside the `while` loop of a round -/

section down_table

variable {L : Nat → Nat}

/-- Facts about the position `c` on top and the position `t` under it. -/
theorem pop_pair_facts {i c t : Nat} {st0 rest : List Nat} (h0 : ustack_ok L i st0)
    (hs : pop_state L i st0 (c :: t :: rest) c) :
    t < c ∧ c < i ∧ L t ≤ L c ∧ (∀ (k : Nat), c < k → k < i → L c ≤ L k) ∧
      (∀ (k : Nat), t < k → k < i → L t ≤ L k) ∧
      (∀ (k : Nat), t < k → k < c → L c < L k) ∧
      (∀ k ∈ st0, t < k → c ≤ k) ∧ c ∈ st0 ∧ t ∈ st0 := by
  obtain ⟨hpw, _, hm, hg⟩ := hs
  have hpw2 := List.pairwise_cons.1 hpw
  have htc : t < c := hpw2.1 t (List.mem_cons_self _ _)
  have hc0 : c ∈ st0 := ((hm c).1 (List.mem_cons_self _ _)).1
  have ht0 : t ∈ st0 := ((hm t).1 (List.mem_cons_of_mem _ (List.mem_cons_self _ _))).1
  obtain ⟨hci, hcL⟩ := (h0.2 c).1 hc0
  obtain ⟨hti, htL⟩ := (h0.2 t).1 ht0
  have hadj : ∀ k ∈ st0, t < k → c ≤ k := by
    intro k hk htk
    by_contra hlt
    have h1 := (hm k).2 ⟨hk, by omega⟩
    rcases List.mem_cons.1 h1 with h2 | h2
    · omega
    · rcases List.mem_cons.1 h2 with h3 | h3
      · omega
      · have := (List.pairwise_cons.1 hpw2.2).1 k h3
        omega
  refine ⟨htc, hci, htL c htc hci, hcL, htL, ?_, hadj, hc0, ht0⟩
  refine ustack_between h0 (Nat.le_of_lt hci) ?_ ?_
  · intro k hk h1 h2
    have := hadj k hk h1
    omega
  · intro k2 h1 h2
    by_cases hk : k2 = c
    · subst hk; exact Nat.le_refl _
    · exact hcL k2 (by omega) h2

/-- What the round of position `i` sets at the position `t` under the popped top. -/
theorem down_at_pair {i c t : Nat} {st0 rest : List Nat} (h0 : ustack_ok L i st0)
    (hs : pop_state L i st0 (c :: t :: rest) c) (q : Nat) :
    is_down_at L i t q ↔ (L i ≤ L t ∧ L t ≠ L c ∧ q = c) := by
  obtain ⟨htc, hci, htc2, hcL, htL, hgap, hadj, hc0, ht0⟩ := pop_pair_facts h0 hs
  have hfm : L t ≠ L c → first_min L t i c := by
    intro hne
    exact ⟨htc, hci, hgap, hcL⟩
  constructor
  · rintro ⟨h1, h2, h3⟩
    have hne : L t ≠ L c := by
      have := h2 c htc hci
      omega
    exact ⟨h1, hne, first_min_unique h3 (hfm hne)⟩
  · rintro ⟨h1, hne, hq⟩
    subst hq
    refine ⟨h1, ?_, hfm hne⟩
    intro k hk1 hk2
    by_cases hkc : k < q
    · have := hgap k hk1 hkc
      omega
    · by_cases hkc2 : k = q
      · subst hkc2; omega
      · have := hcL k (by omega) hk2
        omega

/-- Nothing is set in the round of position `i` between the two positions. -/
theorem down_at_none {i c t : Nat} {st0 rest : List Nat} (h0 : ustack_ok L i st0)
    (hs : pop_state L i st0 (c :: t :: rest) c) {t2 q : Nat} (h1 : t < t2) (h2 : t2 < c) :
    ¬ is_down_at L i t2 q := by
  obtain ⟨htc, hci, htc2, hcL, htL, hgap, hadj, hc0, ht0⟩ := pop_pair_facts h0 hs
  rintro ⟨g1, g2, g3⟩
  have hmem : t2 ∈ st0 := by
    rw [h0.2]
    refine ⟨by omega, ?_⟩
    intro k2 hk1 hk2
    exact Nat.le_of_lt (g2 k2 hk1 hk2)
  have := hadj t2 hmem h1
  omega

/-- No earlier round has set `down` at the position under the popped top when the
two positions differ in `L`. -/
theorem down_before_none {i c t : Nat} {st0 rest : List Nat} (h0 : ustack_ok L i st0)
    (hs : pop_state L i st0 (c :: t :: rest) c) (hne : L t ≠ L c) (q : Nat) :
    ¬ is_down L i t q := by
  obtain ⟨htc, hci, htc2, hcL, htL, hgap, hadj, hc0, ht0⟩ := pop_pair_facts h0 hs
  rintro ⟨b, hbi, g1, g2, g3⟩
  have htb : t < b := by have := g3.1; have := g3.2.1; omega
  have hLb : L b = L t := by
    have := htL b htb hbi
    omega
  have hmem : b ∈ st0 := by
    rw [h0.2]
    refine ⟨hbi, ?_⟩
    intro k2 hk1 hk2
    rw [hLb]
    exact htL k2 (by omega) hk2
  have hcb := hadj b hmem htb
  by_cases hbc : b = c
  · subst hbc
    exact hne hLb.symm
  · have := hcL b (by omega) hbi
    have := g2 c htc (by omega)
    omega

theorem down_mid_pop {i c t : Nat} {st0 rest : List Nat} {D : Nat → Option Nat}
    (h0 : ustack_ok L i st0) (hs : pop_state L i st0 (c :: t :: rest) c)
    (hd : down_mid L i c D) :
    (L i ≤ L t ∧ L t ≠ L c → D t = none ∧ down_mid L i t (Function.update D t (some c))) ∧
    (¬ (L i ≤ L t ∧ L t ≠ L c) → down_mid L i t D) := by
  obtain ⟨htc, hci, htc2, hcL, htL, hgap, hadj, hc0, ht0⟩ := pop_pair_facts h0 hs
  constructor
  · rintro ⟨hc1, hc2⟩
    have hnone : D t = none := by
      cases hDt : D t with
      | none => rfl
      | some q =>
        rcases (hd t q).1 hDt with h1 | h1
        · exact absurd h1 (down_before_none h0 hs hc2 q)
        · omega
    refine ⟨hnone, ?_⟩
    intro t2 q
    by_cases ht2 : t2 = t
    · subst ht2
      rw [Function.update_same]
      constructor
      · intro hq
        injection hq with hq
        subst hq
        exact Or.inr ⟨Nat.le_refl _, (down_at_pair h0 hs _).2 ⟨hc1, hc2, rfl⟩⟩
      · rintro (h1 | h1)
        · exact absurd h1 (down_before_none h0 hs hc2 q)
        · rw [((down_at_pair h0 hs q).1 h1.2).2.2]
    · rw [Function.update_noteq ht2, hd t2 q]
      constructor
      · rintro (h1 | h1)
        · exact Or.inl h1
        · exact Or.inr ⟨by omega, h1.2⟩
      · rintro (h1 | h1)
        · exact Or.inl h1
        · by_cases hct : c ≤ t2
          · exact Or.inr ⟨hct, h1.2⟩
          · exact absurd h1.2 (down_at_none h0 hs (by omega) (by omega))
  · intro hcond t2 q
    rw [hd t2 q]
    constructor
    · rintro (h1 | h1)
      · exact Or.inl h1
      · exact Or.inr ⟨by omega, h1.2⟩
    · rintro (h1 | h1)
      · exact Or.inl h1
      · by_cases hct : c ≤ t2
        · exact Or.inr ⟨hct, h1.2⟩
        · by_cases ht2 : t2 = t
          · subst ht2
            have := (down_at_pair h0 hs q).1 h1.2
            exact absurd ⟨this.1, this.2.1⟩ hcond
          · exact absurd h1.2 (down_at_none h0 hs (by omega) (by omega))

end down_table

end ns_suffixarray


set_option linter.unusedSectionVars false
set_option linter.unusedVariables false

namespace ns_suffixarray

open suffixarray

/-! ## The first `while` loop of a round of `fill_up_down_nextl` -/

section updown_loop

variable {L : Nat → Nat}

theorem updown_pop_cons (i top : Nat) (rest : List Nat) (last : Nat) (tabs : childtabs) :
    updown_pop i (top :: rest) last tabs =
      (tabs.getlcp i >>= fun li => tabs.getlcp top >>= fun lt =>
        if li < lt then
          match rest with
          | [] => .error .ub
          | top2 :: _ =>
            tabs.getlcp top2 >>= fun l2 =>
              (if li ≤ l2 ∧ l2 ≠ lt then tabs.setdown top2 top else pure tabs) >>= fun tabs =>
                updown_pop i rest top tabs
        else pure (top :: rest, last, tabs)) := by
  cases rest <;> rfl

theorem updown_pop_spec {n i : Nat} (hi : i < n) (hn : n < 2 ^ 31) {st0 : List Nat}
    (h0 : ustack_ok L i st0) (hL0 : L 0 = 0) {U N : Nat → Option Nat} :
    ∀ (cur : List Nat) (c last : Nat) (tabs : childtabs) (D : Nat → Option Nat),
      pop_state L i st0 cur c → last_ok i st0 c last → tabs_ok tabs n L U D N →
      down_mid L i c D →
      ∃ cur2 p last2 tabs2 D2, updown_pop i cur last tabs = .ok (cur2, last2, tabs2) ∧
        pop_state L i st0 cur2 p ∧ L p ≤ L i ∧ last_ok i st0 p last2 ∧
        tabs_ok tabs2 n L U D2 N ∧ down_mid L i p D2 := by
  intro cur
  induction cur with
  | nil =>
    intro c last tabs D hs
    obtain ⟨_, ⟨rest, hr⟩, _⟩ := hs
    cases hr
  | cons c2 rest ih =>
    intro c last tabs D hs hl ht hd
    have hcc : c2 = c := by
      obtain ⟨_, ⟨r, hr⟩, _⟩ := hs
      injection hr
    subst hcc
    have hc0 : c2 ∈ st0 := ((hs.2.2.1 c2).1 (List.mem_cons_self _ _)).1
    have hci : c2 < i := ((h0.2 c2).1 hc0).1
    rw [updown_pop_cons, tabs_getlcp ht hi hn, tabs_getlcp ht (by omega : c2 < n) hn]
    simp only [ok_bind]
    by_cases hlt : L i < L c2
    · rw [if_pos hlt]
      cases rest with
      | nil =>
        exfalso
        have hz : 0 ∈ st0 := by
          rw [h0.2]
          refine ⟨by omega, ?_⟩
          intro k2 _ _
          rw [hL0]
          exact Nat.zero_le _
        have := (hs.2.2.1 0).2 ⟨hz, Nat.zero_le _⟩
        simp at this
        rw [← this, hL0] at hlt
        omega
      | cons t rest2 =>
        obtain ⟨htc, _, htc2, hcL, htL, hgap, hadj, _, ht0⟩ := pop_pair_facts h0 hs
        have hs2 := pop_state_pop hs hlt
        have hl2 : last_ok i st0 t c2 := Or.inr ⟨hc0, htc, fun k hk hkt => hadj k hk hkt⟩
        simp only []
        rw [tabs_getlcp ht (by omega : t < n) hn]
        simp only [ok_bind]
        obtain ⟨hset, hkeep⟩ := down_mid_pop h0 hs hd
        by_cases hcond : L i ≤ L t ∧ L t ≠ L c2
        · rw [if_pos hcond]
          obtain ⟨hnone, hd2⟩ := hset hcond
          obtain ⟨tabs2, hst, ht2⟩ := tabs_setdown ht (by omega : t < n) hn hnone
            (by omega : c2 < 2 ^ 31)
          rw [hst]
          simp only [ok_bind]
          exact ih t c2 tabs2 _ hs2 hl2 ht2 hd2
        · rw [if_neg hcond]
          simp only [pure_eq_ok, ok_bind]
          exact ih t c2 tabs D hs2 hl2 ht (hkeep hcond)
    · rw [if_neg hlt]
      exact ⟨c2 :: rest, c2, last, tabs, D, rfl, hs, by omega, hl, ht, hd⟩

end updown_loop

end ns_suffixarray


set_option linter.unusedSectionVars false
set_option linter.unusedVariables false

namespace ns_suffixarray

open suffixarray

/-! ## The tables at the end of a round of `fill_up_down_nextl` -/

section round_end

variable {L : Nat → Nat}

theorem down_mid_start {i : Nat} {D : Nat → Option Nat} (hi : 0 < i)
    (h : ∀ (t q : Nat), D t = some q ↔ is_down L i t q) : down_mid L i (i - 1) D := by
  intro t q
  rw [h t q]
  constructor
  · intro h1
    exact Or.inl h1
  · rintro (h1 | ⟨h1, _, _, h2⟩)
    · exact h1
    · have := h2.1
      have := h2.2.1
      omega

theorem down_mid_end {i p : Nat} {st0 cur : List Nat} {D : Nat → Option Nat}
    (h0 : ustack_ok L i st0) (hs : pop_state L i st0 cur p) (hp : L p ≤ L i)
    (h : down_mid L i p D) : ∀ (t q : Nat), D t = some q ↔ is_down L (i + 1) t q := by
  obtain ⟨_, ⟨rest, hcur⟩, hm, _⟩ := hs
  have hpi : p < i := ((h0.2 p).1 ((hm p).1 (by rw [hcur]; exact List.mem_cons_self _ _)).1).1
  intro t q
  rw [h t q]
  constructor
  · rintro (⟨b, hb, h1⟩ | ⟨_, h1⟩)
    · exact ⟨b, by omega, h1⟩
    · exact ⟨i, by omega, h1⟩
  · rintro ⟨b, hb, h1, h2, h3⟩
    by_cases hbi : b < i
    · exact Or.inl ⟨b, hbi, h1, h2, h3⟩
    · have : b = i := by omega
      subst this
      refine Or.inr ⟨?_, h1, h2, h3⟩
      by_contra htp
      have := h2 p (by omega) hpi
      omega

/-- The value that the round of position `i` sets in `up`. -/
theorem up_at_round {i p last : Nat} {st0 cur : List Nat} (h0 : ustack_ok L i st0)
    (hs : pop_state L i st0 cur p) (hp : L p ≤ L i) (hl : last_ok i st0 p last)
    (hi : i < 2 ^ 31) :
    (last ≠ undefined → last < i ∧ is_up L i last) ∧
    (last = undefined → ∀ (q : Nat), ¬ is_up L i q) := by
  obtain ⟨_, ⟨rest, hcur⟩, hm, hg⟩ := hs
  have hpi : p < i := ((h0.2 p).1 ((hm p).1 (by rw [hcur]; exact List.mem_cons_self _ _)).1).1
  rcases hl with ⟨hl1, hl2⟩ | ⟨hl1, hl2, hl3⟩
  · refine ⟨fun h => absurd hl1 h, ?_⟩
    rintro _ q ⟨a, h1, h2, h3⟩
    have := h3.1
    have := h3.2.1
    have := h2 p (by omega) hpi
    omega
  · obtain ⟨hli, hlL⟩ := (h0.2 last).1 hl1
    constructor
    · intro _
      refine ⟨hli, p, hp, ?_, hl2, hli, ?_, hlL⟩
      · exact ustack_between h0 (Nat.le_refl _) (fun k hk h1 _ => hg k hk h1)
          (fun k2 h1 h2 => by omega)
      · refine ustack_between h0 (Nat.le_of_lt hli) ?_ ?_
        · intro k hk h1 h2
          have := hl3 k hk h1
          omega
        · intro k2 h1 h2
          by_cases hk : k2 = last
          · subst hk; exact Nat.le_refl _
          · exact hlL k2 (by omega) h2
    · intro hu
      exfalso
      unfold undefined at hu
      omega

theorem up_inv_set {i q : Nat} {U : Nat → Option Nat}
    (h : ∀ (p q : Nat), U p = some q ↔ p < i ∧ is_up L p q) (hq : is_up L i q) :
    U i = none ∧
      ∀ (p q2 : Nat), Function.update U i (some q) p = some q2 ↔ p < i + 1 ∧ is_up L p q2 := by
  have hnone : U i = none := by
    cases hU : U i with
    | none => rfl
    | some x =>
      have := ((h i x).1 hU).1
      omega
  refine ⟨hnone, ?_⟩
  intro p q2
  by_cases hp : p = i
  · subst hp
    rw [Function.update_same]
    constructor
    · intro h1
      injection h1 with h1
      subst h1
      exact ⟨by omega, hq⟩
    · rintro ⟨_, h1⟩
      rw [is_up_unique hq h1]
  · rw [Function.update_noteq hp, h p q2]
    constructor
    · rintro ⟨h1, h2⟩
      exact ⟨by omega, h2⟩
    · rintro ⟨h1, h2⟩
      exact ⟨by omega, h2⟩

theorem up_inv_keep {i : Nat} {U : Nat → Option Nat}
    (h : ∀ (p q : Nat), U p = some q ↔ p < i ∧ is_up L p q) (hq : ∀ (q : Nat), ¬ is_up L i q) :
    ∀ (p q2 : Nat), U p = some q2 ↔ p < i + 1 ∧ is_up L p q2 := by
  intro p q2
  rw [h p q2]
  constructor
  · rintro ⟨h1, h2⟩
    exact ⟨by omega, h2⟩
  · rintro ⟨h1, h2⟩
    by_cases hp : p = i
    · subst hp
      exact absurd h2 (hq q2)
    · exact ⟨by omega, h2⟩

end round_end

end ns_suffixarray


set_option linter.unusedSectionVars false
set_option linter.unusedVariables false

namespace ns_suffixarray

open suffixarray

/-! ## The second `while` loop of a round and the table `nextl` -/

section nextl_loop

variable {L : Nat → Nat}

/-- The last position below `c` at which `L` is below `v`. -/
theorem exists_last_below (v : Nat) :
    ∀ (c : Nat), (∃ k, k < c ∧ L k < v) →
      ∃ z, z < c ∧ L z < v ∧ ∀ (k : Nat), z < k → k < c → v ≤ L k := by
  intro c
  induction c with
  | zero => rintro ⟨k, hk, _⟩; omega
  | succ c ih =>
    rintro ⟨k, hk, hkv⟩
    by_cases hc : L c < v
    · exact ⟨c, by omega, hc, fun k2 h1 h2 => by omega⟩
    · have hkc : k < c := by
        by_contra hge
        have : k = c := by omega
        subst this
        exact hc hkv
      obtain ⟨z, hz, hzv, hzL⟩ := ih ⟨k, hkc, hkv⟩
      refine ⟨z, by omega, hzv, ?_⟩
      intro k2 h1 h2
      by_cases hk2 : k2 = c
      · subst hk2; omega
      · exact hzL k2 h1 (by omega)

theorem nextl_pop_cons (i top : Nat) (rest : List Nat) (tabs : childtabs) :
    nextl_pop i tabs (top :: rest) =
      (tabs.getlcp i >>= fun li => tabs.getlcp top >>= fun lt =>
        if li < lt then nextl_pop i tabs rest else pure (top :: rest)) := rfl

theorem nextl_pop_spec {n i : Nat} (hi : i < n) (hn : n < 2 ^ 31) {st0 : List Nat}
    (h0 : nstack_ok L i st0) (hL0 : L 0 = 0) {tabs : childtabs} {U D N : Nat → Option Nat}
    (ht : tabs_ok tabs n L U D N) :
    ∀ (cur : List Nat) (c : Nat), pop_state L i st0 cur c →
      ∃ cur2 p, nextl_pop i tabs cur = .ok cur2 ∧ pop_state L i st0 cur2 p ∧ L p ≤ L i := by
  intro cur
  induction cur with
  | nil =>
    intro c hs
    obtain ⟨_, ⟨rest, hr⟩, _⟩ := hs
    cases hr
  | cons c2 rest ih =>
    intro c hs
    have hcc : c2 = c := by
      obtain ⟨_, ⟨r, hr⟩, _⟩ := hs
      injection hr
    subst hcc
    have hc0 : c2 ∈ st0 := ((hs.2.2.1 c2).1 (List.mem_cons_self _ _)).1
    obtain ⟨hci, hcL⟩ := (h0.2 c2).1 hc0
    rw [nextl_pop_cons, tabs_getlcp ht hi hn, tabs_getlcp ht (by omega : c2 < n) hn]
    simp only [ok_bind]
    by_cases hlt : L i < L c2
    · rw [if_pos hlt]
      cases rest with
      | nil =>
        exfalso
        have hc2 : 0 < c2 := by
          by_contra hz
          have : c2 = 0 := by omega
          rw [this, hL0] at hlt
          omega
        obtain ⟨z, hz, hzv, hzL⟩ := exists_last_below (L := L) (L c2) c2 ⟨0, hc2, by rw [hL0]; omega⟩
        have hz0 : z ∈ st0 := by
          rw [h0.2]
          refine ⟨by omega, ?_⟩
          intro k2 h1 h2
          by_cases hk : k2 < c2
          · have := hzL k2 h1 hk
            omega
          · by_cases hk2 : k2 = c2
            · subst hk2; exact hzv
            · have := hcL k2 (by omega) h2
              omega
        have := (hs.2.2.1 z).2 ⟨hz0, by omega⟩
        simp at this
        omega
      | cons t rest2 =>
        exact ih t (pop_state_pop hs hlt)
    · rw [if_neg hlt]
      exact ⟨c2 :: rest, c2, rfl, hs, by omega⟩

/-- The position whose `nextl` the round of position `i` sets. -/
theorem nextl_at_round {i p : Nat} {st0 cur : List Nat} (h0 : nstack_ok L i st0)
    (hs : pop_state L i st0 cur p) (hp : L p ≤ L i) (t : Nat) :
    is_nextl L t i ↔ (t = p ∧ L p = L i) := by
  obtain ⟨_, ⟨rest, hcur⟩, hm, hg⟩ := hs
  have hp0 : p ∈ st0 := ((hm p).1 (by rw [hcur]; exact List.mem_cons_self _ _)).1
  obtain ⟨hpi, hpL⟩ := (h0.2 p).1 hp0
  constructor
  · rintro ⟨h1, h2, h3⟩
    have ht0 : t ∈ st0 := (h0.2 t).2 ⟨h1, h3⟩
    have htp : t ≤ p := by
      by_contra hgt
      have := hg t ht0 (by omega)
      omega
    by_cases heq : t = p
    · subst heq
      exact ⟨rfl, h2.symm⟩
    · have := h3 p (by omega) hpi
      omega
  · rintro ⟨h1, h2⟩
    subst h1
    exact ⟨hpi, h2.symm, hpL⟩

theorem nextl_inv_set {i p : Nat} {N : Nat → Option Nat}
    (h : ∀ (t x : Nat), N t = some x ↔ x < i ∧ is_nextl L t x)
    (hq : ∀ (t : Nat), is_nextl L t i ↔ t = p) :
    N p = none ∧
      ∀ (t x : Nat), Function.update N p (some i) t = some x ↔ x < i + 1 ∧ is_nextl L t x := by
  have hpn : is_nextl L p i := (hq p).2 rfl
  have hnone : N p = none := by
    cases hN : N p with
    | none => rfl
    | some x =>
      obtain ⟨h1, h2⟩ := (h p x).1 hN
      have := is_nextl_unique hpn h2
      omega
  refine ⟨hnone, ?_⟩
  intro t x
  by_cases ht : t = p
  · subst ht
    rw [Function.update_same]
    constructor
    · intro h1
      injection h1 with h1
      subst h1
      exact ⟨by omega, hpn⟩
    · rintro ⟨_, h1⟩
      rw [is_nextl_unique hpn h1]
  · rw [Function.update_noteq ht, h t x]
    constructor
    · rintro ⟨h1, h2⟩
      exact ⟨by omega, h2⟩
    · rintro ⟨h1, h2⟩
      by_cases hx : x = i
      · subst hx
        exact absurd ((hq t).1 h2) ht
      · exact ⟨by omega, h2⟩

theorem nextl_inv_keep {i : Nat} {N : Nat → Option Nat}
    (h : ∀ (t x : Nat), N t = some x ↔ x < i ∧ is_nextl L t x)
    (hq : ∀ (t : Nat), ¬ is_nextl L t i) :
    ∀ (t x : Nat), N t = some x ↔ x < i + 1 ∧ is_nextl L t x := by
  intro t x
  rw [h t x]
  constructor
  · rintro ⟨h1, h2⟩
    exact ⟨by omega, h2⟩
  · rintro ⟨h1, h2⟩
    by_cases hx : x = i
    · subst hx
      exact absurd h2 (hq t)
    · exact ⟨by omega, h2⟩

end nextl_loop

end ns_suffixarray


set_option linter.unusedSectionVars false
set_option linter.unusedVariables false

namespace ns_suffixarray

open suffixarray

/-! ## The rounds of `fill_up_down_nextl` -/

section rounds

variable {L : Nat → Nat}

theorem loop_step (i : Nat) (more : List Nat) (last : Nat) (ust nst : List Nat)
    (tabs : childtabs) {cur2 : List Nat} {last2 : Nat} {tabs2 : childtabs}
    (h1 : updown_pop i ust last tabs = .ok (cur2, last2, tabs2)) {tabs3 : childtabs}
    {last3 : Nat}
    (h2 : (if last2 ≠ undefined then (tabs2.setup i last2 >>= fun t => pure (undefined, t))
      else pure (last2, tabs2)) = Except.ok (last3, tabs3))
    {top : Nat} {rest : List Nat} (h3 : nextl_pop i tabs3 nst = .ok (top :: rest))
    {li lt : Nat} (h4 : tabs3.getlcp i = .ok li) (h5 : tabs3.getlcp top = .ok lt) :
    fill_up_down_nextl_loop (i :: more) last ust nst tabs =
      if li = lt then
        tabs3.setnextl top i >>= fun tabs4 =>
          fill_up_down_nextl_loop more last3 (i :: cur2) (i :: rest) tabs4
      else fill_up_down_nextl_loop more last3 (i :: cur2) (i :: top :: rest) tabs3 := by
  have h2b : (if last2 ≠ undefined then
      (do let tabs ← tabs2.setup i last2; pure (undefined, tabs))
      else pure (last2, tabs2)) = Except.ok (last3, tabs3) := h2
  simp only [fill_up_down_nextl_loop, h1, ok_bind, h2b, h3, h4, h5]

/-- One round of the loop of `fill_up_down_nextl`. -/
theorem round_spec {n i : Nat} (hi0 : 0 < i) (hi : i < n) (hn : n < 2 ^ 31) (hL0 : L 0 = 0)
    (more : List Nat) {ust nst : List Nat} {tabs : childtabs} {U D N : Nat → Option Nat}
    (hu : ustack_ok L i ust) (hns : nstack_ok L i nst) (ht : tabs_ok tabs n L U D N)
    (hc : child_inv L i U D N) :
    ∃ ust2 nst2 tabs2 U2 D2 N2,
      fill_up_down_nextl_loop (i :: more) undefined ust nst tabs =
        fill_up_down_nextl_loop more undefined ust2 nst2 tabs2 ∧
      ustack_ok L (i + 1) ust2 ∧ nstack_ok L (i + 1) nst2 ∧ tabs_ok tabs2 n L U2 D2 N2 ∧
      child_inv L (i + 1) U2 D2 N2 := by
  obtain ⟨rest0, hust⟩ := ustack_top hu hi0
  have hs0 : pop_state L i ust ust (i - 1) :=
    pop_state_start hu.1 (fun k hk => ((hu.2 k).1 hk).1) hust
  have hl0 : last_ok i ust (i - 1) undefined := Or.inl ⟨rfl, by omega⟩
  obtain ⟨cur2, p, last2, tabs2, D2, h1, hs2, hp, hl2, ht2, hd2⟩ :=
    updown_pop_spec hi hn hu hL0 ust (i - 1) undefined tabs D hs0 hl0 ht
      (down_mid_start hi0 hc.hD)
  have hD2 := down_mid_end hu hs2 hp hd2
  obtain ⟨hupd, hupn⟩ := up_at_round hu hs2 hp hl2 (by omega : i < 2 ^ 31)
  obtain ⟨tabs3, U3, h2, ht3, hU3⟩ : ∃ tabs3 U3,
      (if last2 ≠ undefined then (tabs2.setup i last2 >>= fun t => pure (undefined, t))
        else pure (last2, tabs2)) = Except.ok (undefined, tabs3) ∧
      tabs_ok tabs3 n L U3 D2 N ∧
      ∀ (p q : Nat), U3 p = some q ↔ p < i + 1 ∧ is_up L p q := by
    by_cases hlu : last2 = undefined
    · refine ⟨tabs2, U, ?_, ht2, up_inv_keep hc.hU (hupn hlu)⟩
      rw [if_neg (not_not.2 hlu), hlu]
      rfl
    · obtain ⟨hlt, hq⟩ := hupd hlu
      obtain ⟨hnone, hU3⟩ := up_inv_set hc.hU hq
      obtain ⟨tabs3, hst, ht3⟩ := tabs_setup ht2 hi hn hnone (by omega : last2 < 2 ^ 31)
      refine ⟨tabs3, _, ?_, ht3, hU3⟩
      rw [if_pos hlu, hst]
      rfl
  obtain ⟨rest1, hnst⟩ := nstack_top hns hi0
  have hs0n : pop_state L i nst nst (i - 1) :=
    pop_state_start hns.1 (fun k hk => ((hns.2 k).1 hk).1) hnst
  obtain ⟨cur3, p3, h3, hs3, hp3⟩ := nextl_pop_spec hi hn hns hL0 ht3 nst (i - 1) hs0n
  obtain ⟨rest3, hcur3⟩ := hs3.2.1
  subst hcur3
  have hp3i : p3 < i := ((hns.2 p3).1 ((hs3.2.2.1 p3).1 (List.mem_cons_self _ _)).1).1
  rw [loop_step i more undefined ust nst tabs h1 h2 h3 (tabs_getlcp ht3 hi hn)
    (tabs_getlcp ht3 (by omega : p3 < n) hn)]
  by_cases heq : L i = L p3
  · rw [if_pos heq]
    have hq : ∀ (t : Nat), is_nextl L t i ↔ t = p3 := by
      intro t
      rw [nextl_at_round hns hs3 hp3 t]
      exact ⟨fun h => h.1, fun h => ⟨h, heq.symm⟩⟩
    obtain ⟨hnone, hN4⟩ := nextl_inv_set hc.hN hq
    obtain ⟨tabs4, hst, ht4⟩ := tabs_setnextl ht3 (by omega : p3 < n) hn hnone
      (by omega : i < 2 ^ 31)
    rw [hst]
    exact ⟨_, _, tabs4, U3, D2, _, rfl, ustack_push hu hs2 hp,
      nstack_replace hns hs3 heq.symm, ht4, ⟨hU3, hD2, hN4⟩⟩
  · rw [if_neg heq]
    have hq : ∀ (t : Nat), ¬ is_nextl L t i := by
      intro t h
      exact heq ((nextl_at_round hns hs3 hp3 t).1 h).2.symm
    exact ⟨_, _, tabs3, U3, D2, N, rfl, ustack_push hu hs2 hp,
      nstack_push hns hs3 (by omega), ht3, ⟨hU3, hD2, nextl_inv_keep hc.hN hq⟩⟩

/-- The loop of `fill_up_down_nextl` over the positions `i .. n - 1`. -/
theorem rounds_spec {n : Nat} (hn : n < 2 ^ 31) (hL0 : L 0 = 0) :
    ∀ (m i : Nat), 0 < i → i + m = n → ∀ (ust nst : List Nat) (tabs : childtabs)
      (U D N : Nat → Option Nat), ustack_ok L i ust → nstack_ok L i nst →
      tabs_ok tabs n L U D N → child_inv L i U D N →
      ∃ tabs2 U2 D2 N2,
        fill_up_down_nextl_loop (List.range' i m) undefined ust nst tabs = .ok tabs2 ∧
        tabs_ok tabs2 n L U2 D2 N2 ∧ child_inv L n U2 D2 N2 := by
  intro m
  induction m with
  | zero =>
    intro i _ him ust nst tabs U D N _ _ ht hc
    have : i = n := by omega
    subst this
    exact ⟨tabs, U, D, N, rfl, ht, hc⟩
  | succ m ih =>
    intro i hi0 him ust nst tabs U D N hu hns ht hc
    obtain ⟨ust2, nst2, tabs2, U2, D2, N2, hstep, hu2, hns2, ht2, hc2⟩ :=
      round_spec hi0 (by omega : i < n) hn hL0 (List.range' (i + 1) m) hu hns ht hc
    rw [List.range'_succ, hstep]
    exact ih (i + 1) (by omega) (by omega) ust2 nst2 tabs2 U2 D2 N2 hu2 hns2 ht2 hc2

theorem range_drop_one (n : Nat) : (List.range n).drop 1 = List.range' 1 (n - 1) := by
  cases n with
  | zero => rfl
  | succ m =>
    rw [List.range_eq_range', List.range'_succ]
    rfl

/-- Member `fill_up_down_nextl()` on tables that hold `L` and no child value yet:
it returns, and the tables then hold the child values of `L`. -/
theorem fill_up_down_nextl_spec {α : Type} (s : suffixarray α) {n : Nat} (hlen : s.idx.length = n)
    (hn1 : 1 ≤ n) (hn : n < 2 ^ 31) (hL0 : L 0 = 0)
    (ht : tabs_ok s.tabs n L (fun _ => none) (fun _ => none) (fun _ => none)) :
    ∃ s2 U D N, s.fill_up_down_nextl = .ok s2 ∧ s2.idx = s.idx ∧ s2.content = s.content ∧
      tabs_ok s2.tabs n L U D N ∧ child_inv L n U D N := by
  have hu : ustack_ok L 1 [0] := by
    refine ⟨List.pairwise_singleton _ _, ?_⟩
    intro k
    simp only [List.mem_singleton]
    constructor
    · intro hk
      subst hk
      exact ⟨by omega, fun k2 h1 h2 => by omega⟩
    · intro hk
      omega
  have hns : nstack_ok L 1 [0] := by
    refine ⟨List.pairwise_singleton _ _, ?_⟩
    intro k
    simp only [List.mem_singleton]
    constructor
    · intro hk
      subst hk
      exact ⟨by omega, fun k2 h1 h2 => by omega⟩
    · intro hk
      omega
  have hc : child_inv L 1 (fun _ => none) (fun _ => none) (fun _ => none) := by
    refine ⟨?_, ?_, ?_⟩
    · intro p q
      constructor
      · intro h; cases h
      · rintro ⟨h1, a, _, _, h2⟩
        have := h2.1
        have := h2.2.1
        omega
    · intro t q
      constructor
      · intro h; cases h
      · rintro ⟨b, hb, _, _, h2⟩
        have := h2.1
        have := h2.2.1
        omega
    · intro t x
      constructor
      · intro h; cases h
      · rintro ⟨h1, h2, _⟩
        omega
  obtain ⟨tabs2, U2, D2, N2, hrun, ht2, hc2⟩ :=
    rounds_spec hn hL0 (n - 1) 1 (by omega) (by omega) [0] [0] s.tabs _ _ _ hu hns ht hc
  refine ⟨{ s with tabs := tabs2 }, U2, D2, N2, ?_, rfl, rfl, ht2, hc2⟩
  unfold suffixarray.fill_up_down_nextl
  rw [hlen, range_drop_one, hrun]
  rfl

end rounds

end ns_suffixarray


set_option linter.unusedSectionVars false
set_option linter.unusedVariables false

namespace ns_suffixarray

/-! ## The lexicographic order on suffixes -/

section lex_order

variable {α : Type} [LinearOrder α]

theorem lex_lt_nil_right (A : List α) : lex_lt A [] = false := by
  cases A <;> rfl

theorem lex_lt_cons (a b : α) (as bs : List α) :
    lex_lt (a :: as) (b :: bs) = true ↔ a < b ∨ (a = b ∧ lex_lt as bs = true) := by
  simp only [lex_lt]
  by_cases h1 : a < b
  · simp [h1]
  · by_cases h2 : b < a
    · have hne : a ≠ b := fun h => by subst h; exact h1 h2
      simp [h1, h2, hne]
    · have heq : a = b := le_antisymm (not_lt.1 h2) (not_lt.1 h1)
      simp [h1, h2, heq]

theorem lex_lt_irrefl : ∀ (A : List α), lex_lt A A = false := by
  intro A
  induction A with
  | nil => rfl
  | cons a as ih =>
    cases h : lex_lt (a :: as) (a :: as) with
    | false => rfl
    | true =>
      rcases (lex_lt_cons a a as as).1 h with h1 | h1
      · exact absurd h1 (lt_irrefl a)
      · rw [ih] at h1
        cases h1.2

theorem lex_lt_trans : ∀ (A B C : List α), lex_lt A B = true → lex_lt B C = true →
    lex_lt A C = true := by
  intro A
  induction A with
  | nil =>
    intro B C h1 h2
    cases C with
    | nil => rw [lex_lt_nil_right] at h2; cases h2
    | cons c cs => rfl
  | cons a as ih =>
    intro B C h1 h2
    cases B with
    | nil => cases h1
    | cons b bs =>
      cases C with
      | nil => cases h2
      | cons c cs =>
        rw [lex_lt_cons] at h1 h2 ⊢
        rcases h1 with h1 | ⟨h1, h1b⟩
        · rcases h2 with h2 | ⟨h2, _⟩
          · exact Or.inl (lt_trans h1 h2)
          · subst h2; exact Or.inl h1
        · subst h1
          rcases h2 with h2 | ⟨h2, h2b⟩
          · exact Or.inl h2
          · exact Or.inr ⟨h2, ih bs cs h1b h2b⟩

/-- The order on two suffixes that start inside the sequence. -/
theorem lex_lt_drop {S : List α} {a b : Nat} (ha : a < S.length) (hb : b < S.length) :
    lex_lt (S.drop a) (S.drop b) = true ↔
      S[a] < S[b] ∨ (S[a] = S[b] ∧ lex_lt (S.drop (a + 1)) (S.drop (b + 1)) = true) := by
  rw [List.drop_eq_getElem_cons ha, List.drop_eq_getElem_cons hb, lex_lt_cons]

theorem agree_cons {S : List α} {a b m : Nat} :
    agree S a b (m + 1) ↔
      a < S.length ∧ b < S.length ∧ S[a]? = S[b]? ∧ agree S (a + 1) (b + 1) m := by
  constructor
  · intro h
    obtain ⟨h1, h2, h3⟩ := h 0 (by omega)
    refine ⟨h1, h2, h3, ?_⟩
    intro k hk
    obtain ⟨g1, g2, g3⟩ := h (k + 1) (by omega)
    have e1 : a + 1 + k = a + (k + 1) := by omega
    have e2 : b + 1 + k = b + (k + 1) := by omega
    rw [e1, e2]
    exact ⟨g1, g2, g3⟩
  · rintro ⟨h1, h2, h3, h4⟩ k hk
    cases k with
    | zero => exact ⟨h1, h2, h3⟩
    | succ k =>
      obtain ⟨g1, g2, g3⟩ := h4 k (by omega)
      have e1 : a + 1 + k = a + (k + 1) := by omega
      have e2 : b + 1 + k = b + (k + 1) := by omega
      rw [e1] at g1 g3
      rw [e2] at g2 g3
      exact ⟨g1, g2, g3⟩

/-- A suffix between two suffixes in the lexicographic order shares what they share. -/
theorem agree_between {S : List α} :
    ∀ (m a b c : Nat),
      (a = b ∨ lex_lt (S.drop a) (S.drop b) = true) →
      (b = c ∨ lex_lt (S.drop b) (S.drop c) = true) →
      agree S a c m → agree S b c m := by
  intro m
  induction m with
  | zero => intro a b c _ _ _ k hk; omega
  | succ m ih =>
    intro a b c hab hbc h
    obtain ⟨ha, hc, hac, hrest⟩ := agree_cons.1 h
    rcases hab with hab | hab
    · subst hab; exact h
    · rcases hbc with hbc | hbc
      · subst hbc
        exact agree_refl (by have := (h m (by omega)).2.1; omega)
      · have hb : b < S.length := by
          by_contra hge
          rw [List.drop_eq_nil_of_le (by omega : S.length ≤ b), lex_lt_nil_right] at hab
          cases hab
        rw [List.getElem?_eq_getElem ha, List.getElem?_eq_getElem hc] at hac
        injection hac with hac
        rw [lex_lt_drop ha hb] at hab
        rw [lex_lt_drop hb hc] at hbc
        have hbeq : S[b] = S[c] := by
          rcases hab with h1 | h1
          · rcases hbc with h2 | h2
            · rw [hac] at h1
              exact absurd (lt_trans h1 h2) (lt_irrefl _)
            · exact h2.1
          · rw [← hac]; exact h1.1.symm
        have hab2 : lex_lt (S.drop (a + 1)) (S.drop (b + 1)) = true := by
          rcases hab with h1 | h1
          · rw [hac, hbeq] at h1
            exact absurd h1 (lt_irrefl _)
          · exact h1.2
        have hbc2 : lex_lt (S.drop (b + 1)) (S.drop (c + 1)) = true := by
          rcases hbc with h2 | h2
          · rw [hbeq] at h2
            exact absurd h2 (lt_irrefl _)
          · exact h2.2
        refine agree_cons.2 ⟨hb, hc, ?_, ih (a + 1) (b + 1) (c + 1) (Or.inr hab2) (Or.inr hbc2) hrest⟩
        rw [List.getElem?_eq_getElem hb, List.getElem?_eq_getElem hc, hbeq]

end lex_order

end ns_suffixarray


set_option linter.unusedSectionVars false
set_option linter.unusedVariables false

namespace ns_suffixarray

/-! ## A suffix array in suffix order -/

section sorted_array

variable {α : Type} [LinearOrder α]

theorem sa_get {n : Nat} {sa : List Nat} (hp : sa.Perm (List.range n)) {x : Nat} (hx : x < n) :
    ∃ a, sa[x]? = some a ∧ a < n := by
  have hl : sa.length = n := by rw [hp.length_eq, List.length_range]
  refine ⟨sa[x], List.getElem?_eq_getElem (by omega), ?_⟩
  exact List.mem_range.1 (hp.subset (List.getElem_mem _))

theorem sa_rank {n : Nat} {sa : List Nat} (hp : sa.Perm (List.range n)) {a : Nat} (ha : a < n) :
    ∃ x, x < n ∧ sa[x]? = some a := by
  have hl : sa.length = n := by rw [hp.length_eq, List.length_range]
  have hm : a ∈ sa := hp.symm.subset (List.mem_range.2 ha)
  obtain ⟨x, hx⟩ := List.mem_iff_getElem?.1 hm
  have := (List.getElem?_eq_some_iff.1 hx).1
  exact ⟨x, by omega, hx⟩

theorem sa_inj {n : Nat} {sa : List Nat} (hp : sa.Perm (List.range n)) {x y a : Nat}
    (hx : sa[x]? = some a) (hy : sa[y]? = some a) : x = y :=
  nodup_getElem?_inj ((List.Perm.nodup_iff hp).2 (List.nodup_range _)) hx hy

theorem suffix_sorted_pairwise {S : List α} :
    ∀ (sa : List Nat), suffix_sorted S sa →
      sa.Pairwise (fun a b => lex_lt (S.drop a) (S.drop b) = true) := by
  intro sa
  induction sa with
  | nil => intro _; exact List.Pairwise.nil
  | cons a rest ih =>
    intro h
    cases rest with
    | nil => exact List.pairwise_singleton _ _
    | cons b rest2 =>
      obtain ⟨h1, h2⟩ := h
      have hpw := ih h2
      refine List.pairwise_cons.2 ⟨?_, hpw⟩
      intro c hc
      rcases List.mem_cons.1 hc with hc | hc
      · subst hc; exact h1
      · exact lex_lt_trans _ _ _ h1 ((List.pairwise_cons.1 hpw).1 c hc)

theorem sorted_lt {S : List α} {sa : List Nat} (hs : suffix_sorted S sa) {x y a b : Nat}
    (hxy : x < y) (hx : sa[x]? = some a) (hy : sa[y]? = some b) :
    lex_lt (S.drop a) (S.drop b) = true := by
  have hpw := List.pairwise_iff_getElem.1 (suffix_sorted_pairwise sa hs)
  obtain ⟨hxl, hxe⟩ := List.getElem?_eq_some_iff.1 hx
  obtain ⟨hyl, hye⟩ := List.getElem?_eq_some_iff.1 hy
  have := hpw x y hxl hyl hxy
  rw [hxe, hye] at this
  exact this

/-- The lexicographic order of two suffixes is the order of their ranks. -/
theorem rank_lt_of_lex {S : List α} {sa : List Nat} (hs : suffix_sorted S sa) {x y a b : Nat}
    (hx : sa[x]? = some a) (hy : sa[y]? = some b)
    (h : lex_lt (S.drop a) (S.drop b) = true) : x < y := by
  by_contra hge
  by_cases heq : x = y
  · subst heq
    rw [hx] at hy
    injection hy with hy
    subst hy
    rw [lex_lt_irrefl] at h
    cases h
  · have h2 := sorted_lt hs (by omega : y < x) hy hx
    have h3 := lex_lt_trans _ _ _ h h2
    rw [lex_lt_irrefl] at h3
    cases h3

/-- The suffix that consists of the sentinel is the last of the suffix array. -/
theorem sa_last {S : List α} {sa : List Nat} (hv : valid_sentinel S)
    (hp : sa.Perm (List.range S.length)) (hs : suffix_sorted S sa) (h2 : 2 ≤ S.length) :
    sa[S.length - 1]? = some (S.length - 1) := by
  obtain ⟨x, hxn, hx⟩ := sa_rank hp (by omega : S.length - 1 < S.length)
  by_cases hxl : x = S.length - 1
  · rw [← hxl] at hx ⊢
    rw [hx, hxl]
  · exfalso
    obtain ⟨b, hb, hbn⟩ := sa_get hp (by omega : x + 1 < S.length)
    have hne : b ≠ S.length - 1 := by
      intro hbe
      rw [hbe] at hb
      have := sa_inj hp hx hb
      omega
    have hlt := sorted_lt hs (by omega : x < x + 1) hx hb
    have hlast : S.length - 1 < S.length := by omega
    rw [lex_lt_drop hlast hbn] at hlt
    have hsen := ((valid_sentinel_iff S).1 hv).2 b (by omega) S[b] S[S.length - 1]
      (List.getElem?_eq_getElem hbn) (List.getElem?_eq_getElem hlast)
    rcases hlt with h1 | h1
    · exact absurd (lt_trans h1 hsen) (lt_irrefl _)
    · rw [h1.1] at hsen
      exact absurd hsen (lt_irrefl _)

end sorted_array

end ns_suffixarray


set_option linter.unusedSectionVars false
set_option linter.unusedVariables false

namespace ns_suffixarray

/-! ## Sorting on a strict weak ordering, and the sort phase of the constructor -/

section weak_order

variable {r : Nat → Nat → Bool} {comp : Nat → Nat → Except Exn Bool} {dom : List Nat}

/-- In a strict weak ordering "not before" is transitive. -/
theorem weak_order_neg (hirr : ∀ a ∈ dom, r a a = false)
    (htrans : ∀ a ∈ dom, ∀ b ∈ dom, ∀ c ∈ dom, r a b = true → r b c = true → r a c = true)
    (heq : ∀ a ∈ dom, ∀ b ∈ dom, ∀ c ∈ dom, r a b = false → r b a = false →
      r b c = false → r c b = false → r a c = false ∧ r c a = false) :
    ∀ a ∈ dom, ∀ b ∈ dom, ∀ c ∈ dom, r a b = false → r b c = false → r a c = false := by
  intro a ha b hb c hc hab hbc
  cases hac : r a c with
  | false => rfl
  | true =>
    exfalso
    have hba : r b a = false := by
      cases h : r b a with
      | false => rfl
      | true =>
        have := htrans b hb a ha c hc h hac
        rw [hbc] at this
        cases this
    have hcb : r c b = false := by
      cases h : r c b with
      | false => rfl
      | true =>
        have := htrans a ha c hc b hb hac h
        rw [hab] at this
        cases this
    have := (heq a ha b hb c hc hab hba hbc hcb).1
    rw [hac] at this
    cases this

theorem weak_order_asymm (hirr : ∀ a ∈ dom, r a a = false)
    (htrans : ∀ a ∈ dom, ∀ b ∈ dom, ∀ c ∈ dom, r a b = true → r b c = true → r a c = true) :
    ∀ a ∈ dom, ∀ b ∈ dom, r a b = true → r b a = false := by
  intro a ha b hb hab
  cases h : r b a with
  | false => rfl
  | true =>
    have := htrans a ha b hb a ha hab h
    rw [hirr a ha] at this
    cases this

theorem linear_insert_weak (hcomp : ∀ a ∈ dom, ∀ b ∈ dom, comp a b = .ok (r a b))
    (hasym : ∀ a ∈ dom, ∀ b ∈ dom, r a b = true → r b a = false)
    (hneg : ∀ a ∈ dom, ∀ b ∈ dom, ∀ c ∈ dom, r a b = false → r b c = false → r a c = false)
    (val : Nat) (hval : val ∈ dom) :
    ∀ l : List Nat, l.Pairwise (fun a b => r a b = false) → (∀ x ∈ l, x ∈ dom) →
      ∃ out, linear_insert comp val l = .ok out ∧ out.Perm (val :: l) ∧
        out.Pairwise (fun a b => r a b = false) := by
  intro l
  induction l with
  | nil => intro _ _; exact ⟨[val], rfl, List.Perm.refl _, List.pairwise_singleton _ _⟩
  | cons y ys ih =>
    intro h hdom
    have hy := hdom y (List.mem_cons_self _ _)
    have hys : ∀ x ∈ ys, x ∈ dom := fun x hx => hdom x (List.mem_cons_of_mem _ hx)
    obtain ⟨out, hr, hp, hs⟩ := ih (List.Pairwise.of_cons h) hys
    cases hlt : r val y with
    | true =>
      refine ⟨y :: out, ?_, ?_, ?_⟩
      · simp only [linear_insert, hcomp val hval y hy, ok_bind, hlt, if_true, hr, pure_eq_ok]
      · exact (List.Perm.cons y hp).trans (List.Perm.swap _ _ _)
      · refine List.pairwise_cons.2 ⟨?_, hs⟩
        intro a ha
        rcases List.mem_cons.1 (hp.subset ha) with h1 | h1
        · rw [h1]; exact hasym val hval y hy hlt
        · exact (List.pairwise_cons.1 h).1 a h1
    | false =>
      refine ⟨val :: y :: ys, ?_, List.Perm.refl _, ?_⟩
      · simp only [linear_insert, hcomp val hval y hy, ok_bind, hlt, Bool.false_eq_true,
          if_false, pure_eq_ok]
      · refine List.pairwise_cons.2 ⟨?_, h⟩
        intro a ha
        rcases List.mem_cons.1 ha with h1 | h1
        · rw [h1]; exact hlt
        · exact hneg val hval y hy a (hys a h1) hlt ((List.pairwise_cons.1 h).1 a h1)

theorem insert_step_weak (hcomp : ∀ a ∈ dom, ∀ b ∈ dom, comp a b = .ok (r a b))
    (hirr : ∀ a ∈ dom, r a a = false)
    (htrans : ∀ a ∈ dom, ∀ b ∈ dom, ∀ c ∈ dom, r a b = true → r b c = true → r a c = true)
    (hneg : ∀ a ∈ dom, ∀ b ∈ dom, ∀ c ∈ dom, r a b = false → r b c = false → r a c = false)
    (done : List Nat) (val : Nat) (hval : val ∈ dom)
    (h : done.Pairwise (fun a b => r b a = false)) (hdom : ∀ x ∈ done, x ∈ dom) :
    ∃ d, insert_step comp done val = .ok d ∧ d.Perm (done ++ [val]) ∧
      d.Pairwise (fun a b => r b a = false) := by
  have hasym := weak_order_asymm hirr htrans
  cases done with
  | nil => exact ⟨[val], rfl, List.Perm.refl _, List.pairwise_singleton _ _⟩
  | cons first rest =>
    have hf := hdom first (List.mem_cons_self _ _)
    cases hlt : r val first with
    | true =>
      refine ⟨val :: first :: rest, ?_, ?_, ?_⟩
      · simp only [insert_step, hcomp val hval first hf, ok_bind, hlt, if_true, pure_eq_ok]
      · exact (@List.perm_append_comm _ [val] (first :: rest))
      · refine List.pairwise_cons.2 ⟨?_, h⟩
        intro a ha
        have had := hdom a ha
        cases hav : r a val with
        | false => rfl
        | true =>
          exfalso
          have h1 := htrans a had val hval first hf hav hlt
          rcases List.mem_cons.1 ha with h2 | h2
          · rw [h2, hirr first hf] at h1
            cases h1
          · have := (List.pairwise_cons.1 h).1 a h2
            rw [h1] at this
            cases this
    | false =>
      obtain ⟨out, hr, hp, hs⟩ := linear_insert_weak hcomp hasym hneg val hval
        (first :: rest).reverse (List.pairwise_reverse.2 h)
        (fun x hx => hdom x (List.mem_reverse.1 hx))
      refine ⟨out.reverse, ?_, ?_, List.pairwise_reverse.2 hs⟩
      · simp only [insert_step, hcomp val hval first hf, ok_bind, hlt, Bool.false_eq_true,
          if_false, hr, pure_eq_ok]
      · refine (List.reverse_perm out).trans (hp.trans ?_)
        refine (List.Perm.cons val (List.reverse_perm _)).trans ?_
        exact (@List.perm_append_comm _ [val] (first :: rest))

theorem insertion_sort_weak (hcomp : ∀ a ∈ dom, ∀ b ∈ dom, comp a b = .ok (r a b))
    (hirr : ∀ a ∈ dom, r a a = false)
    (htrans : ∀ a ∈ dom, ∀ b ∈ dom, ∀ c ∈ dom, r a b = true → r b c = true → r a c = true)
    (hneg : ∀ a ∈ dom, ∀ b ∈ dom, ∀ c ∈ dom, r a b = false → r b c = false → r a c = false) :
    ∀ (rest done : List Nat), done.Pairwise (fun a b => r b a = false) →
      (∀ x ∈ done ++ rest, x ∈ dom) →
      ∃ out, insertion_sort comp done rest = .ok out ∧ out.Perm (done ++ rest) ∧
        out.Pairwise (fun a b => r b a = false) := by
  intro rest
  induction rest with
  | nil =>
    intro done h _
    exact ⟨done, rfl, by rw [List.append_nil], h⟩
  | cons val rest ih =>
    intro done h hdom
    obtain ⟨d, hd, hp, hs⟩ := insert_step_weak hcomp hirr htrans hneg done val
      (hdom val (List.mem_append_right _ (List.mem_cons_self _ _))) h
      (fun x hx => hdom x (List.mem_append_left _ hx))
    have hpp : (d ++ rest).Perm (done ++ val :: rest) := by
      have := List.Perm.append_right rest hp
      rw [List.append_assoc] at this
      exact this
    obtain ⟨out, hr, hp2, hs2⟩ := ih d hs (fun x hx => hdom x (hpp.subset hx))
    refine ⟨out, ?_, hp2.trans hpp, hs2⟩
    simp only [insertion_sort, hd, ok_bind, hr]

/-- The insertion sort `sort` meets the contract of `std::sort`. -/
theorem sort_meets_contract : sort_contract sort := by
  intro comp r l hcomp hirr htrans heq
  obtain ⟨out, h1, h2, h3⟩ := insertion_sort_weak hcomp hirr htrans
    (weak_order_neg hirr htrans heq) l [] List.Pairwise.nil
    (fun x hx => by rw [List.nil_append] at hx; exact hx)
  exact ⟨out, h1, by rw [List.nil_append] at h2; exact h2, h3⟩

/-- In a list that is sorted on `r`, an element that every other element is before
is the last one. -/
theorem last_of_sorted :
    ∀ (out : List Nat) (x : Nat), out.Pairwise (fun a b => r b a = false) → x ∈ out →
      out.Nodup → (∀ y ∈ out, y ≠ x → r y x = true) → out.getLast? = some x := by
  intro out
  induction out with
  | nil =>
    intro x _ hx
    cases hx
  | cons a rest ih =>
    intro x hp hx hnd hall
    cases rest with
    | nil =>
      rw [List.mem_singleton] at hx
      rw [hx]
      rfl
    | cons b rest2 =>
      have hp2 := List.pairwise_cons.1 hp
      have hnd2 := List.nodup_cons.1 hnd
      have hxr : x ∈ b :: rest2 := by
        rcases List.mem_cons.1 hx with h | h
        · exfalso
          have hb : b ∈ b :: rest2 := List.mem_cons_self _ _
          have hbx : b ≠ x := by
            intro e
            have hab : a ∈ b :: rest2 := by
              rw [← h, ← e]
              exact List.mem_cons_self _ _
            exact hnd2.1 hab
          have h1 := hall b (List.mem_cons_of_mem _ hb) hbx
          have h2 := hp2.1 b hb
          rw [h] at h1
          rw [h1] at h2
          cases h2
        · exact h
      rw [List.getLast?_cons_cons]
      exact ih x hp2.2 hxr hnd2.2 (fun y hy => hall y (List.mem_cons_of_mem _ hy))

end weak_order

section sortphase

variable {α : Type} [LinearOrder α]

theorem lex_lt_total : ∀ (A B : List α), A ≠ B → lex_lt A B = true ∨ lex_lt B A = true := by
  intro A
  induction A with
  | nil =>
    intro B hne
    cases B with
    | nil => exact absurd rfl hne
    | cons b bs => exact Or.inl rfl
  | cons a as ih =>
    intro B hne
    cases B with
    | nil => exact Or.inr rfl
    | cons b bs =>
      rw [lex_lt_cons, lex_lt_cons]
      rcases lt_trichotomy a b with h | h | h
      · exact Or.inl (Or.inl h)
      · subst h
        have hne2 : as ≠ bs := fun e => hne (by rw [e])
        rcases ih bs hne2 with h2 | h2
        · exact Or.inl (Or.inr ⟨rfl, h2⟩)
        · exact Or.inr (Or.inr ⟨rfl, h2⟩)
      · exact Or.inr (Or.inl h)

theorem lex_lt_eq_of_not {A B : List α} (h1 : lex_lt A B = false) (h2 : lex_lt B A = false) :
    A = B := by
  by_contra hne
  rcases lex_lt_total A B hne with h | h
  · rw [h1] at h; cases h
  · rw [h2] at h; cases h

theorem lex_lt_decide (a b : α) (as bs : List α) (hne : a ≠ b) :
    lex_lt (a :: as) (b :: bs) = decide (a < b) := by
  by_cases hlt : a < b
  · simp [lex_lt, hlt]
  · have hgt : b < a := lt_of_le_of_ne (not_lt.1 hlt) (fun e => hne e.symm)
    simp [lex_lt, hlt, hgt]

theorem lex_lt_single (a b : α) : lex_lt [a] [b] = decide (a < b) := by
  by_cases hlt : a < b
  · simp [lex_lt, hlt]
  · by_cases hgt : b < a
    · simp [lex_lt, hlt, hgt]
    · simp [lex_lt, hlt, hgt]

/-- The bucket comparator `SACmp(content, 0, 2)` returns the order of the first two
elements of the two suffixes. -/
theorem SACmp_two_val {S : List α} (hs : valid_sentinel S) {x y : Nat}
    (hx : x < S.length) (hy : y < S.length) :
    SACmp S 0 2 x y = .ok (lex_lt ((S.drop x).take 2) ((S.drop y).take 2)) := by
  unfold SACmp
  by_cases hxy : x = y
  · subst hxy
    rw [if_pos rfl, lex_lt_irrefl]
    rfl
  · have h1 : ¬ (x > S.length) := by omega
    have h2 : ¬ (y > S.length) := by omega
    simp only [hxy, if_false, Nat.add_zero, h1, h2, Nat.zero_add]
    simp only [SACmp_loop, vec_read_of_lt hx, vec_read_of_lt hy, ok_bind]
    rw [List.drop_eq_getElem_cons hx, List.drop_eq_getElem_cons hy]
    by_cases he : S[x] = S[y]
    · have he2 : S[x]? = S[y]? := by
        rw [List.getElem?_eq_getElem hx, List.getElem?_eq_getElem hy, he]
      obtain ⟨hx1, hy1⟩ := sentinel_unique hs hx hy hxy he2
      have hlen : S.length = (S.length - 1) + 1 := by omega
      rw [List.drop_eq_getElem_cons hx1, List.drop_eq_getElem_cons hy1]
      have hk : lex_lt (List.take 2 (S[x] :: S[x + 1] :: List.drop (x + 1 + 1) S))
          (List.take 2 (S[y] :: S[y + 1] :: List.drop (y + 1 + 1) S)) =
          decide (S[x + 1] < S[y + 1]) := by
        show lex_lt (S[x] :: S[x + 1] :: List.take 0 _) (S[y] :: S[y + 1] :: List.take 0 _) = _
        rw [List.take_zero, List.take_zero]
        have : lex_lt [S[x], S[x + 1]] [S[y], S[y + 1]] = lex_lt [S[x + 1]] [S[y + 1]] := by
          rw [he]
          simp [lex_lt]
        rw [this, lex_lt_single]
      rw [hk, hlen]
      simp [SACmp_loop, he, vec_read_of_lt hx1, vec_read_of_lt hy1]
    · have hk : lex_lt (List.take 2 (S[x] :: List.drop (x + 1) S))
          (List.take 2 (S[y] :: List.drop (y + 1) S)) = decide (S[x] < S[y]) := by
        show lex_lt (S[x] :: List.take 1 _) (S[y] :: List.take 1 _) = _
        exact lex_lt_decide _ _ _ _ he
      rw [hk]
      simp [he]

/-- Every position but the last is before the position of the sentinel in the order
of the bucket comparator. -/
theorem before_sentinel {S : List α} (hs : valid_sentinel S) {y : Nat}
    (hy : y + 1 < S.length) :
    lex_lt ((S.drop y).take 2) ((S.drop (S.length - 1)).take 2) = true := by
  have hy2 : y < S.length := by omega
  have hx : S.length - 1 < S.length := by omega
  obtain ⟨_, h⟩ := (valid_sentinel_iff S).1 hs
  have hlt := h y hy S[y] S[S.length - 1] (List.getElem?_eq_getElem hy2)
    (List.getElem?_eq_getElem hx)
  rw [List.drop_eq_getElem_cons hy2, List.drop_eq_getElem_cons hx]
  show lex_lt (S[y] :: List.take 1 _) (S[S.length - 1] :: List.take 1 _) = true
  rw [lex_lt_cons]
  exact Or.inl hlt

/-- The sort of the whole index in `ds()`, by any `std::sort`, returns a permutation of
the positions with the sentinel position last. -/
theorem sort_bucket_ok {std_sort : sorter} (hsort : sort_contract std_sort) {S : List α}
    (hs : valid_sentinel S) (h2 : 2 ≤ S.length) :
    ∃ idx0, std_sort (SACmp S 0 2) (List.range S.length) = .ok idx0 ∧
      idx0.Perm (List.range S.length) ∧ idx0[S.length - 1]? = some (S.length - 1) := by
  obtain ⟨out, h0, hp, hsorted⟩ := hsort (SACmp S 0 2)
    (fun x y => lex_lt ((S.drop x).take 2) ((S.drop y).take 2)) (List.range S.length)
    (fun a ha b hb => SACmp_two_val hs (List.mem_range.1 ha) (List.mem_range.1 hb))
    (fun a _ => lex_lt_irrefl _)
    (fun a _ b _ c _ h1 h2 => lex_lt_trans _ _ _ h1 h2)
    (fun a _ b _ c _ h1 h2 h3 h4 => by
      have e1 := lex_lt_eq_of_not h1 h2
      have e2 := lex_lt_eq_of_not h3 h4
      simp only []
      rw [e1, e2]
      exact ⟨lex_lt_irrefl _, lex_lt_irrefl _⟩)
  refine ⟨out, h0, hp, ?_⟩
  have hlen : out.length = S.length := by rw [hp.length_eq, List.length_range]
  have hnd : out.Nodup := (List.Perm.nodup_iff hp).2 (List.nodup_range _)
  have hlast := last_of_sorted out (S.length - 1) hsorted
    (hp.symm.subset (List.mem_range.2 (by omega))) hnd (fun y hy hne => by
      have hyn := List.mem_range.1 (hp.subset hy)
      exact before_sentinel hs (by omega))
  rw [List.getLast?_eq_getElem?, hlen] at hlast
  exact hlast

/-- The sort phase `ds()` of the constructor, with any `std::sort`, returns a
permutation of the positions. -/
theorem ds_ok {std_sort : sorter} (hsort : sort_contract std_sort) {S : List α}
    (hs : valid_sentinel S) (h2 : 2 ≤ S.length) :
    ∃ sa, ds std_sort S (List.range S.length) = .ok sa ∧ sa.Perm (List.range S.length) := by
  obtain ⟨idx0, h0, hp0, hl0⟩ := sort_bucket_ok hsort hs h2
  have hlen0 : idx0.length = S.length := by rw [hp0.length_eq, List.length_range]
  have hnd0 : idx0.Nodup := (List.Perm.nodup_iff hp0).2 (List.nodup_range _)
  obtain ⟨x0, hx0⟩ : ∃ x, idx0[0]? = some x :=
    ⟨idx0[0], List.getElem?_eq_getElem (by omega)⟩
  have hx0m : x0 ∈ List.range S.length := hp0.subset (List.mem_iff_getElem?.2 ⟨0, hx0⟩)
  rw [List.mem_range] at hx0m
  have hx01 : x0 + 1 < S.length := by
    by_contra hc
    have hxe : x0 = S.length - 1 := by omega
    rw [hxe] at hx0
    have := nodup_getElem?_inj hnd0 hx0 hl0
    omega
  obtain ⟨sa, hsa⟩ : ∃ sa, S[x0]? = some sa := ⟨S[x0], List.getElem?_eq_getElem hx0m⟩
  obtain ⟨sb, hsb⟩ : ∃ sb, S[x0 + 1]? = some sb := ⟨S[x0 + 1], List.getElem?_eq_getElem hx01⟩
  have hrange : (List.range idx0.length).drop 1 = List.range' 1 (S.length - 1) := by
    rw [hlen0, List.range_eq_range']
    obtain ⟨n, hn⟩ : ∃ n, S.length = n + 1 := ⟨S.length - 1, by omega⟩
    rw [hn, List.range'_succ]
    simp
  obtain ⟨idx1, backit, a2, b2, hscan, hp1, hl1, hb1, hbk⟩ :=
    ds_scan_ok hs (S.length - 1) 1 0 sa sb idx0 (by omega) (by omega) hp0 hl0 (by
      intro k _ hk2
      have hk : k = 0 := by
        have : min 1 (S.length - 1) ≤ 1 := Nat.min_le_left _ _
        omega
      subst hk
      exact ⟨x0, hx0, hx01, hsa, hsb⟩)
  have hlen1 : idx1.length = S.length := by rw [hp1.length_eq, List.length_range]
  have hnd1 : idx1.Nodup := (List.Perm.nodup_iff hp1).2 (List.nodup_range _)
  unfold ds
  simp only [h0, ok_bind, vec_read_of_some hx0, vec_read_of_some hsa, vec_read_of_some hsb,
    hrange, hscan]
  by_cases hc1 : backit ≠ idx1.length - 1
  · rw [if_pos hc1]
    by_cases hc2 : backit ≠ idx1.length - 1 - 1
    · rw [if_pos hc2]
      by_cases hc3 : idx1.length - 1 - 1 - backit > 1
      · rw [if_pos hc3]
        obtain ⟨idx2, h3, hp2, _⟩ := ds2_range_ok hs idx1 hnd1 backit (idx1.length - 1 - 1)
          (by omega) (by omega) a2 b2 (fun k hk1 hk2 => hbk k hk1 (by omega))
        exact ⟨idx2, h3, hp2.trans hp1⟩
      · rw [if_neg hc3]; exact ⟨idx1, rfl, hp1⟩
    · rw [if_neg hc2]; exact ⟨idx1, rfl, hp1⟩
  · rw [if_neg hc1]; exact ⟨idx1, rfl, hp1⟩

end sortphase

end ns_suffixarray


set_option linter.unusedSectionVars false
set_option linter.unusedVariables false

namespace ns_suffixarray

open suffixarray

/-! ## `fill_lcp`: the rank table and the comparison loop -/

section kasai_parts

variable {α : Type} [LinearOrder α]

/-- What the suffix at `i` shares with its predecessor in the suffix array, less one
element, the suffix at `i + 1` shares with its own predecessor. -/
theorem kasai_carry {S : List α} {sa : List Nat} (hv : valid_sentinel S)
    (hp : sa.Perm (List.range S.length)) (hs : suffix_sorted S sa) {i k r h : Nat}
    (hr0 : 0 < r) (hr : sa[r]? = some i) (hk : sa[r - 1]? = some k) (h1 : 1 ≤ h)
    (ha : agree S i k h) :
    ∃ r2 k2, 0 < r2 ∧ sa[r2]? = some (i + 1) ∧ sa[r2 - 1]? = some k2 ∧
      agree S (i + 1) k2 (h - 1) := by
  have hik : i ≠ k := by
    intro heq
    rw [heq] at hr
    have := sa_inj hp hr hk
    omega
  obtain ⟨hih, hkh⟩ := agree_next hv hik (by omega) ha
  have hlt := sorted_lt hs (by omega : r - 1 < r) hk hr
  have hh : h = (h - 1) + 1 := by omega
  rw [hh] at ha
  obtain ⟨hi, hk2, heq, hrest⟩ := agree_cons.1 ha
  rw [List.getElem?_eq_getElem hi, List.getElem?_eq_getElem hk2] at heq
  injection heq with heq
  rw [lex_lt_drop hk2 hi] at hlt
  have hlt2 : lex_lt (S.drop (k + 1)) (S.drop (i + 1)) = true := by
    rcases hlt with h3 | h3
    · rw [heq] at h3
      exact absurd h3 (lt_irrefl _)
    · exact h3.2
  obtain ⟨r2, hr2n, hr2⟩ := sa_rank hp (by omega : i + 1 < S.length)
  obtain ⟨r1, hr1n, hr1⟩ := sa_rank hp (by omega : k + 1 < S.length)
  have hr12 := rank_lt_of_lex hs hr1 hr2 hlt2
  obtain ⟨k2, hk2e, hk2n⟩ := sa_get hp (by omega : r2 - 1 < S.length)
  refine ⟨r2, k2, by omega, hr2, hk2e, agree_symm ?_⟩
  refine agree_between (h - 1) (k + 1) k2 (i + 1) ?_ ?_ (agree_symm hrest)
  · by_cases he : r1 = r2 - 1
    · rw [he, hk2e] at hr1
      injection hr1 with hr1
      exact Or.inl hr1.symm
    · exact Or.inr (sorted_lt hs (by omega : r1 < r2 - 1) hr1 hk2e)
  · exact Or.inr (sorted_lt hs (by omega : r2 - 1 < r2) hk2e hr2)

/-- The first loop of `fill_lcp` over the positions `l`. -/
theorem fill_rank_spec {n : Nat} {sa : List Nat} (hp : sa.Perm (List.range n)) :
    ∀ (l : List Nat) (rank0 : List Nat), l.Nodup → (∀ i ∈ l, i < n) → rank0.length = n →
      ∃ rank, fill_rank sa l rank0 = .ok rank ∧ rank.length = n ∧
        (∀ (i a : Nat), i ∈ l → sa[i]? = some a → rank[a]? = some i) ∧
        (∀ (a : Nat), (∀ i ∈ l, sa[i]? ≠ some a) → rank[a]? = rank0[a]?) := by
  intro l
  induction l with
  | nil =>
    intro rank0 _ _ hl
    exact ⟨rank0, rfl, hl, fun i a hi _ => absurd hi (List.not_mem_nil i), fun a _ => rfl⟩
  | cons i rest ih =>
    intro rank0 hnd hlt hl
    obtain ⟨a, ha, han⟩ := sa_get hp (hlt i (List.mem_cons_self _ _))
    have hnd2 := List.nodup_cons.1 hnd
    obtain ⟨rank, hrun, hlen, hset, hkeep⟩ := ih (rank0.set a i) hnd2.2
      (fun j hj => hlt j (List.mem_cons_of_mem _ hj)) (by rw [List.length_set]; exact hl)
    refine ⟨rank, ?_, hlen, ?_, ?_⟩
    · simp only [fill_rank, vec_at_of_some ha, ok_bind,
        vec_set_of_lt i (by omega : a < rank0.length)]
      exact hrun
    · intro j b hj hb
      rcases List.mem_cons.1 hj with hj | hj
      · subst hj
        rw [ha] at hb
        injection hb with hb
        subst hb
        rw [hkeep a]
        · exact List.getElem?_set_self (by omega)
        · intro j2 hj2 hj2a
          have := sa_inj hp hj2a ha
          subst this
          exact hnd2.1 hj2
      · exact hset j b hj hb
    · intro b hb
      rw [hkeep b (fun j hj => hb j (List.mem_cons_of_mem _ hj))]
      have hne : a ≠ b := by
        intro hab
        subst hab
        exact hb i (List.mem_cons_self _ _) ha
      exact List.getElem?_set_ne hne

/-- The comparison loop of `fill_lcp` returns the first offset at which the two
suffixes differ. -/
theorem lcp_extend_spec {S : List α} (hv : valid_sentinel S) {i k : Nat} (hik : i ≠ k)
    (hi : i < S.length) (hk : k < S.length) (hl : S.length < SIZE_MOD) :
    ∀ (fuel h : Nat), agree S i k h → S.length < fuel + h →
      ∃ h2, lcp_extend S fuel i k h = .ok h2 ∧ h ≤ h2 ∧ agree S i k h2 ∧
        ¬ agree S i k (h2 + 1) := by
  intro fuel
  induction fuel with
  | zero =>
    intro h ha hf
    exfalso
    by_cases hh : h = 0
    · omega
    · have := agree_next hv hik (by omega) ha
      omega
  | succ f ih =>
    intro h ha hf
    have hin : i + h < S.length ∧ k + h < S.length := by
      by_cases hh : h = 0
      · subst hh; exact ⟨hi, hk⟩
      · exact agree_next hv hik (by omega) ha
    have e1 : (i + h) % SIZE_MOD = i + h := Nat.mod_eq_of_lt (by omega)
    have e2 : (k + h) % SIZE_MOD = k + h := Nat.mod_eq_of_lt (by omega)
    simp only [lcp_extend, e1, e2, vec_at_of_lt hin.1, vec_at_of_lt hin.2, ok_bind]
    by_cases heq : S[i + h] = S[k + h]
    · rw [if_pos heq]
      have ha2 : agree S i k (h + 1) := agree_succ ha hin.1 hin.2 (by
        rw [List.getElem?_eq_getElem hin.1, List.getElem?_eq_getElem hin.2, heq])
      obtain ⟨h2, hrun, hle, hag, hex⟩ := ih (h + 1) ha2 (by omega)
      exact ⟨h2, hrun, by omega, hag, hex⟩
    · rw [if_neg heq]
      refine ⟨h, rfl, Nat.le_refl _, ha, ?_⟩
      intro hc
      obtain ⟨_, _, h3⟩ := hc h (by omega)
      rw [List.getElem?_eq_getElem hin.1, List.getElem?_eq_getElem hin.2] at h3
      injection h3 with h3
      exact heq h3

end kasai_parts

end ns_suffixarray


set_option linter.unusedSectionVars false
set_option linter.unusedVariables false

namespace ns_suffixarray

open suffixarray

/-! ## `fill_lcp`: the second loop -/

section kasai_loop

variable {α : Type} [LinearOrder α]

theorem fill_lcp_loop_cons (content : List α) (idx rank : List Nat) (i : Nat)
    (rest : List Nat) (h : Nat) (tabs : childtabs) :
    fill_lcp_loop content idx rank (i :: rest) h tabs =
      (vec_at rank i >>= fun r =>
        if r > 0 ∧ r ≤ idx.length then
          vec_at idx (r - 1) >>= fun k =>
            lcp_extend content (content.length + 1) i (to_size (to_int k)) h >>= fun h =>
              tabs.setlcp r h >>= fun tabs =>
                fill_lcp_loop content idx rank rest (if h > 0 then h - 1 else h) tabs
        else fill_lcp_loop content idx rank rest h tabs) := rfl

/-- The second loop of `fill_lcp` over the text positions `i .. n - 1`. -/
theorem fill_lcp_loop_spec {S : List α} {sa rank : List Nat} (hv : valid_sentinel S)
    (hp : sa.Perm (List.range S.length)) (hs : suffix_sorted S sa) (hn : S.length < 2 ^ 31)
    (hrank : ∀ (x a : Nat), sa[x]? = some a → rank[a]? = some x) :
    ∀ (m i h : Nat) (tabs : childtabs) (L : Nat → Nat), i + m = S.length →
      tabs_ok tabs S.length L (fun _ => none) (fun _ => none) (fun _ => none) →
      (∀ (r : Nat), L r ≠ 0 → 0 < r ∧ ∃ i2, i2 < i ∧ sa[r]? = some i2) →
      (∀ (r i2 k : Nat), 0 < r → i2 < i → sa[r]? = some i2 → sa[r - 1]? = some k →
        agree S k i2 (L r) ∧ ¬ agree S k i2 (L r + 1)) →
      (h = 0 ∨ ∃ r k, 0 < r ∧ sa[r]? = some i ∧ sa[r - 1]? = some k ∧ agree S i k h) →
      ∃ tabs2 L2, fill_lcp_loop S sa rank (List.range' i m) h tabs = .ok tabs2 ∧
        tabs_ok tabs2 S.length L2 (fun _ => none) (fun _ => none) (fun _ => none) ∧
        L2 0 = 0 ∧
        ∀ (r a b : Nat), 0 < r → sa[r - 1]? = some a → sa[r]? = some b →
          agree S a b (L2 r) ∧ ¬ agree S a b (L2 r + 1) := by
  have hsal : sa.length = S.length := by rw [hp.length_eq, List.length_range]
  intro m
  induction m with
  | zero =>
    intro i h tabs L him ht hI2 hI3 _
    refine ⟨tabs, L, rfl, ht, ?_, ?_⟩
    · by_contra hne
      have := (hI2 0 hne).1
      omega
    · intro r a b hr ha hb
      have hbn : b < S.length :=
        List.mem_range.1 (hp.subset (List.getElem?_mem hb))
      exact hI3 r b a hr (by omega) hb ha
  | succ m ih =>
    intro i h tabs L him ht hI2 hI3 hI4
    have hin : i < S.length := by omega
    obtain ⟨r, hrn, hr⟩ := sa_rank hp hin
    rw [List.range'_succ, fill_lcp_loop_cons, vec_at_of_some (hrank r i hr)]
    simp only [ok_bind]
    by_cases hr0 : 0 < r
    · rw [if_pos ⟨hr0, by omega⟩]
      obtain ⟨k, hk, hkn⟩ := sa_get hp (by omega : r - 1 < S.length)
      have hik : i ≠ k := by
        intro heq
        rw [heq] at hr
        have := sa_inj hp hr hk
        omega
      have hag : agree S i k h := by
        rcases hI4 with h0 | ⟨r2, k2, _, hr2, hk2, ha⟩
        · subst h0
          intro x hx
          omega
        · have := sa_inj hp hr2 hr
          subst this
          rw [hk] at hk2
          injection hk2 with hk2
          subst hk2
          exact ha
      obtain ⟨h2, hrun, hle, hag2, hex2⟩ := lcp_extend_spec hv hik hin hkn
        (by unfold SIZE_MOD; omega) (S.length + 1) h hag (by omega)
      have hLr : L r = 0 := by
        by_contra hne
        obtain ⟨_, i2, hi2, hsa⟩ := hI2 r hne
        rw [hr] at hsa
        injection hsa with hsa
        omega
      obtain ⟨tabs2, hset, ht2⟩ := tabs_setlcp ht h2 hrn (by omega : L r < 255)
      rw [vec_at_of_some hk]
      simp only [ok_bind]
      rw [to_int_small (by omega : k < 2 ^ 31), to_size_nat k (by omega), hrun]
      simp only [ok_bind]
      rw [hset]
      simp only [ok_bind]
      refine ih (i + 1) _ tabs2 _ (by omega) ht2 ?_ ?_ ?_
      · intro r2 hne
        by_cases hrr : r2 = r
        · subst hrr
          exact ⟨hr0, i, by omega, hr⟩
        · rw [Function.update_noteq hrr] at hne
          obtain ⟨g1, i2, g2, g3⟩ := hI2 r2 hne
          exact ⟨g1, i2, by omega, g3⟩
      · intro r2 i2 k2 hr2 hi2 hsa2 hk2
        by_cases hrr : r2 = r
        · subst hrr
          rw [Function.update_same]
          rw [hr] at hsa2
          injection hsa2 with hsa2
          subst hsa2
          rw [hk] at hk2
          injection hk2 with hk2
          subst hk2
          exact ⟨agree_symm hag2, fun hc => hex2 (agree_symm hc)⟩
        · rw [Function.update_noteq hrr]
          have hi2i : i2 ≠ i := by
            intro heq
            subst heq
            exact hrr (sa_inj hp hsa2 hr)
          exact hI3 r2 i2 k2 hr2 (by omega) hsa2 hk2
      · by_cases h21 : h2 ≤ 1
        · left
          by_cases h20 : h2 > 0
          · rw [if_pos h20]; omega
          · rw [if_neg h20]; omega
        · right
          rw [if_pos (by omega : h2 > 0)]
          exact kasai_carry hv hp hs hr0 hr hk (by omega) hag2
    · rw [if_neg (by omega)]
      have hr00 : r = 0 := by omega
      subst hr00
      have hh : h = 0 := by
        rcases hI4 with h0 | ⟨r2, k2, hr2, hsa2, _, _⟩
        · exact h0
        · have := sa_inj hp hsa2 hr
          omega
      refine ih (i + 1) h tabs L (by omega) ht ?_ ?_ (Or.inl hh)
      · intro r2 hne
        obtain ⟨g1, i2, g2, g3⟩ := hI2 r2 hne
        exact ⟨g1, i2, by omega, g3⟩
      · intro r2 i2 k2 hr2 hi2 hsa2 hk2
        have hi2i : i2 ≠ i := by
          intro heq
          subst heq
          have := sa_inj hp hsa2 hr
          omega
        exact hI3 r2 i2 k2 hr2 (by omega) hsa2 hk2

end kasai_loop

end ns_suffixarray


set_option linter.unusedSectionVars false
set_option linter.unusedVariables false

namespace ns_suffixarray

open suffixarray

/-! ## The tables of a constructed index -/

section built_tables

variable {α : Type} [LinearOrder α]

/-- Member `fill_lcp()` on a suffix array in suffix order and fresh tables: it
returns, and `lcp` then holds, at every position `r ≥ 1`, the number of elements on
which the suffixes at `SA[r-1]` and `SA[r]` agree, and 0 at position 0. -/
theorem fill_lcp_spec {S : List α} {sa : List Nat} (hv : valid_sentinel S)
    (hp : sa.Perm (List.range S.length)) (hs : suffix_sorted S sa) (hn : S.length < 2 ^ 31) :
    ∃ s2 L, fill_lcp (suffixarray.mk S (childtabs.init_tabs sa.length) sa) = .ok s2 ∧
      s2.idx = sa ∧ s2.content = S ∧
      tabs_ok s2.tabs S.length L (fun _ => none) (fun _ => none) (fun _ => none) ∧
      L 0 = 0 ∧
      ∀ (r a b : Nat), 0 < r → sa[r - 1]? = some a → sa[r]? = some b →
        agree S a b (L r) ∧ ¬ agree S a b (L r + 1) := by
  have hsal : sa.length = S.length := by rw [hp.length_eq, List.length_range]
  obtain ⟨rank, hrank, hrl, hrset, _⟩ := fill_rank_spec hp (List.range S.length)
    (List.replicate S.length 0) (List.nodup_range _) (fun i hi => List.mem_range.1 hi)
    (List.length_replicate _ _)
  have hrk : ∀ (x a : Nat), sa[x]? = some a → rank[a]? = some x := by
    intro x a hx
    have hxl := (List.getElem?_eq_some_iff.1 hx).1
    exact hrset x a (List.mem_range.2 (by omega)) hx
  obtain ⟨tabs2, L, hrun, ht2, hL0, hL⟩ := fill_lcp_loop_spec hv hp hs hn hrk S.length 0 0
    (childtabs.init_tabs S.length) (fun _ => 0) (by omega) (tabs_init S.length)
    (fun r hne => absurd rfl hne) (fun r i2 k _ hi2 => by omega) (Or.inl rfl)
  refine ⟨suffixarray.mk S tabs2 sa, L, ?_, rfl, rfl, ht2, hL0, hL⟩
  unfold fill_lcp
  simp only [hsal]
  rw [hrank]
  simp only [ok_bind]
  rw [List.range_eq_range', hrun]
  rfl

/-- The constructor on a sequence whose suffix array comes out in suffix order. -/
theorem build_tables {std_sort : sorter} (hsort : sort_contract std_sort) {S : List α}
    {s : suffixarray α} (hv : valid_sentinel S)
    (hn2 : 2 ≤ S.length) (hn : S.length < 2 ^ 31) (hb : suffixarray.build std_sort S = .ok s)
    (hs : suffix_sorted S s.idx) :
    ∃ L U D N, index_ok S s L U D N := by
  obtain ⟨sa, hds, hp⟩ := ds_ok hsort hv hn2
  have hidx := (build_idx hb).1
  rw [hds] at hidx
  injection hidx with hidx
  subst hidx
  have hsal : s.idx.length = S.length := by rw [hp.length_eq, List.length_range]
  obtain ⟨s1, L, h1, h1i, h1c, ht1, hL0, hL⟩ := fill_lcp_spec hv hp hs hn
  obtain ⟨s2, U, D, N, h2, h2i, h2c, ht2, hc2⟩ := fill_up_down_nextl_spec s1
    (by rw [h1i]; exact hsal) (by omega) hn hL0 ht1
  have hs2 : s = s2 := by
    unfold suffixarray.build at hb
    rw [hds] at hb
    simp only [ok_bind] at hb
    rw [h1] at hb
    simp only [ok_bind] at hb
    rw [h2] at hb
    injection hb with hb
    exact hb.symm
  subst hs2
  have hidx2 : s.idx = s1.idx := h2i
  refine ⟨L, U, D, N, by rw [h2c, h1c], hp, hn2, hn, ht2, hc2, hL0, ?_, ?_⟩
  · by_contra hne
    have hlast := sa_last hv hp hs hn2
    obtain ⟨a, ha, han⟩ := sa_get hp (by omega : S.length - 1 - 1 < S.length)
    rw [hidx2, h1i] at hlast ha
    have hag := (hL (S.length - 1) a (S.length - 1) (by omega) ha hlast).1
    obtain ⟨g1, g2, g3⟩ := hag 0 (by omega)
    have hne2 : a ≠ S.length - 1 := by
      intro heq
      rw [heq] at ha
      have := sa_inj (by rw [← h1i, ← hidx2]; exact hp) ha hlast
      omega
    have := sentinel_unique hv (by omega : a + 0 < S.length)
      (by omega : S.length - 1 + 0 < S.length) (by omega) g3
    omega
  · intro r a b hr ha hb2
    rw [hidx2, h1i] at ha hb2
    exact (hL r a b hr ha hb2).1

end built_tables

end ns_suffixarray


set_option linter.unusedSectionVars false
set_option linter.unusedVariables false

namespace ns_suffixarray

/-! ## Lcp-intervals and the child tables -/

section interval_facts

variable {L : Nat → Nat}

theorem exists_first (P : Nat → Prop) (i : Nat) :
    ∀ (j : Nat), (∃ k, i < k ∧ k ≤ j ∧ P k) →
      ∃ f, i < f ∧ f ≤ j ∧ P f ∧ ∀ (k : Nat), i < k → k < f → ¬ P k := by
  intro j
  induction j with
  | zero => rintro ⟨k, h1, h2, _⟩; omega
  | succ j ih =>
    rintro ⟨k, h1, h2, h3⟩
    by_cases h : ∃ k, i < k ∧ k ≤ j ∧ P k
    · obtain ⟨f, g1, g2, g3, g4⟩ := ih h
      exact ⟨f, g1, by omega, g3, g4⟩
    · have hk : k = j + 1 := by
        by_contra hne
        exact h ⟨k, h1, by omega, h3⟩
      subst hk
      refine ⟨j + 1, h1, Nat.le_refl _, h3, ?_⟩
      intro k2 hk1 hk2 hP
      exact h ⟨k2, hk1, by omega, hP⟩

theorem exists_first_index {n l i j : Nat} (h : lcp_interval L n l i j) :
    ∃ f, first_index L l i j f := by
  obtain ⟨_, _, h3, h4, _, _⟩ := h
  obtain ⟨f, g1, g2, g3, g4⟩ := exists_first (fun k => L k = l) i j h4
  refine ⟨f, g1, g2, g3, ?_⟩
  intro k hk1 hk2
  have := h3 k hk1 (by omega)
  have := g4 k hk1 hk2
  omega

theorem exists_min_on (a : Nat) :
    ∀ (b : Nat), a < b →
      ∃ m, a < m ∧ m ≤ b ∧ ∀ (k : Nat), a < k → k ≤ b → L m ≤ L k := by
  intro b
  induction b with
  | zero => intro h; omega
  | succ b ih =>
    intro hab
    by_cases hb : a < b
    · obtain ⟨m, h1, h2, h3⟩ := ih hb
      by_cases hm : L m ≤ L (b + 1)
      · refine ⟨m, h1, by omega, ?_⟩
        intro k hk1 hk2
        by_cases hkb : k = b + 1
        · subst hkb; exact hm
        · exact h3 k hk1 (by omega)
      · refine ⟨b + 1, hab, Nat.le_refl _, ?_⟩
        intro k hk1 hk2
        by_cases hkb : k = b + 1
        · subst hkb; exact Nat.le_refl _
        · have := h3 k hk1 (by omega)
          omega
    · have : a = b := by omega
      subst this
      refine ⟨a + 1, hab, Nat.le_refl _, ?_⟩
      intro k hk1 hk2
      have : k = a + 1 := by omega
      subst this
      exact Nat.le_refl _

/-- The positions between two positions at which `L` is at most `l`, all of them with
`L` above `l`, form an lcp-interval of a greater value. -/
theorem child_interval {n l a b : Nat} (hab : a < b) (hb : b + 1 < n) (ha : L a ≤ l)
    (hb2 : L (b + 1) ≤ l) (hin : ∀ (k : Nat), a < k → k ≤ b → l < L k) :
    ∃ l2, l < l2 ∧ lcp_interval L n l2 a b := by
  obtain ⟨m, h1, h2, h3⟩ := exists_min_on (L := L) a b hab
  have hm := hin m h1 h2
  exact ⟨L m, hm, hab, by omega, h3, ⟨m, h1, h2, rfl⟩, Or.inl (by omega),
    Or.inl ⟨hb, by omega⟩⟩

end interval_facts

end ns_suffixarray


set_option linter.unusedSectionVars false
set_option linter.unusedVariables false

namespace ns_suffixarray

/-! ## Where the child tables keep the indices of an lcp-interval -/

section table_entries

variable {L : Nat → Nat} {U D N : Nat → Option Nat}

/-- The interval ends before the table does and `L` is not smaller at its left end
than behind its right end: `up` behind the right end is the first index. -/
theorem first_index_up {n l i j f : Nat} (hc : child_inv L n U D N)
    (h : lcp_interval L n l i j) (hf : first_index L l i j f) (hj : j + 1 < n)
    (hle : L i ≤ L (j + 1)) : U (j + 1) = some f := by
  obtain ⟨h1, h2, h3, h4, h5, h6⟩ := h
  obtain ⟨f1, f2, f3, f4⟩ := hf
  have hr : L (j + 1) < l := by
    rcases h6 with h6 | h6
    · exact h6.2
    · omega
  rw [hc.hU]
  refine ⟨hj, i, hle, ?_, f1, by omega, ?_, ?_⟩
  · intro k hk1 hk2
    have := h3 k hk1 (by omega)
    omega
  · intro k hk1 hk2
    rw [f3]
    exact f4 k hk1 hk2
  · intro k hk1 hk2
    rw [f3]
    exact h3 k (by omega) (by omega)

/-- The interval ends before the table does and `L` is smaller behind its right end
than at its left end: `up` behind the right end is outside the interval, `nextl` at
the left end is not set, and `down` at the left end is the first index. -/
theorem first_index_down {n l i j f : Nat} (hc : child_inv L n U D N)
    (h : lcp_interval L n l i j) (hf : first_index L l i j f) (hj : j + 1 < n)
    (hlt : L (j + 1) < L i) :
    (∀ (q : Nat), U (j + 1) = some q → q ≤ i) ∧ N i = none ∧ D i = some f := by
  obtain ⟨h1, h2, h3, h4, h5, h6⟩ := h
  obtain ⟨f1, f2, f3, f4⟩ := hf
  have hl : L i < l := by
    rcases h5 with h5 | h5
    · exact h5
    · omega
  refine ⟨?_, ?_, ?_⟩
  · intro q hq
    obtain ⟨_, a, g1, g2, g3, g4, g5, g6⟩ := (hc.hU (j + 1) q).1 hq
    by_contra hqi
    have hai : a < i := by
      by_contra hge
      by_cases hae : a = i
      · subst hae; omega
      · have := h3 a (by omega) (by omega)
        omega
    have := g5 i hai (by omega)
    have := h3 q (by omega) (by omega)
    omega
  · cases hN : N i with
    | none => rfl
    | some x =>
      exfalso
      obtain ⟨_, g1, g2, g3⟩ := (hc.hN i x).1 hN
      by_cases hxj : x ≤ j
      · have := h3 x g1 hxj
        omega
      · by_cases hxe : x = j + 1
        · subst hxe; omega
        · have := g3 (j + 1) (by omega) (by omega)
          omega
  · rw [hc.hD]
    refine ⟨j + 1, hj, Nat.le_of_lt hlt, ?_, f1, by omega, ?_, ?_⟩
    · intro k hk1 hk2
      have := h3 k hk1 (by omega)
      omega
    · intro k hk1 hk2
      rw [f3]
      exact f4 k hk1 hk2
    · intro k hk1 hk2
      rw [f3]
      exact h3 k (by omega) (by omega)

/-- The interval ends where the table does: it is the whole table, and `nextl` at
position 0 is the first index. -/
theorem first_index_root {n l i j f : Nat} (hc : child_inv L n U D N) (hL0 : L 0 = 0)
    (h : lcp_interval L n l i j) (hf : first_index L l i j f) (hj : ¬ j + 1 < n) :
    i = 0 ∧ l = 0 ∧ N 0 = some f := by
  obtain ⟨h1, h2, h3, h4, h5, h6⟩ := h
  obtain ⟨f1, f2, f3, f4⟩ := hf
  have hl : l = 0 := by
    rcases h6 with h6 | h6
    · omega
    · exact h6.2
  have hi : i = 0 := by
    rcases h5 with h5 | h5
    · omega
    · exact h5.1
  subst hl
  subst hi
  refine ⟨rfl, rfl, ?_⟩
  rw [hc.hN]
  refine ⟨by omega, f1, by rw [f3, hL0], ?_⟩
  intro k hk1 hk2
  rw [hL0]
  exact f4 k hk1 hk2

/-- An index of the interval that is followed by another one: `nextl` is the next. -/
theorem next_index_some {n l i j i1 x : Nat} (hc : child_inv L n U D N)
    (h : lcp_interval L n l i j) (hi1 : i < i1) (hL1 : L i1 = l)
    (hx : first_index L l i1 j x) : N i1 = some x := by
  obtain ⟨f1, f2, f3, f4⟩ := hx
  rw [hc.hN]
  refine ⟨by have := h.2.1; omega, f1, by rw [f3, hL1], ?_⟩
  intro k hk1 hk2
  rw [hL1]
  exact f4 k hk1 hk2

/-- The last index of the interval: `nextl` is not set. -/
theorem next_index_none {n l i j i1 : Nat} (hc : child_inv L n U D N)
    (h : lcp_interval L n l i j) (hi1 : i < i1) (hi1j : i1 ≤ j) (hL1 : L i1 = l)
    (hx : ∀ (k : Nat), i1 < k → k ≤ j → L k ≠ l) : N i1 = none := by
  obtain ⟨h1, h2, h3, h4, h5, h6⟩ := h
  cases hN : N i1 with
  | none => rfl
  | some x =>
    exfalso
    obtain ⟨hxn, g1, g2, g3⟩ := (hc.hN i1 x).1 hN
    by_cases hxj : x ≤ j
    · exact hx x g1 hxj (by rw [g2, hL1])
    · rcases h6 with h6 | h6
      · by_cases hxe : x = j + 1
        · subst hxe; omega
        · have := g3 (j + 1) (by omega) (by omega)
          omega
      · omega

end table_entries

end ns_suffixarray


set_option linter.unusedSectionVars false
set_option linter.unusedVariables false

namespace ns_suffixarray

open suffixarray

/-! ## `getlcp(interval)` and `getChildIntervals` on a constructed index -/

section navigation

variable {α : Type} [DecidableEq α] [LT α] [DecidableRel (fun (a b : α) => a < b)]
variable {S : List α} {s : suffixarray α} {L : Nat → Nat} {U D N : Nat → Option Nat} {n : Nat}

theorem index_len (h : index_ok S s L U D N) : s.idx.length = S.length := by
  rw [h.hperm.length_eq, List.length_range]

/-- An index over a sequence has what the navigation members use. -/
theorem nav_of_index (h : index_ok S s L U D N) : nav_ok s S.length L U D N :=
  ⟨index_len h, by rw [h.hcontent], h.hn2, h.hn, h.htabs, h.hchild, h.hL0, h.hLend⟩

theorem contiguous_cons {c : interval} {tail : List interval} {a b : Nat}
    (h : contiguous tail (c.j + 1) b) (hc : c.i = a) (hle : a ≤ c.j) :
    contiguous (c :: tail) a b := by
  cases tail with
  | nil => exact h.elim
  | cons c2 rest => exact ⟨hc, hle, h⟩

theorem getChildIntervals_loop_succ (s : suffixarray α) (j fuel i1 : Nat)
    (found : List interval) :
    getChildIntervals_loop s j (fuel + 1) i1 found =
      (s.tabs.getnextl i1 >>= fun nx =>
        if nx ≠ undefined ∧ i1 < j then
          getChildIntervals_loop s j fuel nx (found ++ [⟨i1, size_sub nx 1⟩])
        else pure (found ++ [⟨i1, j⟩])) := rfl

/-- The loop of `getChildIntervals` from an index `i1` of the interval on. -/
theorem child_loop_nav (h : nav_ok s n L U D N) {l i j : Nat}
    (hi : lcp_interval L n l i j) :
    ∀ (fuel i1 : Nat) (found : List interval), i < i1 → i1 ≤ j → L i1 = l → j - i1 < fuel →
      ∃ tail, getChildIntervals_loop s j fuel i1 found = .ok (found ++ tail) ∧
        contiguous tail i1 j ∧ ∀ c ∈ tail, child_ok L n l c := by
  have hn := h.hn
  obtain ⟨h1, h2, h3, h4, h5, h6⟩ := hi
  intro fuel
  induction fuel with
  | zero => intro i1 found _ _ _ hf; omega
  | succ fuel ih =>
    intro i1 found hi1 hi1j hL1 hf
    rw [getChildIntervals_loop_succ, tabs_getnextl h.htabs (by omega : i1 < n) hn]
    simp only [ok_bind]
    by_cases hex : ∃ k, i1 < k ∧ k ≤ j ∧ L k = l
    · obtain ⟨x, g1, g2, g3, g4⟩ := exists_first (fun k => L k = l) i1 j hex
      have hfx : first_index L l i1 j x := by
        refine ⟨g1, g2, g3, ?_⟩
        intro k hk1 hk2
        have := h3 k (by omega) (by omega)
        have := g4 k hk1 hk2
        omega
      rw [next_index_some h.hchild ⟨h1, h2, h3, h4, h5, h6⟩ hi1 hL1 hfx]
      have hxu : x ≠ undefined := by
        unfold undefined
        omega
      simp only [Option.getD_some]
      rw [if_pos ⟨hxu, by omega⟩, size_sub_eq (by omega : 1 ≤ x) (by unfold SIZE_MOD; omega)]
      obtain ⟨tail, hrun, hct, hch⟩ := ih x (found ++ [⟨i1, x - 1⟩]) (by omega) g2 g3 (by omega)
      refine ⟨⟨i1, x - 1⟩ :: tail, ?_, ?_, ?_⟩
      · rw [hrun, List.append_assoc]
        rfl
      · refine contiguous_cons ?_ rfl (by show i1 ≤ x - 1; omega)
        have e : (interval.mk i1 (x - 1)).j + 1 = x := by show x - 1 + 1 = x; omega
        rw [e]
        exact hct
      · intro c hc
        rcases List.mem_cons.1 hc with hc | hc
        · subst hc
          refine ⟨by show i1 ≤ x - 1; omega, by show x - 1 < n; omega, ?_⟩
          intro hlt
          have hlt2 : i1 < x - 1 := hlt
          show ∃ l2, l < l2 ∧ lcp_interval L n l2 i1 (x - 1)
          refine child_interval hlt2 (by omega) (by omega) ?_ ?_
          · have e : x - 1 + 1 = x := by omega
            rw [e, g3]
          · intro k hk1 hk2
            exact hfx.2.2.2 k hk1 (by omega)
        · exact hch c hc
    · have hno : ∀ (k : Nat), i1 < k → k ≤ j → L k ≠ l := by
        intro k hk1 hk2 hk3
        exact hex ⟨k, hk1, hk2, hk3⟩
      rw [next_index_none h.hchild ⟨h1, h2, h3, h4, h5, h6⟩ hi1 hi1j hL1 hno]
      simp only [Option.getD_none]
      rw [if_neg (fun hc => hc.1 rfl)]
      refine ⟨[⟨i1, j⟩], rfl, ⟨rfl, rfl, hi1j⟩, ?_⟩
      intro c hc
      rw [List.mem_singleton] at hc
      subst hc
      refine ⟨hi1j, h2, ?_⟩
      intro hlt
      have hlt2 : i1 < j := hlt
      show ∃ l2, l < l2 ∧ lcp_interval L n l2 i1 j
      have hin : ∀ (k : Nat), i1 < k → k ≤ j → l < L k := by
        intro k hk1 hk2
        have := h3 k (by omega) hk2
        have := hno k hk1 hk2
        omega
      rcases h6 with h6 | h6
      · exact child_interval hlt2 h6.1 (by omega) (by omega) hin
      · exfalso
        have := hin j hlt2 (Nat.le_refl _)
        have hje : j = n - 1 := by omega
        rw [hje, h.hLend] at this
        omega

/-- The loop of `getChildIntervals` on an index over the sequence `S`. -/
theorem child_loop_spec (h : index_ok S s L U D N) {l i j : Nat}
    (hi : lcp_interval L S.length l i j) :
    ∀ (fuel i1 : Nat) (found : List interval), i < i1 → i1 ≤ j → L i1 = l → j - i1 < fuel →
      ∃ tail, getChildIntervals_loop s j fuel i1 found = .ok (found ++ tail) ∧
        contiguous tail i1 j ∧ ∀ c ∈ tail, child_ok L S.length l c :=
  child_loop_nav (nav_of_index h) hi

end navigation

end ns_suffixarray


set_option linter.unusedSectionVars false
set_option linter.unusedVariables false

namespace ns_suffixarray

open suffixarray

section navigation_members

variable {α : Type} [DecidableEq α] [LT α] [DecidableRel (fun (a b : α) => a < b)]
variable {S : List α} {s : suffixarray α} {L : Nat → Nat} {U D N : Nat → Option Nat} {n : Nat}

/-- Member `getChildIntervals` on an lcp-interval of value `l`: it returns intervals
that follow one another from `i` to `j`, each one position or an lcp-interval of a
greater value. -/
theorem getChildIntervals_nav (h : nav_ok s n L U D N) {l i j : Nat}
    (hi : lcp_interval L n l i j) :
    ∃ cs, getChildIntervals s ⟨i, j⟩ = .ok cs ∧ contiguous cs i j ∧
      ∀ c ∈ cs, child_ok L n l c := by
  have hn := h.hn
  have hlen := h.hlen
  obtain ⟨f, hf⟩ := exists_first_index hi
  have hfn : f < n := by have := hf.2.1; have := hi.2.1; omega
  have hgo : ∀ (i1 : Nat), i1 = f →
      ∃ cs, getChildIntervals_loop s j (s.idx.length + 1) i1 [⟨i, size_sub i1 1⟩] = .ok cs ∧
        contiguous cs i j ∧ ∀ c ∈ cs, child_ok L n l c := by
    intro i1 hi1
    subst hi1
    obtain ⟨tail, hrun, hct, hch⟩ := child_loop_nav h hi (s.idx.length + 1) i1
      [⟨i, size_sub i1 1⟩] hf.1 hf.2.1 hf.2.2.1 (by rw [hlen]; have := hi.2.1; omega)
    have hsub : size_sub i1 1 = i1 - 1 :=
      size_sub_eq (by have := hf.1; omega) (by unfold SIZE_MOD; omega)
    refine ⟨⟨i, i1 - 1⟩ :: tail, by rw [hrun, hsub]; rfl, ?_, ?_⟩
    · refine contiguous_cons ?_ rfl (by show i ≤ i1 - 1; have := hf.1; omega)
      have e : (interval.mk i (i1 - 1)).j + 1 = i1 := by
        show i1 - 1 + 1 = i1
        have := hf.1
        omega
      rw [e]
      exact hct
    · intro c hc
      rcases List.mem_cons.1 hc with hc | hc
      · subst hc
        refine ⟨by show i ≤ i1 - 1; have := hf.1; omega, by show i1 - 1 < n; omega, ?_⟩
        intro hlt
        have hlt2 : i < i1 - 1 := hlt
        show ∃ l2, l < l2 ∧ lcp_interval L n l2 i (i1 - 1)
        have hLi : L i ≤ l := by
          rcases hi.2.2.2.2.1 with h5 | h5
          · omega
          · rw [h5.1, h.hL0]; omega
        refine child_interval hlt2 (by omega) hLi ?_ ?_
        · have e : i1 - 1 + 1 = i1 := by omega
          rw [e, hf.2.2.1]
        · intro k hk1 hk2
          exact hf.2.2.2 k hk1 (by omega)
      · exact hch c hc
  unfold getChildIntervals
  have hc1 : ¬ ((interval.mk i j).i = (interval.mk i j).j ∨
      (interval.mk i j).i ≥ s.idx.length ∨ (interval.mk i j).j ≥ s.idx.length) := by
    rw [hlen]
    show ¬ (i = j ∨ i ≥ n ∨ j ≥ n)
    have := hi.1
    have := hi.2.1
    omega
  rw [if_neg hc1]
  show ∃ cs, ((if j + 1 < s.idx.length then
      (s.tabs.getup (j + 1) >>= fun u =>
        if i < u ∧ u ≠ undefined then pure u
        else s.tabs.getnextl i >>= fun nx =>
          if nx = undefined then s.tabs.getdown i else pure nx)
      else s.tabs.getnextl i) >>= fun i1 =>
        getChildIntervals_loop s j (s.idx.length + 1) i1 [⟨i, size_sub i1 1⟩]) = .ok cs ∧ _
  have hin : i < n := by have := hi.1; have := hi.2.1; omega
  by_cases hj : j + 1 < n
  · rw [if_pos (by rw [hlen]; exact hj), tabs_getup h.htabs hj hn]
    simp only [ok_bind]
    by_cases hle : L i ≤ L (j + 1)
    · rw [first_index_up h.hchild hi hf hj hle]
      simp only [Option.getD_some]
      rw [if_pos ⟨hf.1, by unfold undefined; omega⟩]
      exact hgo f rfl
    · obtain ⟨hu, hnn, hd⟩ := first_index_down h.hchild hi hf hj (by omega)
      have hnot : ¬ (i < (U (j + 1)).getD undefined ∧ (U (j + 1)).getD undefined ≠ undefined) := by
        cases hU : U (j + 1) with
        | none => exact fun hc => hc.2 rfl
        | some q =>
          have := hu q hU
          simp only [Option.getD_some]
          omega
      rw [if_neg hnot, tabs_getnextl h.htabs hin hn, hnn]
      simp only [ok_bind, Option.getD_none]
      rw [if_pos trivial, tabs_getdown h.htabs hin hn, hd]
      exact hgo f rfl
  · obtain ⟨hi0, hl0, hnx⟩ := first_index_root h.hchild h.hL0 hi hf hj
    subst hi0
    rw [if_neg (by rw [hlen]; exact hj), tabs_getnextl h.htabs hin hn, hnx]
    exact hgo f rfl

/-- Member `getChildIntervals` on an lcp-interval of an index over the sequence `S`. -/
theorem getChildIntervals_spec (h : index_ok S s L U D N) {l i j : Nat}
    (hi : lcp_interval L S.length l i j) :
    ∃ cs, getChildIntervals s ⟨i, j⟩ = .ok cs ∧ contiguous cs i j ∧
      ∀ c ∈ cs, child_ok L S.length l c :=
  getChildIntervals_nav (nav_of_index h) hi

end navigation_members

end ns_suffixarray


set_option linter.unusedSectionVars false
set_option linter.unusedVariables false

namespace ns_suffixarray

open suffixarray

section interval_value

variable {α : Type} [DecidableEq α] [LT α] [DecidableRel (fun (a b : α) => a < b)]
variable {S : List α} {s : suffixarray α} {L : Nat → Nat} {U D N : Nat → Option Nat} {n : Nat}

/-- Member `getlcp(interval)` on an lcp-interval returns its value. -/
theorem getlcp_interval_nav (h : nav_ok s n L U D N) {l i j : Nat}
    (hi : lcp_interval L n l i j) : getlcp s ⟨i, j⟩ = .ok l := by
  have hn := h.hn
  have hlen := h.hlen
  obtain ⟨f, hf⟩ := exists_first_index hi
  have hfn : f < n := by have := hf.2.1; have := hi.2.1; omega
  have hin : i < n := by have := hi.1; have := hi.2.1; omega
  have hsize : (interval.mk i j).size ≠ 1 := by
    rw [interval_size_eq i j (Nat.le_of_lt hi.1) (by unfold SIZE_MOD; have := hi.2.1; omega)]
    have := hi.1
    omega
  have hmod : (j + 1) % SIZE_MOD = j + 1 :=
    Nat.mod_eq_of_lt (by unfold SIZE_MOD; have := hi.2.1; omega)
  unfold getlcp
  rw [if_neg hsize]
  show (if (j + 1) % SIZE_MOD ≥ s.idx.length then pure 0
    else s.tabs.getup ((j + 1) % SIZE_MOD) >>= fun u =>
      if i < u ∧ u ≤ j then s.tabs.getlcp u
      else s.tabs.getdown i >>= fun d => s.tabs.getlcp d) = .ok l
  rw [hmod, hlen]
  by_cases hj : j + 1 < n
  · rw [if_neg (by omega), tabs_getup h.htabs hj hn]
    simp only [ok_bind]
    by_cases hle : L i ≤ L (j + 1)
    · rw [first_index_up h.hchild hi hf hj hle]
      simp only [Option.getD_some]
      rw [if_pos ⟨hf.1, hf.2.1⟩, tabs_getlcp h.htabs hfn hn, hf.2.2.1]
    · obtain ⟨hu, hnn, hd⟩ := first_index_down h.hchild hi hf hj (by omega)
      have hnot : ¬ (i < (U (j + 1)).getD undefined ∧ (U (j + 1)).getD undefined ≤ j) := by
        cases hU : U (j + 1) with
        | none =>
          simp only [Option.getD_none]
          unfold undefined
          omega
        | some q =>
          have := hu q hU
          simp only [Option.getD_some]
          omega
      rw [if_neg hnot, tabs_getdown h.htabs hin hn, hd]
      simp only [ok_bind, Option.getD_some]
      rw [tabs_getlcp h.htabs hfn hn, hf.2.2.1]
  · obtain ⟨_, hl0, _⟩ := first_index_root h.hchild h.hL0 hi hf hj
    rw [if_pos (by omega), hl0]
    rfl

/-- Member `getlcp(interval)` on an lcp-interval of an index over the sequence `S`. -/
theorem getlcp_interval (h : index_ok S s L U D N) {l i j : Nat}
    (hi : lcp_interval L S.length l i j) : getlcp s ⟨i, j⟩ = .ok l :=
  getlcp_interval_nav (nav_of_index h) hi

/-- Member `getlcp(interval)` on one position: the distance from the suffix to the
last position of the sequence. -/
theorem getlcp_single_nav (h : nav_ok s n L U D N) {x a : Nat} (hx : s.idx[x]? = some a)
    (ha : a < n) : getlcp s ⟨x, x⟩ = .ok (n - a - 1) := by
  have hxn : x < s.idx.length := (List.getElem?_eq_some.1 hx).1
  have hsize : (interval.mk x x).size = 1 := by
    rw [interval_size_eq x x (Nat.le_refl _) (by
      unfold SIZE_MOD; have := h.hn; have := h.hlen; omega)]
    omega
  unfold getlcp
  rw [if_pos hsize]
  show (vec_at s.idx x >>= fun y =>
    pure (size_sub (size_sub s.content.length y) 1)) = .ok (n - a - 1)
  rw [vec_at_of_some hx, h.hclen]
  simp only [ok_bind, pure_eq_ok]
  have hn := h.hn
  rw [size_sub_eq (by omega : a ≤ n) (by unfold SIZE_MOD; omega),
    size_sub_eq (by omega : 1 ≤ n - a) (by unfold SIZE_MOD; omega)]

/-- Member `getlcp(interval)` on one position returns. -/
theorem getlcp_single (h : index_ok S s L U D N) {x : Nat} (hx : x < S.length) :
    ∃ v, getlcp s ⟨x, x⟩ = .ok v := by
  have hlen := index_len h
  have hsize : (interval.mk x x).size = 1 := by
    rw [interval_size_eq x x (Nat.le_refl _) (by unfold SIZE_MOD; have := h.hn; omega)]
    omega
  unfold getlcp
  rw [if_pos hsize]
  show ∃ v, (vec_at s.idx x >>= fun y =>
    pure (size_sub (size_sub s.content.length y) 1)) = .ok v
  rw [vec_at_of_lt (by omega : x < s.idx.length)]
  exact ⟨_, rfl⟩

end interval_value

end ns_suffixarray


set_option linter.unusedSectionVars false
set_option linter.unusedVariables false

namespace ns_suffixarray

open suffixarray

/-! ## The suffixes of an interval and the pattern -/

section interval_members

variable {α : Type} [LinearOrder α]
variable {S : List α} {s : suffixarray α} {L : Nat → Nat} {U D N : Nat → Option Nat}

theorem agree_left {i j m : Nat} (h : agree S i j m) : agree S i i m := by
  intro k hk
  obtain ⟨h1, _, _⟩ := h k hk
  exact ⟨h1, h1, rfl⟩

theorem index_get (h : index_ok S s L U D N) {x : Nat} (hx : x < S.length) :
    ∃ a, s.idx[x]? = some a ∧ a < S.length :=
  sa_get h.hperm hx

/-- The suffixes of an interval on which `L` is at least `l` agree with the first of
them on `l` elements. -/
theorem interval_agree (h : index_ok S s L U D N) {l i j : Nat} (hij : i < j)
    (hj : j < S.length) (hL : ∀ (k : Nat), i < k → k ≤ j → l ≤ L k) {a : Nat}
    (ha : s.idx[i]? = some a) :
    ∀ (m x b : Nat), x = i + m → x ≤ j → s.idx[x]? = some b → agree S a b l := by
  intro m
  induction m with
  | zero =>
    intro x b hx _ hb
    have hxi : x = i := by omega
    subst hxi
    rw [ha] at hb
    injection hb with hb
    subst hb
    obtain ⟨c, hc, _⟩ := index_get h (by omega : x + 1 < S.length)
    have := h.hagree (x + 1) a c (by omega) ha hc
    exact agree_left (agree_mono this (hL (x + 1) (by omega) (by omega)))
  | succ m ih =>
    intro x b hx hxj hb
    obtain ⟨c, hc, _⟩ := index_get h (by omega : x - 1 < S.length)
    have h1 := ih (x - 1) c (by omega) (by omega) hc
    have h2 := h.hagree x c b (by omega) hc hb
    exact agree_trans h1 (agree_mono h2 (hL x (by omega) hxj))

theorem matches_of_agree {w : List α} {d a b : Nat} (h : agree S a b d)
    (hb : b < S.length) (hm : matches_upto S w d a) : matches_upto S w d b := by
  refine ⟨?_, ?_⟩
  · by_cases hd : d = 0
    · omega
    · have := (h (d - 1) (by omega)).2.1
      omega
  · intro e he
    rw [← (h e he).2.2]
    exact hm.2 e he

/-- One more element of the pattern. -/
theorem matches_succ {w : List α} {d a : Nat} (hm : matches_upto S w d a) :
    matches_upto S w (d + 1) a ↔ a + d < S.length ∧ S[a + d]? = w[d]? := by
  constructor
  · intro h
    exact ⟨by have := h.1; omega, h.2 d (by omega)⟩
  · rintro ⟨h1, h2⟩
    refine ⟨by omega, ?_⟩
    intro e he
    by_cases hed : e = d
    · subst hed; exact h2
    · exact hm.2 e (by omega)

theorem matches_mono {w : List α} {d d2 a : Nat} (hm : matches_upto S w d2 a) (hd : d ≤ d2) :
    matches_upto S w d a :=
  ⟨by have := hm.1; omega, fun e he => hm.2 e (by omega)⟩

/-- In an interval of the worklist at depth `d`, either every suffix matches the
first `d` elements of the pattern or none does. -/
theorem node_uniform (h : index_ok S s L U D N) {w : List α} {d : Nat} {c : interval}
    (hc : node_ok L S.length d c) {a0 : Nat} (ha0 : s.idx[c.i]? = some a0) {x a : Nat}
    (hx1 : c.i ≤ x) (hx2 : x ≤ c.j) (ha : s.idx[x]? = some a) :
    matches_upto S w d a ↔ matches_upto S w d a0 := by
  obtain ⟨h1, h2, h3⟩ := hc
  have han : a < S.length := List.mem_range.1 (h.hperm.subset (List.getElem?_mem ha))
  have ha0n : a0 < S.length := List.mem_range.1 (h.hperm.subset (List.getElem?_mem ha0))
  by_cases hij : c.i < c.j
  · obtain ⟨l, hdl, hl⟩ := h3 hij
    have hag := agree_mono (interval_agree h hij h2 hl.2.2.1 ha0 (x - c.i) x a (by omega)
      hx2 ha) hdl
    exact ⟨matches_of_agree (agree_symm hag) ha0n, matches_of_agree hag han⟩
  · have hxe : x = c.i := by omega
    subst hxe
    rw [ha0] at ha
    injection ha with ha
    subst ha
    exact Iff.rfl

end interval_members

end ns_suffixarray


set_option linter.unusedSectionVars false
set_option linter.unusedVariables false

namespace ns_suffixarray

open suffixarray

/-! ## One level of the traversal -/

section level

variable {α : Type} [LinearOrder α]
variable {S : List α} {s : suffixarray α} {L : Nat → Nat} {U D N : Nat → Option Nat}

theorem filter_intervals_cons (s : suffixarray α) (w : List α) (wildcard : α) (depth : Nat)
    (curr : interval) (rest tosearch2 : List interval) :
    filter_intervals s w wildcard depth (curr :: rest) tosearch2 =
      (vec_at w depth >>= fun tocomp =>
        if tocomp = wildcard then
          filter_intervals s w wildcard depth rest (tosearch2 ++ [curr])
        else
          vec_at s.idx curr.i >>= fun x =>
            if (x + depth) % SIZE_MOD < s.content.length then
              vec_at s.content ((x + depth) % SIZE_MOD) >>= fun tocomp2 =>
                if tocomp = tocomp2 then
                  filter_intervals s w wildcard depth rest (tosearch2 ++ [curr])
                else filter_intervals s w wildcard depth rest tosearch2
            else filter_intervals s w wildcard depth rest tosearch2) := rfl

/-- The filter loop keeps the intervals whose first suffix has the element `w[d]` at
offset `d`. -/
theorem filter_spec (h : index_ok S s L U D N) {w : List α} {wildcard : α} {d : Nat}
    (hd : d < w.length) (hw : w.length < 2 ^ 63) (hwc : w[d]? ≠ some wildcard) :
    ∀ (nieuw acc : List interval), (∀ c ∈ nieuw, c.i < S.length) →
      ∃ kept, filter_intervals s w wildcard d nieuw acc = .ok (acc ++ kept) ∧
        kept.Sublist nieuw ∧
        ∀ (c : interval), c ∈ kept ↔
          (c ∈ nieuw ∧ ∃ a, s.idx[c.i]? = some a ∧ a + d < S.length ∧ S[a + d]? = w[d]?) := by
  have hn := h.hn
  intro nieuw
  induction nieuw with
  | nil =>
    intro acc _
    refine ⟨[], by simp [filter_intervals], List.Sublist.refl _, ?_⟩
    intro c
    simp
  | cons c rest ih =>
    intro acc hlt
    obtain ⟨a, ha, han⟩ := index_get h (hlt c (List.mem_cons_self _ _))
    have hne : ¬ (w[d] = wildcard) := by
      intro heq
      apply hwc
      rw [List.getElem?_eq_getElem hd, heq]
    have hmod : (a + d) % SIZE_MOD = a + d := Nat.mod_eq_of_lt (by unfold SIZE_MOD; omega)
    rw [filter_intervals_cons, vec_at_of_lt hd]
    simp only [ok_bind]
    rw [if_neg hne, vec_at_of_some ha]
    simp only [ok_bind]
    rw [hmod, h.hcontent]
    have hrest := fun acc2 => ih acc2 (fun c2 hc2 => hlt c2 (List.mem_cons_of_mem _ hc2))
    by_cases hin : a + d < S.length
    · rw [if_pos hin, vec_at_of_lt hin]
      simp only [ok_bind]
      by_cases heq : w[d] = S[a + d]
      · rw [if_pos heq]
        obtain ⟨kept, hrun, hsub, hmem⟩ := hrest (acc ++ [c])
        refine ⟨c :: kept, by rw [hrun, List.append_assoc]; rfl, List.Sublist.cons₂ c hsub, ?_⟩
        intro c2
        rw [List.mem_cons, List.mem_cons, hmem c2]
        constructor
        · rintro (h1 | h1)
          · subst h1
            refine ⟨Or.inl rfl, a, ha, hin, ?_⟩
            rw [List.getElem?_eq_getElem hin, List.getElem?_eq_getElem hd, heq]
          · exact ⟨Or.inr h1.1, h1.2⟩
        · rintro ⟨h1 | h1, h2⟩
          · exact Or.inl h1
          · exact Or.inr ⟨h1, h2⟩
      · rw [if_neg heq]
        obtain ⟨kept, hrun, hsub, hmem⟩ := hrest acc
        refine ⟨kept, hrun, List.Sublist.cons c hsub, ?_⟩
        intro c2
        rw [List.mem_cons, hmem c2]
        constructor
        · rintro ⟨h1, h2⟩
          exact ⟨Or.inr h1, h2⟩
        · rintro ⟨h1 | h1, a2, g1, g2, g3⟩
          · subst h1
            exfalso
            rw [ha] at g1
            injection g1 with g1
            subst g1
            rw [List.getElem?_eq_getElem hin, List.getElem?_eq_getElem hd] at g3
            injection g3 with g3
            exact heq g3.symm
          · exact ⟨h1, a2, g1, g2, g3⟩
    · rw [if_neg hin]
      obtain ⟨kept, hrun, hsub, hmem⟩ := hrest acc
      refine ⟨kept, hrun, List.Sublist.cons c hsub, ?_⟩
      intro c2
      rw [List.mem_cons, hmem c2]
      constructor
      · rintro ⟨h1, h2⟩
        exact ⟨Or.inr h1, h2⟩
      · rintro ⟨h1 | h1, a2, g1, g2, g3⟩
        · subst h1
          exfalso
          rw [ha] at g1
          injection g1 with g1
          subst g1
          exact hin g2
        · exact ⟨h1, a2, g1, g2, g3⟩

/-- The intervals that take the place of an interval of the worklist at depth `d`:
the interval itself or its child intervals. -/
theorem nieuw_spec (h : index_ok S s L U D N) {d : Nat} {c : interval}
    (hc : node_ok L S.length d c) :
    ∃ nieuw, (getlcp s c >>= fun l =>
        if d < l ∨ c.size = 1 then pure [c] else getChildIntervals s c) = .ok nieuw ∧
      contiguous nieuw c.i c.j ∧ ∀ c2 ∈ nieuw, node_ok L S.length (d + 1) c2 := by
  obtain ⟨i, j⟩ := c
  obtain ⟨h1, h2, h3⟩ := hc
  have h1b : i ≤ j := h1
  have h2b : j < S.length := h2
  by_cases hij : i < j
  · obtain ⟨l, hdl, hl⟩ := h3 hij
    rw [getlcp_interval h hl]
    simp only [ok_bind]
    have hsize : (interval.mk i j).size ≠ 1 := by
      rw [interval_size_eq i j h1b (by unfold SIZE_MOD; have := h.hn; omega)]
      omega
    by_cases hlt : d < l
    · rw [if_pos (Or.inl hlt)]
      refine ⟨[⟨i, j⟩], rfl, ⟨rfl, rfl, h1b⟩, ?_⟩
      intro c2 hc2
      rw [List.mem_singleton] at hc2
      subst hc2
      exact ⟨h1, h2, fun _ => ⟨l, by omega, hl⟩⟩
    · have hnot : ¬ (d < l ∨ (interval.mk i j).size = 1) := by
        rintro (h4 | h4)
        · exact hlt h4
        · exact hsize h4
      rw [if_neg hnot]
      obtain ⟨cs, hrun, hct, hch⟩ := getChildIntervals_spec h hl
      refine ⟨cs, hrun, hct, ?_⟩
      intro c2 hc2
      obtain ⟨g1, g2, g3⟩ := hch c2 hc2
      refine ⟨g1, g2, ?_⟩
      intro hlt2
      obtain ⟨l2, hl2, hint⟩ := g3 hlt2
      exact ⟨l2, by omega, hint⟩
  · have hije : i = j := by omega
    subst hije
    obtain ⟨v, hv⟩ := getlcp_single h h2b
    rw [hv]
    simp only [ok_bind]
    have hsize : (interval.mk i i).size = 1 := by
      rw [interval_size_eq i i (Nat.le_refl _) (by unfold SIZE_MOD; have := h.hn; omega)]
      omega
    rw [if_pos (Or.inr hsize)]
    refine ⟨[⟨i, i⟩], rfl, ⟨rfl, rfl, Nat.le_refl _⟩, ?_⟩
    intro c2 hc2
    rw [List.mem_singleton] at hc2
    subst hc2
    exact ⟨Nat.le_refl _, h2b, fun hlt => by
      have hlt2 : i < i := hlt
      omega⟩

end level

end ns_suffixarray


set_option linter.unusedSectionVars false
set_option linter.unusedVariables false

namespace ns_suffixarray

open suffixarray

section contiguous_lists

theorem contiguous_bounds :
    ∀ (cs : List interval) (a b : Nat), contiguous cs a b →
      ∀ c ∈ cs, a ≤ c.i ∧ c.i ≤ c.j ∧ c.j ≤ b := by
  intro cs
  induction cs with
  | nil => intro a b h; exact h.elim
  | cons c rest ih =>
    intro a b h
    cases rest with
    | nil =>
      obtain ⟨h1, h2, h3⟩ := h
      intro c2 hc2
      rw [List.mem_singleton] at hc2
      subst hc2
      omega
    | cons c2 rest2 =>
      obtain ⟨h1, h2, h3⟩ := h
      have hrest := ih (c.j + 1) b h3
      intro c3 hc3
      rcases List.mem_cons.1 hc3 with hc3 | hc3
      · subst hc3
        have := hrest c2 (List.mem_cons_self _ _)
        omega
      · have := hrest c3 hc3
        omega

theorem contiguous_cover :
    ∀ (cs : List interval) (a b : Nat), contiguous cs a b →
      ∀ (x : Nat), a ≤ x → x ≤ b → ∃ c ∈ cs, c.i ≤ x ∧ x ≤ c.j := by
  intro cs
  induction cs with
  | nil => intro a b h; exact h.elim
  | cons c rest ih =>
    intro a b h x hx1 hx2
    cases rest with
    | nil =>
      obtain ⟨h1, h2, h3⟩ := h
      exact ⟨c, List.mem_cons_self _ _, by omega, by omega⟩
    | cons c2 rest2 =>
      obtain ⟨h1, h2, h3⟩ := h
      by_cases hxc : x ≤ c.j
      · exact ⟨c, List.mem_cons_self _ _, by omega, hxc⟩
      · obtain ⟨c3, hc3, g1, g2⟩ := ih (c.j + 1) b h3 x (by omega) hx2
        exact ⟨c3, List.mem_cons_of_mem _ hc3, g1, g2⟩

theorem contiguous_apart :
    ∀ (cs : List interval) (a b : Nat), contiguous cs a b →
      cs.Pairwise (fun c c2 => c.j < c2.i) := by
  intro cs
  induction cs with
  | nil => intro a b h; exact h.elim
  | cons c rest ih =>
    intro a b h
    cases rest with
    | nil => exact List.pairwise_singleton _ _
    | cons c2 rest2 =>
      obtain ⟨h1, h2, h3⟩ := h
      refine List.pairwise_cons.2 ⟨?_, ih (c.j + 1) b h3⟩
      intro c3 hc3
      have := (contiguous_bounds _ _ _ h3 c3 hc3).1
      omega

end contiguous_lists

section level_loop

variable {α : Type} [LinearOrder α]
variable {S : List α} {s : suffixarray α} {L : Nat → Nat} {U D N : Nat → Option Nat}

theorem search_level_cons (s : suffixarray α) (w : List α) (wildcard : α) (depth : Nat)
    (curr : interval) (rest tosearch2 : List interval) :
    search_level s w wildcard depth (curr :: rest) tosearch2 =
      ((getlcp s curr >>= fun l =>
          if depth < l ∨ curr.size = 1 then pure [curr] else getChildIntervals s curr) >>=
        fun nieuw => filter_intervals s w wildcard depth nieuw tosearch2 >>= fun t2 =>
          search_level s w wildcard depth rest t2) := by
  conv => lhs; unfold search_level
  cases getlcp s curr <;> rfl

/-- One level of the traversal: the loop over the worklist at depth `d`. -/
theorem search_level_spec (h : index_ok S s L U D N) {w : List α} {wildcard : α} {d : Nat}
    (hd : d < w.length) (hw : w.length < 2 ^ 63) (hwc : w[d]? ≠ some wildcard) :
    ∀ (ts acc : List interval), (∀ c ∈ ts, node_ok L S.length d c) →
      (∀ c ∈ ts, ∀ (x a : Nat), c.i ≤ x → x ≤ c.j → s.idx[x]? = some a →
        matches_upto S w d a) →
      ts.Pairwise (fun c c2 => c.j < c2.i) →
      ∃ out, search_level s w wildcard d ts acc = .ok (acc ++ out) ∧
        (∀ c2 ∈ out, node_ok L S.length (d + 1) c2) ∧
        (∀ c2 ∈ out, ∃ c ∈ ts, c.i ≤ c2.i ∧ c2.j ≤ c.j) ∧
        (∀ c2 ∈ out, ∀ (x a : Nat), c2.i ≤ x → x ≤ c2.j → s.idx[x]? = some a →
          matches_upto S w (d + 1) a) ∧
        (∀ c ∈ ts, ∀ (x a : Nat), c.i ≤ x → x ≤ c.j → s.idx[x]? = some a →
          matches_upto S w (d + 1) a → ∃ c2 ∈ out, c2.i ≤ x ∧ x ≤ c2.j) ∧
        out.Pairwise (fun c c2 => c.j < c2.i) := by
  intro ts
  induction ts with
  | nil =>
    intro acc _ _ _
    refine ⟨[], by simp [search_level], ?_, ?_, ?_, ?_, List.Pairwise.nil⟩
    · intro c2 hc2; cases hc2
    · intro c2 hc2; cases hc2
    · intro c2 hc2; cases hc2
    · intro c hc; cases hc
  | cons c rest ih =>
    intro acc hnode hmatch hapart
    have hc := hnode c (List.mem_cons_self _ _)
    obtain ⟨nieuw, hn1, hct, hn2⟩ := nieuw_spec h (d := d) hc
    have hb := contiguous_bounds nieuw c.i c.j hct
    obtain ⟨kept, hk1, hk2, hk3⟩ := filter_spec h hd hw hwc nieuw acc
      (fun c2 hc2 => by have := hb c2 hc2; have := hc.2.1; omega)
    have hap := List.pairwise_cons.1 hapart
    obtain ⟨out, ho1, ho2, ho3, ho4, ho5, ho6⟩ := ih (acc ++ kept)
      (fun c2 hc2 => hnode c2 (List.mem_cons_of_mem _ hc2))
      (fun c2 hc2 => hmatch c2 (List.mem_cons_of_mem _ hc2)) hap.2
    have hfirst : ∀ c2 ∈ nieuw, ∃ a0, s.idx[c2.i]? = some a0 ∧ matches_upto S w d a0 := by
      intro c2 hc2
      have hb2 := hb c2 hc2
      obtain ⟨a0, ha0, _⟩ := index_get h (by have := hc.2.1; omega : c2.i < S.length)
      exact ⟨a0, ha0, hmatch c (List.mem_cons_self _ _) c2.i a0 hb2.1 (by omega) ha0⟩
    refine ⟨kept ++ out, ?_, ?_, ?_, ?_, ?_, ?_⟩
    · rw [search_level_cons, hn1]
      simp only [ok_bind]
      rw [hk1]
      simp only [ok_bind]
      rw [ho1, List.append_assoc]
    · intro c2 hc2
      rcases List.mem_append.1 hc2 with hc2 | hc2
      · exact hn2 c2 ((hk3 c2).1 hc2).1
      · exact ho2 c2 hc2
    · intro c2 hc2
      rcases List.mem_append.1 hc2 with hc2 | hc2
      · have := hb c2 ((hk3 c2).1 hc2).1
        exact ⟨c, List.mem_cons_self _ _, this.1, this.2.2⟩
      · obtain ⟨c3, hc3, g⟩ := ho3 c2 hc2
        exact ⟨c3, List.mem_cons_of_mem _ hc3, g⟩
    · intro c2 hc2 x a hx1 hx2 ha
      rcases List.mem_append.1 hc2 with hc2 | hc2
      · obtain ⟨hin, a0, ha0, g1, g2⟩ := (hk3 c2).1 hc2
        obtain ⟨a1, ha1, hm1⟩ := hfirst c2 hin
        rw [ha0] at ha1
        injection ha1 with ha1
        subst ha1
        rw [node_uniform h (hn2 c2 hin) ha0 hx1 hx2 ha]
        exact (matches_succ hm1).2 ⟨g1, g2⟩
      · exact ho4 c2 hc2 x a hx1 hx2 ha
    · intro c2 hc2 x a hx1 hx2 ha hm
      rcases List.mem_cons.1 hc2 with hc2 | hc2
      · subst hc2
        obtain ⟨c3, hc3, g1, g2⟩ := contiguous_cover nieuw c2.i c2.j hct x hx1 hx2
        obtain ⟨a0, ha0, hm0⟩ := hfirst c3 hc3
        have hm3 := (node_uniform h (hn2 c3 hc3) ha0 g1 g2 ha).1 hm
        have hk := (matches_succ hm0).1 hm3
        exact ⟨c3, List.mem_append_left _ ((hk3 c3).2 ⟨hc3, a0, ha0, hk.1, hk.2⟩), g1, g2⟩
      · obtain ⟨c3, hc3, g⟩ := ho5 c2 hc2 x a hx1 hx2 ha hm
        exact ⟨c3, List.mem_append_right _ hc3, g⟩
    · refine List.pairwise_append.2 ⟨(contiguous_apart nieuw c.i c.j hct).sublist hk2, ho6, ?_⟩
      intro c2 hc2 c3 hc3
      have h1 := hb c2 (hk2.subset hc2)
      obtain ⟨c4, hc4, g1, g2⟩ := ho3 c3 hc3
      have := hap.1 c4 hc4
      omega

end level_loop

end ns_suffixarray


set_option linter.unusedSectionVars false
set_option linter.unusedVariables false

namespace ns_suffixarray

open suffixarray

/-! ## The positions that the surviving intervals cover -/

section positions

theorem mem_segment (idx : List Nat) (i j p : Nat) :
    p ∈ (idx.drop i).take (j + 1 - i) ↔ ∃ x, i ≤ x ∧ x ≤ j ∧ idx[x]? = some p := by
  rw [List.mem_iff_getElem?]
  constructor
  · rintro ⟨k, hk⟩
    by_cases hkl : k < j + 1 - i
    · rw [List.getElem?_take_of_lt hkl, List.getElem?_drop] at hk
      exact ⟨i + k, by omega, by omega, hk⟩
    · rw [List.getElem?_take_eq_none (by omega)] at hk
      cases hk
  · rintro ⟨x, hx1, hx2, hx⟩
    refine ⟨x - i, ?_⟩
    rw [List.getElem?_take_of_lt (by omega), List.getElem?_drop]
    have e : i + (x - i) = x := by omega
    rw [e]
    exact hx

theorem mem_interval_positions (idx : List Nat) :
    ∀ (ts : List interval) (p : Nat),
      p ∈ interval_positions idx ts ↔
        ∃ c ∈ ts, ∃ x, c.i ≤ x ∧ x ≤ c.j ∧ idx[x]? = some p := by
  intro ts
  induction ts with
  | nil => intro p; simp [interval_positions]
  | cons c rest ih =>
    intro p
    simp only [interval_positions, List.mem_append, mem_segment, ih p, List.mem_cons]
    constructor
    · rintro (h | ⟨c2, hc2, h⟩)
      · exact ⟨c, Or.inl rfl, h⟩
      · exact ⟨c2, Or.inr hc2, h⟩
    · rintro ⟨c2, hc2 | hc2, h⟩
      · subst hc2; exact Or.inl h
      · exact Or.inr ⟨c2, hc2, h⟩

theorem interval_positions_sublist (idx : List Nat) :
    ∀ (ts : List interval) (lo : Nat), ts.Pairwise (fun c c2 => c.j < c2.i) →
      (∀ c ∈ ts, lo ≤ c.i ∧ c.i ≤ c.j) →
      (interval_positions idx ts).Sublist (idx.drop lo) := by
  intro ts
  induction ts with
  | nil => intro lo _ _; exact List.nil_sublist _
  | cons c rest ih =>
    intro lo hp hb
    obtain ⟨hp1, hp2⟩ := List.pairwise_cons.1 hp
    obtain ⟨hb1, hb2⟩ := hb c (List.mem_cons_self _ _)
    have hrest := ih (c.j + 1) hp2 (fun c2 hc2 => by
      have := hp1 c2 hc2
      have := hb c2 (List.mem_cons_of_mem _ hc2)
      omega)
    have hsplit : idx.drop c.i =
        (idx.drop c.i).take (c.j + 1 - c.i) ++ idx.drop (c.j + 1) := by
      have := (List.take_append_drop (c.j + 1 - c.i) (idx.drop c.i)).symm
      rw [List.drop_drop] at this
      have e : c.i + (c.j + 1 - c.i) = c.j + 1 := by omega
      rw [e] at this
      exact this
    have h1 : (interval_positions idx (c :: rest)).Sublist (idx.drop c.i) := by
      rw [hsplit]
      exact List.Sublist.append (List.Sublist.refl _) hrest
    have h2 : (idx.drop c.i).Sublist (idx.drop lo) := by
      have e : idx.drop c.i = (idx.drop lo).drop (c.i - lo) := by
        rw [List.drop_drop]
        congr 1
        omega
      rw [e]
      exact List.drop_sublist _ _
    exact h1.trans h2

theorem collect_spec (idx : List Nat) (hlen : idx.length < SIZE_MOD) :
    ∀ (ts : List interval) (acc : List Nat), (∀ c ∈ ts, c.i ≤ c.j ∧ c.j < idx.length) →
      suffixarray.collect idx ts acc = .ok (acc ++ interval_positions idx ts) := by
  intro ts
  induction ts with
  | nil => intro acc _; simp [suffixarray.collect, interval_positions]
  | cons c rest ih =>
    intro acc h
    obtain ⟨hij, hj⟩ := h c (List.mem_cons_self _ _)
    simp only [suffixarray.collect]
    rw [collect_interval_eq idx c.j hj hlen _ c.i acc (by omega) (by omega)]
    simp only [ok_bind]
    rw [ih _ (fun d hd => h d (List.mem_cons_of_mem _ hd)), List.append_assoc]
    rfl

end positions

end ns_suffixarray


set_option linter.unusedSectionVars false
set_option linter.unusedVariables false

namespace ns_suffixarray

open suffixarray

/-! ## The traversal of the query members -/

section traversal

variable {α : Type} [LinearOrder α]
variable {S : List α} {s : suffixarray α} {L : Nat → Nat} {U D N : Nat → Option Nat}

theorem descend_succ (s : suffixarray α) (w : List α) (wildcard : α) (more depth : Nat)
    (ts : List interval) :
    descend s w wildcard (more + 1) depth ts =
      if ts.length > 0 then
        search_level s w wildcard depth ts [] >>= fun t2 =>
          descend s w wildcard more (depth + 1) t2
      else pure ts := rfl

/-- The worklist the traversal starts with: the whole table. -/
theorem worklist_root (h : index_ok S s L U D N) (w : List α) :
    worklist_ok S s.idx L w 0 [⟨0, S.length - 1⟩] := by
  have hn2 := h.hn2
  refine ⟨?_, ?_, ?_, List.pairwise_singleton _ _⟩
  · intro c hc
    rw [List.mem_singleton] at hc
    subst hc
    refine ⟨Nat.zero_le _, by show S.length - 1 < S.length; omega, ?_⟩
    intro _
    show ∃ l, 0 ≤ l ∧ lcp_interval L S.length l 0 (S.length - 1)
    exact ⟨0, Nat.le_refl _, by omega, by omega, fun k _ _ => Nat.zero_le _,
      ⟨S.length - 1, by omega, Nat.le_refl _, h.hLend⟩, Or.inr ⟨rfl, rfl⟩,
      Or.inr ⟨by omega, rfl⟩⟩
  · intro c hc x a _ _ ha
    have han : a < S.length := List.mem_range.1 (h.hperm.subset (List.getElem?_mem ha))
    exact ⟨by omega, fun e he => by omega⟩
  · intro x a ha _
    have hx := (List.getElem?_eq_some_iff.1 ha).1
    rw [index_len h] at hx
    exact ⟨_, List.mem_singleton.2 rfl, Nat.zero_le _, by show x ≤ S.length - 1; omega⟩

/-- The traversal from depth `d` on ends with the worklist of the whole pattern. -/
theorem descend_spec (h : index_ok S s L U D N) {w : List α} {wildcard : α}
    (hw : w.length < 2 ^ 63) (hwc : wildcard ∉ w) :
    ∀ (m d : Nat) (ts : List interval), d + m = w.length → worklist_ok S s.idx L w d ts →
      ∃ ts2, descend s w wildcard m d ts = .ok ts2 ∧ worklist_ok S s.idx L w w.length ts2 := by
  intro m
  induction m with
  | zero =>
    intro d ts hd hts
    have : d = w.length := by omega
    subst this
    exact ⟨ts, rfl, hts⟩
  | succ m ih =>
    intro d ts hd hts
    rw [descend_succ]
    by_cases hlen : ts.length > 0
    · rw [if_pos hlen]
      have hdw : d < w.length := by omega
      have hwd : w[d]? ≠ some wildcard := by
        intro heq
        exact hwc (List.getElem?_mem heq)
      obtain ⟨out, ho1, ho2, ho3, ho4, ho5, ho6⟩ :=
        search_level_spec h hdw hw hwd ts [] hts.hnode hts.hmatch hts.hapart
      rw [ho1]
      simp only [ok_bind, List.nil_append]
      refine ih (d + 1) out (by omega) ⟨ho2, ho4, ?_, ho6⟩
      intro x a ha hm
      obtain ⟨c, hc, g1, g2⟩ := hts.hcover x a ha (matches_mono hm (by omega))
      exact ho5 c hc x a g1 g2 ha hm
    · rw [if_neg hlen]
      have hnil : ts = [] := List.length_eq_zero.1 (by omega)
      subst hnil
      refine ⟨[], rfl, ?_, ?_, ?_, List.Pairwise.nil⟩
      · intro c hc; cases hc
      · intro c hc; cases hc
      · intro x a ha hm
        obtain ⟨c, hc, _⟩ := hts.hcover x a ha (matches_mono hm (by omega))
        cases hc

/-- The traversal of the three query members returns the worklist of the whole
pattern. -/
theorem traversal_spec (h : index_ok S s L U D N) {w : List α} {wildcard : α}
    (hw : w.length < 2 ^ 63) (hwc : wildcard ∉ w) :
    ∃ ts, descend s w wildcard w.length 0 [⟨0, size_sub s.idx.length 1⟩] = .ok ts ∧
      worklist_ok S s.idx L w w.length ts := by
  have hroot : size_sub s.idx.length 1 = S.length - 1 := by
    rw [index_len h]
    exact size_sub_eq (by have := h.hn2; omega) (by unfold SIZE_MOD; have := h.hn; omega)
  rw [hroot]
  exact descend_spec h hw hwc w.length 0 _ (by omega) (worklist_root h w)

end traversal

end ns_suffixarray


set_option linter.unusedSectionVars false
set_option linter.unusedVariables false

namespace ns_suffixarray

open suffixarray

/-! ## The query members on a constructed index -/

section members

variable {α : Type} [LinearOrder α]
variable {S : List α} {s : suffixarray α} {L : Nat → Nat} {U D N : Nat → Option Nat}

theorem worklist_bounds (h : index_ok S s L U D N) {w : List α} {d : Nat}
    {ts : List interval} (hts : worklist_ok S s.idx L w d ts) :
    ∀ c ∈ ts, c.i ≤ c.j ∧ c.j < s.idx.length := by
  intro c hc
  obtain ⟨h1, h2, _⟩ := hts.hnode c hc
  rw [index_len h]
  exact ⟨h1, h2⟩

/-- On an index whose tables are right, `find_all_positions` of a pattern without
wildcard returns the positions at which the pattern occurs, each once. -/
theorem find_all_positions_spec (h : index_ok S s L U D N) {w : List α} {wildcard : α}
    (hw0 : w ≠ []) (hw : w.length < 2 ^ 63) (hwc : wildcard ∉ w) :
    ∃ r, s.find_all_positions w wildcard = .ok r ∧ r.Nodup ∧
      ∀ (p : Nat), p ∈ r ↔ occurs_at S w p := by
  obtain ⟨ts, hrun, hts⟩ := traversal_spec h hw hwc
  have hlen : s.idx.length < SIZE_MOD := by
    rw [index_len h]
    unfold SIZE_MOD
    have := h.hn
    omega
  have hnd : s.idx.Nodup := (List.Perm.nodup_iff h.hperm).2 (List.nodup_range _)
  refine ⟨interval_positions s.idx ts, ?_, ?_, ?_⟩
  · unfold find_all_positions
    rw [hrun]
    simp only [ok_bind]
    rw [collect_spec s.idx hlen ts [] (worklist_bounds h hts)]
    rfl
  · have hsub := interval_positions_sublist s.idx ts 0 hts.hapart
      (fun c hc => ⟨Nat.zero_le _, (hts.hnode c hc).1⟩)
    rw [List.drop_zero] at hsub
    exact hnd.sublist hsub
  · intro p
    rw [mem_interval_positions]
    constructor
    · rintro ⟨c, hc, x, hx1, hx2, hx⟩
      exact hts.hmatch c hc x p hx1 hx2 hx
    · intro hocc
      have hpn : p < S.length := by
        have := hocc.1
        have : 0 < w.length := List.length_pos.2 hw0
        omega
      obtain ⟨x, _, hx⟩ := sa_rank h.hperm hpn
      obtain ⟨c, hc, g1, g2⟩ := hts.hcover x p hx hocc
      exact ⟨c, hc, x, g1, g2, hx⟩

/-- On an index whose tables are right, `find_position` of a pattern without wildcard
throws `StringNotFound` when the pattern occurs nowhere and returns a position at
which it occurs otherwise. -/
theorem find_position_spec (h : index_ok S s L U D N) {w : List α} {wildcard : α}
    (hw0 : w ≠ []) (hw : w.length < 2 ^ 63) (hwc : wildcard ∉ w) :
    (s.find_position w wildcard = .error .StringNotFound ∧ ∀ (p : Nat), ¬ occurs_at S w p) ∨
    (∃ p, s.find_position w wildcard = .ok p ∧ occurs_at S w p) := by
  obtain ⟨ts, hrun, hts⟩ := traversal_spec h hw hwc
  unfold find_position
  rw [hrun]
  simp only [ok_bind]
  cases ts with
  | nil =>
    left
    refine ⟨rfl, ?_⟩
    intro p hocc
    have hpn : p < S.length := by
      have := hocc.1
      have : 0 < w.length := List.length_pos.2 hw0
      omega
    obtain ⟨x, _, hx⟩ := sa_rank h.hperm hpn
    obtain ⟨c, hc, _⟩ := hts.hcover x p hx hocc
    cases hc
  | cons first rest =>
    right
    have hf := hts.hnode first (List.mem_cons_self _ _)
    obtain ⟨a, ha, _⟩ := index_get h (by have := hf.1; have := hf.2.1; omega : first.i < S.length)
    refine ⟨a, ?_, hts.hmatch first (List.mem_cons_self _ _) first.i a (Nat.le_refl _) hf.1 ha⟩
    simp only []
    exact vec_at_of_some ha

/-- The constructor does not return on a sequence of one element: `ds()` reads the
element behind the first. -/
theorem build_short {std_sort : sorter} (hsort : sort_contract std_sort) {S : List α}
    (h1 : S.length = 1) : suffixarray.build std_sort S = .error .ub := by
  cases S with
  | nil => cases h1
  | cons x rest =>
    cases rest with
    | nil =>
      obtain ⟨out, h0, hp, _⟩ := hsort (SACmp [x] 0 2) (fun _ _ => false) [0]
        (fun a ha b hb => by
          rw [List.mem_singleton] at ha hb
          rw [ha, hb]
          rfl)
        (fun _ _ => rfl) (fun _ _ _ _ _ _ h _ => h) (fun _ _ _ _ _ _ _ _ _ _ => ⟨rfl, rfl⟩)
      rw [List.perm_singleton] at hp
      subst hp
      have h0b : std_sort (SACmp [x] 0 2) (List.range [x].length) = .ok [0] := h0
      unfold suffixarray.build ds
      simp only [h0b, ok_bind]
      rfl
    | cons y rest2 => simp at h1

theorem build_length {std_sort : sorter} (hsort : sort_contract std_sort) {S : List α}
    {s : suffixarray α} (hv : valid_sentinel S)
    (hb : suffixarray.build std_sort S = .ok s) : 2 ≤ S.length := by
  by_contra hlt
  have hne : S ≠ [] := hv.1
  have h1 : S.length = 1 := by
    have : 0 < S.length := List.length_pos.2 hne
    omega
  rw [build_short hsort h1] at hb
  cases hb

end members

end ns_suffixarray


set_option linter.unusedSectionVars false
set_option linter.unusedVariables false

namespace ns_suffixarray

open suffixarray

/-! ## The text written by `print` -/

section printing

variable {α : Type} [DecidableEq α] [LT α] [DecidableRel (fun (a b : α) => a < b)]

theorem digitChar_digit (k : Nat) (hk : k < 10) :
    48 ≤ (Nat.digitChar k).toNat ∧ (Nat.digitChar k).toNat ≤ 57 := by
  interval_cases k <;> decide

theorem toDigitsCore_digits :
    ∀ (f n : Nat) (acc : List Char), (∀ c ∈ acc, 48 ≤ c.toNat ∧ c.toNat ≤ 57) →
      ∀ c ∈ Nat.toDigitsCore 10 f n acc, 48 ≤ c.toNat ∧ c.toNat ≤ 57 := by
  intro f
  induction f with
  | zero =>
    intro n acc hacc c hc
    exact hacc c hc
  | succ f ih =>
    intro n acc hacc c hc
    have hstep : ∀ c ∈ Nat.digitChar (n % 10) :: acc, 48 ≤ c.toNat ∧ c.toNat ≤ 57 := by
      intro c2 hc2
      rcases List.mem_cons.1 hc2 with h | h
      · subst h
        exact digitChar_digit _ (Nat.mod_lt _ (by omega))
      · exact hacc c2 h
    unfold Nat.toDigitsCore at hc
    by_cases h0 : n / 10 = 0
    · simp only [h0, if_true] at hc
      exact hstep c hc
    · simp only [h0, if_false] at hc
      exact ih _ _ hstep c hc

/-- The decimal output of a number consists of digits. -/
theorem toDigits_digits (v : Nat) :
    ∀ c ∈ Nat.toDigits 10 v, 48 ≤ c.toNat ∧ c.toNat ≤ 57 :=
  toDigitsCore_digits _ _ [] (fun c hc => by cases hc)

/-- A field of the saved text is `-` only for the value "undefined". -/
theorem table_field_dash (v : Nat) : table_field v = ['-'] ↔ v = undefined := by
  unfold table_field
  by_cases h : v = undefined
  · rw [if_pos h]
    exact ⟨fun _ => h, fun _ => rfl⟩
  · rw [if_neg h]
    refine ⟨fun hc => ?_, fun hc => (h hc).elim⟩
    have := toDigits_digits v '-' (by rw [hc]; exact List.mem_singleton.2 rfl)
    exact absurd this (by decide)

theorem print_field_eq (v : Nat) : print_field v = table_field v ++ ['\t'] := by
  unfold print_field table_field put_num
  by_cases h : v = undefined
  · rw [if_pos h, if_pos h]
    rfl
  · rw [if_neg h, if_neg h]

/-- The line `print` writes at a position at which the getters return. -/
theorem print_line_eq (s : suffixarray α) {i a l u d x : Nat} (ha : s.idx[i]? = some a)
    (hl : s.tabs.getlcp i = .ok l) (hu : s.tabs.getup i = .ok u)
    (hd : s.tabs.getdown i = .ok d) (hx : s.tabs.getnextl i = .ok x) :
    print_line s i = .ok (table_line i a l u d x) := by
  unfold print_line
  rw [vec_at_of_some ha, hl, hu, hd, hx]
  simp only [ok_bind, pure_eq_ok, print_field_eq, put_num, table_line, List.append_assoc]

theorem print_loop_cons (s : suffixarray α) (i : Nat) (rest : List Nat) (os : List Char) :
    print_loop s (i :: rest) os =
      (print_line s i >>= fun line => print_loop s rest (os ++ line)) := rfl

/-- The loop of `print` over positions at which the getters return. -/
theorem print_loop_spec (s : suffixarray α) (l u d x : Nat → Nat)
    (hl : ∀ (i : Nat), i < s.idx.length → s.tabs.getlcp i = .ok (l i))
    (hu : ∀ (i : Nat), i < s.idx.length → s.tabs.getup i = .ok (u i))
    (hd : ∀ (i : Nat), i < s.idx.length → s.tabs.getdown i = .ok (d i))
    (hx : ∀ (i : Nat), i < s.idx.length → s.tabs.getnextl i = .ok (x i)) :
    ∀ (is : List Nat) (os : List Char), (∀ i ∈ is, i < s.idx.length) →
      print_loop s is os = .ok (os ++ is.flatMap (fun i =>
        table_line i (s.idx.getD i 0) (l i) (u i) (d i) (x i))) := by
  intro is
  induction is with
  | nil =>
    intro os _
    simp only [List.flatMap_nil, List.append_nil]
    rfl
  | cons i rest ih =>
    intro os his
    have hi : i < s.idx.length := his i (List.mem_cons_self _ _)
    have ha : s.idx[i]? = some (s.idx.getD i 0) := by
      rw [List.getD_eq_getElem?_getD, List.getElem?_eq_getElem hi]
      rfl
    rw [print_loop_cons, print_line_eq s ha (hl i hi) (hu i hi) (hd i hi) (hx i hi)]
    simp only [ok_bind]
    rw [ih _ (fun k hk => his k (List.mem_cons_of_mem _ hk)), List.flatMap_cons,
      List.append_assoc]

/-- Member `print` on a state with fewer than `2 ^ 31` positions at which the getters
return: one line for every position, in ascending order. -/
theorem print_spec (s : suffixarray α) (l u d x : Nat → Nat) (hn : s.idx.length < 2 ^ 31)
    (hl : ∀ (i : Nat), i < s.idx.length → s.tabs.getlcp i = .ok (l i))
    (hu : ∀ (i : Nat), i < s.idx.length → s.tabs.getup i = .ok (u i))
    (hd : ∀ (i : Nat), i < s.idx.length → s.tabs.getdown i = .ok (d i))
    (hx : ∀ (i : Nat), i < s.idx.length → s.tabs.getnextl i = .ok (x i)) :
    s.print = .ok ((List.range s.idx.length).flatMap (fun i =>
      table_line i (s.idx.getD i 0) (l i) (u i) (d i) (x i))) := by
  unfold suffixarray.print
  rw [to_int_small hn, Int.toNat_ofNat,
    print_loop_spec s l u d x hl hu hd hx _ [] (fun i hi => List.mem_range.1 hi)]
  rfl

theorem toDigits_count_newline (v : Nat) : (Nat.toDigits 10 v).count '\n' = 0 :=
  List.count_eq_zero.2 (fun hc => absurd (toDigits_digits v _ hc) (by decide))

theorem table_field_count_newline (v : Nat) : (table_field v).count '\n' = 0 := by
  unfold table_field
  by_cases h : v = undefined
  · rw [if_pos h]
    rfl
  · rw [if_neg h]
    exact toDigits_count_newline v

/-- A line of the saved text holds one newline, its last character. -/
theorem table_line_count_newline (i a l u d x : Nat) :
    (table_line i a l u d x).count '\n' = 1 := by
  unfold table_line
  simp only [List.count_append, toDigits_count_newline, table_field_count_newline]
  rfl

theorem flatMap_count_newline (f : Nat → List Char)
    (hf : ∀ (i : Nat), (f i).count '\n' = 1) :
    ∀ (is : List Nat), (is.flatMap f).count '\n' = is.length := by
  intro is
  induction is with
  | nil => rfl
  | cons i rest ih =>
    rw [List.flatMap_cons, List.count_append, hf i, ih, List.length_cons]
    omega

end printing

end ns_suffixarray


set_option linter.unusedSectionVars false
set_option linter.unusedVariables false

namespace ns_suffixarray

open suffixarray

/-! ## The tables of a constructed index, whatever the order of its suffix array -/

section any_order

variable {α : Type} [LinearOrder α]

/-- When the comparison loop of `fill_lcp` returns, both reads of its last round were
inside the sequence. -/
theorem lcp_extend_bound {S : List α} (hl : S.length < 2 ^ 31) {i k : Nat} :
    ∀ (fuel h h2 : Nat), i + h < 2 ^ 32 → k + h < 2 ^ 32 →
      lcp_extend S fuel i k h = .ok h2 →
      h ≤ h2 ∧ i + h2 < S.length ∧ k + h2 < S.length := by
  intro fuel
  induction fuel with
  | zero =>
    intro h h2 _ _ hrun
    cases hrun
  | succ f ih =>
    intro h h2 hi hk hrun
    have e1 : (i + h) % SIZE_MOD = i + h := Nat.mod_eq_of_lt (by unfold SIZE_MOD; omega)
    have e2 : (k + h) % SIZE_MOD = k + h := Nat.mod_eq_of_lt (by unfold SIZE_MOD; omega)
    simp only [lcp_extend, e1, e2] at hrun
    obtain ⟨a, ha, hrun⟩ := bind_eq_ok.1 hrun
    obtain ⟨b, hb, hrun⟩ := bind_eq_ok.1 hrun
    have hia := (List.getElem?_eq_some_iff.1 (vec_at_eq_ok.1 ha)).1
    have hkb := (List.getElem?_eq_some_iff.1 (vec_at_eq_ok.1 hb)).1
    by_cases heq : a = b
    · rw [if_pos heq] at hrun
      obtain ⟨g1, g2, g3⟩ := ih (h + 1) h2 (by omega) (by omega) hrun
      exact ⟨by omega, g2, g3⟩
    · rw [if_neg heq] at hrun
      injection hrun with hrun
      subst hrun
      exact ⟨Nat.le_refl _, hia, hkb⟩

/-- The second loop of `fill_lcp` on a permutation of the positions: when it returns,
the table holds a value for every position, written once, and no value reaches past
the end of the sequence from either of the two suffixes it was computed for. -/
theorem fill_lcp_loop_tables {S : List α} {sa rank : List Nat}
    (hp : sa.Perm (List.range S.length)) (hn : S.length < 2 ^ 31)
    (hrank : ∀ (x a : Nat), sa[x]? = some a → rank[a]? = some x) :
    ∀ (m i h : Nat) (tabs : childtabs) (L : Nat → Nat) (tabs2 : childtabs),
      i + m = S.length → h ≤ S.length →
      tabs_ok tabs S.length L (fun _ => none) (fun _ => none) (fun _ => none) →
      (∀ (r : Nat), L r ≠ 0 → 0 < r ∧ ∃ i2, i2 < i ∧ sa[r]? = some i2) →
      (∀ (r a : Nat), sa[r]? = some a → a + L r < S.length) →
      (∀ (r k : Nat), 0 < r → sa[r - 1]? = some k → k + L r < S.length) →
      fill_lcp_loop S sa rank (List.range' i m) h tabs = .ok tabs2 →
      ∃ L2, tabs_ok tabs2 S.length L2 (fun _ => none) (fun _ => none) (fun _ => none) ∧
        L2 0 = 0 ∧ (∀ (r a : Nat), sa[r]? = some a → a + L2 r < S.length) ∧
        (∀ (r k : Nat), 0 < r → sa[r - 1]? = some k → k + L2 r < S.length) := by
  have hsal : sa.length = S.length := by rw [hp.length_eq, List.length_range]
  intro m
  induction m with
  | zero =>
    intro i h tabs L tabs2 him hh ht hI2 hB1 hB2 hrun
    have ht2 : tabs = tabs2 := by
      injection hrun
    subst ht2
    refine ⟨L, ht, ?_, hB1, hB2⟩
    by_contra hne
    have := (hI2 0 hne).1
    omega
  | succ m ih =>
    intro i h tabs L tabs2 him hh ht hI2 hB1 hB2 hrun
    have hin : i < S.length := by omega
    obtain ⟨r, hrn, hr⟩ := sa_rank hp hin
    rw [List.range'_succ, fill_lcp_loop_cons, vec_at_of_some (hrank r i hr)] at hrun
    simp only [ok_bind] at hrun
    by_cases hr0 : 0 < r
    · rw [if_pos ⟨hr0, by omega⟩] at hrun
      obtain ⟨k, hk, hkn⟩ := sa_get hp (by omega : r - 1 < S.length)
      rw [vec_at_of_some hk] at hrun
      simp only [ok_bind] at hrun
      rw [to_int_small (by omega : k < 2 ^ 31), to_size_nat k (by omega)] at hrun
      obtain ⟨h2, hext, hrun⟩ := bind_eq_ok.1 hrun
      obtain ⟨g1, g2, g3⟩ := lcp_extend_bound hn _ h h2 (by omega) (by omega) hext
      have hLr : L r = 0 := by
        by_contra hne
        obtain ⟨_, i2, hi2, hsa⟩ := hI2 r hne
        rw [hr] at hsa
        injection hsa with hsa
        omega
      obtain ⟨t2, hset, ht2⟩ := tabs_setlcp ht h2 hrn (by omega : L r < 255)
      rw [hset] at hrun
      simp only [ok_bind] at hrun
      refine ih (i + 1) _ t2 _ tabs2 (by omega) ?_ ht2 ?_ ?_ ?_ hrun
      · by_cases h20 : h2 > 0
        · rw [if_pos h20]; omega
        · rw [if_neg h20]; omega
      · intro r2 hne
        by_cases hrr : r2 = r
        · subst hrr
          exact ⟨hr0, i, by omega, hr⟩
        · rw [Function.update_noteq hrr] at hne
          obtain ⟨g4, i2, g5, g6⟩ := hI2 r2 hne
          exact ⟨g4, i2, by omega, g6⟩
      · intro r2 a ha
        by_cases hrr : r2 = r
        · subst hrr
          rw [Function.update_same]
          rw [hr] at ha
          injection ha with ha
          omega
        · rw [Function.update_noteq hrr]
          exact hB1 r2 a ha
      · intro r2 k2 hr2 hk2
        by_cases hrr : r2 = r
        · subst hrr
          rw [Function.update_same]
          rw [hk] at hk2
          injection hk2 with hk2
          omega
        · rw [Function.update_noteq hrr]
          exact hB2 r2 k2 hr2 hk2
    · rw [if_neg (by omega)] at hrun
      refine ih (i + 1) h tabs L tabs2 (by omega) hh ht ?_ hB1 hB2 hrun
      intro r2 hne
      obtain ⟨g4, i2, g5, g6⟩ := hI2 r2 hne
      exact ⟨g4, i2, by omega, g6⟩

/-- Member `fill_lcp()` on a permutation of the positions and fresh tables: when it
returns, the table `lcp` is well formed, 0 at position 0, and bounded by what is left
of the sequence. -/
theorem fill_lcp_tables {S : List α} {sa : List Nat} {s2 : suffixarray α}
    (hp : sa.Perm (List.range S.length)) (hn : S.length < 2 ^ 31)
    (hrun : fill_lcp (suffixarray.mk S (childtabs.init_tabs sa.length) sa) = .ok s2) :
    ∃ L, s2.idx = sa ∧ s2.content = S ∧
      tabs_ok s2.tabs S.length L (fun _ => none) (fun _ => none) (fun _ => none) ∧
      L 0 = 0 ∧ (∀ (r a : Nat), sa[r]? = some a → a + L r < S.length) ∧
      (∀ (r k : Nat), 0 < r → sa[r - 1]? = some k → k + L r < S.length) := by
  have hsal : sa.length = S.length := by rw [hp.length_eq, List.length_range]
  obtain ⟨rank, hrank, hrl, hrset, _⟩ := fill_rank_spec hp (List.range S.length)
    (List.replicate S.length 0) (List.nodup_range _) (fun i hi => List.mem_range.1 hi)
    (List.length_replicate _ _)
  have hrk : ∀ (x a : Nat), sa[x]? = some a → rank[a]? = some x := by
    intro x a hx
    have hxl := (List.getElem?_eq_some_iff.1 hx).1
    exact hrset x a (List.mem_range.2 (by omega)) hx
  unfold fill_lcp at hrun
  simp only [hsal] at hrun
  rw [hrank] at hrun
  simp only [ok_bind] at hrun
  obtain ⟨tabs2, hloop, hrun⟩ := bind_eq_ok.1 hrun
  rw [List.range_eq_range'] at hloop
  obtain ⟨L, ht2, hL0, hB1, hB2⟩ := fill_lcp_loop_tables hp hn hrk S.length 0 0
    (childtabs.init_tabs S.length) (fun _ => 0) tabs2 (by omega) (by omega)
    (tabs_init S.length) (fun r hne => absurd rfl hne)
    (fun r a ha => by
      have := List.mem_range.1 (hp.subset (List.getElem?_mem ha))
      show a + 0 < S.length
      omega)
    (fun r k _ hk => by
      have := List.mem_range.1 (hp.subset (List.getElem?_mem hk))
      show k + 0 < S.length
      omega) hloop
  injection hrun with hrun
  subst hrun
  exact ⟨L, rfl, rfl, ht2, hL0, hB1, hB2⟩

/-- The sort phase `ds()` of the constructor leaves the position of the sentinel at
the end of the suffix array. -/
theorem ds_sentinel_last {std_sort : sorter} (hsort : sort_contract std_sort) {S : List α}
    (hs : valid_sentinel S) (h2 : 2 ≤ S.length) :
    ∃ sa, ds std_sort S (List.range S.length) = .ok sa ∧ sa.Perm (List.range S.length) ∧
      sa[S.length - 1]? = some (S.length - 1) := by
  obtain ⟨idx0, h0, hp0, hl0⟩ := sort_bucket_ok hsort hs h2
  have hlen0 : idx0.length = S.length := by rw [hp0.length_eq, List.length_range]
  have hnd0 : idx0.Nodup := (List.Perm.nodup_iff hp0).2 (List.nodup_range _)
  obtain ⟨x0, hx0⟩ : ∃ x, idx0[0]? = some x :=
    ⟨idx0[0], List.getElem?_eq_getElem (by omega)⟩
  have hx0m : x0 ∈ List.range S.length := hp0.subset (List.mem_iff_getElem?.2 ⟨0, hx0⟩)
  rw [List.mem_range] at hx0m
  have hx01 : x0 + 1 < S.length := by
    by_contra hc
    have hxe : x0 = S.length - 1 := by omega
    rw [hxe] at hx0
    have := nodup_getElem?_inj hnd0 hx0 hl0
    omega
  obtain ⟨sa, hsa⟩ : ∃ sa, S[x0]? = some sa := ⟨S[x0], List.getElem?_eq_getElem hx0m⟩
  obtain ⟨sb, hsb⟩ : ∃ sb, S[x0 + 1]? = some sb := ⟨S[x0 + 1], List.getElem?_eq_getElem hx01⟩
  have hrange : (List.range idx0.length).drop 1 = List.range' 1 (S.length - 1) := by
    rw [hlen0, List.range_eq_range']
    obtain ⟨n, hn⟩ : ∃ n, S.length = n + 1 := ⟨S.length - 1, by omega⟩
    rw [hn, List.range'_succ]
    simp
  obtain ⟨idx1, backit, a', b', hscan, hp1, hl1, hb1, hbk⟩ :=
    ds_scan_ok hs (S.length - 1) 1 0 sa sb idx0 (by omega) (by omega) hp0 hl0 (by
      intro k _ hk2
      have hk : k = 0 := by
        have : min 1 (S.length - 1) ≤ 1 := Nat.min_le_left _ _
        omega
      subst hk
      exact ⟨x0, hx0, hx01, hsa, hsb⟩)
  have hlen1 : idx1.length = S.length := by rw [hp1.length_eq, List.length_range]
  have hnd1 : idx1.Nodup := (List.Perm.nodup_iff hp1).2 (List.nodup_range _)
  unfold ds
  simp only [h0, ok_bind, vec_read_of_some hx0, vec_read_of_some hsa, vec_read_of_some hsb,
    hrange, hscan]
  by_cases hc1 : backit ≠ idx1.length - 1
  · rw [if_pos hc1]
    by_cases hc2 : backit ≠ idx1.length - 1 - 1
    · rw [if_pos hc2]
      by_cases hc3 : idx1.length - 1 - 1 - backit > 1
      · rw [if_pos hc3]
        obtain ⟨idx2, h2', hp2, hk2⟩ := ds2_range_ok hs idx1 hnd1 backit (idx1.length - 1 - 1)
          (by omega) (by omega) a' b' (fun k hk1 hk2 => hbk k hk1 (by omega))
        refine ⟨idx2, h2', hp2.trans hp1, ?_⟩
        rw [hk2 (S.length - 1) (by omega)]
        exact hl1
      · rw [if_neg hc3]; exact ⟨idx1, rfl, hp1, hl1⟩
    · rw [if_neg hc2]; exact ⟨idx1, rfl, hp1, hl1⟩
  · rw [if_neg hc1]; exact ⟨idx1, rfl, hp1, hl1⟩

/-- The constructor on a sequence with a valid sentinel: when it returns, the tables
are those the navigation members rely on, whatever the order of the suffix array, and
no lcp value reaches past the end of the sequence. -/
theorem build_nav {std_sort : sorter} (hsort : sort_contract std_sort) {S : List α}
    {s : suffixarray α} (hv : valid_sentinel S)
    (hn : S.length < 2 ^ 31) (hb : suffixarray.build std_sort S = .ok s) :
    ∃ L U D N, nav_ok s S.length L U D N ∧ s.content = S ∧
      s.idx.Perm (List.range S.length) ∧
      (∀ (r a : Nat), s.idx[r]? = some a → a + L r < S.length) ∧
      (∀ (r k : Nat), 0 < r → s.idx[r - 1]? = some k → k + L r < S.length) := by
  have hn2 : 2 ≤ S.length := by
    by_contra hlt
    have hne : S ≠ [] := hv.1
    have h1 : S.length = 1 := by
      have : 0 < S.length := List.length_pos.2 hne
      omega
    rw [build_short hsort h1] at hb
    cases hb
  obtain ⟨sa, hds, hp, hlast⟩ := ds_sentinel_last hsort hv hn2
  have hidx := (build_idx hb).1
  rw [hds] at hidx
  injection hidx with hidx
  subst hidx
  have hsal : s.idx.length = S.length := by rw [hp.length_eq, List.length_range]
  unfold suffixarray.build at hb
  rw [hds] at hb
  simp only [ok_bind] at hb
  obtain ⟨s1, h1, hb⟩ := bind_eq_ok.1 hb
  obtain ⟨L, h1i, h1c, ht1, hL0, hB1, hB2⟩ := fill_lcp_tables hp hn h1
  obtain ⟨s2, U, D, N, h2, h2i, h2c, ht2, hc2⟩ := fill_up_down_nextl_spec s1
    (by rw [h1i]; exact hsal) (by omega) hn hL0 ht1
  rw [h2] at hb
  injection hb with hb
  subst hb
  refine ⟨L, U, D, N, ⟨hsal, by rw [h2c, h1c], hn2, hn, ht2, hc2, hL0, ?_⟩,
    by rw [h2c, h1c], hp, hB1, hB2⟩
  have := hB1 (S.length - 1) (S.length - 1) hlast
  omega

end any_order

end ns_suffixarray


set_option linter.unusedSectionVars false
set_option linter.unusedVariables false

namespace ns_suffixarray

open suffixarray

/-! ## Child intervals and their values on a constructed index -/

section children

variable {α : Type} [LinearOrder α]
variable {s : suffixarray α} {L : Nat → Nat} {U D N : Nat → Option Nat} {n : Nat}

/-- Whether positions form an lcp-interval depends on the table inside `[0, n)` only. -/
theorem lcp_interval_congr {L L2 : Nat → Nat} {n l i j : Nat}
    (h : ∀ (k : Nat), k < n → L k = L2 k) (hi : lcp_interval L n l i j) :
    lcp_interval L2 n l i j := by
  obtain ⟨h1, h2, h3, ⟨k, g1, g2, g3⟩, h5, h6⟩ := hi
  refine ⟨h1, h2, ?_, ⟨k, g1, g2, ?_⟩, ?_, ?_⟩
  · intro k2 hk1 hk2
    rw [← h k2 (by omega)]
    exact h3 k2 hk1 hk2
  · rw [← h k (by omega)]
    exact g3
  · rw [← h i (by omega)]
    exact h5
  · rcases h6 with h6 | h6
    · left
      rw [← h (j + 1) h6.1]
      exact h6
    · right
      exact h6

/-- The table `L` of an index is what `getlcp` returns. -/
theorem nav_getlcp_eq (h : nav_ok s n L U D N) {L2 : Nat → Nat}
    (hL : ∀ (k : Nat), k < n → s.tabs.getlcp k = .ok (L2 k)) :
    ∀ (k : Nat), k < n → L2 k = L k := by
  intro k hk
  have h1 := tabs_getlcp h.htabs hk h.hn
  rw [hL k hk] at h1
  injection h1

theorem contiguous_ne_nil {cs : List interval} {a b : Nat} (h : contiguous cs a b) :
    cs ≠ [] := by
  intro hc
  subst hc
  exact h.elim

theorem contiguous_head :
    ∀ (cs : List interval) (a b : Nat), contiguous cs a b →
      ∀ (c : interval), cs.head? = some c → c.i = a := by
  intro cs a b h c hc
  cases cs with
  | nil => exact h.elim
  | cons c1 rest =>
    simp only [List.head?_cons, Option.some.injEq] at hc
    subst hc
    cases rest with
    | nil => exact h.1
    | cons c2 rest2 => exact h.1

theorem contiguous_last :
    ∀ (cs : List interval) (a b : Nat), contiguous cs a b →
      ∀ (c : interval), cs.getLast? = some c → c.j = b := by
  intro cs
  induction cs with
  | nil => intro a b h; exact h.elim
  | cons c1 rest ih =>
    intro a b h c hc
    cases rest with
    | nil =>
      simp only [List.getLast?_singleton, Option.some.injEq] at hc
      subst hc
      exact h.2.1
    | cons c2 rest2 =>
      rw [List.getLast?_cons_cons] at hc
      exact ih _ _ h.2.2 c hc

theorem contiguous_next :
    ∀ (cs : List interval) (a b : Nat), contiguous cs a b →
      ∀ (t : Nat) (c c2 : interval), cs[t]? = some c → cs[t + 1]? = some c2 →
        c2.i = c.j + 1 := by
  intro cs
  induction cs with
  | nil => intro a b h; exact h.elim
  | cons c1 rest ih =>
    intro a b h t c c2 hc hc2
    cases rest with
    | nil =>
      simp at hc2
    | cons c3 rest2 =>
      cases t with
      | zero =>
        simp only [List.getElem?_cons_zero, Option.some.injEq] at hc
        simp only [List.getElem?_cons_succ, List.getElem?_cons_zero, Option.some.injEq] at hc2
        subst hc
        subst hc2
        have h3 := h.2.2
        cases rest2 with
        | nil => exact h3.1
        | cons c4 rest3 => exact h3.1
      | succ t =>
        rw [List.getElem?_cons_succ] at hc hc2
        exact ih _ _ h.2.2 t c c2 hc hc2

/-- Member `getChildIntervals` on an lcp-interval `[p, q]`: the list it returns is not
empty, starts at `p`, ends at `q`, and every interval is well formed and starts
right after the one before. -/
theorem children_partition (h : nav_ok s n L U D N) {l p q : Nat}
    (hi : lcp_interval L n l p q) :
    ∃ cs, getChildIntervals s ⟨p, q⟩ = .ok cs ∧ cs ≠ [] ∧
      (∀ (c : interval), cs.head? = some c → c.i = p) ∧
      (∀ (c : interval), cs.getLast? = some c → c.j = q) ∧
      (∀ c ∈ cs, c.i ≤ c.j) ∧
      (∀ (t : Nat) (c c2 : interval), cs[t]? = some c → cs[t + 1]? = some c2 →
        c2.i = c.j + 1) := by
  obtain ⟨cs, hrun, hct, _⟩ := getChildIntervals_nav h hi
  exact ⟨cs, hrun, contiguous_ne_nil hct, contiguous_head cs p q hct,
    contiguous_last cs p q hct, fun c hc => (contiguous_bounds cs p q hct c hc).2.1,
    contiguous_next cs p q hct⟩

/-- The value `getlcp` returns for the children of an lcp-interval of value `l`: more
than `l` for a child of several positions, and for a child of one position the
distance of its suffix from the last position of the sequence, which is at least
`l`. -/
theorem children_lcp (h : nav_ok s n L U D N) (hp : s.idx.Perm (List.range n))
    (hB1 : ∀ (r a : Nat), s.idx[r]? = some a → a + L r < n)
    (hB2 : ∀ (r k : Nat), 0 < r → s.idx[r - 1]? = some k → k + L r < n) {l p q : Nat}
    (hi : lcp_interval L n l p q) :
    ∃ cs, getChildIntervals s ⟨p, q⟩ = .ok cs ∧ getlcp s ⟨p, q⟩ = .ok l ∧
      ∀ c ∈ cs, ∃ lc, getlcp s c = .ok lc ∧ l ≤ lc ∧ (c.i < c.j → l < lc) ∧
        (c.i = c.j → ∀ (a : Nat), s.idx[c.i]? = some a → lc = n - a - 1) := by
  obtain ⟨cs, hrun, hct, hch⟩ := getChildIntervals_nav h hi
  refine ⟨cs, hrun, getlcp_interval_nav h hi, ?_⟩
  intro c hc
  obtain ⟨hb1, hb2, hb3⟩ := contiguous_bounds cs p q hct c hc
  obtain ⟨g1, g2, g3⟩ := hch c hc
  by_cases hlt : c.i < c.j
  · obtain ⟨l2, hl2, hi2⟩ := g3 hlt
    exact ⟨l2, getlcp_interval_nav h hi2, by omega, fun _ => hl2, fun he => by omega⟩
  · have heq : c.i = c.j := by omega
    obtain ⟨a, ha, han⟩ := sa_get hp (by omega : c.i < n)
    have hget : getlcp s c = .ok (n - a - 1) := by
      have := getlcp_single_nav h ha han
      have hcc : c = ⟨c.i, c.i⟩ := by
        cases c with
        | mk ci cj =>
          simp only at heq
          subst heq
          rfl
      rw [hcc]
      exact this
    refine ⟨n - a - 1, hget, ?_, fun hc2 => absurd hc2 hlt, ?_⟩
    · obtain ⟨h1, h2, h3, _⟩ := hi
      by_cases hcp : c.i = p
      · have hL := h3 (p + 1) (by omega) (by omega)
        have := hB2 (p + 1) a (by omega) (by
          have e : p + 1 - 1 = c.i := by omega
          rw [e]
          exact ha)
        omega
      · have hL := h3 c.i (by omega) (by omega)
        have := hB1 c.i a ha
        omega
    · intro _ a2 ha2
      rw [ha] at ha2
      injection ha2 with ha2
      rw [ha2]

end children

end ns_suffixarray


set_option linter.unusedSectionVars false
set_option linter.unusedVariables false

namespace ns_suffixarray

open suffixarray

/-! ## The value of an lcp-interval as a common prefix -/

section common_part

variable {α : Type} [LinearOrder α]
variable {S : List α} {s : suffixarray α} {L : Nat → Nat} {U D N : Nat → Option Nat}

/-- Two suffixes that agree on `h` elements and not on `h + 1` have a longest common
prefix of length `h`. -/
theorem lcp_len_of_agree {S : List α} :
    ∀ (h a b : Nat), agree S a b h → ¬ agree S a b (h + 1) →
      lcp_len (S.drop a) (S.drop b) = h := by
  intro h
  induction h with
  | zero =>
    intro a b _ hne
    by_cases ha : a < S.length
    · by_cases hb : b < S.length
      · rw [List.drop_eq_getElem_cons ha, List.drop_eq_getElem_cons hb]
        have hab : S[a] ≠ S[b] := by
          intro heq
          apply hne
          intro k hk
          have hk0 : k = 0 := by omega
          subst hk0
          refine ⟨ha, hb, ?_⟩
          rw [Nat.add_zero, Nat.add_zero, List.getElem?_eq_getElem ha,
            List.getElem?_eq_getElem hb, heq]
        simp only [lcp_len, if_neg hab]
      · rw [List.drop_eq_nil_of_le (by omega : S.length ≤ b)]
        cases S.drop a <;> rfl
    · rw [List.drop_eq_nil_of_le (by omega : S.length ≤ a)]
      rfl
  | succ m ih =>
    intro a b hag hne
    obtain ⟨ha, hb, he, hrest⟩ := agree_cons.1 hag
    have hne2 : ¬ agree S (a + 1) (b + 1) (m + 1) := by
      intro hc
      exact hne (agree_cons.2 ⟨ha, hb, he, hc⟩)
    have := ih (a + 1) (b + 1) hrest hne2
    rw [List.drop_eq_getElem_cons ha, List.drop_eq_getElem_cons hb]
    rw [List.getElem?_eq_getElem ha, List.getElem?_eq_getElem hb] at he
    injection he with he
    simp only [lcp_len, if_pos he, this]

/-- The constructor on a sequence whose suffix array comes out in suffix order: the
table `lcp` holds the exact number of elements on which neighbours agree. -/
theorem build_tables_exact {std_sort : sorter} (hsort : sort_contract std_sort)
    {S : List α} {s : suffixarray α} (hv : valid_sentinel S)
    (hn : S.length < 2 ^ 31) (hb : suffixarray.build std_sort S = .ok s)
    (hs : suffix_sorted S s.idx) :
    ∃ L U D N, index_ok S s L U D N ∧
      ∀ (r a b : Nat), 0 < r → s.idx[r - 1]? = some a → s.idx[r]? = some b →
        ¬ agree S a b (L r + 1) := by
  have hn2 := build_length hsort hv hb
  obtain ⟨sa, hds, hp⟩ := ds_ok hsort hv hn2
  have hidx := (build_idx hb).1
  rw [hds] at hidx
  injection hidx with hidx
  subst hidx
  obtain ⟨s1, L, h1, h1i, h1c, ht1, hL0, hL⟩ := fill_lcp_spec hv hp hs hn
  obtain ⟨L2, U, D, N, hok⟩ := build_tables hsort hv hn2 hn hb hs
  have hsal : s.idx.length = S.length := by rw [hp.length_eq, List.length_range]
  obtain ⟨s2, U2, D2, N2, h2, h2i, h2c, ht2, hc2⟩ := fill_up_down_nextl_spec s1
    (by rw [h1i]; exact hsal) (by omega) hn hL0 ht1
  have hs2 : s = s2 := by
    unfold suffixarray.build at hb
    rw [hds] at hb
    simp only [ok_bind] at hb
    rw [h1] at hb
    simp only [ok_bind] at hb
    rw [h2] at hb
    injection hb with hb
    exact hb.symm
  subst hs2
  have hLL : ∀ (k : Nat), k < S.length → L2 k = L k := by
    intro k hk
    have e1 := tabs_getlcp hok.htabs hk hn
    have e2 := tabs_getlcp ht2 hk hn
    rw [e1] at e2
    injection e2
  refine ⟨L2, U, D, N, hok, ?_⟩
  intro r a b hr ha hb2
  have hrn : r < S.length := by
    have := (List.getElem?_eq_some_iff.1 hb2).1
    omega
  rw [hLL r hrn]
  exact (hL r a b hr ha hb2).2

/-- The suffixes of an lcp-interval of value `l` agree on `l` elements, and two of them
do not agree on `l + 1`. -/
theorem interval_common (h : index_ok S s L U D N)
    (hex : ∀ (r a b : Nat), 0 < r → s.idx[r - 1]? = some a → s.idx[r]? = some b →
      ¬ agree S a b (L r + 1)) {l i j : Nat} (hi : lcp_interval L S.length l i j) :
    (∀ (x y a b : Nat), i ≤ x → x ≤ j → i ≤ y → y ≤ j → s.idx[x]? = some a →
      s.idx[y]? = some b → agree S a b l) ∧
    ∃ x y a b, i ≤ x ∧ x ≤ j ∧ i ≤ y ∧ y ≤ j ∧ s.idx[x]? = some a ∧
      s.idx[y]? = some b ∧ ¬ agree S a b (l + 1) := by
  obtain ⟨h1, h2, h3, ⟨k, g1, g2, g3⟩, h5, h6⟩ := hi
  obtain ⟨a0, ha0, _⟩ := sa_get h.hperm (by omega : i < S.length)
  have hall := interval_agree h h1 h2 h3 ha0
  constructor
  · intro x y a b hx1 hx2 hy1 hy2 ha hb
    have e1 := hall (x - i) x a (by omega) hx2 ha
    have e2 := hall (y - i) y b (by omega) hy2 hb
    exact agree_trans (agree_symm e1) e2
  · obtain ⟨a, ha, _⟩ := sa_get h.hperm (by omega : k - 1 < S.length)
    obtain ⟨b, hb, _⟩ := sa_get h.hperm (by omega : k < S.length)
    refine ⟨k - 1, k, a, b, by omega, by omega, by omega, g2, ha, hb, ?_⟩
    rw [← g3]
    exact hex k a b (by omega) ha hb

/-- An interval described by the minimum of the table inside it and smaller values at
both borders, or the whole table, is an lcp-interval. -/
theorem lcp_interval_of_min {L : Nat → Nat} {n l i j : Nat} (hL0 : L 0 = 0)
    (hLend : L (n - 1) = 0) (hij : i < j) (hj : j < n)
    (hmin : ∀ (k : Nat), i < k → k ≤ j → l ≤ L k) (hex : ∃ k, i < k ∧ k ≤ j ∧ L k = l)
    (hends : (L i < l ∧ (j = n - 1 ∨ L (j + 1) < l)) ∨ (i = 0 ∧ j = n - 1)) :
    lcp_interval L n l i j := by
  refine ⟨hij, hj, hmin, hex, ?_, ?_⟩
  · rcases hends with ⟨g1, _⟩ | ⟨g1, g2⟩
    · exact Or.inl g1
    · right
      have := hmin j hij (Nat.le_refl _)
      rw [g2, hLend] at this
      exact ⟨g1, by omega⟩
  · rcases hends with ⟨g1, g2 | g2⟩ | ⟨g1, g2⟩
    · exfalso
      have := hmin j hij (Nat.le_refl _)
      rw [g2, hLend] at this
      omega
    · by_cases hjn : j + 1 < n
      · exact Or.inl ⟨hjn, g2⟩
      · exfalso
        have hje : j = n - 1 := by omega
        have := hmin j hij (Nat.le_refl _)
        rw [hje, hLend] at this
        omega
    · right
      have := hmin j hij (Nat.le_refl _)
      rw [g2, hLend] at this
      exact ⟨by omega, by omega⟩

end common_part

end ns_suffixarray


set_option linter.unusedSectionVars false
set_option linter.unusedVariables false

namespace ns_suffixarray

open suffixarray

/-! ## Loading what `savesarray` wrote -/

section loading

variable {α : Type} [DecidableEq α] [LT α] [DecidableRel (fun (a b : α) => a < b)]

theorem split_tabs_field :
    ∀ (a rest item : List Char) (elems : List (List Char)), '\t' ∉ a →
      split_tabs (a ++ '\t' :: rest) item elems = split_tabs rest [] (elems ++ [item ++ a]) := by
  intro a
  induction a with
  | nil =>
    intro rest item elems _
    rw [List.nil_append, List.append_nil, split_tabs, if_pos rfl]
  | cons c a ih =>
    intro rest item elems h
    have hc : c ≠ '\t' := fun e => h (e ▸ List.mem_cons_self _ _)
    have ha : '\t' ∉ a := fun e => h (List.mem_cons_of_mem _ e)
    rw [List.cons_append, split_tabs, if_neg hc, ih _ _ _ ha, List.append_assoc]
    rfl

theorem split_tabs_keeps :
    ∀ (r item : List Char) (elems : List (List Char)),
      ∃ more, split_tabs r item elems = elems ++ more := by
  intro r
  induction r with
  | nil =>
    intro item elems
    rw [split_tabs]
    by_cases h : item.length > 0
    · rw [if_pos h]
      exact ⟨[item], rfl⟩
    · rw [if_neg h]
      exact ⟨[], (List.append_nil _).symm⟩
  | cons c r ih =>
    intro item elems
    rw [split_tabs]
    by_cases h : c = '\t'
    · rw [if_pos h]
      obtain ⟨more, hm⟩ := ih [] (elems ++ [item])
      exact ⟨[item] ++ more, by rw [hm, List.append_assoc]⟩
    · rw [if_neg h]
      exact ih _ _

theorem file_lines_first :
    ∀ (a rest line : List Char), '\n' ∉ a →
      file_lines (a ++ '\n' :: rest) line = (line ++ a) :: file_lines rest [] := by
  intro a
  induction a with
  | nil =>
    intro rest line _
    rw [List.nil_append, List.append_nil, file_lines, if_pos rfl]
  | cons c a ih =>
    intro rest line h
    have hc : c ≠ '\n' := fun e => h (e ▸ List.mem_cons_self _ _)
    have ha : '\n' ∉ a := fun e => h (List.mem_cons_of_mem _ e)
    rw [List.cons_append, file_lines, if_neg hc, ih _ _ ha, List.append_assoc]
    rfl

theorem print_loop_extends (s : suffixarray α) :
    ∀ (is : List Nat) (os text : List Char), print_loop s is os = .ok text →
      ∃ more, text = os ++ more := by
  intro is
  induction is with
  | nil =>
    intro os text h
    injection h with h
    exact ⟨[], by rw [List.append_nil, h]⟩
  | cons i rest ih =>
    intro os text h
    rw [print_loop_cons] at h
    obtain ⟨line, _, h⟩ := bind_eq_ok.1 h
    obtain ⟨more, hm⟩ := ih _ _ h
    exact ⟨line ++ more, by rw [hm, List.append_assoc]⟩

theorem toDigits_no_tab (v : Nat) : '\t' ∉ Nat.toDigits 10 v :=
  fun hc => absurd (toDigits_digits v _ hc) (by decide)

theorem toDigits_no_newline (v : Nat) : '\n' ∉ Nat.toDigits 10 v :=
  fun hc => absurd (toDigits_digits v _ hc) (by decide)

theorem print_field_no_newline (v : Nat) : '\n' ∉ print_field v := by
  unfold print_field put_num
  by_cases h : v = undefined
  · rw [if_pos h]
    decide
  · rw [if_neg h]
    intro hc
    rcases List.mem_append.1 hc with h1 | h1
    · exact toDigits_no_newline v h1
    · exact absurd h1 (by decide)

/-- On a state without a suffix array, `processline` on a line whose first item is `0`
and whose second item is a number does not return: `idx.at(0)` is outside the empty
vector. -/
theorem processline_empty_idx (s : suffixarray α) (hs : s.idx = []) (x : Nat)
    (rest : List Char) :
    ∃ e, s.processline (Nat.toDigits 10 0 ++ '\t' :: (Nat.toDigits 10 x ++ '\t' :: rest)) =
      .error e := by
  obtain ⟨more, hm⟩ := split_tabs_keeps rest [] ([] ++ [[] ++ Nat.toDigits 10 0] ++
    [[] ++ Nat.toDigits 10 x])
  have hsplit : split_tabs (Nat.toDigits 10 0 ++ '\t' :: (Nat.toDigits 10 x ++ '\t' :: rest))
      [] [] = Nat.toDigits 10 0 :: Nat.toDigits 10 x :: more := by
    rw [split_tabs_field _ _ _ _ (toDigits_no_tab 0), split_tabs_field _ _ _ _ (toDigits_no_tab x),
      hm]
    rfl
  have hx : Nat.toDigits 10 x ≠ ['-'] := by
    intro hc
    have := toDigits_digits x '-' (by rw [hc]; exact List.mem_singleton.2 rfl)
    exact absurd this (by decide)
  unfold suffixarray.processline
  simp only [hsplit]
  have h0 : vec_read (Nat.toDigits 10 0 :: Nat.toDigits 10 x :: more) 0 =
      .ok (Nat.toDigits 10 0) := vec_read_of_some (by simp)
  have h1 : vec_read (Nat.toDigits 10 0 :: Nat.toDigits 10 x :: more) 1 =
      .ok (Nat.toDigits 10 x) := vec_read_of_some (by simp)
  have ha0 : atoi (Nat.toDigits 10 0) = .ok 0 := rfl
  simp only [h0, h1, ha0, ok_bind, hs, bind_assoc]
  rw [if_pos hx]
  cases atoi (Nat.toDigits 10 x) with
  | error e => exact ⟨e, rfl⟩
  | ok v => exact ⟨.out_of_range, rfl⟩

/-- Loading what was saved fails: whenever `savesarray` has written the text of a
state with a suffix array that is not empty, the loading constructor on that text,
with whatever sequence, does not return an index. -/
theorem load_saved_fails (S : List α) (s : suffixarray α) (text : List Char)
    (hne : s.idx ≠ []) (hsave : s.savesarray = .ok text) :
    ∃ e, (suffixarray.load S (some text) : Except Exn (suffixarray α)) = .error e := by
  unfold suffixarray.savesarray suffixarray.print at hsave
  cases hm : (to_int s.idx.length).toNat with
  | zero =>
    rw [hm] at hsave
    injection hsave with hsave
    subst hsave
    exact ⟨.ub, rfl⟩
  | succ m =>
    rw [hm, List.range_eq_range', List.range'_succ, print_loop_cons] at hsave
    obtain ⟨line, hline, hrest⟩ := bind_eq_ok.1 hsave
    obtain ⟨more, hmore⟩ := print_loop_extends s _ _ _ hrest
    unfold print_line at hline
    obtain ⟨x, _, hline⟩ := bind_eq_ok.1 hline
    obtain ⟨l, _, hline⟩ := bind_eq_ok.1 hline
    obtain ⟨u, _, hline⟩ := bind_eq_ok.1 hline
    obtain ⟨d, _, hline⟩ := bind_eq_ok.1 hline
    obtain ⟨nx, _, hline⟩ := bind_eq_ok.1 hline
    injection hline with hline
    have htext : text = (Nat.toDigits 10 0 ++ '\t' :: (Nat.toDigits 10 x ++ '\t' ::
        (print_field l ++ print_field u ++ print_field d ++ print_field nx))) ++
        '\n' :: more := by
      rw [hmore, ← hline]
      simp only [put_num, List.nil_append, List.append_assoc, List.cons_append,
        List.singleton_append]
    have hnl : '\n' ∉ Nat.toDigits 10 0 ++ '\t' :: (Nat.toDigits 10 x ++ '\t' ::
        (print_field l ++ print_field u ++ print_field d ++ print_field nx)) := by
      intro hc
      rcases List.mem_append.1 hc with h1 | h1
      · exact toDigits_no_newline 0 h1
      · rcases List.mem_cons.1 h1 with h2 | h2
        · exact absurd h2 (by decide)
        · rcases List.mem_append.1 h2 with h3 | h3
          · exact toDigits_no_newline x h3
          · rcases List.mem_cons.1 h3 with h4 | h4
            · exact absurd h4 (by decide)
            · simp only [List.mem_append] at h4
              rcases h4 with ((h5 | h5) | h5) | h5
              · exact print_field_no_newline l h5
              · exact print_field_no_newline u h5
              · exact print_field_no_newline d h5
              · exact print_field_no_newline nx h5
    obtain ⟨e, he⟩ := processline_empty_idx
      (suffixarray.mk S (childtabs.init_tabs S.length) ([] : List Nat)) rfl x
      (print_field l ++ print_field u ++ print_field d ++ print_field nx)
    refine ⟨e, ?_⟩
    unfold suffixarray.load
    simp only [htext]
    rw [file_lines_first _ _ _ hnl]
    simp only [List.nil_append]
    show (suffixarray.processline _ _ >>= fun s2 => load_lines _ s2) = .error e
    rw [he]
    rfl

theorem bind_error_of {ε β γ : Type} {x : Except ε β} {f : β → Except ε γ}
    (h : ∀ (a : β), x = .ok a → ∃ e, f a = .error e) : ∃ e, (x >>= f) = .error e := by
  cases x with
  | error e => exact ⟨e, rfl⟩
  | ok a => exact h a rfl

theorem vec_read_lt {β : Type} {v : List β} {i : Nat} {x : β} (h : vec_read v i = .ok x) :
    i < v.length := (List.getElem?_eq_some_iff.1 (vec_read_eq_ok.1 h)).1

/-- On a line of fewer than six items `processline` never returns: when nothing else
stops it earlier, it reads an item past the end of the split line. -/
theorem processline_short (s : suffixarray α) (line : List Char)
    (h : (split_tabs line [] []).length < 6) : ∃ e, s.processline line = .error e := by
  unfold suffixarray.processline
  generalize split_tabs line [] [] = elems at h
  refine bind_error_of (fun a0 h0 => ?_)
  refine bind_error_of (fun i0 _ => ?_)
  refine bind_error_of (fun a1 h1 => ?_)
  refine bind_error_of (fun idx _ => ?_)
  refine bind_error_of (fun a2 h2 => ?_)
  refine bind_error_of (fun t2 _ => ?_)
  refine bind_error_of (fun a3 h3 => ?_)
  refine bind_error_of (fun t3 _ => ?_)
  refine bind_error_of (fun a4 h4 => ?_)
  refine bind_error_of (fun t4 _ => ?_)
  refine bind_error_of (fun a5 h5 => ?_)
  have := vec_read_lt h5
  omega

end loading

section saving

variable {α : Type} [LinearOrder α]

/-- On every index the constructor returns for a valid-sentinel sequence of fewer than
`2 ^ 31` elements, the four getters return at every position, so that `print` writes
one line for each of them. -/
theorem print_built {std_sort : sorter} (hsort : sort_contract std_sort) {S : List α}
    {s : suffixarray α} (hv : valid_sentinel S)
    (hn : S.length < 2 ^ 31) (hb : suffixarray.build std_sort S = .ok s) :
    ∃ (l u d x : Nat → Nat),
      (∀ (i : Nat), i < s.idx.length → s.tabs.getlcp i = .ok (l i)) ∧
      (∀ (i : Nat), i < s.idx.length → s.tabs.getup i = .ok (u i)) ∧
      (∀ (i : Nat), i < s.idx.length → s.tabs.getdown i = .ok (d i)) ∧
      (∀ (i : Nat), i < s.idx.length → s.tabs.getnextl i = .ok (x i)) ∧
      s.print = .ok ((List.range s.idx.length).flatMap (fun i =>
        table_line i (s.idx.getD i 0) (l i) (u i) (d i) (x i))) := by
  obtain ⟨L, U, D, N, hnav, _, _, _, _⟩ := build_nav hsort hv hn hb
  have hlen := hnav.hlen
  have h1 : ∀ (i : Nat), i < s.idx.length → s.tabs.getlcp i = .ok (L i) :=
    fun i hi => tabs_getlcp hnav.htabs (by omega) hn
  have h2 : ∀ (i : Nat), i < s.idx.length →
      s.tabs.getup i = .ok ((U i).getD undefined) :=
    fun i hi => tabs_getup hnav.htabs (by omega) hn
  have h3 : ∀ (i : Nat), i < s.idx.length →
      s.tabs.getdown i = .ok ((D i).getD undefined) :=
    fun i hi => tabs_getdown hnav.htabs (by omega) hn
  have h4 : ∀ (i : Nat), i < s.idx.length →
      s.tabs.getnextl i = .ok ((N i).getD undefined) :=
    fun i hi => tabs_getnextl hnav.htabs (by omega) hn
  exact ⟨L, fun i => (U i).getD undefined, fun i => (D i).getD undefined,
    fun i => (N i).getD undefined, h1, h2, h3, h4,
    print_spec s _ _ _ _ (by omega) h1 h2 h3 h4⟩

end saving


end ns_suffixarray


set_option linter.unusedSectionVars false
set_option linter.unusedVariables false

namespace ns_suffixarray

open suffixarray

/-! ## Single writes to fresh tables, and the child values in plain words -/

section fresh_tables

/-- A setter on a fresh table of fewer than `2 ^ 31` cells, and the getter behind it. -/
theorem fresh_tables_round_trip (n pos target : Nat) (hn : n < 2 ^ 31) (hp : pos < n)
    (ht : target < 2 ^ 31) :
    ∃ t1 t2 t3, (childtabs.init_tabs n).setup pos target = .ok t1 ∧
      (childtabs.init_tabs n).setdown pos target = .ok t2 ∧
      (childtabs.init_tabs n).setnextl pos target = .ok t3 ∧
      tabs_ok t1 n (fun _ => 0) (Function.update (fun _ => none) pos (some target))
        (fun _ => none) (fun _ => none) ∧
      tabs_ok t2 n (fun _ => 0) (fun _ => none)
        (Function.update (fun _ => none) pos (some target)) (fun _ => none) ∧
      tabs_ok t3 n (fun _ => 0) (fun _ => none) (fun _ => none)
        (Function.update (fun _ => none) pos (some target)) := by
  obtain ⟨t1, h1, g1⟩ := tabs_setup (tabs_init n) hp hn rfl ht
  obtain ⟨t2, h2, g2⟩ := tabs_setdown (tabs_init n) hp hn rfl ht
  obtain ⟨t3, h3, g3⟩ := tabs_setnextl (tabs_init n) hp hn rfl ht
  exact ⟨t1, t2, t3, h1, h2, h3, g1, g2, g3⟩

/-- How a table holds a value: the offset in the byte when it is in `-127 .. 126`, the
byte 127 and an entry of the overflow map otherwise. -/
theorem tab_rep_at {vec : List Int} {map : size_map} {f : Nat → Option Nat}
    (h : tab_rep vec map f) {p v : Nat} (hp : p < vec.length) (hf : f p = some v) :
    (-128 < (v : Int) - p ∧ (v : Int) - p < 127 → vec[p]? = some ((v : Int) - p)) ∧
    (¬ (-128 < (v : Int) - p ∧ (v : Int) - p < 127) →
      vec[p]? = some 127 ∧ map.find_second p = .ok v) := by
  have h1 := h.1 p hp
  rw [hf] at h1
  simp only [] at h1
  obtain ⟨_, h1 | h1⟩ := h1
  · exact ⟨fun _ => h1.2.2, fun hc => absurd ⟨h1.1, h1.2.1⟩ hc⟩
  · exact ⟨fun hc => absurd hc h1.1, fun _ => h1.2⟩

/-- Fresh tables whose `lcp` bytes are the values of `l`, all below 255. -/
theorem tabs_ok_lcp_bytes (l : List Nat) (hl : ∀ x ∈ l, x < 255) :
    tabs_ok { childtabs.init_tabs l.length with lcp := l } l.length (fun k => l.getD k 0)
      (fun _ => none) (fun _ => none) (fun _ => none) := by
  refine ⟨rfl, ⟨?_, ?_⟩, by simp [childtabs.init_tabs],
    tab_rep_init l.length, by simp [childtabs.init_tabs], tab_rep_init l.length,
    by simp [childtabs.init_tabs], tab_rep_init l.length⟩
  · intro p hp
    have hp2 : p < l.length := hp
    have he : l.getD p 0 = l[p] := by
      rw [List.getD_eq_getElem?_getD, List.getElem?_eq_getElem hp2]
      rfl
    refine Or.inl ⟨?_, ?_⟩
    · show l.getD p 0 < 255
      rw [he]
      exact hl _ (List.getElem_mem hp2)
    · show l[p]? = some (l.getD p 0)
      rw [he, List.getElem?_eq_getElem hp2]
  · intro e he
    cases he

theorem set_lcp_values_ok {n : Nat} :
    ∀ (more : List Nat) (pos : Nat) (t : childtabs) (L : Nat → Nat),
      tabs_ok t n L (fun _ => none) (fun _ => none) (fun _ => none) →
      pos + more.length = n → (∀ (k : Nat), pos ≤ k → L k = 0) →
      ∃ t2, childtabs.set_lcp_values more pos t = .ok t2 ∧
        tabs_ok t2 n (fun k => if pos ≤ k then more.getD (k - pos) 0 else L k)
          (fun _ => none) (fun _ => none) (fun _ => none) := by
  intro more
  induction more with
  | nil =>
    intro pos t L ht _ hz
    refine ⟨t, rfl, ?_⟩
    have he : (fun k => if pos ≤ k then ([] : List Nat).getD (k - pos) 0 else L k) = L := by
      funext k
      by_cases hk : pos ≤ k
      · rw [if_pos hk, hz k hk]
        rfl
      · rw [if_neg hk]
    rw [he]
    exact ht
  | cons v more ih =>
    intro pos t L ht hlen hz
    have hlen2 : pos + (more.length + 1) = n := hlen
    obtain ⟨t1, h1, ht1⟩ := tabs_setlcp ht v (by omega : pos < n)
      (by rw [hz pos (Nat.le_refl _)]; omega)
    obtain ⟨t2, h2, ht2⟩ := ih (pos + 1) t1 (Function.update L pos v) ht1 (by omega)
      (fun k hk => by rw [Function.update_noteq (by omega)]; exact hz k (by omega))
    refine ⟨t2, by simp only [childtabs.set_lcp_values, h1, ok_bind, h2], ?_⟩
    have he : (fun k => if pos ≤ k then (v :: more).getD (k - pos) 0 else L k) =
        (fun k => if pos + 1 ≤ k then more.getD (k - (pos + 1)) 0
          else Function.update L pos v k) := by
      funext k
      by_cases hk : pos + 1 ≤ k
      · rw [if_pos hk, if_pos (by omega : pos ≤ k)]
        rw [show k - pos = (k - (pos + 1)) + 1 by omega]
        rfl
      · rw [if_neg hk]
        by_cases hk2 : pos ≤ k
        · have hkp : k = pos := by omega
          subst hkp
          rw [if_pos hk2, Function.update_same, Nat.sub_self]
          rfl
        · rw [if_neg hk2, Function.update_noteq (by omega)]
    rw [he]
    exact ht2

/-- The tables made for an LCP array hold its values and no child value. -/
theorem lcp_tables_ok (l : List Nat) :
    ∃ t, childtabs.lcp_tables l = .ok t ∧
      tabs_ok t l.length (fun k => l.getD k 0) (fun _ => none) (fun _ => none)
        (fun _ => none) := by
  obtain ⟨t, h1, h2⟩ := set_lcp_values_ok l 0 (childtabs.init_tabs l.length) (fun _ => 0)
    (tabs_init l.length) (by omega) (fun _ _ => rfl)
  refine ⟨t, h1, ?_⟩
  have he : (fun k => if 0 ≤ k then l.getD (k - 0) 0 else (fun _ => 0) k) =
      (fun k => l.getD k 0) := by
    funext k
    rw [if_pos (Nat.zero_le _), Nat.sub_zero]
  rw [he] at h2
  exact h2

/-- A getter that returns the value of a table, or `undefined` where there is none. -/
theorem getter_iff {o : Option Nat} {g : Except Exn Nat} (hg : g = .ok (o.getD undefined))
    (hb : ∀ (x : Nat), o = some x → x ≠ undefined) :
    (∀ (j : Nat), j ≠ undefined → (g = .ok j ↔ o = some j)) ∧
    (g = .ok undefined ↔ o = none) := by
  rw [hg]
  cases o with
  | none =>
    refine ⟨fun j hj => ⟨fun h => ?_, fun h => by cases h⟩, ⟨fun _ => rfl, fun _ => rfl⟩⟩
    injection h with h
    exact absurd h.symm hj
  | some x =>
    refine ⟨fun j hj => ⟨fun h => ?_, fun h => ?_⟩, ⟨fun h => ?_, fun h => by cases h⟩⟩
    · injection h with h
      rw [← h]
      rfl
    · injection h with h
      rw [h]
      rfl
    · injection h with h
      exact absurd h (hb x rfl)

end fresh_tables

section child_values

variable {L : Nat → Nat}

/-- There is a first position in `(a, b)` at which `L` is least, when `(a, b)` is not
empty. -/
theorem exists_first_min {a b : Nat} (hab : a + 1 < b) : ∃ q, first_min L a b q := by
  obtain ⟨m, h1, h2, h3⟩ := exists_min_on (L := L) a (b - 1) (by omega)
  obtain ⟨f, g1, g2, g3, g4⟩ := exists_first (fun k => L k = L m) a (b - 1) ⟨m, h1, h2, rfl⟩
  refine ⟨f, g1, by omega, ?_, ?_⟩
  · intro k hk1 hk2
    have e1 := h3 k hk1 (by omega)
    have e2 := g4 k hk1 hk2
    have e3 : L f = L m := g3
    omega
  · intro k hk1 hk2
    have e1 := h3 k (by omega) (by omega)
    have e3 : L f = L m := g3
    omega

/-- The value of `up` at `i`, in plain words: the smallest position `q` below `i` with
`L q > L i` that is followed, up to `i`, by values that are at least `L q`. -/
theorem is_up_iff (hL0 : L 0 = 0) (i q : Nat) :
    is_up L i q ↔
      (q < i ∧ L i < L q ∧ (∀ (k : Nat), q < k → k < i → L q ≤ L k) ∧
        ∀ (q2 : Nat), q2 < q → ¬ (L i < L q2 ∧ ∀ (k : Nat), q2 < k → k < i → L q2 ≤ L k)) := by
  constructor
  · rintro ⟨a, ha, hgap, haq, hqi, hbefore, hafter⟩
    refine ⟨hqi, hgap q haq hqi, hafter, ?_⟩
    rintro q2 hq2 ⟨h1, h2⟩
    by_cases hq2a : a < q2
    · have e1 := hbefore q2 hq2a hq2
      have e2 := h2 q hq2 hqi
      omega
    · by_cases hq2e : q2 = a
      · subst hq2e
        omega
      · have := h2 a (by omega) (by omega)
        omega
  · rintro ⟨hqi, hlt, hafter, hsmall⟩
    have hq0 : 0 < q := by
      by_contra hz
      have : q = 0 := by omega
      rw [this, hL0] at hlt
      omega
    obtain ⟨z, hz, hzv, hzL⟩ := exists_last_below (L := L) (L i + 1) q
      ⟨0, hq0, by rw [hL0]; omega⟩
    have hgap : ∀ (k : Nat), z < k → k < i → L i < L k := by
      intro k hk1 hk2
      by_cases hkq : k < q
      · have := hzL k hk1 hkq
        omega
      · by_cases hke : k = q
        · subst hke; exact hlt
        · have := hafter k (by omega) hk2
          omega
    refine ⟨z, by omega, hgap, hz, hqi, ?_, hafter⟩
    intro k hk1 hk2
    by_contra hle
    obtain ⟨m, h1, h2, h3⟩ := exists_min_on (L := L) z (q - 1) (by omega)
    apply hsmall m (by omega)
    refine ⟨hgap m h1 (by omega), ?_⟩
    intro k2 hk3 hk4
    by_cases hk2q : k2 < q
    · exact h3 k2 (by omega) (by omega)
    · have e1 := h3 k hk1 (by omega)
      by_cases hk2e : k2 = q
      · subst hk2e
        omega
      · have := hafter k2 (by omega) hk4
        omega

/-- The table `up` has a value at `i` exactly when `L` drops from `i - 1` to `i`. -/
theorem is_up_exists_iff (hL0 : L 0 = 0) (i : Nat) :
    (∃ q, is_up L i q) ↔ (1 ≤ i ∧ L i < L (i - 1)) := by
  constructor
  · rintro ⟨q, a, ha, hgap, haq, hqi, _, _⟩
    exact ⟨by omega, hgap (i - 1) (by omega) (by omega)⟩
  · rintro ⟨hi, hlt⟩
    obtain ⟨z, hz, hzv, hzL⟩ := exists_last_below (L := L) (L i + 1) i
      ⟨0, by omega, by rw [hL0]; omega⟩
    have hzi : z + 1 < i := by
      by_contra hc
      have : z = i - 1 := by omega
      rw [this] at hzv
      omega
    obtain ⟨q, hq⟩ := exists_first_min (L := L) hzi
    refine ⟨q, z, by omega, ?_, hq⟩
    intro k hk1 hk2
    have := hzL k hk1 hk2
    omega

/-- What a value of `down` satisfies, in plain words. -/
theorem is_down_facts {bound t q : Nat} (h : is_down L bound t q) :
    t < q ∧ q < bound ∧ L t < L q ∧ ∀ (k : Nat), t < k → k < q → L q < L k := by
  obtain ⟨b, hb, _, hgap, htq, hqb, hbefore, _⟩ := h
  exact ⟨htq, by omega, hgap q htq hqb, hbefore⟩

/-- A value of `nextl` is the first position behind `t` with the same `L`. -/
theorem is_nextl_first {t x : Nat} (h : is_nextl L t x) :
    ∀ (x2 : Nat), t < x2 → x2 < x → L x2 ≠ L t := by
  intro x2 h1 h2 he
  have := h.2.2 x2 h1 h2
  omega

theorem getD_undefined_iff {o : Option Nat} {j : Nat} (hj : j ≠ undefined) :
    o.getD undefined = j ↔ o = some j := by
  cases o with
  | none =>
    simp only [Option.getD_none]
    exact ⟨fun h => absurd h.symm hj, fun h => by cases h⟩
  | some x =>
    simp only [Option.getD_some, Option.some.injEq]

theorem getD_undefined_none {o : Option Nat} (ho : ∀ (x : Nat), o = some x → x ≠ undefined) :
    o.getD undefined = undefined ↔ o = none := by
  cases o with
  | none => simp
  | some x =>
    simp only [Option.getD_some]
    exact ⟨fun h => absurd h (ho x rfl), fun h => by cases h⟩

end child_values

end ns_suffixarray


set_option linter.unusedSectionVars false
set_option linter.unusedVariables false

namespace ns_suffixarray

open suffixarray

/-! ## The shape of the worklist, for patterns with or without wildcards -/

section worklist_shape

variable {α : Type} [LinearOrder α]
variable {s : suffixarray α} {n : Nat} {L : Nat → Nat} {U D N : Nat → Option Nat}

/-- The filter loop returns what it was given followed by some of the intervals of
`nieuw`, in their order. -/
theorem filter_keeps (hlen : s.idx.length = n) {w : List α} (wildcard : α) {d : Nat}
    (hd : d < w.length) :
    ∀ (nieuw acc : List interval), (∀ c ∈ nieuw, c.i < n) →
      ∃ kept, filter_intervals s w wildcard d nieuw acc = .ok (acc ++ kept) ∧
        kept.Sublist nieuw := by
  intro nieuw
  induction nieuw with
  | nil =>
    intro acc _
    exact ⟨[], by simp [filter_intervals], List.Sublist.refl _⟩
  | cons c rest ih =>
    intro acc hlt
    have hci : c.i < s.idx.length := by
      rw [hlen]
      exact hlt c (List.mem_cons_self _ _)
    have hrest := fun acc2 => ih acc2 (fun c2 hc2 => hlt c2 (List.mem_cons_of_mem _ hc2))
    have hyes : ∃ kept, filter_intervals s w wildcard d rest (acc ++ [c]) =
        .ok (acc ++ kept) ∧ kept.Sublist (c :: rest) := by
      obtain ⟨kept, hrun, hsub⟩ := hrest (acc ++ [c])
      exact ⟨c :: kept, by rw [hrun, List.append_assoc]; rfl, List.Sublist.cons₂ c hsub⟩
    have hno : ∃ kept, filter_intervals s w wildcard d rest acc =
        .ok (acc ++ kept) ∧ kept.Sublist (c :: rest) := by
      obtain ⟨kept, hrun, hsub⟩ := hrest acc
      exact ⟨kept, hrun, List.Sublist.cons c hsub⟩
    rw [filter_intervals_cons, vec_at_of_lt hd]
    simp only [ok_bind]
    by_cases hwc : w[d] = wildcard
    · rw [if_pos hwc]
      exact hyes
    · rw [if_neg hwc, vec_at_of_lt hci]
      simp only [ok_bind]
      by_cases hin : (s.idx[c.i] + d) % SIZE_MOD < s.content.length
      · rw [if_pos hin, vec_at_of_lt hin]
        simp only [ok_bind]
        by_cases heq : w[d] = s.content[(s.idx[c.i] + d) % SIZE_MOD]
        · rw [if_pos heq]
          exact hyes
        · rw [if_neg heq]
          exact hno
      · rw [if_neg hin]
        exact hno

/-- The intervals that take the place of an interval of the worklist at depth `d`. -/
theorem nieuw_nav (h : nav_ok s n L U D N) {d : Nat} {c : interval}
    (hc : node_ok L n d c) :
    ∃ nieuw, (getlcp s c >>= fun l =>
        if d < l ∨ c.size = 1 then pure [c] else getChildIntervals s c) = .ok nieuw ∧
      contiguous nieuw c.i c.j ∧ ∀ c2 ∈ nieuw, node_ok L n (d + 1) c2 := by
  obtain ⟨i, j⟩ := c
  obtain ⟨h1, h2, h3⟩ := hc
  have h1b : i ≤ j := h1
  have h2b : j < n := h2
  by_cases hij : i < j
  · obtain ⟨l, hdl, hl⟩ := h3 hij
    rw [getlcp_interval_nav h hl]
    simp only [ok_bind]
    have hsize : (interval.mk i j).size ≠ 1 := by
      rw [interval_size_eq i j h1b (by unfold SIZE_MOD; have := h.hn; omega)]
      omega
    by_cases hlt : d < l
    · rw [if_pos (Or.inl hlt)]
      refine ⟨[⟨i, j⟩], rfl, ⟨rfl, rfl, h1b⟩, ?_⟩
      intro c2 hc2
      rw [List.mem_singleton] at hc2
      subst hc2
      exact ⟨h1, h2, fun _ => ⟨l, by omega, hl⟩⟩
    · have hnot : ¬ (d < l ∨ (interval.mk i j).size = 1) := by
        rintro (h4 | h4)
        · exact hlt h4
        · exact hsize h4
      rw [if_neg hnot]
      obtain ⟨cs, hrun, hct, hch⟩ := getChildIntervals_nav h hl
      refine ⟨cs, hrun, hct, ?_⟩
      intro c2 hc2
      obtain ⟨g1, g2, g3⟩ := hch c2 hc2
      refine ⟨g1, g2, ?_⟩
      intro hlt2
      obtain ⟨l2, hl2, hint⟩ := g3 hlt2
      exact ⟨l2, by omega, hint⟩
  · have hije : i = j := by omega
    subst hije
    have hsize : (interval.mk i i).size = 1 := by
      rw [interval_size_eq i i (Nat.le_refl _) (by unfold SIZE_MOD; have := h.hn; omega)]
      omega
    have hv : ∃ v, getlcp s ⟨i, i⟩ = .ok v := by
      unfold getlcp
      rw [if_pos hsize]
      show ∃ v, (vec_at s.idx i >>= fun y =>
        pure (size_sub (size_sub s.content.length y) 1)) = .ok v
      rw [vec_at_of_lt (by rw [h.hlen]; exact h2b : i < s.idx.length)]
      exact ⟨_, rfl⟩
    obtain ⟨v, hv⟩ := hv
    rw [hv]
    simp only [ok_bind]
    rw [if_pos (Or.inr hsize)]
    refine ⟨[⟨i, i⟩], rfl, ⟨rfl, rfl, Nat.le_refl _⟩, ?_⟩
    intro c2 hc2
    rw [List.mem_singleton] at hc2
    subst hc2
    exact ⟨Nat.le_refl _, h2b, fun hlt => by
      have hlt2 : i < i := hlt
      omega⟩

/-- One level of the traversal keeps the shape of the worklist. -/
theorem search_level_shape (h : nav_ok s n L U D N) {w : List α} (wildcard : α) {d : Nat}
    (hd : d < w.length) :
    ∀ (ts acc : List interval), (∀ c ∈ ts, node_ok L n d c) →
      ts.Pairwise (fun c c2 => c.j < c2.i) →
      ∃ out, search_level s w wildcard d ts acc = .ok (acc ++ out) ∧
        (∀ c2 ∈ out, node_ok L n (d + 1) c2) ∧
        (∀ c2 ∈ out, ∃ c ∈ ts, c.i ≤ c2.i ∧ c2.j ≤ c.j) ∧
        out.Pairwise (fun c c2 => c.j < c2.i) := by
  intro ts
  induction ts with
  | nil =>
    intro acc _ _
    refine ⟨[], by simp [search_level], ?_, ?_, List.Pairwise.nil⟩
    · intro c2 hc2; cases hc2
    · intro c2 hc2; cases hc2
  | cons c rest ih =>
    intro acc hnode hapart
    have hc := hnode c (List.mem_cons_self _ _)
    obtain ⟨nieuw, hn1, hct, hn2⟩ := nieuw_nav h (d := d) hc
    have hb := contiguous_bounds nieuw c.i c.j hct
    obtain ⟨kept, hk1, hk2⟩ := filter_keeps h.hlen wildcard hd nieuw acc
      (fun c2 hc2 => by have := hb c2 hc2; have := hc.2.1; omega)
    have hap := List.pairwise_cons.1 hapart
    obtain ⟨out, ho1, ho2, ho3, ho6⟩ := ih (acc ++ kept)
      (fun c2 hc2 => hnode c2 (List.mem_cons_of_mem _ hc2)) hap.2
    refine ⟨kept ++ out, ?_, ?_, ?_, ?_⟩
    · rw [search_level_cons, hn1]
      simp only [ok_bind]
      rw [hk1]
      simp only [ok_bind]
      rw [ho1, List.append_assoc]
    · intro c2 hc2
      rcases List.mem_append.1 hc2 with hc2 | hc2
      · exact hn2 c2 (hk2.subset hc2)
      · exact ho2 c2 hc2
    · intro c2 hc2
      rcases List.mem_append.1 hc2 with hc2 | hc2
      · have := hb c2 (hk2.subset hc2)
        exact ⟨c, List.mem_cons_self _ _, this.1, this.2.2⟩
      · obtain ⟨c3, hc3, g⟩ := ho3 c2 hc2
        exact ⟨c3, List.mem_cons_of_mem _ hc3, g⟩
    · refine List.pairwise_append.2 ⟨(contiguous_apart nieuw c.i c.j hct).sublist hk2, ho6, ?_⟩
      intro c2 hc2 c3 hc3
      have h1 := hb c2 (hk2.subset hc2)
      obtain ⟨c4, hc4, g1, g2⟩ := ho3 c3 hc3
      have := hap.1 c4 hc4
      omega

/-- The rounds of the `while` loop of the query members keep the shape of the
worklist. -/
theorem descend_shape (h : nav_ok s n L U D N) (w : List α) (wildcard : α) :
    ∀ (m d : Nat) (ts : List interval), d + m ≤ w.length →
      (∀ c ∈ ts, node_ok L n d c) → ts.Pairwise (fun c c2 => c.j < c2.i) →
      ∃ ts2, descend s w wildcard m d ts = .ok ts2 ∧
        (∀ c ∈ ts2, node_ok L n (d + m) c) ∧ ts2.Pairwise (fun c c2 => c.j < c2.i) := by
  intro m
  induction m with
  | zero =>
    intro d ts _ hnode hap
    exact ⟨ts, rfl, hnode, hap⟩
  | succ m ih =>
    intro d ts hd hnode hap
    rw [descend_succ]
    by_cases hlen : ts.length > 0
    · rw [if_pos hlen]
      obtain ⟨out, ho1, ho2, _, ho6⟩ :=
        search_level_shape h wildcard (by omega : d < w.length) ts [] hnode hap
      rw [ho1]
      simp only [ok_bind, List.nil_append]
      obtain ⟨ts2, g1, g2, g3⟩ := ih (d + 1) out (by omega) ho2 ho6
      refine ⟨ts2, g1, ?_, g3⟩
      intro c hc
      have := g2 c hc
      rw [show d + 1 + m = d + (m + 1) by omega] at this
      exact this
    · rw [if_neg hlen]
      have hnil : ts = [] := List.length_eq_zero.1 (by omega)
      subst hnil
      exact ⟨[], rfl, ⟨fun c hc => absurd hc (List.not_mem_nil c), List.Pairwise.nil⟩⟩

/-- The worklist a query starts with. -/
theorem root_shape (h : nav_ok s n L U D N) :
    size_sub s.idx.length 1 = n - 1 ∧
    (∀ c ∈ [(⟨0, n - 1⟩ : interval)], node_ok L n 0 c) := by
  have hn2 := h.hn2
  constructor
  · rw [h.hlen]
    exact size_sub_eq (by omega) (by unfold SIZE_MOD; have := h.hn; omega)
  · intro c hc
    rw [List.mem_singleton] at hc
    subst hc
    refine ⟨Nat.zero_le _, by show n - 1 < n; omega, ?_⟩
    intro _
    show ∃ l, 0 ≤ l ∧ lcp_interval L n l 0 (n - 1)
    exact ⟨0, Nat.le_refl _, by omega, by omega, fun k _ _ => Nat.zero_le _,
      ⟨n - 1, by omega, Nat.le_refl _, h.hLend⟩, Or.inr ⟨rfl, rfl⟩,
      Or.inr ⟨by omega, rfl⟩⟩

/-- The worklist of a query behind `m` rounds of its `while` loop, and the list
`find_all_positions` returns. -/
theorem query_shape (h : nav_ok s n L U D N) (hp : s.idx.Perm (List.range n)) (w : List α)
    (wildcard : α) :
    (∀ (m : Nat), m ≤ w.length →
      ∃ ts, descend s w wildcard m 0 [⟨0, size_sub s.idx.length 1⟩] = .ok ts ∧
        ts.Pairwise (fun c c2 => c.j < c2.i) ∧
        (∀ c ∈ ts, c.i ≤ c.j ∧ c.j ≤ n - 1) ∧
        (∀ c ∈ ts, c.i < c.j → ∃ l, getlcp s c = .ok l ∧ m ≤ l)) ∧
    ∃ r, s.find_all_positions w wildcard = .ok r ∧ r.Nodup ∧ r.Sublist s.idx := by
  obtain ⟨hroot, hnode0⟩ := root_shape h
  have hall : ∀ (m : Nat), m ≤ w.length →
      ∃ ts, descend s w wildcard m 0 [⟨0, size_sub s.idx.length 1⟩] = .ok ts ∧
        (∀ c ∈ ts, node_ok L n m c) ∧ ts.Pairwise (fun c c2 => c.j < c2.i) := by
    intro m hm
    rw [hroot]
    obtain ⟨ts, g1, g2, g3⟩ := descend_shape h w wildcard m 0 _
      (by omega) hnode0 (List.pairwise_singleton _ _)
    refine ⟨ts, g1, ?_, g3⟩
    intro c hc
    have := g2 c hc
    rw [Nat.zero_add] at this
    exact this
  constructor
  · intro m hm
    obtain ⟨ts, g1, g2, g3⟩ := hall m hm
    refine ⟨ts, g1, g3, ?_, ?_⟩
    · intro c hc
      obtain ⟨e1, e2, _⟩ := g2 c hc
      exact ⟨e1, by omega⟩
    · intro c hc hlt
      obtain ⟨_, _, e3⟩ := g2 c hc
      obtain ⟨l, hl, hint⟩ := e3 hlt
      exact ⟨l, getlcp_interval_nav h hint, hl⟩
  · obtain ⟨ts, g1, g2, g3⟩ := hall w.length (Nat.le_refl _)
    have hlen : s.idx.length < SIZE_MOD := by
      rw [h.hlen]
      unfold SIZE_MOD
      have := h.hn
      omega
    have hnd : s.idx.Nodup := (List.Perm.nodup_iff hp).2 (List.nodup_range _)
    have hsub := interval_positions_sublist s.idx ts 0 g3
      (fun c hc => ⟨Nat.zero_le _, (g2 c hc).1⟩)
    rw [List.drop_zero] at hsub
    refine ⟨interval_positions s.idx ts, ?_, hnd.sublist hsub, hsub⟩
    unfold find_all_positions
    rw [g1]
    simp only [ok_bind]
    rw [collect_spec s.idx hlen ts [] (fun c hc => by
      obtain ⟨e1, e2, _⟩ := g2 c hc
      rw [h.hlen]
      exact ⟨e1, e2⟩)]
    rfl

end worklist_shape

end ns_suffixarray


set_option linter.unusedSectionVars false
set_option linter.unusedVariables false

namespace ns_suffixarray

open suffixarray

/-! ## The child-table pass with its calls recorded -/

section recorded_calls

variable {L : Nat → Nat}

theorem calls_ok_nil : calls_ok [] (fun _ => none) (fun _ => none) (fun _ => none) := by
  refine ⟨?_, ?_, ?_, List.Pairwise.nil⟩ <;>
  · intro p v
    constructor
    · intro h; cases h
    · intro h; cases h

theorem mem_append_single {calls : List setter_call} {a b : setter_call} :
    a ∈ calls ++ [b] ↔ a ∈ calls ∨ a = b := by
  rw [List.mem_append, List.mem_singleton]

theorem update_some_iff {f : Nat → Option Nat} {t c p v : Nat} (hf : f t = none) :
    Function.update f t (some c) p = some v ↔ (f p = some v ∨ (p = t ∧ v = c)) := by
  by_cases hpt : p = t
  · subst hpt
    rw [Function.update_same, hf]
    constructor
    · intro h
      injection h with h
      exact Or.inr ⟨rfl, h.symm⟩
    · rintro (h | h)
      · cases h
      · rw [h.2]
  · rw [Function.update_noteq hpt]
    constructor
    · intro h; exact Or.inl h
    · rintro (h | h)
      · exact h
      · exact absurd h.1 hpt

theorem pairwise_append_single {calls : List setter_call} {b : setter_call}
    (hp : calls.Pairwise (fun a b => a.table ≠ b.table ∨ a.pos ≠ b.pos))
    (hb : ∀ a ∈ calls, a.table ≠ b.table ∨ a.pos ≠ b.pos) :
    (calls ++ [b]).Pairwise (fun a b => a.table ≠ b.table ∨ a.pos ≠ b.pos) := by
  refine List.pairwise_append.2 ⟨hp, List.pairwise_singleton _ _, ?_⟩
  intro a ha c hc
  rw [List.mem_singleton] at hc
  subst hc
  exact hb a ha

/-- A call of `setdown` at a position that has no value yet. -/
theorem calls_ok_down {calls : List setter_call} {U D N : Nat → Option Nat} {t c : Nat}
    (h : calls_ok calls U D N) (hf : D t = none) :
    calls_ok (calls ++ [⟨child_table.down, t, c⟩]) U (Function.update D t (some c)) N := by
  obtain ⟨hU, hD, hN, hp⟩ := h
  refine ⟨?_, ?_, ?_, pairwise_append_single hp ?_⟩
  · intro p v
    rw [mem_append_single, hU]
    constructor
    · rintro (h1 | h1)
      · exact h1
      · cases h1
    · intro h1; exact Or.inl h1
  · intro p v
    rw [mem_append_single, hD, update_some_iff hf]
    constructor
    · rintro (h1 | h1)
      · exact Or.inl h1
      · injection h1 with _ h2 h3
        exact Or.inr ⟨h2, h3⟩
    · rintro (h1 | ⟨h1, h2⟩)
      · exact Or.inl h1
      · subst h1; subst h2; exact Or.inr rfl
  · intro p v
    rw [mem_append_single, hN]
    constructor
    · rintro (h1 | h1)
      · exact h1
      · cases h1
    · intro h1; exact Or.inl h1
  · intro a ha
    by_contra hc
    have h1 : a.table = child_table.down ∧ a.pos = t := by
      constructor
      · by_contra h2; exact hc (Or.inl h2)
      · by_contra h2; exact hc (Or.inr h2)
    have h2 : a = ⟨child_table.down, t, a.value⟩ := by
      cases a
      simp only [setter_call.mk.injEq]
      exact ⟨h1.1, h1.2, trivial⟩
    rw [h2] at ha
    have := (hD t a.value).1 ha
    rw [hf] at this
    cases this

/-- A call of `setup` at a position that has no value yet. -/
theorem calls_ok_up {calls : List setter_call} {U D N : Nat → Option Nat} {t c : Nat}
    (h : calls_ok calls U D N) (hf : U t = none) :
    calls_ok (calls ++ [⟨child_table.up, t, c⟩]) (Function.update U t (some c)) D N := by
  obtain ⟨hU, hD, hN, hp⟩ := h
  refine ⟨?_, ?_, ?_, pairwise_append_single hp ?_⟩
  · intro p v
    rw [mem_append_single, hU, update_some_iff hf]
    constructor
    · rintro (h1 | h1)
      · exact Or.inl h1
      · injection h1 with _ h2 h3
        exact Or.inr ⟨h2, h3⟩
    · rintro (h1 | ⟨h1, h2⟩)
      · exact Or.inl h1
      · subst h1; subst h2; exact Or.inr rfl
  · intro p v
    rw [mem_append_single, hD]
    constructor
    · rintro (h1 | h1)
      · exact h1
      · cases h1
    · intro h1; exact Or.inl h1
  · intro p v
    rw [mem_append_single, hN]
    constructor
    · rintro (h1 | h1)
      · exact h1
      · cases h1
    · intro h1; exact Or.inl h1
  · intro a ha
    by_contra hc
    have h1 : a.table = child_table.up ∧ a.pos = t := by
      constructor
      · by_contra h2; exact hc (Or.inl h2)
      · by_contra h2; exact hc (Or.inr h2)
    have h2 : a = ⟨child_table.up, t, a.value⟩ := by
      cases a
      simp only [setter_call.mk.injEq]
      exact ⟨h1.1, h1.2, trivial⟩
    rw [h2] at ha
    have := (hU t a.value).1 ha
    rw [hf] at this
    cases this

/-- A call of `setnextl` at a position that has no value yet. -/
theorem calls_ok_nextl {calls : List setter_call} {U D N : Nat → Option Nat} {t c : Nat}
    (h : calls_ok calls U D N) (hf : N t = none) :
    calls_ok (calls ++ [⟨child_table.nextl, t, c⟩]) U D (Function.update N t (some c)) := by
  obtain ⟨hU, hD, hN, hp⟩ := h
  refine ⟨?_, ?_, ?_, pairwise_append_single hp ?_⟩
  · intro p v
    rw [mem_append_single, hU]
    constructor
    · rintro (h1 | h1)
      · exact h1
      · cases h1
    · intro h1; exact Or.inl h1
  · intro p v
    rw [mem_append_single, hD]
    constructor
    · rintro (h1 | h1)
      · exact h1
      · cases h1
    · intro h1; exact Or.inl h1
  · intro p v
    rw [mem_append_single, hN, update_some_iff hf]
    constructor
    · rintro (h1 | h1)
      · exact Or.inl h1
      · injection h1 with _ h2 h3
        exact Or.inr ⟨h2, h3⟩
    · rintro (h1 | ⟨h1, h2⟩)
      · exact Or.inl h1
      · subst h1; subst h2; exact Or.inr rfl
  · intro a ha
    by_contra hc
    have h1 : a.table = child_table.nextl ∧ a.pos = t := by
      constructor
      · by_contra h2; exact hc (Or.inl h2)
      · by_contra h2; exact hc (Or.inr h2)
    have h2 : a = ⟨child_table.nextl, t, a.value⟩ := by
      cases a
      simp only [setter_call.mk.injEq]
      exact ⟨h1.1, h1.2, trivial⟩
    rw [h2] at ha
    have := (hN t a.value).1 ha
    rw [hf] at this
    cases this

theorem updown_pop_calls_cons (i top : Nat) (rest : List Nat) (last : Nat) (tabs : childtabs)
    (calls : List setter_call) :
    updown_pop_calls i (top :: rest) last tabs calls =
      (tabs.getlcp i >>= fun li => tabs.getlcp top >>= fun lt =>
        if li < lt then
          match rest with
          | [] => .error .ub
          | top2 :: _ =>
            tabs.getlcp top2 >>= fun l2 =>
              (if li ≤ l2 ∧ l2 ≠ lt then
                  (tabs.setdown top2 top >>= fun t =>
                    pure (t, calls ++ [⟨child_table.down, top2, top⟩]))
                else pure (tabs, calls)) >>= fun r =>
                updown_pop_calls i rest top r.1 r.2
        else pure (top :: rest, last, tabs, calls)) := by
  cases rest <;> rfl

/-- The first `while` loop of a round, with its calls: it does what `updown_pop` does,
and every `setdown` it calls writes a position that has no value yet. -/
theorem updown_pop_calls_spec {n i : Nat} (hi : i < n) (hn : n < 2 ^ 31) {st0 : List Nat}
    (h0 : ustack_ok L i st0) (hL0 : L 0 = 0) {U N : Nat → Option Nat} :
    ∀ (cur : List Nat) (c last : Nat) (tabs : childtabs) (D : Nat → Option Nat)
      (calls : List setter_call),
      pop_state L i st0 cur c → last_ok i st0 c last → tabs_ok tabs n L U D N →
      down_mid L i c D → calls_ok calls U D N →
      ∃ cur2 p last2 tabs2 D2 calls2,
        updown_pop_calls i cur last tabs calls = .ok (cur2, last2, tabs2, calls2) ∧
        updown_pop i cur last tabs = .ok (cur2, last2, tabs2) ∧
        pop_state L i st0 cur2 p ∧ L p ≤ L i ∧ last_ok i st0 p last2 ∧
        tabs_ok tabs2 n L U D2 N ∧ down_mid L i p D2 ∧ calls_ok calls2 U D2 N := by
  intro cur
  induction cur with
  | nil =>
    intro c last tabs D calls hs
    obtain ⟨_, ⟨rest, hr⟩, _⟩ := hs
    cases hr
  | cons c2 rest ih =>
    intro c last tabs D calls hs hl ht hd hcalls
    have hcc : c2 = c := by
      obtain ⟨_, ⟨r, hr⟩, _⟩ := hs
      injection hr
    subst hcc
    have hc0 : c2 ∈ st0 := ((hs.2.2.1 c2).1 (List.mem_cons_self _ _)).1
    have hci : c2 < i := ((h0.2 c2).1 hc0).1
    rw [updown_pop_calls_cons, updown_pop_cons, tabs_getlcp ht hi hn,
      tabs_getlcp ht (by omega : c2 < n) hn]
    simp only [ok_bind]
    by_cases hlt : L i < L c2
    · rw [if_pos hlt, if_pos hlt]
      cases rest with
      | nil =>
        exfalso
        have hz : 0 ∈ st0 := by
          rw [h0.2]
          refine ⟨by omega, ?_⟩
          intro k2 _ _
          rw [hL0]
          exact Nat.zero_le _
        have := (hs.2.2.1 0).2 ⟨hz, Nat.zero_le _⟩
        simp at this
        rw [← this, hL0] at hlt
        omega
      | cons t rest2 =>
        obtain ⟨htc, _, htc2, hcL, htL, hgap, hadj, _, ht0⟩ := pop_pair_facts h0 hs
        have hs2 := pop_state_pop hs hlt
        have hl2 : last_ok i st0 t c2 := Or.inr ⟨hc0, htc, fun k hk hkt => hadj k hk hkt⟩
        simp only []
        rw [tabs_getlcp ht (by omega : t < n) hn]
        simp only [ok_bind]
        obtain ⟨hset, hkeep⟩ := down_mid_pop h0 hs hd
        by_cases hcond : L i ≤ L t ∧ L t ≠ L c2
        · rw [if_pos hcond, if_pos hcond]
          obtain ⟨hnone, hd2⟩ := hset hcond
          obtain ⟨tabs2, hst, ht2⟩ := tabs_setdown ht (by omega : t < n) hn hnone
            (by omega : c2 < 2 ^ 31)
          rw [hst]
          simp only [ok_bind, pure_eq_ok]
          exact ih t c2 tabs2 _ _ hs2 hl2 ht2 hd2 (calls_ok_down hcalls hnone)
        · rw [if_neg hcond, if_neg hcond]
          simp only [pure_eq_ok, ok_bind]
          exact ih t c2 tabs D calls hs2 hl2 ht (hkeep hcond) hcalls
    · rw [if_neg hlt, if_neg hlt]
      exact ⟨c2 :: rest, c2, last, tabs, D, calls, rfl, rfl, hs, by omega, hl, ht, hd, hcalls⟩

end recorded_calls

end ns_suffixarray


set_option linter.unusedSectionVars false
set_option linter.unusedVariables false

namespace ns_suffixarray

open suffixarray

/-! ## The rounds of the child-table pass with their calls recorded -/

section recorded_rounds

variable {L : Nat → Nat}

theorem rounds_step (i : Nat) (more : List Nat) (st : pass_state)
    {cur2 : List Nat} {last2 : Nat} {tabs2 : childtabs} {calls2 : List setter_call}
    (h1 : updown_pop_calls i st.updownstack st.lastIndex st.tabs st.calls =
      .ok (cur2, last2, tabs2, calls2))
    {tabs3 : childtabs} {last3 : Nat} {calls3 : List setter_call}
    (h2 : (if last2 ≠ undefined then
        (tabs2.setup i last2 >>= fun t =>
          pure (undefined, t, calls2 ++ [⟨child_table.up, i, last2⟩]))
      else pure (last2, tabs2, calls2)) = Except.ok (last3, tabs3, calls3))
    {top : Nat} {rest : List Nat} (h3 : nextl_pop i tabs3 st.nextlstack = .ok (top :: rest))
    {li lt : Nat} (h4 : tabs3.getlcp i = .ok li) (h5 : tabs3.getlcp top = .ok lt) :
    fill_up_down_nextl_rounds (i :: more) st =
      if li = lt then
        tabs3.setnextl top i >>= fun tabs4 =>
          fill_up_down_nextl_rounds more
            ⟨last3, i :: cur2, i :: rest, tabs4, calls3 ++ [⟨child_table.nextl, top, i⟩]⟩
      else fill_up_down_nextl_rounds more ⟨last3, i :: cur2, i :: top :: rest, tabs3, calls3⟩ := by
  have h2b : (if last2 ≠ undefined then
      (do let tabs ← tabs2.setup i last2
          pure (undefined, tabs, calls2 ++ [⟨child_table.up, i, last2⟩]))
      else pure (last2, tabs2, calls2)) = Except.ok (last3, tabs3, calls3) := h2
  simp only [fill_up_down_nextl_rounds, h1, ok_bind, h2b, h3, h4, h5]

/-- One round of the pass, with its calls. -/
theorem round_calls_spec {n i : Nat} (hi0 : 0 < i) (hi : i < n) (hn : n < 2 ^ 31)
    (hL0 : L 0 = 0) {st : pass_state} {U D N : Nat → Option Nat}
    (h : pass_ok L n i st U D N) :
    ∃ st2 U2 D2 N2,
      (∀ (more : List Nat),
        fill_up_down_nextl_rounds (i :: more) st = fill_up_down_nextl_rounds more st2 ∧
        fill_up_down_nextl_loop (i :: more) undefined st.updownstack st.nextlstack st.tabs =
          fill_up_down_nextl_loop more undefined st2.updownstack st2.nextlstack st2.tabs) ∧
      pass_ok L n (i + 1) st2 U2 D2 N2 := by
  obtain ⟨hlast, hu, hns, ht, hc, hcalls⟩ := h
  obtain ⟨rest0, hust⟩ := ustack_top hu hi0
  have hs0 : pop_state L i st.updownstack st.updownstack (i - 1) :=
    pop_state_start hu.1 (fun k hk => ((hu.2 k).1 hk).1) hust
  have hl0 : last_ok i st.updownstack (i - 1) undefined := Or.inl ⟨rfl, by omega⟩
  obtain ⟨cur2, p, last2, tabs2, D2, calls2, h1c, h1, hs2, hp, hl2, ht2, hd2, hcalls2⟩ :=
    updown_pop_calls_spec hi hn hu hL0 st.updownstack (i - 1) undefined st.tabs D st.calls
      hs0 hl0 ht (down_mid_start hi0 hc.hD) hcalls
  have h1c2 : updown_pop_calls i st.updownstack st.lastIndex st.tabs st.calls =
      .ok (cur2, last2, tabs2, calls2) := by rw [hlast]; exact h1c
  have hD2 := down_mid_end hu hs2 hp hd2
  obtain ⟨hupd, hupn⟩ := up_at_round hu hs2 hp hl2 (by omega : i < 2 ^ 31)
  obtain ⟨tabs3, U3, calls3, h2c, h2, ht3, hU3, hcalls3⟩ : ∃ tabs3 U3 calls3,
      (if last2 ≠ undefined then
          (tabs2.setup i last2 >>= fun t =>
            pure (undefined, t, calls2 ++ [⟨child_table.up, i, last2⟩]))
        else pure (last2, tabs2, calls2)) = Except.ok (undefined, tabs3, calls3) ∧
      (if last2 ≠ undefined then (tabs2.setup i last2 >>= fun t => pure (undefined, t))
        else pure (last2, tabs2)) = Except.ok (undefined, tabs3) ∧
      tabs_ok tabs3 n L U3 D2 N ∧
      (∀ (p q : Nat), U3 p = some q ↔ p < i + 1 ∧ is_up L p q) ∧
      calls_ok calls3 U3 D2 N := by
    by_cases hlu : last2 = undefined
    · refine ⟨tabs2, U, calls2, ?_, ?_, ht2, up_inv_keep hc.hU (hupn hlu), hcalls2⟩
      · rw [if_neg (not_not.2 hlu), hlu]
        rfl
      · rw [if_neg (not_not.2 hlu), hlu]
        rfl
    · obtain ⟨hlt, hq⟩ := hupd hlu
      obtain ⟨hnone, hU3⟩ := up_inv_set hc.hU hq
      obtain ⟨tabs3, hst, ht3⟩ := tabs_setup ht2 hi hn hnone (by omega : last2 < 2 ^ 31)
      refine ⟨tabs3, _, _, ?_, ?_, ht3, hU3, calls_ok_up hcalls2 hnone⟩
      · rw [if_pos hlu, hst]
        rfl
      · rw [if_pos hlu, hst]
        rfl
  obtain ⟨rest1, hnst⟩ := nstack_top hns hi0
  have hs0n : pop_state L i st.nextlstack st.nextlstack (i - 1) :=
    pop_state_start hns.1 (fun k hk => ((hns.2 k).1 hk).1) hnst
  obtain ⟨cur3, p3, h3, hs3, hp3⟩ := nextl_pop_spec hi hn hns hL0 ht3 st.nextlstack (i - 1) hs0n
  obtain ⟨rest3, hcur3⟩ := hs3.2.1
  subst hcur3
  have hp3i : p3 < i := ((hns.2 p3).1 ((hs3.2.2.1 p3).1 (List.mem_cons_self _ _)).1).1
  have hstepc := fun more => rounds_step i more st h1c2 h2c h3 (tabs_getlcp ht3 hi hn)
    (tabs_getlcp ht3 (by omega : p3 < n) hn)
  have hstep := fun more => loop_step i more undefined st.updownstack st.nextlstack st.tabs
    h1 h2 h3 (tabs_getlcp ht3 hi hn) (tabs_getlcp ht3 (by omega : p3 < n) hn)
  by_cases heq : L i = L p3
  · have hq : ∀ (t : Nat), is_nextl L t i ↔ t = p3 := by
      intro t
      rw [nextl_at_round hns hs3 hp3 t]
      exact ⟨fun h => h.1, fun h => ⟨h, heq.symm⟩⟩
    obtain ⟨hnone, hN4⟩ := nextl_inv_set hc.hN hq
    obtain ⟨tabs4, hst, ht4⟩ := tabs_setnextl ht3 (by omega : p3 < n) hn hnone
      (by omega : i < 2 ^ 31)
    refine ⟨⟨undefined, i :: cur2, i :: rest3, tabs4,
      calls3 ++ [⟨child_table.nextl, p3, i⟩]⟩, U3, D2, _, ?_,
      ⟨rfl, ustack_push hu hs2 hp, nstack_replace hns hs3 heq.symm, ht4, ⟨hU3, hD2, hN4⟩,
        calls_ok_nextl hcalls3 hnone⟩⟩
    intro more
    rw [hstepc more, hstep more, if_pos heq, if_pos heq, hst]
    exact ⟨rfl, rfl⟩
  · have hq : ∀ (t : Nat), ¬ is_nextl L t i := by
      intro t h
      exact heq ((nextl_at_round hns hs3 hp3 t).1 h).2.symm
    refine ⟨⟨undefined, i :: cur2, i :: p3 :: rest3, tabs3, calls3⟩, U3, D2, N, ?_,
      ⟨rfl, ustack_push hu hs2 hp, nstack_push hns hs3 (by omega), ht3,
        ⟨hU3, hD2, nextl_inv_keep hc.hN hq⟩, hcalls3⟩⟩
    intro more
    rw [hstepc more, hstep more, if_neg heq, if_neg heq]
    exact ⟨rfl, rfl⟩

/-- The rounds of the positions `i .. i + m - 1`, with their calls. -/
theorem rounds_calls_spec {n : Nat} (hn : n < 2 ^ 31) (hL0 : L 0 = 0) (more : List Nat) :
    ∀ (m i : Nat), 0 < i → i + m ≤ n → ∀ (st : pass_state) (U D N : Nat → Option Nat),
      pass_ok L n i st U D N →
      ∃ st2 U2 D2 N2,
        fill_up_down_nextl_rounds (List.range' i m) st = .ok st2 ∧
        fill_up_down_nextl_loop (List.range' i m ++ more) undefined st.updownstack
            st.nextlstack st.tabs =
          fill_up_down_nextl_loop more undefined st2.updownstack st2.nextlstack st2.tabs ∧
        pass_ok L n (i + m) st2 U2 D2 N2 := by
  intro m
  induction m with
  | zero =>
    intro i _ him st U D N h
    exact ⟨st, U, D, N, rfl, rfl, h⟩
  | succ m ih =>
    intro i hi0 him st U D N h
    obtain ⟨st2, U2, D2, N2, hstep, h2⟩ := round_calls_spec hi0 (by omega : i < n) hn hL0 h
    obtain ⟨st3, U3, D3, N3, g1, g2, g3⟩ := ih (i + 1) (by omega) (by omega) st2 U2 D2 N2 h2
    refine ⟨st3, U3, D3, N3, ?_, ?_, ?_⟩
    · rw [List.range'_succ, (hstep _).1, g1]
    · rw [List.range'_succ, List.cons_append, (hstep _).2, g2]
    · rw [show i + (m + 1) = i + 1 + m by omega]
      exact g3

/-- The state in which the pass starts. -/
theorem pass_start_ok {n : Nat} {tabs : childtabs}
    (ht : tabs_ok tabs n L (fun _ => none) (fun _ => none) (fun _ => none)) :
    pass_ok L n 1 (pass_start tabs) (fun _ => none) (fun _ => none) (fun _ => none) := by
  have hu : ustack_ok L 1 [0] := by
    refine ⟨List.pairwise_singleton _ _, ?_⟩
    intro k
    simp only [List.mem_singleton]
    constructor
    · intro hk
      subst hk
      exact ⟨by omega, fun k2 h1 h2 => by omega⟩
    · intro hk
      omega
  have hns : nstack_ok L 1 [0] := by
    refine ⟨List.pairwise_singleton _ _, ?_⟩
    intro k
    simp only [List.mem_singleton]
    constructor
    · intro hk
      subst hk
      exact ⟨by omega, fun k2 h1 h2 => by omega⟩
    · intro hk
      omega
  have hc : child_inv L 1 (fun _ => none) (fun _ => none) (fun _ => none) := by
    refine ⟨?_, ?_, ?_⟩
    · intro p q
      constructor
      · intro h; cases h
      · rintro ⟨h1, a, _, _, h2⟩
        have := h2.1
        have := h2.2.1
        omega
    · intro t q
      constructor
      · intro h; cases h
      · rintro ⟨b, hb, _, _, h2⟩
        have := h2.1
        have := h2.2.1
        omega
    · intro t x
      constructor
      · intro h; cases h
      · rintro ⟨h1, h2, _⟩
        omega
  exact ⟨rfl, hu, hns, ht, hc, calls_ok_nil⟩

theorem last_of_decreasing :
    ∀ (st : List Nat) (z : Nat), st.Pairwise (fun a b => b < a) → z ∈ st →
      (∀ k ∈ st, z ≤ k) → st.getLast? = some z := by
  intro st
  induction st with
  | nil =>
    intro z _ hz
    cases hz
  | cons a rest ih =>
    intro z hp hz hmin
    cases rest with
    | nil =>
      rw [List.mem_singleton] at hz
      rw [hz]
      rfl
    | cons b rest2 =>
      have hp2 := List.pairwise_cons.1 hp
      have hzr : z ∈ b :: rest2 := by
        rcases List.mem_cons.1 hz with h | h
        · exfalso
          have h1 := hp2.1 b (List.mem_cons_self _ _)
          have h2 := hmin b (List.mem_cons_of_mem _ (List.mem_cons_self _ _))
          omega
        · exact h
      rw [List.getLast?_cons_cons]
      exact ih z hp2.2 hzr (fun k hk => hmin k (List.mem_cons_of_mem _ hk))

/-- The stack `updownstack` before a round: not empty, position 0 at the bottom, and
the values of `L` do not decrease from the bottom to the top. -/
theorem ustack_facts {i : Nat} {st : List Nat} (h : ustack_ok L i st) (hi : 0 < i)
    (hL0 : L 0 = 0) :
    st ≠ [] ∧ st.getLast? = some 0 ∧ st.Pairwise (fun a b => L b ≤ L a) := by
  have hz : 0 ∈ st := by
    rw [h.2]
    exact ⟨hi, fun k2 _ _ => by rw [hL0]; exact Nat.zero_le _⟩
  refine ⟨List.ne_nil_of_mem hz, last_of_decreasing st 0 h.1 hz (fun k _ => Nat.zero_le _), ?_⟩
  refine List.Pairwise.imp_of_mem ?_ h.1
  intro a b ha hb hlt
  exact ((h.2 b).1 hb).2 a hlt ((h.2 a).1 ha).1

/-- The stack `nextlstack` before a round: not empty, a position with `L` 0 at the
bottom, and the values of `L` increase from the bottom to the top. -/
theorem nstack_facts {i : Nat} {st : List Nat} (h : nstack_ok L i st) (hi : 0 < i)
    (hL0 : L 0 = 0) :
    st ≠ [] ∧ (∃ b, st.getLast? = some b ∧ L b = 0) ∧ st.Pairwise (fun a b => L b < L a) := by
  obtain ⟨z, hz, hzv, hzL⟩ := exists_last_below (L := L) 1 i ⟨0, hi, by rw [hL0]; omega⟩
  have hzm : z ∈ st := by
    rw [h.2]
    refine ⟨hz, fun k2 h1 h2 => ?_⟩
    have := hzL k2 h1 h2
    omega
  refine ⟨List.ne_nil_of_mem hzm, ⟨z, last_of_decreasing st z h.1 hzm ?_, by omega⟩, ?_⟩
  · intro k hk
    by_contra hlt
    have := ((h.2 k).1 hk).2 z (by omega) hz
    omega
  · refine List.Pairwise.imp_of_mem ?_ h.1
    intro a b ha hb hlt
    exact ((h.2 b).1 hb).2 a hlt ((h.2 a).1 ha).1

/-- The pass from its start to the round of position `i`, and to its end: it never
takes the top of an empty stack, and the tables at the end are those of the member
`fill_up_down_nextl`. -/
theorem pass_spec {α : Type} (s : suffixarray α) {n : Nat} (hlen : s.idx.length = n)
    (hn1 : 1 ≤ n) (hn : n < 2 ^ 31) (hL0 : L 0 = 0)
    (ht : tabs_ok s.tabs n L (fun _ => none) (fun _ => none) (fun _ => none)) :
    (∀ (i : Nat), 1 ≤ i → i ≤ n →
      ∃ st U D N, fill_up_down_nextl_rounds (List.range' 1 (i - 1)) (pass_start s.tabs) =
          .ok st ∧ pass_ok L n i st U D N) ∧
    ∃ st U D N, fill_up_down_nextl_rounds (List.range' 1 (n - 1)) (pass_start s.tabs) =
        .ok st ∧ pass_ok L n n st U D N ∧
      s.fill_up_down_nextl = .ok { s with tabs := st.tabs } := by
  have hall : ∀ (i : Nat), 1 ≤ i → i ≤ n →
      ∃ st U D N, fill_up_down_nextl_rounds (List.range' 1 (i - 1)) (pass_start s.tabs) =
          .ok st ∧ pass_ok L n i st U D N ∧
        fill_up_down_nextl_loop (List.range' 1 (i - 1) ++ []) undefined [0] [0] s.tabs =
          fill_up_down_nextl_loop [] undefined st.updownstack st.nextlstack st.tabs := by
    intro i hi1 hin
    obtain ⟨st, U, D, N, g1, g2, g3⟩ := rounds_calls_spec hn hL0 [] (i - 1) 1 (by omega)
      (by omega) (pass_start s.tabs) _ _ _ (pass_start_ok ht)
    refine ⟨st, U, D, N, g1, ?_, g2⟩
    rw [show 1 + (i - 1) = i by omega] at g3
    exact g3
  constructor
  · intro i hi1 hin
    obtain ⟨st, U, D, N, g1, g2, _⟩ := hall i hi1 hin
    exact ⟨st, U, D, N, g1, g2⟩
  · obtain ⟨st, U, D, N, g1, g2, g3⟩ := hall n hn1 (Nat.le_refl _)
    refine ⟨st, U, D, N, g1, g2, ?_⟩
    unfold suffixarray.fill_up_down_nextl
    rw [hlen, range_drop_one]
    rw [List.append_nil] at g3
    rw [g3]
    rfl

/-- What the recorded calls say about the tables: a position of a table is written by
at most one call, and a getter returns the value of the call that wrote the position. -/
theorem calls_facts {n : Nat} {st : pass_state} {U D N : Nat → Option Nat}
    (h : pass_ok L n n st U D N) (hn : n < 2 ^ 31) :
    st.calls.Pairwise (fun a b => a.table ≠ b.table ∨ a.pos ≠ b.pos) ∧
    ∀ c ∈ st.calls, c.pos < n ∧
      (c.table = child_table.up → st.tabs.getup c.pos = .ok c.value ∧
        (¬ (-128 < (c.value : Int) - c.pos ∧ (c.value : Int) - c.pos < 127) →
          st.tabs.upmap.find_second c.pos = .ok c.value)) ∧
      (c.table = child_table.down → st.tabs.getdown c.pos = .ok c.value ∧
        (¬ (-128 < (c.value : Int) - c.pos ∧ (c.value : Int) - c.pos < 127) →
          st.tabs.downmap.find_second c.pos = .ok c.value)) ∧
      (c.table = child_table.nextl → st.tabs.getnextl c.pos = .ok c.value ∧
        (¬ (-128 < (c.value : Int) - c.pos ∧ (c.value : Int) - c.pos < 127) →
          st.tabs.nextlmap.find_second c.pos = .ok c.value)) := by
  obtain ⟨hU, hD, hN, hp⟩ := h.hcalls
  refine ⟨hp, ?_⟩
  intro c hc
  obtain ⟨tb, p, v⟩ := c
  cases tb with
  | up =>
    have hv := (hU p v).1 hc
    have hpn : p < n := ((h.hc.hU p v).1 hv).1
    refine ⟨hpn, fun _ => ⟨?_, fun hb => ?_⟩, (fun e => by cases e), (fun e => by cases e)⟩
    · show st.tabs.getup p = .ok v
      rw [tabs_getup h.ht hpn hn, hv]
      rfl
    · exact ((tab_rep_at h.ht.hup (by rw [h.ht.hup_len]; exact hpn) hv).2 hb).2
  | down =>
    have hv := (hD p v).1 hc
    have hpn : p < n := by
      obtain ⟨b, hb, _, _, h1, h2, _⟩ := (h.hc.hD p v).1 hv
      omega
    refine ⟨hpn, (fun e => by cases e), fun _ => ⟨?_, fun hb => ?_⟩, (fun e => by cases e)⟩
    · show st.tabs.getdown p = .ok v
      rw [tabs_getdown h.ht hpn hn, hv]
      rfl
    · exact ((tab_rep_at h.ht.hdown (by rw [h.ht.hdown_len]; exact hpn) hv).2 hb).2
  | nextl =>
    have hv := (hN p v).1 hc
    have hpn : p < n := by
      obtain ⟨h1, h2, _⟩ := (h.hc.hN p v).1 hv
      omega
    refine ⟨hpn, (fun e => by cases e), (fun e => by cases e), fun _ => ⟨?_, fun hb => ?_⟩⟩
    · show st.tabs.getnextl p = .ok v
      rw [tabs_getnextl h.ht hpn hn, hv]
      rfl
    · exact ((tab_rep_at h.ht.hnextl (by rw [h.ht.hnextl_len]; exact hpn) hv).2 hb).2

end recorded_rounds

end ns_suffixarray


set_option linter.unusedSectionVars false
set_option linter.unusedVariables false

namespace ns_suffixarray

open suffixarray

/-! ## The value of the deep comparator, and insertion sort on a strict order -/

section deep_comparator

variable {α : Type} [LinearOrder α]

theorem lex_lt_drop_eq {S : List α} {a b : Nat} (ha : a < S.length) (hb : b < S.length) :
    lex_lt (S.drop a) (S.drop b) =
      if S[a] < S[b] then true else if S[b] < S[a] then false
        else lex_lt (S.drop (a + 1)) (S.drop (b + 1)) := by
  rw [List.drop_eq_getElem_cons ha, List.drop_eq_getElem_cons hb]
  rfl

/-- Suffixes that agree on `m` elements compare as what follows these elements. -/
theorem lex_lt_agree {S : List α} :
    ∀ (m a b : Nat), agree S a b m →
      lex_lt (S.drop a) (S.drop b) = lex_lt (S.drop (a + m)) (S.drop (b + m)) := by
  intro m
  induction m with
  | zero => intro a b _; rfl
  | succ m ih =>
    intro a b h
    obtain ⟨ha, hb, he, hrest⟩ := agree_cons.1 h
    rw [List.getElem?_eq_getElem ha, List.getElem?_eq_getElem hb] at he
    injection he with he
    rw [lex_lt_drop_eq ha hb, he, if_neg (lt_irrefl _), if_neg (lt_irrefl _), ih (a + 1) (b + 1) hrest]
    rw [show a + 1 + m = a + (m + 1) by omega, show b + 1 + m = b + (m + 1) by omega]

/-- Suffixes that agree on `m` elements and differ in the next one are in the order of
that element. -/
theorem lex_lt_of_agree_lt {S : List α} {m a b : Nat} {u v : α} (h : agree S a b m)
    (hu : S[a + m]? = some u) (hv : S[b + m]? = some v) (huv : u < v) :
    lex_lt (S.drop a) (S.drop b) = true := by
  have ha := (List.getElem?_eq_some_iff.1 hu).1
  have hb := (List.getElem?_eq_some_iff.1 hv).1
  rw [lex_lt_agree m a b h, lex_lt_drop_eq ha hb]
  rw [List.getElem?_eq_getElem ha] at hu
  rw [List.getElem?_eq_getElem hb] at hv
  injection hu with hu
  injection hv with hv
  rw [hu, hv, if_pos huv]

/-- Two different suffixes of a sequence are in one order or the other. -/
theorem suffix_total {S : List α} {x y : Nat} (hx : x ≤ S.length) (hy : y ≤ S.length)
    (hxy : x ≠ y) :
    lex_lt (S.drop x) (S.drop y) = true ∨ lex_lt (S.drop y) (S.drop x) = true := by
  apply lex_lt_total
  intro he
  have := congrArg List.length he
  rw [List.length_drop, List.length_drop] at this
  omega

theorem suffix_asymm {S : List α} {x y : Nat} (h1 : lex_lt (S.drop x) (S.drop y) = true)
    (h2 : lex_lt (S.drop y) (S.drop x) = true) : False := by
  have := lex_lt_trans _ _ _ h1 h2
  rw [lex_lt_irrefl] at this
  cases this

/-- The loop of the deep comparator returns the order of the two suffixes. -/
theorem SACmp_loop_neg_val {S : List α} (hs : valid_sentinel S) :
    ∀ (fuel : Nat) (m : Int) (x y : Nat), m ≤ 0 → x ≠ y → x < S.length → y < S.length →
      S.length < fuel + x →
      SACmp_loop S fuel m x y = .ok (lex_lt (S.drop x) (S.drop y)) := by
  intro fuel
  induction fuel with
  | zero => intro m x y _ _ hx _ hf; omega
  | succ f ih =>
    intro m x y hm hxy hx hy hf
    have hm1 : m - 1 ≠ 0 := by omega
    simp only [SACmp_loop, hm1, ne_eq, not_false_eq_true, if_true, vec_read_of_lt hx,
      vec_read_of_lt hy, ok_bind]
    rw [lex_lt_drop_eq hx hy]
    by_cases he : S[x] = S[y]
    · have he2 : S[x]? = S[y]? := by
        rw [List.getElem?_eq_getElem hx, List.getElem?_eq_getElem hy, he]
      obtain ⟨hx1, hy1⟩ := sentinel_unique hs hx hy hxy he2
      simp only [he, if_true, lt_irrefl, if_false]
      exact ih (m - 1) (x + 1) (y + 1) (by omega) (by omega) hx1 hy1 (by omega)
    · rw [if_neg he]
      by_cases hlt : S[x] < S[y]
      · rw [if_pos hlt]
        simp [hlt]
      · have hgt : S[y] < S[x] := lt_of_le_of_ne (not_lt.1 hlt) (fun e => he e.symm)
        rw [if_neg hlt, if_pos hgt]
        simp [hlt]

/-- The deep comparator `SACmp(content, d, -1)` on two positions whose suffixes agree
on their first `d` elements returns the order of the two suffixes. -/
theorem SACmp_deep_val {S : List α} (hs : valid_sentinel S) {x y d : Nat} (hd : 0 < d)
    (h : agree S x y d) :
    SACmp S d (-1) x y = .ok (lex_lt (S.drop x) (S.drop y)) := by
  unfold SACmp
  by_cases hxy : x = y
  · subst hxy
    rw [if_pos rfl, lex_lt_irrefl]
    rfl
  · obtain ⟨hx2, hy2⟩ := agree_next hs hxy hd h
    have h1 : ¬ (x + d > S.length) := by omega
    have h2 : ¬ (y + d > S.length) := by omega
    rw [if_neg hxy, if_neg h1, if_neg h2, lex_lt_agree d x y h,
      SACmp_loop_neg_val hs _ (-1) (d + x) (d + y) (by omega) (by omega) (by omega)
        (by omega) (by omega), Nat.add_comm d x, Nat.add_comm d y]

theorem pairwise_suffix_sorted {S : List α} :
    ∀ (r : List Nat), r.Pairwise (fun a b => lex_lt (S.drop a) (S.drop b) = true) →
      suffix_sorted S r := by
  intro r
  induction r with
  | nil => intro _; trivial
  | cons a rest ih =>
    intro h
    cases rest with
    | nil => trivial
    | cons b rest2 =>
      have h2 := List.pairwise_cons.1 h
      exact ⟨h2.1 b (List.mem_cons_self _ _), ih h2.2⟩

/-- There is one list only that holds given suffixes in suffix order. -/
theorem suffix_order_unique {S : List α} {r1 r2 : List Nat} (hp : r1.Perm r2)
    (h1 : r1.Pairwise (fun a b => lex_lt (S.drop a) (S.drop b) = true))
    (h2 : r2.Pairwise (fun a b => lex_lt (S.drop a) (S.drop b) = true)) : r1 = r2 := by
  haveI : IsAntisymm Nat (fun a b => lex_lt (S.drop a) (S.drop b) = true) :=
    ⟨fun a b hab hba => (suffix_asymm hab hba).elim⟩
  exact List.eq_of_perm_of_sorted hp h1 h2

end deep_comparator

section order_sort

variable {R : Nat → Nat → Prop} [DecidableRel R] {comp : Nat → Nat → Except Exn Bool}
variable {dom : List Nat}

theorem linear_insert_sorted (hcomp : ∀ a ∈ dom, ∀ b ∈ dom, comp a b = .ok (decide (R a b)))
    (htrans : ∀ (a b c : Nat), R a b → R b c → R a c)
    (htotal : ∀ a ∈ dom, ∀ b ∈ dom, a ≠ b → R a b ∨ R b a) (val : Nat) (hval : val ∈ dom) :
    ∀ l : List Nat, l.Pairwise (fun a b => R b a) → val ∉ l → (∀ x ∈ l, x ∈ dom) →
      ∃ r, linear_insert comp val l = .ok r ∧ r.Perm (val :: l) ∧
        r.Pairwise (fun a b => R b a) := by
  intro l
  induction l with
  | nil => intro _ _ _; exact ⟨[val], rfl, List.Perm.refl _, List.pairwise_singleton _ _⟩
  | cons y ys ih =>
    intro h hnot hdom
    have hy := hdom y (List.mem_cons_self _ _)
    have hvy : val ≠ y := fun e => hnot (by rw [e]; exact List.mem_cons_self _ _)
    obtain ⟨r, hr, hp, hs⟩ := ih (List.Pairwise.of_cons h)
      (fun hm => hnot (List.mem_cons_of_mem _ hm))
      (fun x hx => hdom x (List.mem_cons_of_mem _ hx))
    by_cases hlt : R val y
    · refine ⟨y :: r, ?_, ?_, ?_⟩
      · simp only [linear_insert, hcomp val hval y hy, ok_bind, hlt, decide_True, if_true, hr,
          pure_eq_ok]
      · exact (List.Perm.cons y hp).trans (List.Perm.swap _ _ _)
      · refine List.pairwise_cons.2 ⟨?_, hs⟩
        intro a ha
        rcases List.mem_cons.1 (hp.subset ha) with h1 | h1
        · rw [h1]; exact hlt
        · exact (List.pairwise_cons.1 h).1 a h1
    · have hyv : R y val := by
        rcases htotal val hval y hy hvy with h1 | h1
        · exact absurd h1 hlt
        · exact h1
      refine ⟨val :: y :: ys, ?_, List.Perm.refl _, ?_⟩
      · simp only [linear_insert, hcomp val hval y hy, ok_bind, hlt, decide_False,
          Bool.false_eq_true, if_false, pure_eq_ok]
      · refine List.pairwise_cons.2 ⟨?_, h⟩
        intro a ha
        rcases List.mem_cons.1 ha with h1 | h1
        · rw [h1]; exact hyv
        · exact htrans a y val ((List.pairwise_cons.1 h).1 a h1) hyv

theorem insert_step_sorted (hcomp : ∀ a ∈ dom, ∀ b ∈ dom, comp a b = .ok (decide (R a b)))
    (htrans : ∀ (a b c : Nat), R a b → R b c → R a c)
    (htotal : ∀ a ∈ dom, ∀ b ∈ dom, a ≠ b → R a b ∨ R b a) (done : List Nat) (val : Nat)
    (hval : val ∈ dom) (h : done.Pairwise R) (hnot : val ∉ done) (hdom : ∀ x ∈ done, x ∈ dom) :
    ∃ d, insert_step comp done val = .ok d ∧ d.Perm (done ++ [val]) ∧ d.Pairwise R := by
  cases done with
  | nil => exact ⟨[val], rfl, List.Perm.refl _, List.pairwise_singleton _ _⟩
  | cons first rest =>
    have hf := hdom first (List.mem_cons_self _ _)
    by_cases hlt : R val first
    · refine ⟨val :: first :: rest, ?_, ?_, ?_⟩
      · simp only [insert_step, hcomp val hval first hf, ok_bind, hlt, decide_True, if_true,
          pure_eq_ok]
      · exact (@List.perm_append_comm _ [val] (first :: rest))
      · refine List.pairwise_cons.2 ⟨?_, h⟩
        intro a ha
        rcases List.mem_cons.1 ha with h1 | h1
        · rw [h1]; exact hlt
        · exact htrans val first a hlt ((List.pairwise_cons.1 h).1 a h1)
    · obtain ⟨r, hr, hp, hs⟩ := linear_insert_sorted hcomp htrans htotal val hval
        (first :: rest).reverse (List.pairwise_reverse.2 h)
        (fun hm => hnot (List.mem_reverse.1 hm))
        (fun x hx => hdom x (List.mem_reverse.1 hx))
      refine ⟨r.reverse, ?_, ?_, List.pairwise_reverse.2 hs⟩
      · simp only [insert_step, hcomp val hval first hf, ok_bind, hlt, decide_False,
          Bool.false_eq_true, if_false, hr, pure_eq_ok]
      · refine (List.reverse_perm r).trans (hp.trans ?_)
        refine (List.Perm.cons val (List.reverse_perm _)).trans ?_
        exact (@List.perm_append_comm _ [val] (first :: rest))

theorem insertion_sort_sorted (hcomp : ∀ a ∈ dom, ∀ b ∈ dom, comp a b = .ok (decide (R a b)))
    (htrans : ∀ (a b c : Nat), R a b → R b c → R a c)
    (htotal : ∀ a ∈ dom, ∀ b ∈ dom, a ≠ b → R a b ∨ R b a) :
    ∀ (rest done : List Nat), done.Pairwise R → (done ++ rest).Nodup →
      (∀ x ∈ done ++ rest, x ∈ dom) →
      ∃ r, insertion_sort comp done rest = .ok r ∧ r.Perm (done ++ rest) ∧ r.Pairwise R := by
  intro rest
  induction rest with
  | nil =>
    intro done h _ _
    exact ⟨done, rfl, by rw [List.append_nil], h⟩
  | cons val rest ih =>
    intro done h hnd hdom
    have hnd2 := List.nodup_append.1 hnd
    have hnot : val ∉ done := fun hm => hnd2.2.2 hm (List.mem_cons_self _ _)
    obtain ⟨d, hd, hp, hs⟩ := insert_step_sorted hcomp htrans htotal done val
      (hdom val (List.mem_append_right _ (List.mem_cons_self _ _))) h hnot
      (fun x hx => hdom x (List.mem_append_left _ hx))
    have hpp : (d ++ rest).Perm (done ++ val :: rest) := by
      have := List.Perm.append_right rest hp
      rw [List.append_assoc] at this
      exact this
    obtain ⟨r, hr, hp2, hs2⟩ := ih d hs (hpp.nodup_iff.2 hnd)
      (fun x hx => hdom x (hpp.subset hx))
    refine ⟨r, ?_, hp2.trans hpp, hs2⟩
    simp only [insertion_sort, hd, ok_bind, hr]

/-- The call `sort(first, last, comp)` on distinct positions, with a comparator that
returns a strict total order: the positions in that order. -/
theorem sort_sorted (hcomp : ∀ a ∈ dom, ∀ b ∈ dom, comp a b = .ok (decide (R a b)))
    (htrans : ∀ (a b c : Nat), R a b → R b c → R a c)
    (htotal : ∀ a ∈ dom, ∀ b ∈ dom, a ≠ b → R a b ∨ R b a) (hnd : dom.Nodup) :
    ∃ r, sort comp dom = .ok r ∧ r.Perm dom ∧ r.Pairwise R := by
  obtain ⟨r, hr, hp, hs⟩ := insertion_sort_sorted hcomp htrans htotal dom [] List.Pairwise.nil
    (by rw [List.nil_append]; exact hnd) (fun x hx => by rw [List.nil_append] at hx; exact hx)
  exact ⟨r, hr, by rw [List.nil_append] at hp; exact hp, hs⟩

end order_sort

end ns_suffixarray


set_option linter.unusedSectionVars false
set_option linter.unusedVariables false

namespace ns_suffixarray

/-! ## The order of the leaves of the sort trie -/

namespace sorttrie

section key_order

variable {α : Type} [LinearOrder α]

theorem ordered_node (d i : Nat) (cs : List (α × sorttrie α)) :
    (node d i cs).ordered ↔ ordered.orderedList cs := by
  rw [ordered]

theorem orderedList_cons (k : α) (c : sorttrie α) (cs : List (α × sorttrie α)) :
    ordered.orderedList ((k, c) :: cs) ↔
      ((∀ e ∈ cs, k < e.1) ∧ c.ordered ∧ ordered.orderedList cs) := by
  rw [ordered.orderedList]

theorem orderedList_nil : ordered.orderedList ([] : List (α × sorttrie α)) := by
  rw [ordered.orderedList]
  trivial

theorem map_insert_mem (k : α) (c : sorttrie α) :
    ∀ (cs : List (α × sorttrie α)) (e : α × sorttrie α), e ∈ map_insert k c cs →
      e = (k, c) ∨ e ∈ cs := by
  intro cs
  induction cs with
  | nil =>
    intro e he
    simp only [map_insert, List.mem_singleton] at he
    exact Or.inl he
  | cons e0 cs ih =>
    obtain ⟨k0, c0⟩ := e0
    intro e he
    simp only [map_insert] at he
    by_cases h1 : k < k0
    · rw [if_pos h1] at he
      rcases List.mem_cons.1 he with h | h
      · exact Or.inl h
      · exact Or.inr h
    · rw [if_neg h1] at he
      by_cases h2 : k0 < k
      · rw [if_pos h2] at he
        rcases List.mem_cons.1 he with h | h
        · exact Or.inr (h ▸ List.mem_cons_self _ _)
        · rcases ih e h with h3 | h3
          · exact Or.inl h3
          · exact Or.inr (List.mem_cons_of_mem _ h3)
      · rw [if_neg h2] at he
        exact Or.inr he

theorem orderedList_insert (k : α) (c : sorttrie α) (hc : c.ordered) :
    ∀ (cs : List (α × sorttrie α)), ordered.orderedList cs →
      ordered.orderedList (map_insert k c cs) := by
  intro cs
  induction cs with
  | nil =>
    intro _
    simp only [map_insert]
    rw [orderedList_cons]
    exact ⟨fun e he => absurd he (List.not_mem_nil e), hc, orderedList_nil⟩
  | cons e0 cs ih =>
    obtain ⟨k0, c0⟩ := e0
    intro h
    have h0 := (orderedList_cons k0 c0 cs).1 h
    simp only [map_insert]
    by_cases h1 : k < k0
    · rw [if_pos h1, orderedList_cons]
      refine ⟨?_, hc, h⟩
      intro e he
      rcases List.mem_cons.1 he with h2 | h2
      · rw [h2]; exact h1
      · exact lt_trans h1 (h0.1 e h2)
    · rw [if_neg h1]
      by_cases h2 : k0 < k
      · rw [if_pos h2, orderedList_cons]
        refine ⟨?_, h0.2.1, ih h0.2.2⟩
        intro e he
        rcases map_insert_mem k c cs e he with h3 | h3
        · rw [h3]; exact h2
        · exact h0.1 e h3
      · rw [if_neg h2]
        exact h

theorem map_update_mem (k : α) (c : sorttrie α) :
    ∀ (cs : List (α × sorttrie α)) (e : α × sorttrie α), e ∈ map_update k c cs →
      ∃ e0 ∈ cs, e.1 = e0.1 := by
  intro cs
  induction cs with
  | nil =>
    intro e he
    simp only [map_update] at he
    cases he
  | cons e0 cs ih =>
    obtain ⟨k0, c0⟩ := e0
    intro e he
    simp only [map_update] at he
    by_cases h1 : ¬ k0 < k ∧ ¬ k < k0
    · rw [if_pos h1] at he
      rcases List.mem_cons.1 he with h | h
      · exact ⟨(k0, c0), List.mem_cons_self _ _, by rw [h]⟩
      · exact ⟨e, List.mem_cons_of_mem _ h, rfl⟩
    · rw [if_neg h1] at he
      rcases List.mem_cons.1 he with h | h
      · exact ⟨(k0, c0), List.mem_cons_self _ _, by rw [h]⟩
      · obtain ⟨e1, he1, h2⟩ := ih e h
        exact ⟨e1, List.mem_cons_of_mem _ he1, h2⟩

theorem orderedList_update (k : α) (c : sorttrie α) (hc : c.ordered) :
    ∀ (cs : List (α × sorttrie α)), ordered.orderedList cs →
      ordered.orderedList (map_update k c cs) := by
  intro cs
  induction cs with
  | nil =>
    intro h
    exact h
  | cons e0 cs ih =>
    obtain ⟨k0, c0⟩ := e0
    intro h
    have h0 := (orderedList_cons k0 c0 cs).1 h
    simp only [map_update]
    by_cases h1 : ¬ k0 < k ∧ ¬ k < k0
    · rw [if_pos h1, orderedList_cons]
      exact ⟨h0.1, hc, h0.2.2⟩
    · rw [if_neg h1, orderedList_cons]
      refine ⟨?_, h0.2.1, ih h0.2.2⟩
      intro e he
      obtain ⟨e1, he1, h2⟩ := map_update_mem k c cs e he
      rw [h2]
      exact h0.1 e1 he1

theorem orderedList_find (el : α) (c : sorttrie α) :
    ∀ (cs : List (α × sorttrie α)), ordered.orderedList cs → map_find el cs = some c →
      c.ordered := by
  intro cs
  induction cs with
  | nil => intro _ h; simp [map_find] at h
  | cons e0 cs ih =>
    obtain ⟨k0, c0⟩ := e0
    intro h hf
    have h0 := (orderedList_cons k0 c0 cs).1 h
    simp only [map_find] at hf
    by_cases hk : ¬ k0 < el ∧ ¬ el < k0
    · rw [if_pos hk] at hf
      injection hf with hf
      rw [← hf]
      exact h0.2.1
    · rw [if_neg hk] at hf
      exact ih h0.2.2 hf

theorem addChild_ordered (S : List α) {s child s1 : sorttrie α} (hs : s.ordered)
    (hc : child.ordered) (h : addChild S s child = .ok s1) : s1.ordered := by
  unfold addChild at h
  obtain ⟨el, _, h2⟩ := bind_eq_ok.1 h
  injection h2 with h2
  rw [← h2, ordered_node]
  obtain ⟨d, i, cs⟩ := s
  exact orderedList_insert el child hc cs ((ordered_node d i cs).1 hs)

theorem leaf_ordered (d i : Nat) : (node d i ([] : List (α × sorttrie α))).ordered := by
  rw [ordered_node]
  exact orderedList_nil

theorem prepare_ordered (S : List α) {s s1 : sorttrie α} (hs : s.ordered)
    (h : (if s.isLeaf then makeChildSelf S s else pure s) = .ok s1) : s1.ordered := by
  by_cases hl : s.isLeaf
  · rw [if_pos hl] at h
    exact addChild_ordered S hs (leaf_ordered _ _) h
  · rw [if_neg hl] at h
    injection h with h
    rw [← h]
    exact hs

/-- Member `walkNadd` keeps every children map in ascending key order. -/
theorem walkNadd_ordered (S : List α) :
    ∀ (fuel : Nat) (s : sorttrie α) (d i : Nat) (s2 : sorttrie α), s.ordered →
      walkNadd S fuel s d i = .ok s2 → s2.ordered := by
  intro fuel
  induction fuel with
  | zero =>
    intro s d i s2 _ h
    simp [walkNadd] at h
  | succ f ih =>
    intro s d i s2 hs h
    rw [walkNadd_succ] at h
    obtain ⟨s1, h1, h⟩ := bind_eq_ok.1 h
    have hs1 := prepare_ordered S hs h1
    obtain ⟨el, _, h⟩ := bind_eq_ok.1 h
    obtain ⟨d1, i1, cs1⟩ := s1
    have hcs1 := (ordered_node d1 i1 cs1).1 hs1
    simp only [children] at h
    cases hfind : map_find el cs1 with
    | some c =>
      rw [hfind] at h
      simp only [] at h
      obtain ⟨c2, hw, h⟩ := bind_eq_ok.1 h
      have hc2 := ih c (d + 1) i c2 (orderedList_find el c cs1 hcs1 hfind) hw
      injection h with h
      rw [← h, ordered_node]
      exact orderedList_update el c2 hc2 cs1 hcs1
    | none =>
      rw [hfind] at h
      simp only [] at h
      exact addChild_ordered S hs1 (leaf_ordered _ _) h

end key_order

section leaf_order

variable {α : Type} [LinearOrder α]

theorem mem_leaves_node {d i : Nat} {cs : List (α × sorttrie α)} {a : Nat}
    (h : a ∈ (node d i cs).leaves) : (cs = [] ∧ a = i) ∨ a ∈ leaves.leavesList cs := by
  rw [leaves_node] at h
  cases cs with
  | nil =>
    simp only [List.isEmpty_nil, if_true, List.mem_singleton] at h
    exact Or.inl ⟨rfl, h⟩
  | cons e cs =>
    simp only [List.isEmpty_cons, Bool.false_eq_true, if_false] at h
    exact Or.inr h

mutual

/-- The suffixes below a node agree with the suffix of the node down to its level. -/
theorem leaves_agree (S : List α) (P : Nat → Prop) :
    ∀ (t : sorttrie α), t.inv S P → t.getidx + (t.depth + 1) ≤ S.length →
      ∀ a ∈ t.leaves, agree S t.getidx a (t.depth + 1)
  | node d i cs, h, hb, a, ha => by
    rcases mem_leaves_node ha with h1 | h1
    · rw [h1.2]
      exact agree_refl hb
    · obtain ⟨e, _, _, h2, _, h3⟩ :=
        leavesList_agree S P d i cs ((inv_node S P d i cs).1 h).2 a h1
      exact agree_trans h3 (agree_mono h2 (by simp only [depth]; omega))

theorem leavesList_agree (S : List α) (P : Nat → Prop) (d i : Nat) :
    ∀ (cs : List (α × sorttrie α)), inv.invList S P d i cs →
      ∀ a ∈ leaves.leavesList cs, ∃ e ∈ cs, a ∈ e.2.leaves ∧
        agree S e.2.getidx a (d + 2) ∧ S[e.2.getidx + (d + 1)]? = some e.1 ∧
        agree S i e.2.getidx (d + 1)
  | [], _, a, ha => by
    rw [leaves.leavesList] at ha
    cases ha
  | (k, c) :: cs, h, a, ha => by
    rw [invList_cons] at h
    rw [leavesList_cons] at ha
    rcases List.mem_append.1 ha with h1 | h1
    · have hb : c.getidx + (c.depth + 1) ≤ S.length := by
        have := (List.getElem?_eq_some_iff.1 h.2.1).1
        rw [h.1]
        omega
      have h2 := leaves_agree S P c h.2.2.2.1 hb a h1
      rw [h.1] at h2
      exact ⟨(k, c), List.mem_cons_self _ _, h1, h2, h.2.1, h.2.2.1⟩
    · obtain ⟨e, he, g⟩ := leavesList_agree S P d i cs h.2.2.2.2 a h1
      exact ⟨e, List.mem_cons_of_mem _ he, g⟩

end

mutual

/-- The leaves of a trie, read in ascending key order, are in suffix order. -/
theorem leaves_sorted (S : List α) (P : Nat → Prop) :
    ∀ (t : sorttrie α), t.inv S P → t.ordered →
      t.leaves.Pairwise (fun a b => lex_lt (S.drop a) (S.drop b) = true)
  | node d i cs, h, ho => by
    rw [leaves_node]
    cases hcs : cs with
    | nil =>
      simp only [List.isEmpty_nil, if_true]
      exact List.pairwise_singleton _ _
    | cons e cs2 =>
      simp only [List.isEmpty_cons, Bool.false_eq_true, if_false]
      rw [← hcs]
      exact leavesList_sorted S P d i cs ((inv_node S P d i cs).1 h).2
        ((ordered_node d i cs).1 ho)

theorem leavesList_sorted (S : List α) (P : Nat → Prop) (d i : Nat) :
    ∀ (cs : List (α × sorttrie α)), inv.invList S P d i cs → ordered.orderedList cs →
      (leaves.leavesList cs).Pairwise (fun a b => lex_lt (S.drop a) (S.drop b) = true)
  | [], _, _ => by
    rw [leaves.leavesList]
    exact List.Pairwise.nil
  | (k, c) :: cs, h, ho => by
    have h0 := (invList_cons S P d i k c cs).1 h
    have ho0 := (orderedList_cons k c cs).1 ho
    rw [leavesList_cons]
    refine List.pairwise_append.2 ⟨leaves_sorted S P c h0.2.2.2.1 ho0.2.1,
      leavesList_sorted S P d i cs h0.2.2.2.2 ho0.2.2, ?_⟩
    intro a ha b hb
    obtain ⟨e1, he1, _, g1, g2, g3⟩ := leavesList_agree S P d i ((k, c) :: cs) h a
      (by rw [leavesList_cons]; exact List.mem_append_left _ ha)
    have hb0 : c.getidx + (c.depth + 1) ≤ S.length := by
      have := (List.getElem?_eq_some_iff.1 h0.2.1).1
      rw [h0.1]
      omega
    have ha2 := leaves_agree S P c h0.2.2.2.1 hb0 a ha
    rw [h0.1] at ha2
    obtain ⟨e, he, _, hb2, hkey, hie⟩ := leavesList_agree S P d i cs h0.2.2.2.2 b hb
    have hlt : k < e.1 := ho0.1 e he
    have hab : agree S a b (d + 1) :=
      agree_trans (agree_symm (agree_mono ha2 (by omega)))
        (agree_trans (agree_symm h0.2.2.1) (agree_trans hie (agree_mono hb2 (by omega))))
    have hka : S[a + (d + 1)]? = some k := by
      rw [← (ha2 (d + 1) (by omega)).2.2]
      exact h0.2.1
    have hkb : S[b + (d + 1)]? = some e.1 := by
      rw [← (hb2 (d + 1) (by omega)).2.2]
      exact hkey
    exact lex_lt_of_agree_lt hab hka hkb hlt

end

end leaf_order

section recursive_read

variable {α : Type}

mutual

/-- Member `recGS` returns the leaves in ascending key order. -/
theorem recGS_eq_leaves : ∀ (t : sorttrie α), recGS t = t.leaves
  | node d i cs => by
    rw [recGS, leaves_node, recGS_children_eq cs]

theorem recGS_children_eq : ∀ (cs : List (α × sorttrie α)),
    recGS.recGS_children cs = leaves.leavesList cs
  | [] => by rw [recGS.recGS_children, leaves.leavesList]
  | (k, c) :: cs => by
    rw [recGS.recGS_children, leavesList_cons, recGS_eq_leaves c, recGS_children_eq cs]

end

end recursive_read

end sorttrie

end ns_suffixarray


set_option linter.unusedSectionVars false
set_option linter.unusedVariables false

namespace ns_suffixarray

open suffixarray

/-! ## The two ways in which `ds2` orders a bucket -/

section bucket_order

variable {α : Type} [LinearOrder α]

/-- The insertion loop of `ds2` returns, with every suffix added as a leaf, and keeps
the shape of the trie and the order of its children maps. -/
theorem ds2_insert_full {S : List α} (hs : valid_sentinel S) (sd : Nat) :
    ∀ (rest : List Nat) (root : sorttrie α) (ins : List Nat),
      root.inv S (fun x => x ∈ ins) → root.ordered → sd = root.depth + 1 →
      (∀ i ∈ rest, i ∉ ins ∧ agree S i root.getidx sd) → rest.Nodup →
      ∃ r, ds2_insert S sd root rest = .ok r ∧ r.leaves.Perm (rest ++ root.leaves) ∧
        r.inv S (fun x => x ∈ rest ++ ins) ∧ r.ordered := by
  intro rest
  induction rest with
  | nil =>
    intro root ins hinv ho _ _ _
    exact ⟨root, rfl, by simp, by simpa using hinv, ho⟩
  | cons i rest ih =>
    intro root ins hinv ho hd hall hnd
    obtain ⟨hi1, hi2⟩ := hall i (List.mem_cons_self _ _)
    obtain ⟨r1, hw, hinv1, hd1, hidx1, hl1, _⟩ :=
      sorttrie.walkNadd_ok hs (fun x => x ∈ ins) i hi1 (S.length + 1) root sd hinv
        hd hi2 (by omega)
    have ho1 := sorttrie.walkNadd_ordered S _ root sd i r1 ho hw
    have hinv2 : r1.inv S (fun x => x ∈ i :: ins) :=
      sorttrie.inv_mono S _ _ (fun x hx => by
        rcases hx with hx | hx
        · exact List.mem_cons_of_mem _ hx
        · rw [hx]; exact List.mem_cons_self _ _) r1 hinv1
    rw [List.nodup_cons] at hnd
    obtain ⟨r, hr, hl, hinv3, ho3⟩ := ih r1 (i :: ins) hinv2 ho1 (by omega) (fun x hx => by
      obtain ⟨hx1, hx2⟩ := hall x (List.mem_cons_of_mem _ hx)
      refine ⟨?_, by rw [hidx1]; exact hx2⟩
      intro hmem
      rcases List.mem_cons.1 hmem with h | h
      · exact hnd.1 (h ▸ hx)
      · exact hx1 h) hnd.2
    refine ⟨r, by simp [ds2_insert, hw, hr], hl.trans ?_, ?_, ho3⟩
    · refine (List.Perm.append_left rest hl1).trans ?_
      simp only [List.cons_append]
      exact List.perm_middle
    · refine sorttrie.inv_mono S _ _ (fun x hx => ?_) r hinv3
      rcases List.mem_append.1 hx with h | h
      · exact List.mem_append_left _ (List.mem_cons_of_mem _ h)
      · rcases List.mem_cons.1 h with h2 | h2
        · rw [h2]; exact List.mem_append_left _ (List.mem_cons_self _ _)
        · exact List.mem_append_right _ h2

/-- The trie of a bucket of at least two different positions whose suffixes agree on
their first `sd ≥ 1` elements: it is built, its children maps are in ascending key
order, and `getSort` reads from it the bucket in suffix order. -/
theorem ds2_trie_sorted {S : List α} (hs : valid_sentinel S) (first : Nat) (rest : List Nat)
    (sd : Nat) (hsd : 1 ≤ sd) (hrest : rest ≠ []) (hnd : (first :: rest).Nodup)
    (hag : ∀ x ∈ first :: rest, ∀ y ∈ first :: rest, agree S x y sd) :
    ∃ root, (sorttrie.makeChildSelf S (sorttrie.node (sd - 1) first []) >>= fun t =>
        ds2_insert S sd t rest) = .ok root ∧
      root.ordered ∧ sorttrie.getSort root = root.leaves ∧
      ds2_trie S (first :: rest) sd = .ok (sorttrie.getSort root) ∧
      (sorttrie.getSort root).Perm (first :: rest) ∧
      (sorttrie.getSort root).Pairwise (fun a b => lex_lt (S.drop a) (S.drop b) = true) := by
  cases rest with
  | nil => exact absurd rfl hrest
  | cons y rest =>
    have hfy : first ≠ y := by
      intro h
      rw [List.nodup_cons] at hnd
      exact hnd.1 (h ▸ List.mem_cons_self _ _)
    have h2 := (agree_next hs hfy (by omega) (hag first (by simp) y (by simp))).1
    have hsd1 : sd - 1 + 1 = sd := by omega
    have h2b : first + (sd - 1 + 1) < S.length := by rw [hsd1]; exact h2
    have hroot : sorttrie.makeChildSelf S (sorttrie.node (sd - 1) first []) =
        .ok (sorttrie.node (sd - 1) first
          [(S[first + (sd - 1 + 1)], sorttrie.node (sd - 1 + 1) first [])]) := by
      simp [sorttrie.makeChildSelf, sorttrie.addChild, sorttrie.getelem, sorttrie.getidx,
        sorttrie.depth, vec_at_of_lt h2b, sorttrie.map_insert, sorttrie.children]
    have hinv : (sorttrie.node (sd - 1) first
        [(S[first + (sd - 1 + 1)], sorttrie.node (sd - 1 + 1) first [])]).inv S
        (fun x => x ∈ [first]) := by
      rw [sorttrie.inv_node]
      refine ⟨by simp, ?_⟩
      rw [sorttrie.invList_cons]
      refine ⟨rfl, ?_, agree_refl (by omega), ?_, by rw [sorttrie.inv.invList]; trivial⟩
      · simp [sorttrie.getidx, List.getElem?_eq_getElem h2b]
      · rw [sorttrie.inv_node]
        exact ⟨by simp, by rw [sorttrie.inv.invList]; trivial⟩
    have hord : (sorttrie.node (sd - 1) first
        [(S[first + (sd - 1 + 1)], sorttrie.node (sd - 1 + 1) first [])]).ordered := by
      rw [sorttrie.ordered_node, sorttrie.orderedList_cons]
      exact ⟨fun e he => absurd he (List.not_mem_nil e), sorttrie.leaf_ordered _ _,
        sorttrie.orderedList_nil⟩
    rw [List.nodup_cons] at hnd
    obtain ⟨r, hr, hl, hinv2, hord2⟩ := ds2_insert_full hs sd (y :: rest) _ [first] hinv hord
      (by simp only [sorttrie.depth]; omega) (fun i hi => by
        refine ⟨?_, hag i (List.mem_cons_of_mem _ hi) first (by simp)⟩
        intro hmem
        rw [List.mem_singleton] at hmem
        exact hnd.1 (hmem ▸ hi)) hnd.2
    have hleaves : (sorttrie.node (sd - 1) first
        [(S[first + (sd - 1 + 1)], sorttrie.node (sd - 1 + 1) first [])]).leaves = [first] := by
      rw [sorttrie.leaves_node]
      simp [sorttrie.leaves.leavesList, sorttrie.leaves_node]
    rw [hleaves] at hl
    have hperm : (sorttrie.getSort r).Perm (first :: y :: rest) := by
      rw [sorttrie.getSort_eq]
      exact hl.trans (@List.perm_append_comm _ (y :: rest) [first])
    have hrun : (sorttrie.makeChildSelf S (sorttrie.node (sd - 1) first []) >>= fun t =>
        ds2_insert S sd t (y :: rest)) = .ok r := by
      rw [hroot]
      exact hr
    refine ⟨r, hrun, hord2, sorttrie.getSort_eq r, ?_, hperm, ?_⟩
    · have hlen : ¬ ((sorttrie.getSort r).length ≠ (first :: y :: rest).length) := by
        rw [hperm.length_eq]
        exact fun h => h rfl
      have hrun2 : (do
          let t ← sorttrie.makeChildSelf S (sorttrie.node (sd - 1) first [])
          ds2_insert S sd t (y :: rest)) = Except.ok r := hrun
      unfold ds2_trie
      simp only [hroot, ok_bind, hr, hlen, if_false]
      rfl
    · rw [sorttrie.getSort_eq]
      exact sorttrie.leaves_sorted S _ r hinv2 hord2

/-- The sort of a bucket with the deep comparator returns the bucket in suffix
order. -/
theorem deep_sort_sorted {S : List α} (hs : valid_sentinel S) (bucket : List Nat) (sd : Nat)
    (hsd : 1 ≤ sd) (hnd : bucket.Nodup)
    (hag : ∀ x ∈ bucket, ∀ y ∈ bucket, agree S x y sd) :
    ∃ r, sort (SACmp S sd (-1)) bucket = .ok r ∧ r.Perm bucket ∧
      r.Pairwise (fun a b => lex_lt (S.drop a) (S.drop b) = true) := by
  have hbound : ∀ x ∈ bucket, x ≤ S.length := by
    intro x hx
    have := (hag x hx x hx 0 (by omega)).1
    omega
  refine sort_sorted (R := fun a b => lex_lt (S.drop a) (S.drop b) = true) ?_ ?_ ?_ hnd
  · intro a ha b hb
    rw [SACmp_deep_val hs (by omega) (hag a ha b hb)]
    show Except.ok (lex_lt (S.drop a) (S.drop b)) =
      Except.ok (decide (lex_lt (S.drop a) (S.drop b) = true))
    rw [Bool.decide_eq_true]
  · intro a b c h1 h2
    exact lex_lt_trans _ _ _ h1 h2
  · intro a ha b hb hab
    exact suffix_total (hbound a ha) (hbound b hb) hab

/-- Any `std::sort` that meets the contract of the standard returns, for a bucket with
the deep comparator, the bucket in suffix order. -/
theorem deep_sort_contract {S : List α} (hs : valid_sentinel S) (bucket : List Nat)
    (sd : Nat) (hsd : 1 ≤ sd) (hnd : bucket.Nodup)
    (hag : ∀ x ∈ bucket, ∀ y ∈ bucket, agree S x y sd) {std_sort : sorter}
    (hsort : sort_contract std_sort) :
    ∃ r, std_sort (SACmp S sd (-1)) bucket = .ok r ∧ r.Perm bucket ∧
      r.Pairwise (fun a b => lex_lt (S.drop a) (S.drop b) = true) := by
  have hbound : ∀ x ∈ bucket, x ≤ S.length := by
    intro x hx
    have := (hag x hx x hx 0 (by omega)).1
    omega
  have heq : ∀ a ∈ bucket, ∀ b ∈ bucket, lex_lt (S.drop a) (S.drop b) = false →
      lex_lt (S.drop b) (S.drop a) = false → a = b := by
    intro a ha b hb h1 h2
    by_contra hne
    rcases suffix_total (hbound a ha) (hbound b hb) hne with h | h
    · rw [h1] at h; cases h
    · rw [h2] at h; cases h
  obtain ⟨out, h0, hp, hsorted⟩ := hsort (SACmp S sd (-1))
    (fun a b => lex_lt (S.drop a) (S.drop b)) bucket
    (fun a ha b hb => SACmp_deep_val hs (by omega) (hag a ha b hb))
    (fun a _ => lex_lt_irrefl _)
    (fun a _ b _ c _ h1 h2 => lex_lt_trans _ _ _ h1 h2)
    (fun a ha b hb c hc h1 h2 h3 h4 => by
      have e1 := heq a ha b hb h1 h2
      have e2 := heq b hb c hc h3 h4
      simp only []
      rw [e1, e2]
      exact ⟨lex_lt_irrefl _, lex_lt_irrefl _⟩)
  refine ⟨out, h0, hp, ?_⟩
  have hnd2 : out.Nodup := hp.nodup_iff.2 hnd
  have hboth : out.Pairwise (fun a b => lex_lt (S.drop b) (S.drop a) = false ∧ a ≠ b) :=
    List.pairwise_and_iff.2 ⟨hsorted, hnd2⟩
  refine List.Pairwise.imp_of_mem ?_ hboth
  intro a b ha hb hab
  rcases suffix_total (hbound a (hp.subset ha)) (hbound b (hp.subset hb)) hab.2 with h | h
  · exact h
  · rw [hab.1] at h; cases h

theorem ds2_unfold (S : List α) (bucket : List Nat) (sd : Nat) (hne : bucket ≠ []) :
    ds2 S bucket sd =
      if bucket.length < 5 then sort (SACmp S sd (-1)) bucket else ds2_trie S bucket sd := by
  unfold ds2 ds2_trie
  cases bucket with
  | nil => exact absurd rfl hne
  | cons first rest => rfl

end bucket_order

end ns_suffixarray


set_option linter.unusedSectionVars false
set_option linter.unusedVariables false

namespace ns_suffixarray

open suffixarray

/-! ## What the getters return after the child-table pass -/

section pass_results

variable {L : Nat → Nat}

/-- Member `fill_up_down_nextl()` on tables that hold `L` and no child value: it
returns, and the getters then return the child values of `L`, in plain words. -/
theorem pass_getters {α : Type} (s : suffixarray α) {n : Nat} (hlen : s.idx.length = n)
    (hn1 : 1 ≤ n) (hn : n < 2 ^ 31) (hL0 : L 0 = 0)
    (ht : tabs_ok s.tabs n L (fun _ => none) (fun _ => none) (fun _ => none)) :
    ∃ s2, s.fill_up_down_nextl = .ok s2 ∧
      (∀ (k : Nat), k < n → s2.tabs.getlcp k = .ok (L k)) ∧
      (∀ (i : Nat), i < n →
        (∀ (j : Nat), j ≠ undefined →
          (s2.tabs.getnextl i = .ok j ↔
            ((i < j ∧ j < n ∧ L j = L i ∧ ∀ (k : Nat), i < k → k < j → L i < L k) ∧
              ∀ (j2 : Nat), j2 < j →
                ¬ (i < j2 ∧ j2 < n ∧ L j2 = L i ∧
                  ∀ (k : Nat), i < k → k < j2 → L i < L k)))) ∧
        (s2.tabs.getnextl i = .ok undefined ↔
          ¬ ∃ j, i < j ∧ j < n ∧ L j = L i ∧ ∀ (k : Nat), i < k → k < j → L i < L k)) ∧
      (∀ (i : Nat), i < n →
        ((∃ q, q ≠ undefined ∧ s2.tabs.getup i = .ok q) ↔ (1 ≤ i ∧ L i < L (i - 1))) ∧
        (∀ (q : Nat), q ≠ undefined →
          (s2.tabs.getup i = .ok q ↔
            ((q < i ∧ L i < L q ∧ ∀ (k : Nat), q < k → k < i → L q ≤ L k) ∧
              ∀ (q2 : Nat), q2 < q →
                ¬ (q2 < i ∧ L i < L q2 ∧ ∀ (k : Nat), q2 < k → k < i → L q2 ≤ L k))))) ∧
      (∀ (t q : Nat), t < n → q ≠ undefined → s2.tabs.getdown t = .ok q →
        t < q ∧ q < n ∧ L t < L q ∧ ∀ (k : Nat), t < k → k < q → L q < L k) := by
  obtain ⟨s2, U, D, N, hrun, _, _, ht2, hc⟩ := fill_up_down_nextl_spec s hlen hn1 hn hL0 ht
  have hund : ∀ (x : Nat), x < n → x ≠ undefined := by
    intro x hx
    unfold undefined
    omega
  refine ⟨s2, hrun, fun k hk => tabs_getlcp ht2 hk hn, ?_, ?_, ?_⟩
  · intro i hi
    have hg := tabs_getnextl ht2 hi hn
    obtain ⟨g1, g2⟩ := getter_iff hg (fun x hx => hund x ((hc.hN i x).1 hx).1)
    constructor
    · intro j hj
      rw [g1 j hj, hc.hN i j]
      constructor
      · rintro ⟨hjn, hij, he, hgap⟩
        refine ⟨⟨hij, hjn, he, hgap⟩, ?_⟩
        rintro j2 hj2 ⟨h1, _, h3, _⟩
        have := hgap j2 h1 hj2
        omega
      · rintro ⟨⟨hij, hjn, he, hgap⟩, _⟩
        exact ⟨hjn, hij, he, hgap⟩
    · rw [g2]
      constructor
      · rintro hnone ⟨j, hij, hjn, he, hgap⟩
        have := (hc.hN i j).2 ⟨hjn, hij, he, hgap⟩
        rw [hnone] at this
        cases this
      · intro hno
        cases hN : N i with
        | none => rfl
        | some x =>
          exfalso
          obtain ⟨hxn, hix, he, hgap⟩ := (hc.hN i x).1 hN
          exact hno ⟨x, hix, hxn, he, hgap⟩
  · intro i hi
    have hg := tabs_getup ht2 hi hn
    have hval : ∀ (x : Nat), U i = some x → x ≠ undefined := by
      intro x hx
      obtain ⟨_, a, _, _, _, h2, _⟩ := (hc.hU i x).1 hx
      exact hund x (by omega)
    obtain ⟨g1, g2⟩ := getter_iff hg hval
    constructor
    · rw [← is_up_exists_iff hL0 i]
      constructor
      · rintro ⟨q, hq, hgq⟩
        exact ⟨q, ((hc.hU i q).1 ((g1 q hq).1 hgq)).2⟩
      · rintro ⟨q, hq⟩
        have hU := (hc.hU i q).2 ⟨hi, hq⟩
        have hqu := hval q hU
        exact ⟨q, hqu, (g1 q hqu).2 hU⟩
    · intro q hq
      rw [g1 q hq, hc.hU i q, is_up_iff hL0 i q]
      constructor
      · rintro ⟨_, h1, h2, h3, h4⟩
        refine ⟨⟨h1, h2, h3⟩, ?_⟩
        rintro q2 hq2 ⟨_, e2, e3⟩
        exact h4 q2 hq2 ⟨e2, e3⟩
      · rintro ⟨⟨h1, h2, h3⟩, h4⟩
        refine ⟨hi, h1, h2, h3, ?_⟩
        rintro q2 hq2 ⟨e2, e3⟩
        exact h4 q2 hq2 ⟨by omega, e2, e3⟩
  · intro t q htn hq hgq
    have hg := tabs_getdown ht2 htn hn
    have hval : ∀ (x : Nat), D t = some x → x ≠ undefined := by
      intro x hx
      have := is_down_facts ((hc.hD t x).1 hx)
      exact hund x this.2.1
    obtain ⟨g1, _⟩ := getter_iff hg hval
    exact is_down_facts ((hc.hD t q).1 ((g1 q hq).1 hgq))

/-- The two stacks of the pass before the round of position `i`. -/
theorem pass_stacks {α : Type} (s : suffixarray α) {n : Nat} (hlen : s.idx.length = n)
    (hn1 : 1 ≤ n) (hn : n < 2 ^ 31) (hL0 : L 0 = 0)
    (ht : tabs_ok s.tabs n L (fun _ => none) (fun _ => none) (fun _ => none)) :
    (∀ (i : Nat), 1 ≤ i → i ≤ n →
      ∃ st, fill_up_down_nextl_rounds (List.range' 1 (i - 1)) (pass_start s.tabs) = .ok st ∧
        st.updownstack ≠ [] ∧ st.nextlstack ≠ [] ∧
        (∃ b, st.updownstack.getLast? = some b ∧ L b = 0 ∧ st.tabs.getlcp b = .ok 0) ∧
        (∃ b, st.nextlstack.getLast? = some b ∧ L b = 0 ∧ st.tabs.getlcp b = .ok 0) ∧
        st.updownstack.Pairwise (fun a b => L b ≤ L a) ∧
        st.nextlstack.Pairwise (fun a b => L b ≤ L a) ∧
        (∀ a ∈ st.updownstack, a < i ∧ st.tabs.getlcp a = .ok (L a)) ∧
        (∀ a ∈ st.nextlstack, a < i ∧ st.tabs.getlcp a = .ok (L a))) ∧
    ∃ s2, s.fill_up_down_nextl = .ok s2 := by
  obtain ⟨hall, st, U, D, N, _, _, hrun⟩ := pass_spec s hlen hn1 hn hL0 ht
  refine ⟨?_, _, hrun⟩
  intro i hi1 hin
  obtain ⟨st, U, D, N, g1, g2⟩ := hall i hi1 hin
  obtain ⟨u1, u2, u3⟩ := ustack_facts g2.hu (by omega) hL0
  obtain ⟨n1, ⟨b, n2, n3⟩, n4⟩ := nstack_facts g2.hns (by omega) hL0
  have hmu : ∀ a ∈ st.updownstack, a < i := fun a ha => ((g2.hu.2 a).1 ha).1
  have hmn : ∀ a ∈ st.nextlstack, a < i := fun a ha => ((g2.hns.2 a).1 ha).1
  have hget : ∀ (a : Nat), a < i → st.tabs.getlcp a = .ok (L a) :=
    fun a ha => tabs_getlcp g2.ht (by omega) hn
  refine ⟨st, g1, u1, n1, ⟨0, u2, hL0, ?_⟩, ⟨b, n2, n3, ?_⟩, u3, ?_,
    fun a ha => ⟨hmu a ha, hget a (hmu a ha)⟩, fun a ha => ⟨hmn a ha, hget a (hmn a ha)⟩⟩
  · rw [hget 0 (by omega), hL0]
  · rw [hget b (hmn b (List.mem_of_mem_getLast? n2)), n3]
  · exact n4.imp (fun h => Nat.le_of_lt h)

/-- The calls of the three setters during the pass. -/
theorem pass_calls {α : Type} (s : suffixarray α) {n : Nat} (hlen : s.idx.length = n)
    (hn1 : 1 ≤ n) (hn : n < 2 ^ 31) (hL0 : L 0 = 0)
    (ht : tabs_ok s.tabs n L (fun _ => none) (fun _ => none) (fun _ => none)) :
    ∃ st, fill_up_down_nextl_rounds (List.range' 1 (n - 1)) (pass_start s.tabs) = .ok st ∧
      s.fill_up_down_nextl = .ok { s with tabs := st.tabs } ∧
      st.calls.Pairwise (fun a b => a.table ≠ b.table ∨ a.pos ≠ b.pos) ∧
      ∀ c ∈ st.calls, c.pos < n ∧
        (c.table = child_table.up → st.tabs.getup c.pos = .ok c.value ∧
          (¬ (-128 < (c.value : Int) - c.pos ∧ (c.value : Int) - c.pos < 127) →
            st.tabs.upmap.find_second c.pos = .ok c.value)) ∧
        (c.table = child_table.down → st.tabs.getdown c.pos = .ok c.value ∧
          (¬ (-128 < (c.value : Int) - c.pos ∧ (c.value : Int) - c.pos < 127) →
            st.tabs.downmap.find_second c.pos = .ok c.value)) ∧
        (c.table = child_table.nextl → st.tabs.getnextl c.pos = .ok c.value ∧
          (¬ (-128 < (c.value : Int) - c.pos ∧ (c.value : Int) - c.pos < 127) →
            st.tabs.nextlmap.find_second c.pos = .ok c.value)) := by
  obtain ⟨_, st, U, D, N, g1, g2, hrun⟩ := pass_spec s hlen hn1 hn hL0 ht
  obtain ⟨c1, c2⟩ := calls_facts g2 hn
  exact ⟨st, g1, hrun, c1, c2⟩

theorem getD_zero_of_head {l : List Nat} (h : l[0]? = some 0) :
    l.getD 0 0 = 0 ∧ 1 ≤ l.length := by
  cases l with
  | nil => cases h
  | cons a rest =>
    simp only [List.getElem?_cons_zero, Option.some.injEq] at h
    subst h
    exact ⟨rfl, by simp⟩

end pass_results

end ns_suffixarray


set_option linter.unusedSectionVars false

namespace ns_suffixarray

/-- C1: on the valid-sentinel sequence `2 2 2 1 9` the sort phase of the constructor
returns `3 2 0 1 4`, which is not in suffix order: the last bucket, the suffixes 0
and 1 that both start with `2 2`, is left as the bucket sort put it, although the
suffix at 1 is smaller than the suffix at 0. -/
theorem ds_last_bucket_left_unsorted :
    valid_sentinel [2, 2, 2, 1, 9] ∧
    ds sort [2, 2, 2, 1, 9] (List.range 5) = .ok [3, 2, 0, 1, 4] ∧
    lex_lt ([2, 2, 2, 1, 9].drop 1) ([2, 2, 2, 1, 9].drop 0) = true ∧
    ¬ suffix_sorted [2, 2, 2, 1, 9] [3, 2, 0, 1, 4] := by
  refine ⟨by decide, rfl, rfl, by decide⟩

/-- C2: for every sequence `S` of length at least 2 with a valid sentinel, and with
any `std::sort` that meets the contract of the C++ standard, the sort phase of the
constructor (index fill `0 .. n-1`, `ds`, `ds2`) returns, and the suffix array it
returns is a permutation of `[0, n)`: it has length `n` and holds every position
below `n` exactly once.  The index of every object the constructor returns is that
list. -/
theorem constructor_sa_is_permutation {α : Type} [LinearOrder α] (std_sort : sorter)
    (S : List α) (hsort : sort_contract std_sort) (hn : 2 ≤ S.length)
    (hs : valid_sentinel S) :
    (∃ sa, ds std_sort S (List.range S.length) = .ok sa ∧
      sa.Perm (List.range S.length) ∧
      sa.length = S.length ∧ ∀ i, i < S.length → sa.count i = 1) ∧
    ∀ s, suffixarray.build std_sort S = .ok s → s.idx.Perm (List.range S.length) := by
  obtain ⟨sa, hsa, hp⟩ := ds_ok hsort hs hn
  refine ⟨⟨sa, hsa, hp, by rw [hp.length_eq, List.length_range], ?_⟩, ?_⟩
  · intro i hi
    rw [hp.count_eq]
    exact List.count_eq_one_of_mem (List.nodup_range _) (List.mem_range.2 hi)
  · intro s hb
    have h := (build_idx hb).1
    rw [hsa] at h
    injection h with h
    rw [← h]
    exact hp

/-- Witness for C2 on the sequence `1 2 1 9`, with the insertion sort `sort`. -/
theorem constructor_sa_is_permutation_witness :
    (sort_contract sort ∧ 2 ≤ [1, 2, 1, 9].length ∧ valid_sentinel [1, 2, 1, 9]) ∧
    ((∃ sa, ds sort [1, 2, 1, 9] (List.range [1, 2, 1, 9].length) = .ok sa ∧
        sa.Perm (List.range [1, 2, 1, 9].length) ∧
        sa.length = [1, 2, 1, 9].length ∧ ∀ i, i < [1, 2, 1, 9].length → sa.count i = 1) ∧
      ∀ s, suffixarray.build sort [1, 2, 1, 9] = .ok s →
        s.idx.Perm (List.range [1, 2, 1, 9].length)) :=
  ⟨⟨sort_meets_contract, by decide, by decide⟩,
    constructor_sa_is_permutation sort [1, 2, 1, 9] sort_meets_contract (by decide)
      (by decide)⟩

/-- C3: on the valid-sentinel sequence `2 2 2 1 9` the constructor returns an index
whose suffix array is `3 2 0 1 4` and whose `getlcp(1)` is 1, whereas the suffixes
at `SA[0] = 3` and `SA[1] = 2` have no common first element. -/
theorem build_lcp_wrong_after_unsorted_bucket :
    ∃ sa, suffixarray.build sort [2, 2, 2, 1, 9] = .ok sa ∧ sa.idx = [3, 2, 0, 1, 4] ∧
      sa.tabs.getlcp 1 = .ok 1 ∧
      lcp_len ([2, 2, 2, 1, 9].drop 3) ([2, 2, 2, 1, 9].drop 2) = 0 :=
  ⟨_, rfl, rfl, rfl, rfl⟩

/-- C4: for every index the constructor builds, with any `std::sort` that meets the
contract of the C++ standard, from a valid-sentinel sequence `S` (of fewer than `2^31`
elements, the range in which the offsets of the tables are exact) and whose suffix
array is in suffix order, and for every non-empty pattern `w` (of fewer than `2^63`
elements) that does not hold the wildcard, `find_all_positions` returns a list without
repetition that holds exactly the positions `p` with `p + |w| ≤ n` and
`S[p + d] = w[d]` for all `d < |w|`. -/
theorem find_all_positions_exact {α : Type} [LinearOrder α] (std_sort : sorter)
    (S : List α) (s : suffixarray α) (w : List α) (wildcard : α)
    (hsort : sort_contract std_sort) (hv : valid_sentinel S) (hn : S.length < 2 ^ 31)
    (hb : suffixarray.build std_sort S = .ok s) (hs : suffix_sorted S s.idx) (hw0 : w ≠ [])
    (hw : w.length < 2 ^ 63) (hwc : wildcard ∉ w) :
    ∃ r, s.find_all_positions w wildcard = .ok r ∧ r.Nodup ∧
      ∀ (p : Nat), p ∈ r ↔ occurs_at S w p := by
  obtain ⟨L, U, D, N, h⟩ := build_tables hsort hv (build_length hsort hv hb) hn hb hs
  exact find_all_positions_spec h hw0 hw hwc

/-- Witness for C4 on the index `0 2 1 3` built for `1 2 1 9`, with the pattern `1`
(wildcard 0): the result is `[0, 2]`. -/
theorem find_all_positions_exact_witness :
    ∃ s : suffixarray Nat, suffixarray.build sort [1, 2, 1, 9] = .ok s ∧
      s.find_all_positions [1] 0 = .ok [0, 2] ∧
      (sort_contract sort ∧ valid_sentinel [1, 2, 1, 9] ∧ [1, 2, 1, 9].length < 2 ^ 31 ∧
        suffix_sorted [1, 2, 1, 9] s.idx ∧ [1] ≠ [] ∧ [1].length < 2 ^ 63 ∧ 0 ∉ [1]) ∧
      ∃ r, s.find_all_positions [1] 0 = .ok r ∧ r.Nodup ∧
        ∀ (p : Nat), p ∈ r ↔ occurs_at [1, 2, 1, 9] [1] p :=
  ⟨_, rfl, rfl,
    ⟨sort_meets_contract, by decide, by decide, by decide, by decide, by decide, by decide⟩,
    find_all_positions_exact sort [1, 2, 1, 9] _ [1] 0 sort_meets_contract (by decide)
      (by decide) rfl (by decide) (by decide) (by decide) (by decide)⟩

/-- C5: on the index the constructor builds for `2 2 2 1 9`, the query for the
one-element pattern `S[0..1) = 2` returns the empty list, so position 0 is missing. -/
theorem build_query_misses_position :
    ∃ sa, suffixarray.build sort [2, 2, 2, 1, 9] = .ok sa ∧
      sa.find_all_positions (([2, 2, 2, 1, 9].drop 0).take 1) 0 = .ok [] :=
  ⟨_, rfl, rfl⟩

/-- C6: the end-to-end scenarios 1 to 5: `main` on the corpus and the query line
prints the listed count. -/
theorem main_scenarios :
    main_query sort (bytes "a b a b a") (bytes "a b") = .ok 2 ∧
    main_query sort (bytes "a b a b a") (bytes "a") = .ok 3 ∧
    main_query sort (bytes "a b a b a") (bytes "a b a b a") = .ok 1 ∧
    main_query sort (bytes "a b a b a") (bytes "b b") = .ok 0 ∧
    main_query sort (bytes "the cat sat on the mat") (bytes "the") = .ok 2 :=
  ⟨rfl, rfl, rfl, rfl, rfl⟩

/-- C7: for every index the constructor builds, with any `std::sort` that meets the
contract of the C++ standard, from a valid-sentinel sequence `S` (of fewer than `2^31`
elements) and whose suffix array is in suffix order, and for every non-empty pattern
`w` (of fewer than `2^63` elements) that does not hold the wildcard, `find_position`
throws `StringNotFound` if and only if `w` occurs nowhere in `S`, and otherwise it
returns a position at which `w` occurs. -/
theorem find_position_found_iff {α : Type} [LinearOrder α] (std_sort : sorter)
    (S : List α) (s : suffixarray α) (w : List α) (wildcard : α)
    (hsort : sort_contract std_sort) (hv : valid_sentinel S) (hn : S.length < 2 ^ 31)
    (hb : suffixarray.build std_sort S = .ok s) (hs : suffix_sorted S s.idx) (hw0 : w ≠ [])
    (hw : w.length < 2 ^ 63) (hwc : wildcard ∉ w) :
    (s.find_position w wildcard = .error .StringNotFound ↔ ∀ (p : Nat), ¬ occurs_at S w p) ∧
    ((∃ p, occurs_at S w p) → ∃ p, s.find_position w wildcard = .ok p ∧ occurs_at S w p) := by
  obtain ⟨L, U, D, N, h⟩ := build_tables hsort hv (build_length hsort hv hb) hn hb hs
  rcases find_position_spec h hw0 hw hwc with ⟨h1, h2⟩ | ⟨p, h1, h2⟩
  · refine ⟨⟨fun _ => h2, fun _ => h1⟩, ?_⟩
    rintro ⟨p, hp⟩
    exact absurd hp (h2 p)
  · refine ⟨⟨?_, ?_⟩, fun _ => ⟨p, h1, h2⟩⟩
    · intro he
      rw [h1] at he
      cases he
    · intro hno
      exact absurd h2 (hno p)

/-- Witness for C7 on the index built for `1 2 1 9`, with the pattern `1`
(wildcard 0): `find_position` returns 0. -/
theorem find_position_found_iff_witness :
    ∃ s : suffixarray Nat, suffixarray.build sort [1, 2, 1, 9] = .ok s ∧
      s.find_position [1] 0 = .ok 0 ∧
      (sort_contract sort ∧ valid_sentinel [1, 2, 1, 9] ∧ [1, 2, 1, 9].length < 2 ^ 31 ∧
        suffix_sorted [1, 2, 1, 9] s.idx ∧ [1] ≠ [] ∧ [1].length < 2 ^ 63 ∧ 0 ∉ [1]) ∧
      (s.find_position [1] 0 = .error .StringNotFound ↔
        ∀ (p : Nat), ¬ occurs_at [1, 2, 1, 9] [1] p) ∧
      ((∃ p, occurs_at [1, 2, 1, 9] [1] p) →
        ∃ p, s.find_position [1] 0 = .ok p ∧ occurs_at [1, 2, 1, 9] [1] p) :=
  ⟨_, rfl, rfl,
    ⟨sort_meets_contract, by decide, by decide, by decide, by decide, by decide, by decide⟩,
    find_position_found_iff sort [1, 2, 1, 9] _ [1] 0 sort_meets_contract (by decide)
      (by decide) rfl (by decide) (by decide) (by decide) (by decide)⟩

/-- C8: on the index built for `1 9`, the pattern of two wildcards is reported at
positions 0 and 1, although it does not fit into the sequence at position 1: the
second wildcard is matched past the end. -/
theorem wildcard_matches_past_end :
    ∃ sa, suffixarray.build sort [1, 9] = .ok sa ∧ sa.idx = [0, 1] ∧
      sa.find_all_positions [0, 0] 0 = .ok [0, 1] ∧
      ¬ matches_at [1, 9] [0, 0] 0 1 :=
  ⟨_, rfl, rfl, rfl, by decide⟩

/-- C9: on the index built for `1 9` (`n = 2`), the count for the pattern of `k = 2`
wildcards is 2, not `n - k + 1 = 1`. -/
theorem wildcard_count_ignores_length :
    ∃ sa, suffixarray.build sort [1, 9] = .ok sa ∧
      sa.find_all_positions_count (List.replicate 2 0) 0 = .ok 2 ∧
      [1, 9].length - 2 + 1 = 1 :=
  ⟨_, rfl, rfl, rfl⟩

/-- C10: on an index built by the constructor, with any `std::sort` that meets the
contract of the C++ standard, from a valid-sentinel sequence of length `n` (at least
2, below `2 ^ 64`), the empty pattern makes the traversal loop run zero times:
`find_all_positions_count` returns `n`, `find_all_positions` returns
the whole suffix array, which holds every position of `[0, n)` exactly once, and
`find_position` returns `SA[0]` without raising. -/
theorem empty_pattern_on_built_index {α : Type} [LinearOrder α] (std_sort : sorter)
    (S : List α) (s : suffixarray α) (wildcard : α) (hsort : sort_contract std_sort)
    (hn : 2 ≤ S.length) (hlen : S.length < 2 ^ 64)
    (hs : valid_sentinel S) (hb : suffixarray.build std_sort S = .ok s) :
    s.find_all_positions_count [] wildcard = .ok S.length ∧
    (s.find_all_positions [] wildcard = .ok s.idx ∧ s.idx.Perm (List.range S.length)) ∧
    (∃ x, s.idx[0]? = some x ∧ s.find_position [] wildcard = .ok x) := by
  obtain ⟨sa, hsa, hp⟩ := ds_ok hsort hs hn
  have h := (build_idx hb).1
  rw [hsa] at h
  injection h with h
  subst h
  have hl : s.idx.length = S.length := by rw [hp.length_eq, List.length_range]
  obtain ⟨h1, h2, h3⟩ := empty_pattern_results s wildcard (by omega)
    (by rw [hl]; exact hlen)
  refine ⟨by rw [h1, hl], ⟨h2, hp⟩, s.idx[0], List.getElem?_eq_getElem (by omega), ?_⟩
  rw [h3]
  exact vec_at_of_lt (by omega)

/-- Witness for C10 on the index built for `1 2 1 9`. -/
theorem empty_pattern_on_built_index_witness :
    ∃ s, (sort_contract sort ∧ 2 ≤ [1, 2, 1, 9].length ∧ [1, 2, 1, 9].length < 2 ^ 64 ∧
      valid_sentinel [1, 2, 1, 9] ∧ suffixarray.build sort [1, 2, 1, 9] = .ok s) ∧
      (s.find_all_positions_count [] 0 = .ok [1, 2, 1, 9].length ∧
      (s.find_all_positions [] 0 = .ok s.idx ∧
        s.idx.Perm (List.range [1, 2, 1, 9].length)) ∧
      (∃ x, s.idx[0]? = some x ∧ s.find_position [] 0 = .ok x)) :=
  Exists.elim (show ∃ s, suffixarray.build sort [1, 2, 1, 9] = .ok s from ⟨_, rfl⟩) fun s h =>
    ⟨s, ⟨sort_meets_contract, by decide, by decide, by decide, h⟩,
      empty_pattern_on_built_index sort [1, 2, 1, 9] s 0 sort_meets_contract (by decide)
        (by decide) (by decide) h⟩

/-- C11: on the index the constructor builds for `2 2 2 1 9`, the pattern
`S[0..n-1) = 2 2 2 1` (the whole corpus without the sentinel, no wildcard in it) is
not found: `find_all_positions` returns the empty list and the count is 0. -/
theorem build_whole_corpus_not_found :
    ∃ sa, suffixarray.build sort [2, 2, 2, 1, 9] = .ok sa ∧
      sa.find_all_positions ([2, 2, 2, 1, 9].take 4) 0 = .ok [] ∧
      sa.find_all_positions_count ([2, 2, 2, 1, 9].take 4) 0 = .ok 0 :=
  ⟨_, rfl, rfl, rfl⟩

/-- C12: on the index built for `1 9` (`n = 2`), the pattern of three wildcards is
longer than the corpus, and yet `find_all_positions` returns the positions 0 and 1
and the count is 2. -/
theorem overlong_wildcard_pattern_found :
    ∃ sa, suffixarray.build sort [1, 9] = .ok sa ∧ [1, 9].length < [0, 0, 0].length ∧
      sa.find_all_positions [0, 0, 0] 0 = .ok [0, 1] ∧
      sa.find_all_positions_count [0, 0, 0] 0 = .ok 2 :=
  ⟨_, rfl, by decide, rfl, rfl⟩

/-- C16: on the index built for `1 9`, the skip-gram with the parts `1` and `5` has
an empty position list for its second part; the walk dereferences the iterator of
that empty list at once, which is a read past the end of the vector. -/
theorem skip_reads_empty_list :
    ∃ sa, suffixarray.build sort [1, 9] = .ok sa ∧
      sa.find_all_positions [1] 0 = .ok [0] ∧ sa.find_all_positions [5] 0 = .ok [] ∧
      sa.find_all_positions_skip [[1], [5]] 0 3 0 = .error .ub :=
  ⟨_, rfl, rfl, rfl, rfl⟩

/-- C17: on the index built for `1 2 9`, the skip-gram with the parts `1 2` and `2`
and skips in `(0, 1]` is reported at position 0, although the only occurrence of the
second part starts at 1, inside the occurrence `[0, 2)` of the first part: the walk
compares start positions and does not look at the sizes of the parts. -/
theorem skip_ignores_part_sizes :
    ∃ sa, suffixarray.build sort [1, 2, 9] = .ok sa ∧
      sa.find_all_positions [1, 2] 0 = .ok [0] ∧ sa.find_all_positions [2] 0 = .ok [1] ∧
      sa.find_all_positions_skip [[1, 2], [2]] 0 1 0 = .ok [0] ∧
      ¬ (0 + [1, 2].length ≤ 1) :=
  ⟨_, rfl, rfl, rfl, rfl, by decide⟩

/-- C19: a position that is set twice with values that overflow keeps the first
value: after `setlcp(0, 300)` and `setlcp(0, 400)` the getter returns 300, and after
`setup(0, 200)` and `setup(0, 300)` it returns 200 (`std::map::insert` does not
replace an entry). -/
theorem second_overflow_value_is_lost :
    ((childtabs.init_tabs 1).setlcp 0 300 >>= fun t => t.setlcp 0 400 >>= fun t =>
      t.getlcp 0) = .ok 300 ∧
    ((childtabs.init_tabs 1).setup 0 200 >>= fun t => t.setup 0 300 >>= fun t =>
      t.getup 0) = .ok 200 :=
  ⟨rfl, rfl⟩

/-- C20: on a table initialised with size 3, every getter called with `pos = 3`
throws `std::out_of_range` (the guard is `pos > size`), while `pos = 4` gives
`undefined`. -/
theorem getter_at_size_throws :
    (childtabs.init_tabs 3).getlcp 3 = .error .out_of_range ∧
    (childtabs.init_tabs 3).getup 3 = .error .out_of_range ∧
    (childtabs.init_tabs 3).getdown 3 = .error .out_of_range ∧
    (childtabs.init_tabs 3).getnextl 3 = .error .out_of_range ∧
    (childtabs.init_tabs 3).getlcp 4 = .ok undefined :=
  ⟨rfl, rfl, rfl, rfl, rfl⟩

/-- C13 (as stated): on the index state that holds no suffix array (the content is
empty, the tables are initialised with size 0), the count for the empty pattern is 0
while `find_all_positions` throws `std::out_of_range`: the root interval is
`[0, 2^64 - 1]`, its size wraps to 0, and listing it reads `idx.at(0)`. -/
theorem count_without_list_on_empty_index :
    (suffixarray.mk ([] : List Nat) (childtabs.init_tabs 0) []).find_all_positions_count [] 0 =
      .ok 0 ∧
    (suffixarray.mk ([] : List Nat) (childtabs.init_tabs 0) []).find_all_positions [] 0 =
      .error .out_of_range :=
  ⟨rfl, rfl⟩

/-- C13 (amended): for every index state with fewer than `2 ^ 64` entries, every
pattern and every wildcard: when the traversal that both members run ends with the
intervals `ts`, each `[i, j]` of them with `i ≤ j < n`, then `find_all_positions`
returns a list and `find_all_positions_count` returns the length of that list (as a
`size_type`). -/
theorem count_is_length_of_list {α : Type} [DecidableEq α] [LT α]
    [DecidableRel (fun (a b : α) => a < b)] (s : suffixarray α) (w : List α) (wildcard : α)
    (ts : List interval) (hlen : s.idx.length < 2 ^ 64)
    (hd : suffixarray.descend s w wildcard w.length 0 [suffixarray.getRootInterval s] = .ok ts)
    (hts : ∀ c ∈ ts, c.i ≤ c.j ∧ c.j < s.idx.length) :
    ∃ r, s.find_all_positions w wildcard = .ok r ∧
      s.find_all_positions_count w wildcard = .ok (r.length % 2 ^ 64) :=
  count_eq_length s w wildcard ts hlen hd hts

/-- Witness for C13 (amended) on the index `0 2 1 3` built for the sequence
`1 2 1 9`, with the pattern `1`: the traversal ends with the interval `[0, 1]`. -/
theorem count_is_length_of_list_witness :
    ∃ s : suffixarray Nat, suffixarray.build sort [1, 2, 1, 9] = .ok s ∧
      (s.idx.length < 2 ^ 64 ∧
        suffixarray.descend s [1] 0 [1].length 0 [suffixarray.getRootInterval s] =
          .ok [⟨0, 1⟩] ∧
        ∀ c ∈ [interval.mk 0 1], c.i ≤ c.j ∧ c.j < s.idx.length) ∧
      ∃ r, s.find_all_positions [1] 0 = .ok r ∧
        s.find_all_positions_count [1] 0 = .ok (r.length % 2 ^ 64) :=
  ⟨_, rfl, ⟨by decide, rfl, by decide⟩,
    count_is_length_of_list _ [1] 0 [⟨0, 1⟩] (by decide) rfl (by decide)⟩

/-- C14 (as stated): on the index built for `1 2 3 9`, the parts `2` and `3` have the
position lists `[1]` and `[2]`; with `minskip = 2^64 - 1` and `maxskip = 5` the walk
returns position 1, although the only gap there is, `2 - 1`, is not greater than
`minskip`: the sum `1 + minskip` wraps to 0 in `size_type`. -/
theorem skip_minskip_wraps :
    ∃ sa, suffixarray.build sort [1, 2, 3, 9] = .ok sa ∧
      suffixarray.skip_subgrams sa 0 [[2], [3]] = .ok [[1], [2]] ∧
      sa.find_all_positions_skip [[2], [3]] (2 ^ 64 - 1) 5 0 = .ok [1] ∧
      ¬ ∃ xs, skip_chain (gap_ok (2 ^ 64 - 1) 5) [[1], [2]] xs ∧ xs[0]? = some 1 := by
  refine ⟨_, rfl, rfl, rfl, ?_⟩
  rintro ⟨xs, hc, hx⟩
  obtain ⟨y, hy, hy2⟩ := skip_chain_get hc (show [[1], [2]][1]? = some [2] from rfl)
  have := hc.2.2 0 1 y hx hy
  unfold gap_ok at this
  simp at hy2
  subst hy2
  omega

/-- C14 (amended): for every index state and every list of `k ≥ 2` parts whose
position lists `P1 .. Pk` (for each part the ascending permutation of what
`find_all_positions` returns) are all non-empty, and with no `p + minskip` wrapping
around `2^64`: `find_all_positions_skip` returns, every position `p` it returns is
in `P1` and starts a chain `q1 = p, q2 ∈ P2, .., qk ∈ Pk` with
`minskip < q_{m+1} - q_m ≤ maxskip`; the returned list is a sublist of `P1`, so it is
ascending, and strictly ascending when `P1` holds no position twice. -/
theorem skip_walk_sound {α : Type} [DecidableEq α] [LT α]
    [DecidableRel (fun (a b : α) => a < b)] (s : suffixarray α) (parts : List (List α))
    (minskip maxskip : Nat) (wildcard : α) (idx : List (List Nat)) (hk : 2 ≤ parts.length)
    (hidx : suffixarray.skip_subgrams s wildcard parts = .ok idx)
    (hne : ∀ P ∈ idx, P ≠ []) (hmin : ∀ P ∈ idx, ∀ p ∈ P, p + minskip < 2 ^ 64) :
    List.Forall₂ (fun part P => ∃ Q, s.find_all_positions part wildcard = .ok Q ∧
      P.Perm Q ∧ P.Pairwise (fun a b => a ≤ b)) parts idx ∧
    ∃ r P1, s.find_all_positions_skip parts minskip maxskip wildcard = .ok r ∧
      idx[0]? = some P1 ∧
      (∀ p ∈ r, p ∈ P1 ∧ ∃ xs, skip_chain (gap_ok minskip maxskip) idx xs ∧ xs[0]? = some p) ∧
      r.Sublist P1 ∧ r.Pairwise (fun a b => a ≤ b) ∧
      (P1.Nodup → r.Pairwise (fun a b => a < b)) := by
  have hf := skip_subgrams_spec s wildcard parts idx hidx
  obtain ⟨r, hr, hsub, hsound, _⟩ := skip_walk_spec s parts minskip maxskip wildcard idx hk hidx hne
  have hlen : idx.length = parts.length := hf.length_eq.symm
  have h0 : 0 < idx.length := by omega
  have hP1 : idx[0]? = some idx[0] := List.getElem?_eq_getElem h0
  have hs1 : idx[0].Pairwise (fun a b => a ≤ b) := by
    obtain ⟨Q, _, _, hs⟩ := List.Forall₂.get hf (by omega : 0 < parts.length) h0
    exact hs
  have hsl := hsub _ hP1
  have hle : r.Pairwise (fun a b => a ≤ b) := hs1.sublist hsl
  refine ⟨hf, r, idx[0], hr, hP1, ?_, hsl, hle, ?_⟩
  · intro p hp
    obtain ⟨xs, hc, hx⟩ := hsound p hp
    exact ⟨hsl.subset hp, xs, chain_test_ok hmin hc, hx⟩
  · intro hnd
    have hnd2 : r.Pairwise (fun a b => a ≠ b) := hnd.sublist hsl
    exact (hle.and hnd2).imp (fun h => Nat.lt_of_le_of_ne h.1 h.2)

/-- Witness for C14 (amended): scenario 7, the corpus `a b c d e a b c d e` (as
`1 2 3 4 5 1 2 3 4 5` with the sentinel 9), the parts `a` and `c`, `minskip = 1`,
`maxskip = 3`; the member returns `[0, 5]`. -/
theorem skip_walk_sound_witness :
    ∃ s : suffixarray Nat, suffixarray.build sort [1, 2, 3, 4, 5, 1, 2, 3, 4, 5, 9] = .ok s ∧
      s.find_all_positions_skip [[1], [3]] 1 3 0 = .ok [0, 5] ∧
      (2 ≤ [[1], [3]].length ∧
        suffixarray.skip_subgrams s 0 [[1], [3]] = .ok [[0, 5], [2, 7]] ∧
        (∀ P ∈ [[0, 5], [2, 7]], P ≠ []) ∧
        ∀ P ∈ [[0, 5], [2, 7]], ∀ p ∈ P, p + 1 < 2 ^ 64) ∧
      (List.Forall₂ (fun part P => ∃ Q, s.find_all_positions part 0 = .ok Q ∧
          P.Perm Q ∧ P.Pairwise (fun a b => a ≤ b)) [[1], [3]] [[0, 5], [2, 7]] ∧
        ∃ r P1, s.find_all_positions_skip [[1], [3]] 1 3 0 = .ok r ∧
          [[0, 5], [2, 7]][0]? = some P1 ∧
          (∀ p ∈ r, p ∈ P1 ∧
            ∃ xs, skip_chain (gap_ok 1 3) [[0, 5], [2, 7]] xs ∧ xs[0]? = some p) ∧
          r.Sublist P1 ∧ r.Pairwise (fun a b => a ≤ b) ∧
          (P1.Nodup → r.Pairwise (fun a b => a < b))) :=
  ⟨_, rfl, rfl, ⟨by decide, rfl, by decide, by decide⟩,
    skip_walk_sound _ [[1], [3]] 1 3 0 [[0, 5], [2, 7]] (by decide) rfl (by decide)
      (by decide)⟩

/-- C15 (as stated): on the index built for `3 1 2 9`, the parts `1` and `2` have the
position lists `[1]` and `[2]`; with `minskip = 0` and `maxskip = 2^64 - 1` the
positions 1 and 2 form a chain (the gap 1 is in `(0, 2^64 - 1]`), and yet the walk
returns the empty list: the sum `1 + maxskip` wraps to 0 in `size_type`. -/
theorem skip_maxskip_wraps :
    ∃ sa, suffixarray.build sort [3, 1, 2, 9] = .ok sa ∧
      suffixarray.skip_subgrams sa 0 [[1], [2]] = .ok [[1], [2]] ∧
      sa.find_all_positions_skip [[1], [2]] 0 (2 ^ 64 - 1) 0 = .ok [] ∧
      skip_chain (gap_ok 0 (2 ^ 64 - 1)) [[1], [2]] [1, 2] := by
  refine ⟨_, rfl, rfl, rfl, rfl, ?_, ?_⟩
  · intro m P x hP hx
    match m with
    | 0 => simp at hP hx; subst hP; subst hx; simp
    | 1 => simp at hP hx; subst hP; subst hx; simp
    | m + 2 => simp at hP
  · intro m x y hx hy
    match m with
    | 0 => simp at hx hy; subst hx; subst hy; unfold gap_ok; omega
    | m + 1 => simp at hy

/-- C15 (amended): for every index state and every list of `k ≥ 2` parts whose
position lists `P1 .. Pk` are all non-empty, and with no `p + maxskip` wrapping
around `2^64`: `find_all_positions_skip` returns, and the list it returns holds every
`p` that starts a chain `q1 = p ∈ P1, q2 ∈ P2, .., qk ∈ Pk` with
`minskip < q_{m+1} - q_m ≤ maxskip`. -/
theorem skip_walk_complete {α : Type} [DecidableEq α] [LT α]
    [DecidableRel (fun (a b : α) => a < b)] (s : suffixarray α) (parts : List (List α))
    (minskip maxskip : Nat) (wildcard : α) (idx : List (List Nat)) (hk : 2 ≤ parts.length)
    (hidx : suffixarray.skip_subgrams s wildcard parts = .ok idx)
    (hne : ∀ P ∈ idx, P ≠ []) (hmax : ∀ P ∈ idx, ∀ p ∈ P, p + maxskip < 2 ^ 64) :
    ∃ r, s.find_all_positions_skip parts minskip maxskip wildcard = .ok r ∧
      ∀ xs p, skip_chain (gap_ok minskip maxskip) idx xs → xs[0]? = some p → p ∈ r := by
  obtain ⟨r, hr, _, _, hcomp⟩ := skip_walk_spec s parts minskip maxskip wildcard idx hk hidx hne
  exact ⟨r, hr, hcomp hmax⟩

/-- Witness for C15 (amended) on the index built for `1 2 3 1 3 9`, with the parts
`1` and `3`, `minskip = 0`, `maxskip = 2`; the member returns `[0, 3]`. -/
theorem skip_walk_complete_witness :
    ∃ s : suffixarray Nat, suffixarray.build sort [1, 2, 3, 1, 3, 9] = .ok s ∧
      s.find_all_positions_skip [[1], [3]] 0 2 0 = .ok [0, 3] ∧
      (2 ≤ [[1], [3]].length ∧
        suffixarray.skip_subgrams s 0 [[1], [3]] = .ok [[0, 3], [2, 4]] ∧
        (∀ P ∈ [[0, 3], [2, 4]], P ≠ []) ∧
        ∀ P ∈ [[0, 3], [2, 4]], ∀ p ∈ P, p + 2 < 2 ^ 64) ∧
      ∃ r, s.find_all_positions_skip [[1], [3]] 0 2 0 = .ok r ∧
        ∀ xs p, skip_chain (gap_ok 0 2) [[0, 3], [2, 4]] xs → xs[0]? = some p → p ∈ r :=
  ⟨_, rfl, rfl, ⟨by decide, rfl, by decide, by decide⟩,
    skip_walk_complete _ [[1], [3]] 0 2 0 [[0, 3], [2, 4]] (by decide) rfl (by decide)
      (by decide)⟩

/-- C18: with no part `find_all_positions_skip` returns the empty list; with the
single part `w1` it returns the ascending permutation of the list that
`find_all_positions(w1, wildcard)` returns (and throws what that call throws),
whatever `minskip` and `maxskip` are; `find_all_positions_skip_count` returns the
length of the list that `find_all_positions_skip` returns on the same arguments. -/
theorem skip_with_few_parts {α : Type} [DecidableEq α] [LT α]
    [DecidableRel (fun (a b : α) => a < b)] (s : suffixarray α) (w1 : List α)
    (w : List (List α)) (minskip maxskip : Nat) (wildcard : α) :
    s.find_all_positions_skip [] minskip maxskip wildcard = .ok [] ∧
    (match s.find_all_positions w1 wildcard with
      | .ok P => ∃ r, s.find_all_positions_skip [w1] minskip maxskip wildcard = .ok r ∧
          r.Perm P ∧ r.Pairwise (fun a b => a ≤ b)
      | .error e => s.find_all_positions_skip [w1] minskip maxskip wildcard = .error e) ∧
    s.find_all_positions_skip_count w minskip maxskip wildcard =
      (s.find_all_positions_skip w minskip maxskip wildcard).map List.length := by
  refine ⟨skip_no_part s minskip maxskip wildcard, ?_, skip_count_eq s w minskip maxskip wildcard⟩
  rw [skip_one_part]
  cases s.find_all_positions w1 wildcard with
  | error e => rfl
  | ok P =>
    obtain ⟨r, hr, hp, hs⟩ := sort_lt_sorted P
    exact ⟨r, hr, hp, hs⟩

end ns_suffixarray


set_option linter.unusedSectionVars false
set_option linter.unusedVariables false

namespace ns_suffixarray

open suffixarray

/-- C21: the index built for `1 2 1 9` is written by `savesarray` as four lines; the
loading constructor, given the same sequence and that text, throws `out_of_range` at
the first line: it sizes the tables but leaves the suffix array empty, so that
`idx.at(0) = 0` in `processline` is outside the vector. -/
theorem saved_index_does_not_load :
    valid_sentinel [1, 2, 1, 9] ∧
    ∃ s : suffixarray Nat, suffixarray.build sort [1, 2, 1, 9] = .ok s ∧
      s.savesarray = .ok
        "0\t0\t0\t-\t1\t2\t\n1\t2\t1\t-\t-\t-\t\n2\t1\t0\t1\t-\t3\t\n3\t3\t0\t-\t-\t-\t\n".toList ∧
      (suffixarray.load [1, 2, 1, 9] (some
        "0\t0\t0\t-\t1\t2\t\n1\t2\t1\t-\t-\t-\t\n2\t1\t0\t1\t-\t3\t\n3\t3\t0\t-\t-\t-\t\n".toList) :
          Except Exn (suffixarray Nat)) = .error .out_of_range ∧
      ∃ s0 : suffixarray Nat, suffixarray.load [1, 2, 1, 9] none = .ok s0 ∧ s0.idx = [] ∧
        s0.processline "0\t0\t0\t-\t1\t2\t".toList = .error .out_of_range :=
  ⟨by decide, _, rfl, rfl, rfl, _, rfl, rfl, rfl⟩

/-- C22: on a state with `n < 2 ^ 31` positions at which the four getters return the
values `l i`, `u i`, `d i` and `x i`, `print` (and so `savesarray`) writes the lines of
the positions `0 .. n - 1` in this order and nothing else; the line of `i` is made of
the fields `i`, `SA[i]`, `LCP[i]`, `up[i]`, `down[i]`, `nextl[i]`, each followed by a
tab, and a newline; a table field is `-` exactly when the getter returned
"undefined" and is the decimal number otherwise; numbers consist of digits, so the
text has exactly `n` newlines. -/
theorem print_writes_table {α : Type} [DecidableEq α] [LT α]
    [DecidableRel (fun (a b : α) => a < b)] (s : suffixarray α) (l u d x : Nat → Nat)
    (hn : s.idx.length < 2 ^ 31)
    (hl : ∀ (i : Nat), i < s.idx.length → s.tabs.getlcp i = .ok (l i))
    (hu : ∀ (i : Nat), i < s.idx.length → s.tabs.getup i = .ok (u i))
    (hd : ∀ (i : Nat), i < s.idx.length → s.tabs.getdown i = .ok (d i))
    (hx : ∀ (i : Nat), i < s.idx.length → s.tabs.getnextl i = .ok (x i)) :
    (∃ text, s.print = .ok text ∧ s.savesarray = .ok text ∧
      text = (List.range s.idx.length).flatMap (fun i =>
        Nat.toDigits 10 i ++ ['\t'] ++ Nat.toDigits 10 (s.idx.getD i 0) ++ ['\t']
          ++ table_field (l i) ++ ['\t'] ++ table_field (u i) ++ ['\t']
          ++ table_field (d i) ++ ['\t'] ++ table_field (x i) ++ ['\t'] ++ ['\n']) ∧
      text.count '\n' = s.idx.length) ∧
    (∀ (v : Nat), table_field v = ['-'] ↔ v = undefined) ∧
    (∀ (v : Nat), v ≠ undefined → table_field v = Nat.toDigits 10 v) ∧
    ∀ (v : Nat), ∀ c ∈ Nat.toDigits 10 v, 48 ≤ c.toNat ∧ c.toNat ≤ 57 := by
  refine ⟨⟨_, print_spec s l u d x hn hl hu hd hx, print_spec s l u d x hn hl hu hd hx,
    rfl, ?_⟩, table_field_dash, ?_, toDigits_digits⟩
  · rw [flatMap_count_newline _ (fun i => table_line_count_newline _ _ _ _ _ _),
      List.length_range]
  · intro v hv
    unfold table_field
    rw [if_neg hv]

/-- Witness for C22 on the index built for `1 2 1 9`: the four lines written. -/
theorem print_writes_table_witness :
    ∃ s : suffixarray Nat, suffixarray.build sort [1, 2, 1, 9] = .ok s ∧
      (s.idx.length < 2 ^ 31 ∧
        (∀ (i : Nat), i < s.idx.length → s.tabs.getlcp i = .ok ([0, 1, 0, 0].getD i 0)) ∧
        (∀ (i : Nat), i < s.idx.length →
          s.tabs.getup i = .ok ([undefined, undefined, 1, undefined].getD i 0)) ∧
        (∀ (i : Nat), i < s.idx.length →
          s.tabs.getdown i = .ok ([1, undefined, undefined, undefined].getD i 0)) ∧
        (∀ (i : Nat), i < s.idx.length →
          s.tabs.getnextl i = .ok ([2, undefined, 3, undefined].getD i 0))) ∧
      (∃ text, s.print = .ok text ∧ s.savesarray = .ok text ∧
        text =
          "0\t0\t0\t-\t1\t2\t\n1\t2\t1\t-\t-\t-\t\n2\t1\t0\t1\t-\t3\t\n3\t3\t0\t-\t-\t-\t\n".toList ∧
        text.count '\n' = s.idx.length) ∧
      (∀ (v : Nat), table_field v = ['-'] ↔ v = undefined) ∧
      (∀ (v : Nat), v ≠ undefined → table_field v = Nat.toDigits 10 v) ∧
      ∀ (v : Nat), ∀ c ∈ Nat.toDigits 10 v, 48 ≤ c.toNat ∧ c.toNat ≤ 57 :=
  ⟨_, rfl,
    ⟨by decide, fun i hi => by have h4 : i < 4 := hi; interval_cases i <;> rfl,
      fun i hi => by have h4 : i < 4 := hi; interval_cases i <;> rfl,
      fun i hi => by have h4 : i < 4 := hi; interval_cases i <;> rfl,
      fun i hi => by have h4 : i < 4 := hi; interval_cases i <;> rfl⟩,
    print_writes_table _ (fun i => [0, 1, 0, 0].getD i 0)
      (fun i => [undefined, undefined, 1, undefined].getD i 0)
      (fun i => [1, undefined, undefined, undefined].getD i 0)
      (fun i => [2, undefined, 3, undefined].getD i 0)
      (by decide) (fun i hi => by have h4 : i < 4 := hi; interval_cases i <;> rfl)
      (fun i hi => by have h4 : i < 4 := hi; interval_cases i <;> rfl)
      (fun i hi => by have h4 : i < 4 := hi; interval_cases i <;> rfl)
      (fun i hi => by have h4 : i < 4 := hi; interval_cases i <;> rfl)⟩

/-- C23: `processline` on a blank line, and on a line of three fields, reads an item
past the end of the split line (undefined behaviour); a file that is empty or holds
the short line `0<tab>-` makes the loading constructor do so. -/
theorem processline_reads_past_short_line :
    ∃ s : suffixarray Nat, suffixarray.build sort [1, 9] = .ok s ∧
      split_tabs [] [] [] = [] ∧
      s.processline [] = .error .ub ∧
      split_tabs "0\t0\t0".toList [] [] = [['0'], ['0'], ['0']] ∧
      s.processline "0\t0\t0".toList = .error .ub ∧
      (suffixarray.load [1, 9] (some []) : Except Exn (suffixarray Nat)) = .error .ub ∧
      (suffixarray.load [1, 9] (some "0\t-".toList) : Except Exn (suffixarray Nat)) =
        .error .ub :=
  ⟨_, rfl, rfl, rfl, rfl, rfl, rfl, rfl⟩

/-- C24, as stated: on the index built for `1 1 9` (suffix array `0 1 2`, lcp table
`0 1 0`) the interval `[1, 2]`, which is no lcp-interval, has `0 ≤ 1 < 2 < 3`, and
`getChildIntervals` returns `[1, 2^64 - 2], [2^64 - 1, 2]`: the first interval ends
before it starts and the second does not start at `b_0 + 1`. -/
theorem children_of_other_interval :
    valid_sentinel [1, 1, 9] ∧
    ∃ s : suffixarray Nat, suffixarray.build sort [1, 1, 9] = .ok s ∧ s.idx = [0, 1, 2] ∧
      s.tabs.getlcp 0 = .ok 0 ∧ s.tabs.getlcp 1 = .ok 1 ∧ s.tabs.getlcp 2 = .ok 0 ∧
      1 < 2 ∧ 2 < s.idx.length ∧
      s.getChildIntervals ⟨1, 2⟩ =
        .ok [⟨1, 18446744073709551614⟩, ⟨18446744073709551615, 2⟩] :=
  ⟨by decide, _, rfl, rfl, rfl, rfl, rfl, by decide, by decide, rfl⟩

/-- C24 (amended): for every index built, with any `std::sort` that meets the contract
of the C++ standard, from a valid-sentinel sequence of fewer than `2 ^ 31` elements,
whatever the order of its suffix array, and every lcp-interval
`[p, q]` of its lcp table `L` (the table `getlcp` returns), `getChildIntervals([p, q])`
returns a list that is not empty, whose first interval starts at `p`, whose last
interval ends at `q`, in which every interval has `a_t ≤ b_t` and every interval but
the first starts at `b_t + 1` of the one before. -/
theorem children_partition_of_lcp_interval {α : Type} [LinearOrder α]
    (std_sort : sorter) (S : List α)
    (s : suffixarray α) (L : Nat → Nat) (l p q : Nat) (hsort : sort_contract std_sort)
    (hv : valid_sentinel S)
    (hn : S.length < 2 ^ 31) (hb : suffixarray.build std_sort S = .ok s)
    (hL : ∀ (k : Nat), k < S.length → s.tabs.getlcp k = .ok (L k))
    (hi : lcp_interval L S.length l p q) :
    ∃ cs, s.getChildIntervals ⟨p, q⟩ = .ok cs ∧ cs ≠ [] ∧
      (∀ (c : interval), cs.head? = some c → c.i = p) ∧
      (∀ (c : interval), cs.getLast? = some c → c.j = q) ∧
      (∀ c ∈ cs, c.i ≤ c.j) ∧
      (∀ (t : Nat) (c c2 : interval), cs[t]? = some c → cs[t + 1]? = some c2 →
        c2.i = c.j + 1) := by
  obtain ⟨L0, U, D, N, hnav, _, _, _, _⟩ := build_nav hsort hv hn hb
  exact children_partition hnav (lcp_interval_congr (nav_getlcp_eq hnav hL) hi)

/-- Witness for C24 (amended) on the index built for `1 2 1 9` (suffix array `0 2 1 3`,
lcp table `0 1 0 0`) and its root `[0, 3]`, whose children are `[0, 1]`, `[2, 2]` and
`[3, 3]`. -/
theorem children_partition_of_lcp_interval_witness :
    ∃ s : suffixarray Nat, suffixarray.build sort [1, 2, 1, 9] = .ok s ∧
      s.getChildIntervals ⟨0, 3⟩ = .ok [⟨0, 1⟩, ⟨2, 2⟩, ⟨3, 3⟩] ∧
      (sort_contract sort ∧ valid_sentinel [1, 2, 1, 9] ∧ [1, 2, 1, 9].length < 2 ^ 31 ∧
        (∀ (k : Nat), k < [1, 2, 1, 9].length →
          s.tabs.getlcp k = .ok ([0, 1, 0, 0].getD k 0)) ∧
        lcp_interval (fun k => [0, 1, 0, 0].getD k 0) [1, 2, 1, 9].length 0 0 3) ∧
      ∃ cs, s.getChildIntervals ⟨0, 3⟩ = .ok cs ∧ cs ≠ [] ∧
        (∀ (c : interval), cs.head? = some c → c.i = 0) ∧
        (∀ (c : interval), cs.getLast? = some c → c.j = 3) ∧
        (∀ c ∈ cs, c.i ≤ c.j) ∧
        (∀ (t : Nat) (c c2 : interval), cs[t]? = some c → cs[t + 1]? = some c2 →
          c2.i = c.j + 1) :=
  ⟨_, rfl, rfl,
    ⟨sort_meets_contract, by decide, by decide,
      fun k hk => by have h4 : k < 4 := hk; interval_cases k <;> rfl,
      by decide, by decide, fun k h1 h2 => Nat.zero_le _, ⟨2, by decide, by decide, rfl⟩,
      Or.inr ⟨rfl, rfl⟩, Or.inr ⟨rfl, rfl⟩⟩,
    children_partition_of_lcp_interval sort [1, 2, 1, 9] _
      (fun k => [0, 1, 0, 0].getD k 0) 0 0 3
      sort_meets_contract (by decide) (by decide) (by rfl)
      (fun k hk => by have h4 : k < 4 := hk; interval_cases k <;> rfl)
      ⟨by decide, by decide, fun k h1 h2 => Nat.zero_le _, ⟨2, by decide, by decide, rfl⟩,
        Or.inr ⟨rfl, rfl⟩, Or.inr ⟨rfl, rfl⟩⟩⟩

/-- C25, as stated: on the index built for `1 2 9` (suffix array `0 1 2`, lcp table
`0 0 0`) the root `[0, 2]` has the child `[2, 2]` with `getlcp` 0, the value of the
root itself; and for the parent `[0, 1]`, which is no lcp-interval, `getlcp` returns
`2^64 - 1` while its children `[0, 0]` and `[1, 1]` have the values 2 and 1. -/
theorem child_lcp_not_greater :
    valid_sentinel [1, 2, 9] ∧
    ∃ s : suffixarray Nat, suffixarray.build sort [1, 2, 9] = .ok s ∧ s.idx = [0, 1, 2] ∧
      s.getChildIntervals ⟨0, 2⟩ = .ok [⟨0, 0⟩, ⟨1, 1⟩, ⟨2, 2⟩] ∧
      s.getlcp ⟨0, 2⟩ = .ok 0 ∧ s.getlcp ⟨2, 2⟩ = .ok 0 ∧
      s.getChildIntervals ⟨0, 1⟩ = .ok [⟨0, 0⟩, ⟨1, 1⟩] ∧
      s.getlcp ⟨0, 1⟩ = .ok 18446744073709551615 ∧
      s.getlcp ⟨0, 0⟩ = .ok 2 ∧ s.getlcp ⟨1, 1⟩ = .ok 1 :=
  ⟨by decide, _, rfl, rfl, rfl, rfl, rfl, rfl, rfl, rfl, rfl⟩

/-- C25 (amended): for every index built, with any `std::sort` that meets the contract
of the C++ standard, from a valid-sentinel sequence of `n < 2 ^ 31` elements,
whatever the order of its suffix array, and every lcp-interval `[p, q]` of
value `l` of its lcp table (the root among them), `getlcp([p, q])` returns `l` and every
interval `c` that `getChildIntervals([p, q])` returns has `getlcp(c) ≥ l`; the
inequality is strict when `c` has more than one position, and a child `[i, i]` of one
position has the value `n - SA[i] - 1`. -/
theorem child_lcp_at_least_parent {α : Type} [LinearOrder α] (std_sort : sorter)
    (S : List α)
    (s : suffixarray α) (L : Nat → Nat) (l p q : Nat) (hsort : sort_contract std_sort)
    (hv : valid_sentinel S)
    (hn : S.length < 2 ^ 31) (hb : suffixarray.build std_sort S = .ok s)
    (hL : ∀ (k : Nat), k < S.length → s.tabs.getlcp k = .ok (L k))
    (hi : lcp_interval L S.length l p q) :
    ∃ cs, s.getChildIntervals ⟨p, q⟩ = .ok cs ∧ s.getlcp ⟨p, q⟩ = .ok l ∧
      ∀ c ∈ cs, ∃ lc, s.getlcp c = .ok lc ∧ l ≤ lc ∧ (c.i < c.j → l < lc) ∧
        (c.i = c.j → ∀ (a : Nat), s.idx[c.i]? = some a → lc = S.length - a - 1) := by
  obtain ⟨L0, U, D, N, hnav, _, hp, hB1, hB2⟩ := build_nav hsort hv hn hb
  exact children_lcp hnav hp hB1 hB2 (lcp_interval_congr (nav_getlcp_eq hnav hL) hi)

/-- Witness for C25 (amended) on the index built for `1 2 1 9` and its lcp-interval
`[0, 1]` of value 1, whose children `[0, 0]` and `[1, 1]` have the values 3 and 1. -/
theorem child_lcp_at_least_parent_witness :
    ∃ s : suffixarray Nat, suffixarray.build sort [1, 2, 1, 9] = .ok s ∧
      s.getChildIntervals ⟨0, 1⟩ = .ok [⟨0, 0⟩, ⟨1, 1⟩] ∧
      s.getlcp ⟨0, 0⟩ = .ok 3 ∧ s.getlcp ⟨1, 1⟩ = .ok 1 ∧
      (sort_contract sort ∧ valid_sentinel [1, 2, 1, 9] ∧ [1, 2, 1, 9].length < 2 ^ 31 ∧
        (∀ (k : Nat), k < [1, 2, 1, 9].length →
          s.tabs.getlcp k = .ok ([0, 1, 0, 0].getD k 0)) ∧
        lcp_interval (fun k => [0, 1, 0, 0].getD k 0) [1, 2, 1, 9].length 1 0 1) ∧
      ∃ cs, s.getChildIntervals ⟨0, 1⟩ = .ok cs ∧ s.getlcp ⟨0, 1⟩ = .ok 1 ∧
        ∀ c ∈ cs, ∃ lc, s.getlcp c = .ok lc ∧ 1 ≤ lc ∧ (c.i < c.j → 1 < lc) ∧
          (c.i = c.j → ∀ (a : Nat), s.idx[c.i]? = some a →
            lc = [1, 2, 1, 9].length - a - 1) :=
  ⟨_, rfl, rfl, rfl, rfl,
    ⟨sort_meets_contract, by decide, by decide,
      fun k hk => by have h4 : k < 4 := hk; interval_cases k <;> rfl,
      by decide, by decide,
      fun k h1 h2 => by have h3 : k = 1 := by omega
                        subst h3; decide,
      ⟨1, by decide, by decide, rfl⟩, Or.inl (by decide), Or.inl ⟨by decide, by decide⟩⟩,
    child_lcp_at_least_parent sort [1, 2, 1, 9] _ (fun k => [0, 1, 0, 0].getD k 0) 1 0 1
      sort_meets_contract (by decide) (by decide) (by rfl)
      (fun k hk => by have h4 : k < 4 := hk; interval_cases k <;> rfl)
      ⟨by decide, by decide,
        fun k h1 h2 => by have h3 : k = 1 := by omega
                          subst h3; decide,
        ⟨1, by decide, by decide, rfl⟩, Or.inl (by decide), Or.inl ⟨by decide, by decide⟩⟩⟩

/-- C26: for every index built, with any `std::sort` that meets the contract of the C++
standard, from a valid-sentinel sequence of `n < 2 ^ 31` elements whose suffix array
is in suffix order, with `L` the lcp table `getlcp` returns, and
every interval `[i, j]`, `i < j < n`, on which `l` is the minimum of `L` over
`(i, j]`, with `L i < l` and `j = n - 1` or `L (j + 1) < l`, or which is the root
`[0, n - 1]`: `getlcp([i, j])` returns `l`; any two suffixes `SA[x]`, `SA[y]` of the
interval agree on their first `l` elements, two of them do not agree on `l + 1`
elements; and for the root `l = 0`. -/
theorem getlcp_of_lcp_interval {α : Type} [LinearOrder α] (std_sort : sorter)
    (S : List α)
    (s : suffixarray α) (L : Nat → Nat) (l i j : Nat) (hsort : sort_contract std_sort)
    (hv : valid_sentinel S)
    (hn : S.length < 2 ^ 31) (hb : suffixarray.build std_sort S = .ok s)
    (hs : suffix_sorted S s.idx)
    (hL : ∀ (k : Nat), k < S.length → s.tabs.getlcp k = .ok (L k))
    (hij : i < j) (hj : j < S.length)
    (hmin : ∀ (k : Nat), i < k → k ≤ j → l ≤ L k) (hex : ∃ k, i < k ∧ k ≤ j ∧ L k = l)
    (hends : (L i < l ∧ (j = S.length - 1 ∨ L (j + 1) < l)) ∨
      (i = 0 ∧ j = S.length - 1)) :
    s.getlcp ⟨i, j⟩ = .ok l ∧
    (∀ (x y a b : Nat), i ≤ x → x ≤ j → i ≤ y → y ≤ j → s.idx[x]? = some a →
      s.idx[y]? = some b → agree S a b l) ∧
    (∃ x y a b, i ≤ x ∧ x ≤ j ∧ i ≤ y ∧ y ≤ j ∧ s.idx[x]? = some a ∧
      s.idx[y]? = some b ∧ ¬ agree S a b (l + 1)) ∧
    (i = 0 ∧ j = S.length - 1 → l = 0) := by
  obtain ⟨L0, U, D, N, hok, hexact⟩ := build_tables_exact hsort hv hn hb hs
  have hnav := nav_of_index hok
  have hLL := nav_getlcp_eq hnav hL
  have hL0 : L 0 = 0 := by rw [hLL 0 (by have := hok.hn2; omega)]; exact hok.hL0
  have hLe : L (S.length - 1) = 0 := by
    rw [hLL (S.length - 1) (by have := hok.hn2; omega)]
    exact hok.hLend
  have hi := lcp_interval_of_min hL0 hLe hij hj hmin hex hends
  have hi0 := lcp_interval_congr hLL hi
  obtain ⟨hall, hsome⟩ := interval_common hok hexact hi0
  refine ⟨getlcp_interval hok hi0, hall, hsome, ?_⟩
  intro hroot
  have := hmin j hij (Nat.le_refl _)
  rw [hroot.2, hLe] at this
  omega

/-- Witness for C26 on the index built for `1 2 1 9` (suffix array `0 2 1 3`, lcp table
`0 1 0 0`) and the interval `[0, 1]` of value 1: the suffixes `1 2 1 9` and `1 9`. -/
theorem getlcp_of_lcp_interval_witness :
    ∃ s : suffixarray Nat, suffixarray.build sort [1, 2, 1, 9] = .ok s ∧
      (sort_contract sort ∧ valid_sentinel [1, 2, 1, 9] ∧ [1, 2, 1, 9].length < 2 ^ 31 ∧
        suffix_sorted [1, 2, 1, 9] s.idx ∧
        (∀ (k : Nat), k < [1, 2, 1, 9].length →
          s.tabs.getlcp k = .ok ([0, 1, 0, 0].getD k 0)) ∧
        0 < 1 ∧ 1 < [1, 2, 1, 9].length ∧
        (∀ (k : Nat), 0 < k → k ≤ 1 → 1 ≤ [0, 1, 0, 0].getD k 0) ∧
        (∃ k, 0 < k ∧ k ≤ 1 ∧ [0, 1, 0, 0].getD k 0 = 1) ∧
        (([0, 1, 0, 0].getD 0 0 < 1 ∧
            (1 = [1, 2, 1, 9].length - 1 ∨ [0, 1, 0, 0].getD (1 + 1) 0 < 1)) ∨
          (0 = 0 ∧ 1 = [1, 2, 1, 9].length - 1))) ∧
      s.getlcp ⟨0, 1⟩ = .ok 1 ∧
      (∀ (x y a b : Nat), 0 ≤ x → x ≤ 1 → 0 ≤ y → y ≤ 1 → s.idx[x]? = some a →
        s.idx[y]? = some b → agree [1, 2, 1, 9] a b 1) ∧
      (∃ x y a b, 0 ≤ x ∧ x ≤ 1 ∧ 0 ≤ y ∧ y ≤ 1 ∧ s.idx[x]? = some a ∧
        s.idx[y]? = some b ∧ ¬ agree [1, 2, 1, 9] a b (1 + 1)) ∧
      (0 = 0 ∧ 1 = [1, 2, 1, 9].length - 1 → 1 = 0) :=
  ⟨_, rfl,
    ⟨sort_meets_contract, by decide, by decide, by decide,
      fun k hk => by have h4 : k < 4 := hk; interval_cases k <;> rfl,
      by decide, by decide,
      fun k h1 h2 => by have h3 : k = 1 := by omega
                        subst h3; decide,
      ⟨1, by decide, by decide, rfl⟩, Or.inl ⟨by decide, Or.inr (by decide)⟩⟩,
    getlcp_of_lcp_interval sort [1, 2, 1, 9] _ (fun k => [0, 1, 0, 0].getD k 0) 1 0 1
      sort_meets_contract (by decide) (by decide) (by rfl) (by decide)
      (fun k hk => by have h4 : k < 4 := hk; interval_cases k <;> rfl)
      (by decide) (by decide)
      (fun k h1 h2 => by have h3 : k = 1 := by omega
                         subst h3; decide)
      ⟨1, by decide, by decide, rfl⟩ (Or.inl ⟨by decide, Or.inr (by decide)⟩)⟩

/-- C27: the word adapter turns the corpus `a ~~~~~~~~~~~~~~` (fourteen `~`) into the
two tokens `a` and `~~~~~~~~~~~~~~`, and the second is greater than the sentinel
`~~~~~~~~~~~~~` that `main` appends; for the corpus `a ~~~~~~~~~~~~~` (thirteen `~`)
the token equals the sentinel.  In both cases the sequence handed to the constructor
does not satisfy the sentinel precondition, and in the second the constructor reads
past the end of the sequence. -/
theorem main_sentinel_not_maximal :
    wordstring_read (bytes "a ~~~~~~~~~~~~~~") = [bytes "a", bytes "~~~~~~~~~~~~~~"] ∧
    main_sentinel < bytes "~~~~~~~~~~~~~~" ∧
    ¬ valid_sentinel (wordstring_read (bytes "a ~~~~~~~~~~~~~~") ++ [main_sentinel]) ∧
    wordstring_read (bytes "a ~~~~~~~~~~~~~") = [bytes "a", main_sentinel] ∧
    ¬ valid_sentinel (wordstring_read (bytes "a ~~~~~~~~~~~~~") ++ [main_sentinel]) ∧
    main_tree sort (bytes "a ~~~~~~~~~~~~~") = .error .ub :=
  ⟨by decide, by decide, by decide, by decide, by decide, rfl⟩

/-- C28: for every valid-sentinel sequence `S` of fewer than `2 ^ 31` elements and
every permutation `sa` of its positions that is in strictly increasing suffix order,
`fill_lcp` on fresh tables returns, and then `getlcp(0)` is 0 and `getlcp(i)`, for
every `i ≥ 1`, is the length `v` of the longest common prefix of the suffixes at
`SA[i-1]` and `SA[i]`, whatever its size: for `v < 255` the byte at `i` holds `v`, and
for `v ≥ 255` the byte holds 255 and the overflow map holds `v` for the key `i`. -/
theorem fill_lcp_kasai {α : Type} [LinearOrder α] (S : List α) (sa : List Nat)
    (hv : valid_sentinel S) (hp : sa.Perm (List.range S.length))
    (hs : suffix_sorted S sa) (hn : S.length < 2 ^ 31) :
    ∃ s2, suffixarray.fill_lcp (suffixarray.mk S (childtabs.init_tabs sa.length) sa) =
        .ok s2 ∧ s2.idx = sa ∧ s2.content = S ∧
      s2.tabs.getlcp 0 = .ok 0 ∧
      ∀ (i a b : Nat), 1 ≤ i → sa[i - 1]? = some a → sa[i]? = some b →
        s2.tabs.getlcp i = .ok (lcp_len (S.drop a) (S.drop b)) ∧
        (lcp_len (S.drop a) (S.drop b) < 255 →
          s2.tabs.lcp[i]? = some (lcp_len (S.drop a) (S.drop b))) ∧
        (255 ≤ lcp_len (S.drop a) (S.drop b) →
          s2.tabs.lcp[i]? = some 255 ∧
          s2.tabs.lcpmap.find_second i = .ok (lcp_len (S.drop a) (S.drop b))) := by
  obtain ⟨s2, L, hrun, hidx, hc, ht, hL0, hL⟩ := fill_lcp_spec hv hp hs hn
  have hne : 0 < S.length := List.length_pos.2 hv.1
  refine ⟨s2, hrun, hidx, hc, ?_, ?_⟩
  · rw [tabs_getlcp ht hne hn, hL0]
  · intro i a b hi ha hb
    have hin : i < S.length := by
      have := (List.getElem?_eq_some_iff.1 hb).1
      rw [hp.length_eq, List.length_range] at this
      exact this
    obtain ⟨g1, g2⟩ := hL i a b (by omega) ha hb
    have hv2 := lcp_len_of_agree _ a b g1 g2
    rw [tabs_getlcp ht hin hn, hv2]
    refine ⟨rfl, ?_, ?_⟩
    · intro hlt
      rcases ht.hlcp.1 i (by rw [ht.hlcp_len]; exact hin) with h1 | h1
      · exact h1.2
      · omega
    · intro hge
      rcases ht.hlcp.1 i (by rw [ht.hlcp_len]; exact hin) with h1 | h1
      · omega
      · exact h1.2

/-- Witness for C28 on `1 2 1 9` with the suffix array `0 2 1 3`. -/
theorem fill_lcp_kasai_witness :
    (valid_sentinel [1, 2, 1, 9] ∧ [0, 2, 1, 3].Perm (List.range [1, 2, 1, 9].length) ∧
      suffix_sorted [1, 2, 1, 9] [0, 2, 1, 3] ∧ [1, 2, 1, 9].length < 2 ^ 31) ∧
    ∃ s2, suffixarray.fill_lcp
        (suffixarray.mk [1, 2, 1, 9] (childtabs.init_tabs [0, 2, 1, 3].length) [0, 2, 1, 3]) =
          .ok s2 ∧ s2.idx = [0, 2, 1, 3] ∧ s2.content = [1, 2, 1, 9] ∧
      s2.tabs.getlcp 0 = .ok 0 ∧
      ∀ (i a b : Nat), 1 ≤ i → [0, 2, 1, 3][i - 1]? = some a → [0, 2, 1, 3][i]? = some b →
        s2.tabs.getlcp i = .ok (lcp_len ([1, 2, 1, 9].drop a) ([1, 2, 1, 9].drop b)) ∧
        (lcp_len ([1, 2, 1, 9].drop a) ([1, 2, 1, 9].drop b) < 255 →
          s2.tabs.lcp[i]? = some (lcp_len ([1, 2, 1, 9].drop a) ([1, 2, 1, 9].drop b))) ∧
        (255 ≤ lcp_len ([1, 2, 1, 9].drop a) ([1, 2, 1, 9].drop b) →
          s2.tabs.lcp[i]? = some 255 ∧
          s2.tabs.lcpmap.find_second i =
            .ok (lcp_len ([1, 2, 1, 9].drop a) ([1, 2, 1, 9].drop b))) :=
  ⟨⟨by decide, by decide, by decide, by decide⟩,
    fill_lcp_kasai [1, 2, 1, 9] [0, 2, 1, 3] (by decide) (by decide) (by decide) (by decide)⟩

/-- C29: for the valid-sentinel sequence `1 2 1 2 1 1 9` the sort phase of the
constructor returns `4 2 0 5 1 3 6`, which is not in suffix order (the suffix at 3 is
smaller than the suffix at 1), and on this suffix array `fill_lcp` throws
`out_of_range`: the carried-over `h` makes `content.at(i + h)` read position 7. -/
theorem fill_lcp_throws_after_ds :
    valid_sentinel [1, 2, 1, 2, 1, 1, 9] ∧
    ds sort [1, 2, 1, 2, 1, 1, 9] (List.range 7) = .ok [4, 2, 0, 5, 1, 3, 6] ∧
    ¬ suffix_sorted [1, 2, 1, 2, 1, 1, 9] [4, 2, 0, 5, 1, 3, 6] ∧
    (suffixarray.fill_lcp (suffixarray.mk [1, 2, 1, 2, 1, 1, 9] (childtabs.init_tabs 7)
      [4, 2, 0, 5, 1, 3, 6]) : Except Exn (suffixarray Nat)) = .error .out_of_range ∧
    (suffixarray.build sort [1, 2, 1, 2, 1, 1, 9] : Except Exn (suffixarray Nat)) =
      .error .out_of_range :=
  ⟨by decide, rfl, by decide, rfl, rfl⟩

/-- C30: on a sequence of one element, which has a valid sentinel, `ds()` reads
`content[1]`, a position outside the sequence (undefined behaviour), so that the
constructor does not build an index. -/
theorem ds_reads_past_single_element (x : Nat) :
    valid_sentinel [x] ∧ vec_read [x] (0 + 1) = .error .ub ∧
    ds sort [x] (List.range 1) = .error .ub ∧
    (suffixarray.build sort [x] : Except Exn (suffixarray Nat)) = .error .ub :=
  ⟨by simp [valid_sentinel], rfl, rfl, rfl⟩

end ns_suffixarray


set_option linter.unusedSectionVars false
set_option linter.unusedVariables false

namespace ns_suffixarray

open suffixarray

/-- C31: for every sequence with a valid sentinel, every `startdepth ≥ 1` and every range
`first, rest` of at least 5 different suffix starts whose suffixes agree on their first
`startdepth` elements: the trie of `ds2` is built (`makeChildSelf` and every `walkNadd`
return, so no walk goes on for ever and no read is outside the sequence), its children
maps are in ascending key order, `getSort` returns its leaves in that order, and `ds2`
returns this list, a permutation of the range in strictly increasing suffix order. -/
theorem ds2_trie_sorts_bucket {α : Type} [LinearOrder α] (S : List α) (first : Nat)
    (rest : List Nat) (startdepth : Nat) (hv : valid_sentinel S) (hsd : 1 ≤ startdepth)
    (hlen : 5 ≤ (first :: rest).length) (hnd : (first :: rest).Nodup)
    (hag : ∀ x ∈ first :: rest, ∀ y ∈ first :: rest, agree S x y startdepth) :
    ∃ root r,
      (sorttrie.makeChildSelf S (sorttrie.node (startdepth - 1) first []) >>= fun t =>
        ds2_insert S startdepth t rest) = .ok root ∧
      root.ordered ∧ sorttrie.getSort root = root.leaves ∧ r = sorttrie.getSort root ∧
      ds2 S (first :: rest) startdepth = .ok r ∧ r.Perm (first :: rest) ∧
      suffix_sorted S r := by
  have hrest : rest ≠ [] := by
    intro h
    rw [h] at hlen
    simp at hlen
  obtain ⟨root, h1, h2, h3, h4, h5, h6⟩ :=
    ds2_trie_sorted hv first rest startdepth hsd hrest hnd hag
  refine ⟨root, _, h1, h2, h3, rfl, ?_, h5, pairwise_suffix_sorted _ h6⟩
  rw [ds2_unfold S (first :: rest) startdepth (List.cons_ne_nil _ _),
    if_neg (by omega : ¬ (first :: rest).length < 5)]
  exact h4

/-- Witness for C31 on the sequence `1 1 1 1 1 1 9` and the range `0 1 2 3 4`, whose
suffixes all begin with `1 1`. -/
theorem ds2_trie_sorts_bucket_witness :
    (valid_sentinel [1, 1, 1, 1, 1, 1, 9] ∧ 1 ≤ 2 ∧ 5 ≤ (0 :: [1, 2, 3, 4]).length ∧
      (0 :: [1, 2, 3, 4]).Nodup ∧
      ∀ x ∈ 0 :: [1, 2, 3, 4], ∀ y ∈ 0 :: [1, 2, 3, 4],
        agree [1, 1, 1, 1, 1, 1, 9] x y 2) ∧
    ∃ root r,
      (sorttrie.makeChildSelf [1, 1, 1, 1, 1, 1, 9] (sorttrie.node (2 - 1) 0 []) >>= fun t =>
        ds2_insert [1, 1, 1, 1, 1, 1, 9] 2 t [1, 2, 3, 4]) = .ok root ∧
      root.ordered ∧ sorttrie.getSort root = root.leaves ∧ r = sorttrie.getSort root ∧
      ds2 [1, 1, 1, 1, 1, 1, 9] (0 :: [1, 2, 3, 4]) 2 = .ok r ∧
      r.Perm (0 :: [1, 2, 3, 4]) ∧ suffix_sorted [1, 1, 1, 1, 1, 1, 9] r :=
  ⟨⟨by decide, by decide, by decide, by decide, by decide⟩,
    ds2_trie_sorts_bucket [1, 1, 1, 1, 1, 1, 9] 0 [1, 2, 3, 4] 2 (by decide) (by decide)
      (by decide) (by decide) (by decide)⟩

/-- C32: for every sequence with a valid sentinel and every bucket that `ds2` is given
(`ds` calls it on ranges of more than one element only): at least two different
suffix starts whose suffixes share their first two elements.  The sort with the
comparator `SACmp(content, 2, -1)` and the trie path of `ds2` (insert with `walkNadd`,
read with `getSort`) return the same list, which `ds2` returns whatever the size of
the bucket; it is a permutation of the bucket in suffix order, and every `std::sort`
that meets the contract of the C++ standard returns it for this comparator.  And for
every trie `getSort` returns the list that `recGS` returns. -/
theorem ds2_paths_agree {α : Type} [LinearOrder α] (S : List α) (bucket : List Nat)
    (hv : valid_sentinel S) (hlen : 2 ≤ bucket.length) (hnd : bucket.Nodup)
    (hag : ∀ x ∈ bucket, ∀ y ∈ bucket, agree S x y 2) :
    (∃ r, sort (SACmp S 2 (-1)) bucket = .ok r ∧ ds2_trie S bucket 2 = .ok r ∧
      ds2 S bucket 2 = .ok r ∧ r.Perm bucket ∧ suffix_sorted S r ∧
      ∀ (std_sort : sorter), sort_contract std_sort →
        std_sort (SACmp S 2 (-1)) bucket = .ok r) ∧
    ∀ (t : sorttrie α), sorttrie.getSort t = sorttrie.recGS t := by
  constructor
  · obtain ⟨r, h1, h2, h3⟩ := deep_sort_sorted hv bucket 2 (by omega) hnd hag
    have hany : ∀ (std_sort : sorter), sort_contract std_sort →
        std_sort (SACmp S 2 (-1)) bucket = .ok r := by
      intro std_sort hsort
      obtain ⟨r2, e1, e2, e3⟩ := deep_sort_contract hv bucket 2 (by omega) hnd hag hsort
      rw [e1, suffix_order_unique (e2.trans h2.symm) e3 h3]
    cases bucket with
    | nil => simp at hlen
    | cons first rest =>
      have hrest : rest ≠ [] := by
        intro h
        rw [h] at hlen
        simp at hlen
      obtain ⟨root, _, _, _, g4, g5, g6⟩ :=
        ds2_trie_sorted hv first rest 2 (by omega) hrest hnd hag
      have he : r = sorttrie.getSort root := suffix_order_unique (h2.trans g5.symm) h3 g6
      rw [← he] at g4
      refine ⟨r, h1, g4, ?_, h2, pairwise_suffix_sorted _ h3, hany⟩
      rw [ds2_unfold S (first :: rest) 2 (List.cons_ne_nil _ _)]
      by_cases h5 : (first :: rest).length < 5
      · rw [if_pos h5]
        exact h1
      · rw [if_neg h5]
        exact g4
  · intro t
    rw [sorttrie.getSort_eq, sorttrie.recGS_eq_leaves]

/-- Witness for C32 on the sequence `1 1 1 1 9` and the bucket `2 0 1`, whose suffixes
all begin with `1 1`. -/
theorem ds2_paths_agree_witness :
    (valid_sentinel [1, 1, 1, 1, 9] ∧ 2 ≤ [2, 0, 1].length ∧ [2, 0, 1].Nodup ∧
      ∀ x ∈ [2, 0, 1], ∀ y ∈ [2, 0, 1], agree [1, 1, 1, 1, 9] x y 2) ∧
    sort (SACmp [1, 1, 1, 1, 9] 2 (-1)) [2, 0, 1] = .ok [0, 1, 2] ∧
    ds2_trie [1, 1, 1, 1, 9] [2, 0, 1] 2 = .ok [0, 1, 2] ∧
    (∃ r, sort (SACmp [1, 1, 1, 1, 9] 2 (-1)) [2, 0, 1] = .ok r ∧
      ds2_trie [1, 1, 1, 1, 9] [2, 0, 1] 2 = .ok r ∧
      ds2 [1, 1, 1, 1, 9] [2, 0, 1] 2 = .ok r ∧ r.Perm [2, 0, 1] ∧
      suffix_sorted [1, 1, 1, 1, 9] r ∧
      ∀ (std_sort : sorter), sort_contract std_sort →
        std_sort (SACmp [1, 1, 1, 1, 9] 2 (-1)) [2, 0, 1] = .ok r) ∧
    ∀ (t : sorttrie Nat), sorttrie.getSort t = sorttrie.recGS t :=
  ⟨⟨by decide, by decide, by decide, by decide⟩, rfl, rfl,
    ds2_paths_agree [1, 1, 1, 1, 9] [2, 0, 1] (by decide) (by decide) (by decide)
      (by decide)⟩

/-- C33: on the tables `init_tabs(n)`, `n < 2 ^ 31`, for every `pos < n` and every
`target < 2 ^ 31`, each of `setup`, `setdown` and `setnextl(pos, target)` returns, and
the matching getter then returns `target` (for `target = pos` too, which is not
"undefined"); the byte holds `target - pos` when this is in `-127 .. 126`, and holds
127 with `target` in the overflow map otherwise.  And for every `v`, `setlcp(pos, v)`
returns and `getlcp(pos)` then returns `v`; the byte holds `v` when `v < 255`, and 255
with `v` in the overflow map otherwise. -/
theorem fresh_table_round_trip (n pos target v : Nat) (hn : n < 2 ^ 31) (hp : pos < n)
    (ht : target < 2 ^ 31) :
    (∃ t, (childtabs.init_tabs n).setup pos target = .ok t ∧ t.getup pos = .ok target ∧
      target ≠ undefined ∧
      (-128 < (target : Int) - pos ∧ (target : Int) - pos < 127 →
        t.up[pos]? = some ((target : Int) - pos)) ∧
      (¬ (-128 < (target : Int) - pos ∧ (target : Int) - pos < 127) →
        t.up[pos]? = some 127 ∧ t.upmap.find_second pos = .ok target)) ∧
    (∃ t, (childtabs.init_tabs n).setdown pos target = .ok t ∧ t.getdown pos = .ok target ∧
      (-128 < (target : Int) - pos ∧ (target : Int) - pos < 127 →
        t.down[pos]? = some ((target : Int) - pos)) ∧
      (¬ (-128 < (target : Int) - pos ∧ (target : Int) - pos < 127) →
        t.down[pos]? = some 127 ∧ t.downmap.find_second pos = .ok target)) ∧
    (∃ t, (childtabs.init_tabs n).setnextl pos target = .ok t ∧
      t.getnextl pos = .ok target ∧
      (-128 < (target : Int) - pos ∧ (target : Int) - pos < 127 →
        t.nextl[pos]? = some ((target : Int) - pos)) ∧
      (¬ (-128 < (target : Int) - pos ∧ (target : Int) - pos < 127) →
        t.nextl[pos]? = some 127 ∧ t.nextlmap.find_second pos = .ok target)) ∧
    (∃ t, (childtabs.init_tabs n).setlcp pos v = .ok t ∧ t.getlcp pos = .ok v ∧
      (v < 255 → t.lcp[pos]? = some v) ∧
      (255 ≤ v → t.lcp[pos]? = some 255 ∧ t.lcpmap.find_second pos = .ok v)) := by
  obtain ⟨t1, t2, t3, h1, h2, h3, g1, g2, g3⟩ := fresh_tables_round_trip n pos target hn hp ht
  obtain ⟨t4, h4, g4⟩ := tabs_setlcp (tabs_init n) v hp (by show (0 : Nat) < 255; omega)
  have hf : Function.update (fun _ => (none : Option Nat)) pos (some target) pos =
      some target := Function.update_same _ _ _
  refine ⟨⟨t1, h1, ?_, ?_, ?_⟩, ⟨t2, h2, ?_, ?_⟩, ⟨t3, h3, ?_, ?_⟩, ⟨t4, h4, ?_, ?_, ?_⟩⟩
  · rw [tabs_getup g1 hp hn, hf]
    rfl
  · unfold undefined
    omega
  · exact tab_rep_at g1.hup (by rw [g1.hup_len]; exact hp) hf
  · rw [tabs_getdown g2 hp hn, hf]
    rfl
  · exact tab_rep_at g2.hdown (by rw [g2.hdown_len]; exact hp) hf
  · rw [tabs_getnextl g3 hp hn, hf]
    rfl
  · exact tab_rep_at g3.hnextl (by rw [g3.hnextl_len]; exact hp) hf
  · rw [tabs_getlcp g4 hp hn, Function.update_same]
  · intro hv
    rcases g4.hlcp.1 pos (by rw [g4.hlcp_len]; exact hp) with h | h
    · rw [Function.update_same] at h
      exact h.2
    · rw [Function.update_same] at h
      omega
  · intro hv
    rcases g4.hlcp.1 pos (by rw [g4.hlcp_len]; exact hp) with h | h
    · rw [Function.update_same] at h
      omega
    · rw [Function.update_same] at h
      exact h.2

/-- Witness for C33 on tables of 3 cells: position 0 and the target 127, whose
offset is the boundary value `+127`, and the lcp value 255. -/
theorem fresh_table_round_trip_witness :
    (3 < 2 ^ 31 ∧ 0 < 3 ∧ 127 < 2 ^ 31) ∧
    (childtabs.init_tabs 3).setup 0 127 >>= (fun t => t.getup 0) = .ok 127 ∧
    (∃ t, (childtabs.init_tabs 3).setup 0 127 = .ok t ∧ t.getup 0 = .ok 127 ∧
      127 ≠ undefined ∧
      (-128 < ((127 : Nat) : Int) - (0 : Nat) ∧ ((127 : Nat) : Int) - (0 : Nat) < 127 →
        t.up[0]? = some (((127 : Nat) : Int) - (0 : Nat))) ∧
      (¬ (-128 < ((127 : Nat) : Int) - (0 : Nat) ∧ ((127 : Nat) : Int) - (0 : Nat) < 127) →
        t.up[0]? = some 127 ∧ t.upmap.find_second 0 = .ok 127)) ∧
    (∃ t, (childtabs.init_tabs 3).setdown 0 127 = .ok t ∧ t.getdown 0 = .ok 127 ∧
      (-128 < ((127 : Nat) : Int) - (0 : Nat) ∧ ((127 : Nat) : Int) - (0 : Nat) < 127 →
        t.down[0]? = some (((127 : Nat) : Int) - (0 : Nat))) ∧
      (¬ (-128 < ((127 : Nat) : Int) - (0 : Nat) ∧ ((127 : Nat) : Int) - (0 : Nat) < 127) →
        t.down[0]? = some 127 ∧ t.downmap.find_second 0 = .ok 127)) ∧
    (∃ t, (childtabs.init_tabs 3).setnextl 0 127 = .ok t ∧ t.getnextl 0 = .ok 127 ∧
      (-128 < ((127 : Nat) : Int) - (0 : Nat) ∧ ((127 : Nat) : Int) - (0 : Nat) < 127 →
        t.nextl[0]? = some (((127 : Nat) : Int) - (0 : Nat))) ∧
      (¬ (-128 < ((127 : Nat) : Int) - (0 : Nat) ∧ ((127 : Nat) : Int) - (0 : Nat) < 127) →
        t.nextl[0]? = some 127 ∧ t.nextlmap.find_second 0 = .ok 127)) ∧
    (∃ t, (childtabs.init_tabs 3).setlcp 0 255 = .ok t ∧ t.getlcp 0 = .ok 255 ∧
      (255 < 255 → t.lcp[0]? = some 255) ∧
      (255 ≤ 255 → t.lcp[0]? = some 255 ∧ t.lcpmap.find_second 0 = .ok 255)) :=
  ⟨⟨by decide, by decide, by decide⟩, rfl,
    fresh_table_round_trip 3 0 127 255 (by decide) (by decide) (by decide)⟩

/-- C34: for every LCP array `l` of `n < 2 ^ 31` values with `l[0] = 0`, on the tables
that hold `l` and no child value, `fill_up_down_nextl` returns; `getlcp` still returns
the values of `l`, and for every position `i`: `getnextl(i)` returns `j` (not
"undefined") if and only if `j` is the smallest index with `i < j < n`, `l[j] = l[i]`
and `l[k] > l[i]` for every `k` strictly between `i` and `j`; and `getnextl(i)` returns
"undefined" if and only if there is no such index. -/
theorem nextl_is_next_equal_lcp {α : Type} (l : List Nat) (content : List α)
    (idx : List Nat) (hlen : idx.length = l.length) (hn : l.length < 2 ^ 31)
    (hL0 : l[0]? = some 0) :
    ∃ t s2, childtabs.lcp_tables l = .ok t ∧
      suffixarray.fill_up_down_nextl ⟨content, t, idx⟩ = .ok s2 ∧
      (∀ (k : Nat), k < l.length → s2.tabs.getlcp k = .ok (l.getD k 0)) ∧
      ∀ (i : Nat), i < l.length →
        (∀ (j : Nat), j ≠ undefined →
          (s2.tabs.getnextl i = .ok j ↔
            ((i < j ∧ j < l.length ∧ l.getD j 0 = l.getD i 0 ∧
                ∀ (k : Nat), i < k → k < j → l.getD i 0 < l.getD k 0) ∧
              ∀ (j2 : Nat), j2 < j →
                ¬ (i < j2 ∧ j2 < l.length ∧ l.getD j2 0 = l.getD i 0 ∧
                  ∀ (k : Nat), i < k → k < j2 → l.getD i 0 < l.getD k 0)))) ∧
        (s2.tabs.getnextl i = .ok undefined ↔
          ¬ ∃ j, i < j ∧ j < l.length ∧ l.getD j 0 = l.getD i 0 ∧
            ∀ (k : Nat), i < k → k < j → l.getD i 0 < l.getD k 0) := by
  obtain ⟨t, ht1, ht2⟩ := lcp_tables_ok l
  obtain ⟨h0, h1⟩ := getD_zero_of_head hL0
  obtain ⟨s2, hrun, g1, g2, _, _⟩ :=
    pass_getters (L := fun k => l.getD k 0) ⟨content, t, idx⟩ hlen h1 hn h0 ht2
  exact ⟨t, s2, ht1, hrun, g1, g2⟩

/-- Witness for C34 on the LCP array `0 2 1 2 0`. -/
theorem nextl_is_next_equal_lcp_witness :
    ([0, 1, 2, 3, 4].length = [0, 2, 1, 2, 0].length ∧ [0, 2, 1, 2, 0].length < 2 ^ 31 ∧
      [0, 2, 1, 2, 0][0]? = some 0) ∧
    ∃ t s2, childtabs.lcp_tables [0, 2, 1, 2, 0] = .ok t ∧
      suffixarray.fill_up_down_nextl ⟨([] : List Nat), t, [0, 1, 2, 3, 4]⟩ = .ok s2 ∧
      (∀ (k : Nat), k < [0, 2, 1, 2, 0].length →
        s2.tabs.getlcp k = .ok ([0, 2, 1, 2, 0].getD k 0)) ∧
      ∀ (i : Nat), i < [0, 2, 1, 2, 0].length →
        (∀ (j : Nat), j ≠ undefined →
          (s2.tabs.getnextl i = .ok j ↔
            ((i < j ∧ j < [0, 2, 1, 2, 0].length ∧
                [0, 2, 1, 2, 0].getD j 0 = [0, 2, 1, 2, 0].getD i 0 ∧
                ∀ (k : Nat), i < k → k < j →
                  [0, 2, 1, 2, 0].getD i 0 < [0, 2, 1, 2, 0].getD k 0) ∧
              ∀ (j2 : Nat), j2 < j →
                ¬ (i < j2 ∧ j2 < [0, 2, 1, 2, 0].length ∧
                  [0, 2, 1, 2, 0].getD j2 0 = [0, 2, 1, 2, 0].getD i 0 ∧
                  ∀ (k : Nat), i < k → k < j2 →
                    [0, 2, 1, 2, 0].getD i 0 < [0, 2, 1, 2, 0].getD k 0)))) ∧
        (s2.tabs.getnextl i = .ok undefined ↔
          ¬ ∃ j, i < j ∧ j < [0, 2, 1, 2, 0].length ∧
            [0, 2, 1, 2, 0].getD j 0 = [0, 2, 1, 2, 0].getD i 0 ∧
            ∀ (k : Nat), i < k → k < j →
              [0, 2, 1, 2, 0].getD i 0 < [0, 2, 1, 2, 0].getD k 0) :=
  ⟨⟨rfl, by decide, rfl⟩,
    nextl_is_next_equal_lcp [0, 2, 1, 2, 0] ([] : List Nat) [0, 1, 2, 3, 4] rfl (by decide)
      rfl⟩

/-- C35: for every LCP array `l` of `n < 2 ^ 31` values with `l[0] = 0`, on the tables
that hold `l` and no child value, `fill_up_down_nextl` returns, and for every position
`i`: `getup(i)` returns a value other than "undefined" if and only if `i ≥ 1` and
`l[i - 1] > l[i]`; it returns `q` (not "undefined") if and only if `q` is the smallest
index with `q < i`, `l[q] > l[i]` and `l[k] ≥ l[q]` for every `k` strictly between `q`
and `i`; and whenever `getdown(t)` returns `q` (not "undefined"), `t < q < n`,
`l[q] > l[t]` and `l[k] > l[q]` for every `k` strictly between `t` and `q`. -/
theorem up_down_values {α : Type} (l : List Nat) (content : List α)
    (idx : List Nat) (hlen : idx.length = l.length) (hn : l.length < 2 ^ 31)
    (hL0 : l[0]? = some 0) :
    ∃ t s2, childtabs.lcp_tables l = .ok t ∧
      suffixarray.fill_up_down_nextl ⟨content, t, idx⟩ = .ok s2 ∧
      (∀ (k : Nat), k < l.length → s2.tabs.getlcp k = .ok (l.getD k 0)) ∧
      (∀ (i : Nat), i < l.length →
        ((∃ q, q ≠ undefined ∧ s2.tabs.getup i = .ok q) ↔
          (1 ≤ i ∧ l.getD i 0 < l.getD (i - 1) 0)) ∧
        (∀ (q : Nat), q ≠ undefined →
          (s2.tabs.getup i = .ok q ↔
            ((q < i ∧ l.getD i 0 < l.getD q 0 ∧
                ∀ (k : Nat), q < k → k < i → l.getD q 0 ≤ l.getD k 0) ∧
              ∀ (q2 : Nat), q2 < q →
                ¬ (q2 < i ∧ l.getD i 0 < l.getD q2 0 ∧
                  ∀ (k : Nat), q2 < k → k < i → l.getD q2 0 ≤ l.getD k 0))))) ∧
      (∀ (t q : Nat), t < l.length → q ≠ undefined → s2.tabs.getdown t = .ok q →
        t < q ∧ q < l.length ∧ l.getD t 0 < l.getD q 0 ∧
          ∀ (k : Nat), t < k → k < q → l.getD q 0 < l.getD k 0) := by
  obtain ⟨t, ht1, ht2⟩ := lcp_tables_ok l
  obtain ⟨h0, h1⟩ := getD_zero_of_head hL0
  obtain ⟨s2, hrun, g1, _, g3, g4⟩ :=
    pass_getters (L := fun k => l.getD k 0) ⟨content, t, idx⟩ hlen h1 hn h0 ht2
  exact ⟨t, s2, ht1, hrun, g1, g3, g4⟩

/-- Witness for C35 on the LCP array `0 2 1 2 0`. -/
theorem up_down_values_witness :
    ([0, 1, 2, 3, 4].length = [0, 2, 1, 2, 0].length ∧ [0, 2, 1, 2, 0].length < 2 ^ 31 ∧
      [0, 2, 1, 2, 0][0]? = some 0) ∧
    ∃ t s2, childtabs.lcp_tables [0, 2, 1, 2, 0] = .ok t ∧
      suffixarray.fill_up_down_nextl ⟨([] : List Nat), t, [0, 1, 2, 3, 4]⟩ = .ok s2 ∧
      (∀ (k : Nat), k < [0, 2, 1, 2, 0].length →
        s2.tabs.getlcp k = .ok ([0, 2, 1, 2, 0].getD k 0)) ∧
      (∀ (i : Nat), i < [0, 2, 1, 2, 0].length →
        ((∃ q, q ≠ undefined ∧ s2.tabs.getup i = .ok q) ↔
          (1 ≤ i ∧ [0, 2, 1, 2, 0].getD i 0 < [0, 2, 1, 2, 0].getD (i - 1) 0)) ∧
        (∀ (q : Nat), q ≠ undefined →
          (s2.tabs.getup i = .ok q ↔
            ((q < i ∧ [0, 2, 1, 2, 0].getD i 0 < [0, 2, 1, 2, 0].getD q 0 ∧
                ∀ (k : Nat), q < k → k < i →
                  [0, 2, 1, 2, 0].getD q 0 ≤ [0, 2, 1, 2, 0].getD k 0) ∧
              ∀ (q2 : Nat), q2 < q →
                ¬ (q2 < i ∧ [0, 2, 1, 2, 0].getD i 0 < [0, 2, 1, 2, 0].getD q2 0 ∧
                  ∀ (k : Nat), q2 < k → k < i →
                    [0, 2, 1, 2, 0].getD q2 0 ≤ [0, 2, 1, 2, 0].getD k 0))))) ∧
      (∀ (t q : Nat), t < [0, 2, 1, 2, 0].length → q ≠ undefined →
        s2.tabs.getdown t = .ok q →
        t < q ∧ q < [0, 2, 1, 2, 0].length ∧
          [0, 2, 1, 2, 0].getD t 0 < [0, 2, 1, 2, 0].getD q 0 ∧
          ∀ (k : Nat), t < k → k < q →
            [0, 2, 1, 2, 0].getD q 0 < [0, 2, 1, 2, 0].getD k 0) :=
  ⟨⟨rfl, by decide, rfl⟩,
    up_down_values [0, 2, 1, 2, 0] ([] : List Nat) [0, 1, 2, 3, 4] rfl (by decide) rfl⟩

/-- C36: for every LCP array `l` of `n < 2 ^ 31` values with `l[0] = 0`, on the tables
that hold `l` and no child value, the pass of `fill_up_down_nextl` reaches the start of
the round of every position `i` in `1 .. n - 1` (and, for `i = n`, its end) without
taking the top of an empty stack; there both stacks are not empty, the position at
their bottom has the LCP value 0, the LCP values of the stacked positions do not
decrease from the bottom to the top, and all stacked positions are below `i`; and
`fill_up_down_nextl` returns.  (The stacks are listed top first.) -/
theorem pass_stacks_invariant {α : Type} (l : List Nat) (content : List α)
    (idx : List Nat) (hlen : idx.length = l.length) (hn : l.length < 2 ^ 31)
    (hL0 : l[0]? = some 0) :
    ∃ t, childtabs.lcp_tables l = .ok t ∧
      (∀ (i : Nat), 1 ≤ i → i ≤ l.length →
        ∃ st, fill_up_down_nextl_rounds (List.range' 1 (i - 1)) (pass_start t) = .ok st ∧
          st.updownstack ≠ [] ∧ st.nextlstack ≠ [] ∧
          (∃ b, st.updownstack.getLast? = some b ∧ l.getD b 0 = 0 ∧
            st.tabs.getlcp b = .ok 0) ∧
          (∃ b, st.nextlstack.getLast? = some b ∧ l.getD b 0 = 0 ∧
            st.tabs.getlcp b = .ok 0) ∧
          st.updownstack.Pairwise (fun a b => l.getD b 0 ≤ l.getD a 0) ∧
          st.nextlstack.Pairwise (fun a b => l.getD b 0 ≤ l.getD a 0) ∧
          (∀ a ∈ st.updownstack, a < i ∧ st.tabs.getlcp a = .ok (l.getD a 0)) ∧
          (∀ a ∈ st.nextlstack, a < i ∧ st.tabs.getlcp a = .ok (l.getD a 0))) ∧
      ∃ s2, suffixarray.fill_up_down_nextl ⟨content, t, idx⟩ = .ok s2 := by
  obtain ⟨t, ht1, ht2⟩ := lcp_tables_ok l
  obtain ⟨h0, h1⟩ := getD_zero_of_head hL0
  obtain ⟨g1, g2⟩ :=
    pass_stacks (L := fun k => l.getD k 0) ⟨content, t, idx⟩ hlen h1 hn h0 ht2
  exact ⟨t, ht1, g1, g2⟩

/-- Witness for C36 on the LCP array `0 2 1 2 0`; before the round of position 3 the
stack `updownstack` holds `2 0` and the stack `nextlstack` holds `2 0`. -/
theorem pass_stacks_invariant_witness :
    ([0, 1, 2, 3, 4].length = [0, 2, 1, 2, 0].length ∧ [0, 2, 1, 2, 0].length < 2 ^ 31 ∧
      [0, 2, 1, 2, 0][0]? = some 0) ∧
    (childtabs.lcp_tables [0, 2, 1, 2, 0] >>= fun t =>
      fill_up_down_nextl_rounds (List.range' 1 (3 - 1)) (pass_start t) >>= fun st =>
        pure (st.updownstack, st.nextlstack)) = .ok ([2, 0], [2, 0]) ∧
    ∃ t, childtabs.lcp_tables [0, 2, 1, 2, 0] = .ok t ∧
      (∀ (i : Nat), 1 ≤ i → i ≤ [0, 2, 1, 2, 0].length →
        ∃ st, fill_up_down_nextl_rounds (List.range' 1 (i - 1)) (pass_start t) = .ok st ∧
          st.updownstack ≠ [] ∧ st.nextlstack ≠ [] ∧
          (∃ b, st.updownstack.getLast? = some b ∧ [0, 2, 1, 2, 0].getD b 0 = 0 ∧
            st.tabs.getlcp b = .ok 0) ∧
          (∃ b, st.nextlstack.getLast? = some b ∧ [0, 2, 1, 2, 0].getD b 0 = 0 ∧
            st.tabs.getlcp b = .ok 0) ∧
          st.updownstack.Pairwise
            (fun a b => [0, 2, 1, 2, 0].getD b 0 ≤ [0, 2, 1, 2, 0].getD a 0) ∧
          st.nextlstack.Pairwise
            (fun a b => [0, 2, 1, 2, 0].getD b 0 ≤ [0, 2, 1, 2, 0].getD a 0) ∧
          (∀ a ∈ st.updownstack,
            a < i ∧ st.tabs.getlcp a = .ok ([0, 2, 1, 2, 0].getD a 0)) ∧
          (∀ a ∈ st.nextlstack,
            a < i ∧ st.tabs.getlcp a = .ok ([0, 2, 1, 2, 0].getD a 0))) ∧
      ∃ s2, suffixarray.fill_up_down_nextl ⟨([] : List Nat), t, [0, 1, 2, 3, 4]⟩ = .ok s2 :=
  ⟨⟨rfl, by decide, rfl⟩, rfl,
    pass_stacks_invariant [0, 2, 1, 2, 0] ([] : List Nat) [0, 1, 2, 3, 4] rfl (by decide)
      rfl⟩

/-- C37: for every index built, with any `std::sort` that meets the contract of the C++
standard, from a sequence of fewer than `2 ^ 31` elements with a valid sentinel,
whatever the order of its suffix array, every pattern `w` and every wildcard: behind
`m ≤ |w|` rounds of its `while` loop (or behind its last round, when
the worklist became empty before that) the worklist of the query is a list of intervals
in which every interval ends before the next one starts, every interval `[i, j]` has
`i ≤ j ≤ n - 1`, and `getlcp` returns at least `m` for every interval with `i < j`;
and `find_all_positions` returns a list without repetition that lists entries of the
suffix array in the order of the suffix array. -/
theorem worklist_invariant {α : Type} [LinearOrder α] (std_sort : sorter) (S : List α)
    (s : suffixarray α) (w : List α) (wildcard : α) (hsort : sort_contract std_sort)
    (hv : valid_sentinel S) (hn : S.length < 2 ^ 31)
    (hb : suffixarray.build std_sort S = .ok s) :
    (∀ (m : Nat), m ≤ w.length →
      ∃ ts, descend s w wildcard m 0 [⟨0, size_sub s.idx.length 1⟩] = .ok ts ∧
        ts.Pairwise (fun c c2 => c.j < c2.i) ∧
        (∀ c ∈ ts, c.i ≤ c.j ∧ c.j ≤ S.length - 1) ∧
        (∀ c ∈ ts, c.i < c.j → ∃ lc, s.getlcp c = .ok lc ∧ m ≤ lc)) ∧
    ∃ r, s.find_all_positions w wildcard = .ok r ∧ r.Nodup ∧ r.Sublist s.idx := by
  obtain ⟨L, U, D, N, hnav, _, hp, _, _⟩ := build_nav hsort hv hn hb
  exact query_shape hnav hp w wildcard

/-- Witness for C37 on the index built for `1 2 1 9` and the pattern `1 0` with the
wildcard 0: behind one round the worklist is `[0, 1]`, and the query returns the
suffix starts 0 and 2. -/
theorem worklist_invariant_witness :
    ∃ s : suffixarray Nat, suffixarray.build sort [1, 2, 1, 9] = .ok s ∧
      (sort_contract sort ∧ valid_sentinel [1, 2, 1, 9] ∧ [1, 2, 1, 9].length < 2 ^ 31) ∧
      descend s [1, 0] 0 1 0 [⟨0, size_sub s.idx.length 1⟩] = .ok [⟨0, 1⟩] ∧
      s.find_all_positions [1, 0] 0 = .ok [0, 2] ∧
      (∀ (m : Nat), m ≤ [1, 0].length →
        ∃ ts, descend s [1, 0] 0 m 0 [⟨0, size_sub s.idx.length 1⟩] = .ok ts ∧
          ts.Pairwise (fun c c2 => c.j < c2.i) ∧
          (∀ c ∈ ts, c.i ≤ c.j ∧ c.j ≤ [1, 2, 1, 9].length - 1) ∧
          (∀ c ∈ ts, c.i < c.j → ∃ lc, s.getlcp c = .ok lc ∧ m ≤ lc)) ∧
      ∃ r, s.find_all_positions [1, 0] 0 = .ok r ∧ r.Nodup ∧ r.Sublist s.idx :=
  ⟨_, rfl, ⟨sort_meets_contract, by decide, by decide⟩, rfl, rfl,
    worklist_invariant sort [1, 2, 1, 9] _ [1, 0] 0 sort_meets_contract (by decide)
      (by decide) (by rfl)⟩

/-- C38: for every LCP array `l` of `n < 2 ^ 31` values with `l[0] = 0`, on the tables
that hold `l` and no child value, the pass of `fill_up_down_nextl` returns, and among
the calls of `setup`, `setdown` and `setnextl` it makes no two write the same position
of the same table; every call writes a position below `n`, after the pass the matching
getter returns at that position the value of the call, and when the offset of the value
does not fit the byte the overflow map holds this value for the position. -/
theorem child_cells_written_once {α : Type} (l : List Nat) (content : List α)
    (idx : List Nat) (hlen : idx.length = l.length) (hn : l.length < 2 ^ 31)
    (hL0 : l[0]? = some 0) :
    ∃ t st, childtabs.lcp_tables l = .ok t ∧
      fill_up_down_nextl_rounds (List.range' 1 (l.length - 1)) (pass_start t) = .ok st ∧
      suffixarray.fill_up_down_nextl ⟨content, t, idx⟩ = .ok ⟨content, st.tabs, idx⟩ ∧
      st.calls.Pairwise (fun a b => a.table ≠ b.table ∨ a.pos ≠ b.pos) ∧
      ∀ c ∈ st.calls, c.pos < l.length ∧
        (c.table = child_table.up → st.tabs.getup c.pos = .ok c.value ∧
          (¬ (-128 < (c.value : Int) - c.pos ∧ (c.value : Int) - c.pos < 127) →
            st.tabs.upmap.find_second c.pos = .ok c.value)) ∧
        (c.table = child_table.down → st.tabs.getdown c.pos = .ok c.value ∧
          (¬ (-128 < (c.value : Int) - c.pos ∧ (c.value : Int) - c.pos < 127) →
            st.tabs.downmap.find_second c.pos = .ok c.value)) ∧
        (c.table = child_table.nextl → st.tabs.getnextl c.pos = .ok c.value ∧
          (¬ (-128 < (c.value : Int) - c.pos ∧ (c.value : Int) - c.pos < 127) →
            st.tabs.nextlmap.find_second c.pos = .ok c.value)) := by
  obtain ⟨t, ht1, ht2⟩ := lcp_tables_ok l
  obtain ⟨h0, h1⟩ := getD_zero_of_head hL0
  obtain ⟨st, g1, g2, g3, g4⟩ :=
    pass_calls (L := fun k => l.getD k 0) ⟨content, t, idx⟩ hlen h1 hn h0 ht2
  exact ⟨t, st, ht1, g1, g2, g3, g4⟩

/-- Witness for C38 on the LCP array `0 2 1 2 0`: the pass calls `setup(2, 1)`,
`setdown(2, 3)`, `setdown(0, 2)`, `setup(4, 2)` and `setnextl(0, 4)`, in this order. -/
theorem child_cells_written_once_witness :
    ([0, 1, 2, 3, 4].length = [0, 2, 1, 2, 0].length ∧ [0, 2, 1, 2, 0].length < 2 ^ 31 ∧
      [0, 2, 1, 2, 0][0]? = some 0) ∧
    (childtabs.lcp_tables [0, 2, 1, 2, 0] >>= fun t =>
      fill_up_down_nextl_rounds (List.range' 1 ([0, 2, 1, 2, 0].length - 1))
        (pass_start t) >>= fun st => pure st.calls) =
      .ok [⟨child_table.up, 2, 1⟩, ⟨child_table.down, 2, 3⟩, ⟨child_table.down, 0, 2⟩,
        ⟨child_table.up, 4, 2⟩, ⟨child_table.nextl, 0, 4⟩] ∧
    ∃ t st, childtabs.lcp_tables [0, 2, 1, 2, 0] = .ok t ∧
      fill_up_down_nextl_rounds (List.range' 1 ([0, 2, 1, 2, 0].length - 1))
        (pass_start t) = .ok st ∧
      suffixarray.fill_up_down_nextl ⟨([] : List Nat), t, [0, 1, 2, 3, 4]⟩ =
        .ok ⟨([] : List Nat), st.tabs, [0, 1, 2, 3, 4]⟩ ∧
      st.calls.Pairwise (fun a b => a.table ≠ b.table ∨ a.pos ≠ b.pos) ∧
      ∀ c ∈ st.calls, c.pos < [0, 2, 1, 2, 0].length ∧
        (c.table = child_table.up → st.tabs.getup c.pos = .ok c.value ∧
          (¬ (-128 < (c.value : Int) - c.pos ∧ (c.value : Int) - c.pos < 127) →
            st.tabs.upmap.find_second c.pos = .ok c.value)) ∧
        (c.table = child_table.down → st.tabs.getdown c.pos = .ok c.value ∧
          (¬ (-128 < (c.value : Int) - c.pos ∧ (c.value : Int) - c.pos < 127) →
            st.tabs.downmap.find_second c.pos = .ok c.value)) ∧
        (c.table = child_table.nextl → st.tabs.getnextl c.pos = .ok c.value ∧
          (¬ (-128 < (c.value : Int) - c.pos ∧ (c.value : Int) - c.pos < 127) →
            st.tabs.nextlmap.find_second c.pos = .ok c.value)) :=
  ⟨⟨rfl, by decide, rfl⟩, rfl,
    child_cells_written_once [0, 2, 1, 2, 0] ([] : List Nat) [0, 1, 2, 3, 4] rfl (by decide)
      rfl⟩

end ns_suffixarray
